import Mathlib

/-!
# The NAR archive codec of Lix (`lix/libutil/archive.cc`)

A shallow embedding of the serializer (`dump`), the incremental parser
(`nar::Parser::parse` driven by `nar::SyncParser`), `nar::parse` and
`copyNAR`, followed by theorems about them.

Conventions of the embedding.

* A byte string (`std::string`, `std::string_view`, `Bytes`) is a `List UInt8`.
* A `Source` is the list of bytes it has not yet delivered.
* A generator is represented by what a consumer observes when it drains it
  completely, in order: the parser functions thread the list of `Event`s
  yielded so far, and a failure keeps the events yielded before it.
* `uint64_t` / `size_t` values are natural numbers, reduced modulo `2 ^ 64`
  where the source computes with them.
* The parser is described twice: first as what it reads from the source and
  makes of it, storage being at hand; then with the buffer of `SyncParser`,
  whose size the input declares, and the endings that come from it
  (`std::length_error`, `std::bad_alloc`, a write past the buffer).
-/

namespace nix

/-- A byte string. -/
abbrev Bytes := List UInt8

/-- The byte of an ASCII character. -/
def chr (c : Char) : UInt8 := UInt8.ofNat c.toNat

/-- The bytes of an ASCII string literal of the source. -/
def lit (s : String) : Bytes := s.toList.map chr

/-! ## Wire format primitives (`serialise.hh`) -/

/-- Modelled from the spec: the integer encoding of `serialise.hh` (the file
is not part of the sources at hand): "Numbers are encoded as fixed-width
little-endian 8-byte integers". The value is a `uint64_t`, hence taken
modulo `2 ^ 64`. -/
def u64le (n : Nat) : Bytes :=
  [UInt8.ofNat (n % 256), UInt8.ofNat (n / 256 % 256), UInt8.ofNat (n / 256 ^ 2 % 256),
   UInt8.ofNat (n / 256 ^ 3 % 256), UInt8.ofNat (n / 256 ^ 4 % 256),
   UInt8.ofNat (n / 256 ^ 5 % 256), UInt8.ofNat (n / 256 ^ 6 % 256),
   UInt8.ofNat (n / 256 ^ 7 % 256)]

/-- Modelled from the spec: `SerializingTransform::padding(len)` of
`serialise.hh`: "`(8 - L mod 8) mod 8` zero padding bytes". -/
def padding (len : Nat) : Bytes := List.replicate ((8 - len % 8) % 8) 0

/-- Modelled from the spec: what `co_yield`ing a string into a
`WireFormatGenerator` emits: "8-byte little-endian length `L`, followed by `L`
raw bytes, followed by `(8 - L mod 8) mod 8` zero padding bytes". -/
def wireString (s : Bytes) : Bytes := u64le s.length ++ s ++ padding s.length

/-- Modelled from the spec: the constant `narVersionMagic1` of `archive.hh`:
"fixed ASCII literal `nix-archive-1`". -/
def narVersionMagic1 : Bytes := lit "nix-archive-1"

/-- Modelled from the spec: the constant `caseHackSuffix` of `archive.hh`, the
"fixed marker string" of the case hack; the spec does not give its value, this
is the value of the upstream header. The functions below take the marker as a
parameter, so what is proved about them holds for every marker. -/
def caseHackSuffix : Bytes := lit "~nix~case~hack~"

/-! ## Entry model (`nar::Entry` of `archive.hh`) -/

/-- Modelled from the spec: `nar::Entry`, "a tagged union over three variants":
`File { executable, size, contents }`, `Symlink { target }` and
`Directory { contents }`. A lazy byte sequence is represented by the
concatenation of its chunks, a lazy child sequence by the list of its
elements. -/
inductive Entry where
  | file (executable : Bool) (size : Nat) (contents : Bytes)
  | symlink (target : Bytes)
  | directory (contents : List (Bytes × Entry))

/-! ## Serializer -/

mutual
/-- The three overloads of `dump` (archive.cc lines 53-101). -/
def dump : Entry → Bytes
  | .file executable size contents =>
      wireString (lit "(") ++ wireString (lit "type") ++ wireString (lit "regular")
        ++ (if executable then wireString (lit "executable") ++ wireString (lit "") else [])
        ++ wireString (lit "contents") ++ u64le size ++ contents ++ padding size
        ++ wireString (lit ")")
  | .symlink target =>
      wireString (lit "(") ++ wireString (lit "type") ++ wireString (lit "symlink")
        ++ wireString (lit "target") ++ wireString target ++ wireString (lit ")")
  | .directory contents =>
      wireString (lit "(") ++ wireString (lit "type") ++ wireString (lit "directory")
        ++ dumpEntries contents ++ wireString (lit ")")
/-- The `while (auto e = d.contents.next())` loop of `dump(nar::Directory)`. -/
def dumpEntries : List (Bytes × Entry) → Bytes
  | [] => []
  | (name, i) :: rest =>
      wireString (lit "entry") ++ wireString (lit "(") ++ wireString (lit "name")
        ++ wireString name ++ wireString (lit "node") ++ dump i ++ wireString (lit ")")
        ++ dumpEntries rest
end

/-- A full archive: `co_yield narVersionMagic1` followed by `dump` of the root,
as in `UnfilteredDump::dump`, `PrefilteredDump::dump` and
`dumpPathAndGetMtime`. -/
def serialize (root : Entry) : Bytes := wireString narVersionMagic1 ++ dump root

/-- The function `dumpString` (archive.cc lines 188-197). -/
def dumpString (s : Bytes) : Bytes :=
  wireString narVersionMagic1 ++ wireString (lit "(") ++ wireString (lit "type")
    ++ wireString (lit "regular") ++ wireString (lit "contents") ++ wireString s
    ++ wireString (lit ")")

/-! ## Errors and sources -/

/-- The exceptions the codec throws: `SerialisationError`, plain `Error`, and
`EndOfFile` (raised by a `Source` that cannot deliver the bytes asked for). The
message is a byte string because it may embed bytes of the input. -/
inductive NarError where
  | SerialisationError (msg : Bytes)
  | Error (msg : Bytes)
  | EndOfFile
  deriving DecidableEq

/-- The function `badArchive` (archive.cc lines 306-309). -/
def badArchive (s : Bytes) : NarError := .SerialisationError (lit "bad archive: " ++ s)

/-- Modelled from the spec: `Source::operator()(data, n)` of `serialise.hh`:
"read exactly N bytes, error on short read". Returns the bytes read and the
source after them. -/
def Source.read (n : Nat) (src : Bytes) : Except NarError (Bytes × Bytes) :=
  if n ≤ src.length then .ok (src.take n, src.drop n) else .error .EndOfFile

/-- The value of 8 little-endian bytes (`readLittleEndian<uint64_t>`). -/
def readLittleEndian (bs : Bytes) : Nat := bs.foldr (fun b acc => b.toNat + 256 * acc) 0

/-- Modelled from the spec: `readNum<uint64_t>` of `serialise.hh`: a "raw 8-byte
little-endian unsigned integer". -/
def readNum (src : Bytes) : Except NarError (Nat × Bytes) :=
  match Source.read 8 src with
  | .error e => .error e
  | .ok (bs, rest) => .ok (readLittleEndian bs, rest)

/-- Modelled from the spec: `readPadding(len, source)` of `serialise.hh`: reads
the `8 - len mod 8` padding bytes when `len mod 8` is not zero and rejects a
non-zero byte among them. -/
def readPadding (len : Nat) (src : Bytes) : Except NarError (Unit × Bytes) :=
  if len % 8 ≠ 0 then
    match Source.read (8 - len % 8) src with
    | .error e => .error e
    | .ok (zero, rest) =>
        if zero.all (fun b => b == 0) then .ok ((), rest)
        else .error (.SerialisationError (lit "non-zero padding"))
  else .ok ((), src)

/-- Modelled from the spec: `readString(source, max)` of `serialise.hh`: the
length, rejected when greater than `max`, then that many bytes, then the
padding. -/
def readString (max : Nat) (src : Bytes) : Except NarError (Bytes × Bytes) :=
  match readNum src with
  | .error e => .error e
  | .ok (len, src1) =>
      if len > max then .error (.SerialisationError (lit "string is too long"))
      else
        match Source.read len src1 with
        | .error e => .error e
        | .ok (res, src2) =>
            match readPadding len src2 with
            | .error e => .error e
            | .ok (_, src3) => .ok (res, src3)

/-! ## Parser macros (archive.cc lines 357-393), driven by `SyncParser::feed`

Every macro starts and ends with an empty `buffer`; `co_yield WantBytes{n}`
makes `SyncParser::feed(n)` append `n` bytes of the source to the buffer.

The macros of this section, and the parser built on them, describe the run in
which the buffer can be resized to every size that is asked for: they say what
is read from the source and what is made of it. The buffer itself, the call
`buffer.resize(end + n)` of `feed` and the ways it fails for a length the
input declares are described in the section "The parser with its buffer"
(`SyncParser.feed`, `buffered.READ_STRING`, `buffered.nar.parse`);
`buffered_nar_parse_sim` shows that the two descriptions end alike, with the
same entries, events and exception, unless the run with the buffer ends on a
request for storage. -/

/-- The `size_t` value `len + (8 - len % 8) % 8` requested by `READ_STRING`. -/
def wantString (len : Nat) : Nat := (len + (8 - len % 8) % 8) % 2 ^ 64

/-- The macro `READ_U64`: returns the number and the source after it. -/
def READ_U64 (src : Bytes) : Except NarError (Nat × Bytes) :=
  match Source.read 8 src with
  | .error e => .error e
  | .ok (buffer, src1) =>
      match readNum buffer with
      | .error e => .error e
      | .ok (u, _) => .ok (u, src1)

/-- The macro `READ_STRING`: `FETCH_U64` leaves the 8 length bytes in the
buffer, the second request appends the string and its padding, and
`readString` then decodes the whole buffer. Storage for the buffer and for the
string is taken to be at hand; `buffered.READ_STRING` is the macro with the
`buffer.resize(end + n)` of `feed`, which throws for a length that is too
large before anything is read. -/
def READ_STRING (src : Bytes) : Except NarError (Bytes × Bytes) :=
  match Source.read 8 src with
  | .error e => .error e
  | .ok (buffer, src1) =>
      match readNum buffer with
      | .error e => .error e
      | .ok (len, _) =>
          match Source.read (wantString len) src1 with
          | .error e => .error e
          | .ok (more, src2) =>
              match readString (2 ^ 64 - 1) (buffer ++ more) with
              | .error e => .error e
              | .ok (str, _) => .ok (str, src2)

/-- The macro `READ_PADDING(size)`. -/
def READ_PADDING (size : Nat) (src : Bytes) : Except NarError Bytes :=
  if size % 8 ≠ 0 then
    match Source.read (8 - size % 8) src with
    | .error e => .error e
    | .ok (buffer, src1) =>
        match readPadding size buffer with
        | .error e => .error e
        | .ok _ => .ok src1
  else .ok src

/-- The macro `EXPECT(raw, kind)`. -/
def EXPECT (raw kind : Bytes) (src : Bytes) : Except NarError Bytes :=
  match READ_STRING src with
  | .error e => .error e
  | .ok (s, src1) =>
      if s ≠ raw then .error (badArchive (lit "expected " ++ kind ++ lit " tag"))
      else .ok src1

/-! ## Parser -/

/-- What a consumer that drains `nar::parse` completely observes, in order: an
entry of each kind as it is yielded (with the name it is paired with by
`readDir`, none for the root), each block of file contents, and the end of a
directory stream. -/
inductive Event where
  | file (name : Option Bytes) (executable : Bool) (size : Nat)
  | block (data : Bytes)
  | symlink (name : Option Bytes) (target : Bytes)
  | directory (name : Option Bytes)
  | leave

/-- Outcome of draining a generator over a source: the value, the unread source
and the events so far; or the exception with the events yielded before it.
`outOfFuel` marks a recursion bound that was too small. -/
inductive Res (α : Type) where
  | ok (value : α) (src : Bytes) (out : List Event)
  | fail (e : NarError) (out : List Event)
  | outOfFuel

/-- The content reader `makeReader(source, left)` of `SyncParser::parse`
(archive.cc lines 541-551), drained: blocks of at most 65536 bytes until
`left` is zero. `fuel` bounds the number of iterations. -/
def readContents : Nat → Nat → Bytes → List Event → Res Bytes
  | 0, left, src, out => if left = 0 then .ok [] src out else .outOfFuel
  | fuel + 1, left, src, out =>
      if left = 0 then .ok [] src out
      else
        match Source.read (min 65536 left) src with
        | .error e => .fail e out
        | .ok (buf, src1) =>
            match readContents fuel (left - min 65536 left) src1 (out ++ [.block buf]) with
            | .ok rest src2 out2 => .ok (buf ++ rest) src2 out2
            | .fail e out2 => .fail e out2
            | .outOfFuel => .outOfFuel

/-- The header of a regular file (archive.cc lines 401-411): everything between
the type string and the `co_yield FileHeader{executable, size}`. -/
def readFileHeader (src : Bytes) : Except NarError ((Bool × Nat) × Bytes) :=
  match READ_STRING src with
  | .error e => .error e
  | .ok (contentsOrFlag, src1) =>
      let executable : Bool := contentsOrFlag == lit "executable"
      let next : Except NarError (Bytes × Bytes) :=
        if executable then
          match READ_STRING src1 with
          | .error e => .error e
          | .ok (s, src2) =>
              if s ≠ lit "" then
                .error (badArchive (lit "executable marker has non-empty value"))
              else READ_STRING src2
        else .ok (contentsOrFlag, src1)
      match next with
      | .error e => .error e
      | .ok (contentsOrFlag, src3) =>
          if contentsOrFlag = lit "contents" then
            match READ_U64 src3 with
            | .error e => .error e
            | .ok (size, src4) => .ok ((executable, size), src4)
          else .error (badArchive (lit "file without contents found"))

/-- Position of the first occurrence of `needle` in `s` (`std::string::find`). -/
def find : Bytes → Bytes → Option Nat
  | [], needle => if needle = [] then some 0 else none
  | c :: s, needle =>
      if needle.isPrefixOf (c :: s) then some 0 else (find s needle).map (fun pos => pos + 1)

/-- The name check of archive.cc lines 436-444: true when the name is rejected. -/
def invalidFileName (caseHackSuffix name : Bytes) : Bool :=
  name.isEmpty || name == lit "." || name == lit ".."
    || name.contains (chr '/')
    || name.contains 0
    || (find name caseHackSuffix).isSome

/-- Comparison `a < b` of `std::string`: lexicographic on unsigned bytes, a
proper initial segment being smaller. -/
def strLt : Bytes → Bytes → Bool
  | _, [] => false
  | [], _ :: _ => true
  | a :: as, b :: bs =>
      if a.toNat < b.toNat then true
      else if b.toNat < a.toNat then false
      else strLt as bs

/-- Comparison `a <= b` of `std::string`. -/
def strLe (a b : Bytes) : Bool := !strLt b a

/-- The function `tolower` of the C locale. -/
def tolower (c : UInt8) : UInt8 :=
  if 65 ≤ c.toNat ∧ c.toNat ≤ 90 then UInt8.ofNat (c.toNat + 32) else c

/-- What `c_str()` shows to a C function: the bytes before the first NUL. -/
def c_str (s : Bytes) : Bytes := s.takeWhile (fun b => b != 0)

/-- The loop of `strcasecmp` on two NUL-terminated strings. -/
def strcasecmpLoop : Bytes → Bytes → Int
  | [], [] => 0
  | [], b :: _ => 0 - ((tolower b).toNat : Int)
  | a :: _, [] => ((tolower a).toNat : Int)
  | a :: as, b :: bs =>
      if tolower a = tolower b then strcasecmpLoop as bs
      else ((tolower a).toNat : Int) - ((tolower b).toNat : Int)

/-- The function `strcasecmp(a.c_str(), b.c_str())`. -/
def strcasecmp (a b : Bytes) : Int := strcasecmpLoop (c_str a) (c_str b)

/-- The comparator `CaseInsensitiveCompare` (archive.cc lines 312-318). -/
def CaseInsensitiveCompare (a b : Bytes) : Bool := decide (strcasecmp a b < 0)

/-- Key equivalence of a `std::map` ordered by `CaseInsensitiveCompare`. -/
def sameKey (a b : Bytes) : Bool := !CaseInsensitiveCompare a b && !CaseInsensitiveCompare b a

/-- The function `std::to_string` on a non-negative `int`. -/
def to_string (n : Nat) : Bytes := (Nat.toDigits 10 n).map chr

/-- The case hack of archive.cc lines 452-461 on the map `names` (kept as an
association list): returns the name to yield and the updated map. -/
def applyCaseHack (useCaseHack : Bool) (caseHackSuffix : Bytes)
    (names : List (Bytes × Nat)) (name : Bytes) : Bytes × List (Bytes × Nat) :=
  if useCaseHack then
    match names.find? (fun i => sameKey i.1 name) with
    | some i =>
        (name ++ caseHackSuffix ++ to_string (i.2 + 1),
          names.map (fun j => if sameKey j.1 name then (j.1, j.2 + 1) else j))
    | none => (name, names ++ [(name, 0)])
  else (name, names)

/-- One turn of the `while (1)` loop of the directory reader up to and
including `EXPECT("node", "node")` (archive.cc lines 423-463): `none` when the
closing `)` was read, otherwise the name as read (the next `prevName`), the
name to yield and the updated map. -/
def readEntryHeader (useCaseHack : Bool) (caseHackSuffix : Bytes)
    (names : List (Bytes × Nat)) (prevName : Bytes) (src : Bytes) :
    Except NarError (Option (Bytes × Bytes × List (Bytes × Nat)) × Bytes) :=
  match READ_STRING src with
  | .error e => .error e
  | .ok (s, src1) =>
      if s = lit ")" then .ok (none, src1)
      else if s ≠ lit "entry" then .error (badArchive (lit "expected entry tag"))
      else
        match EXPECT (lit "(") (lit "open") src1 with
        | .error e => .error e
        | .ok src2 =>
            match EXPECT (lit "name") (lit "name") src2 with
            | .error e => .error e
            | .ok src3 =>
                match READ_STRING src3 with
                | .error e => .error e
                | .ok (name, src4) =>
                    if invalidFileName caseHackSuffix name then
                      .error (.Error (lit "NAR contains invalid file name '" ++ name ++ lit "'"))
                    else if strLe name prevName then
                      .error (.Error (lit "NAR directory is not sorted"))
                    else
                      match EXPECT (lit "node") (lit "node") src4 with
                      | .error e => .error e
                      | .ok src5 =>
                          let hacked := applyCaseHack useCaseHack caseHackSuffix names name
                          .ok (some (name, hacked.1, hacked.2), src5)

/-- Lifts the outcome of a macro into the outcome of the generator. -/
def Res.ofExcept {α : Type} (out : List Event) : Except NarError (α × Bytes) → Res α
  | .error e => .fail e out
  | .ok (a, src) => .ok a src out

mutual
/-- The generator `Parser::parse` (archive.cc lines 351-494) as driven by
`SyncParser::parse` (lines 535-566) and drained by the consumer: parses one
node, yielded under `name`. -/
def SyncParser.parse (useCaseHack : Bool) (caseHackSuffix : Bytes) :
    Nat → Option Bytes → Bytes → List Event → Res Entry
  | 0, _, _, _ => .outOfFuel
  | fuel + 1, name, src, out =>
      match EXPECT (lit "(") (lit "open") src with
      | .error e => .fail e out
      | .ok src1 =>
      match EXPECT (lit "type") (lit "type") src1 with
      | .error e => .fail e out
      | .ok src2 =>
      match READ_STRING src2 with
      | .error e => .fail e out
      | .ok (t, src3) =>
          if t = lit "regular" then
            match readFileHeader src3 with
            | .error e => .fail e out
            | .ok ((executable, size), src4) =>
                match readContents size size src4 (out ++ [.file name executable size]) with
                | .outOfFuel => .outOfFuel
                | .fail e out1 => .fail e out1
                | .ok contents src5 out1 =>
                    match READ_PADDING size src5 with
                    | .error e => .fail e out1
                    | .ok src6 =>
                        match EXPECT (lit ")") (lit "close") src6 with
                        | .error e => .fail e out1
                        | .ok src7 => .ok (.file executable size contents) src7 out1
          else if t = lit "directory" then
            match SyncParser.readDir useCaseHack caseHackSuffix fuel [] [] src3
                (out ++ [.directory name]) with
            | .outOfFuel => .outOfFuel
            | .fail e out1 => .fail e out1
            | .ok contents src4 out1 => .ok (.directory contents) src4 out1
          else if t = lit "symlink" then
            match EXPECT (lit "target") (lit "target") src3 with
            | .error e => .fail e out
            | .ok src4 =>
                match READ_STRING src4 with
                | .error e => .fail e out
                | .ok (target, src5) =>
                    match EXPECT (lit ")") (lit "close") src5 with
                    | .error e => .fail e (out ++ [.symlink name target])
                    | .ok src6 => .ok (.symlink target) src6 (out ++ [.symlink name target])
          else .fail (badArchive (lit "unknown file type " ++ t)) out
/-- The directory reader `makeReader` of `Parser::parse` (archive.cc lines
419-469) as driven by `SyncParser::readDir` (lines 518-533) and drained: the
children of one directory, each with the name it is yielded under. -/
def SyncParser.readDir (useCaseHack : Bool) (caseHackSuffix : Bytes) :
    Nat → List (Bytes × Nat) → Bytes → Bytes → List Event → Res (List (Bytes × Entry))
  | 0, _, _, _, _ => .outOfFuel
  | fuel + 1, names, prevName, src, out =>
      match readEntryHeader useCaseHack caseHackSuffix names prevName src with
      | .error e => .fail e out
      | .ok (none, src1) => .ok [] src1 (out ++ [.leave])
      | .ok (some (name, yielded, names1), src1) =>
          match SyncParser.parse useCaseHack caseHackSuffix fuel (some yielded) src1 out with
          | .outOfFuel => .outOfFuel
          | .fail e out1 => .fail e out1
          | .ok entry src2 out1 =>
              match EXPECT (lit ")") (lit "close") src2 with
              | .error e => .fail e out1
              | .ok src3 =>
                  match SyncParser.readDir useCaseHack caseHackSuffix fuel names1 name src3 out1 with
                  | .outOfFuel => .outOfFuel
                  | .fail e out2 => .fail e out2
                  | .ok rest src4 out2 => .ok ((yielded, entry) :: rest) src4 out2
end

/-- The generator `nar::parse` (archive.cc lines 570-583), drained: the entries
it yields. Every nested node or directory turn reads at least 8 bytes, so
`src.length + 1` bounds the recursion. -/
def nar.parse (useCaseHack : Bool) (caseHackSuffix : Bytes) (source : Bytes) :
    Res (List Entry) :=
  let version : Except NarError (Bytes × Bytes) :=
    match readString narVersionMagic1.length source with
    | .error (.SerialisationError _) => .ok ([], source)
    | .error e => .error e
    | .ok r => .ok r
  match version with
  | .error e => .fail e []
  | .ok (version, src1) =>
      if version ≠ narVersionMagic1 then
        .fail (badArchive (lit "input doesn't look like a Nix archive")) []
      else
        match SyncParser.parse useCaseHack caseHackSuffix (src1.length + 1) none src1 [] with
        | .outOfFuel => .outOfFuel
        | .fail e out => .fail e out
        | .ok entry src2 out => .ok [entry] src2 out

/-- The generator `copyNAR` (archive.cc lines 741-751), drained: the magic
followed by `dump` of every entry `nar::parse` yields. -/
def copyNAR (useCaseHack : Bool) (caseHackSuffix : Bytes) (source : Bytes) : Res Bytes :=
  match nar.parse useCaseHack caseHackSuffix source with
  | .outOfFuel => .outOfFuel
  | .fail e out => .fail e out
  | .ok items src out => .ok (wireString narVersionMagic1 ++ (items.map dump).flatten) src out

/-! ## Vocabulary of the statements -/

/-- The blocks a content reader delivers for `data`: 65536 bytes at a time, the
last one shorter; `fuel` bounds their number. -/
def contentBlocks : Nat → Bytes → List Event
  | 0, _ => []
  | fuel + 1, data =>
      if data = [] then []
      else .block (data.take 65536) :: contentBlocks fuel (data.drop 65536)

mutual
/-- The events a consumer observes when it drains the entry `e` yielded under
`name`: the entry, then its blocks or its children in order, a directory ending
with `leave`. -/
def Entry.events (name : Option Bytes) : Entry → List Event
  | .file executable size contents =>
      .file name executable size :: contentBlocks contents.length contents
  | .symlink target => [.symlink name target]
  | .directory contents => .directory name :: eventsOfChildren contents ++ [.leave]
/-- The events of the children of a directory, in order. -/
def eventsOfChildren : List (Bytes × Entry) → List Event
  | [] => []
  | (name, e) :: rest => e.events (some name) ++ eventsOfChildren rest
end

/-- A child name as the data model requires it: non-empty, not `.` or `..`, no
`/`, no NUL byte, and the case-hack marker does not occur in it. -/
def validName (marker name : Bytes) : Bool :=
  name != [] && name != lit "." && name != lit ".." && !name.contains (chr '/')
    && !name.contains 0 && !decide (marker <:+: name)

/-- The names are strictly increasing in byte order. -/
def strictlyIncreasing : List Bytes → Bool
  | a :: b :: rest => strLt a b && strictlyIncreasing (b :: rest)
  | _ => true

mutual
/-- A valid tree: the contents of every file have exactly `size` bytes, and in
every directory the child names are valid and strictly increasing. -/
def Entry.valid (marker : Bytes) : Entry → Bool
  | .file _ size contents => contents.length == size
  | .symlink _ => true
  | .directory contents =>
      strictlyIncreasing (contents.map Prod.fst) && validChildren marker contents
/-- Every child has a valid name and is a valid tree. -/
def validChildren (marker : Bytes) : List (Bytes × Entry) → Bool
  | [] => true
  | (name, e) :: rest => validName marker name && e.valid marker && validChildren marker rest
end

mutual
/-- The tree is a value of the C++ types: a file size is a `uint64_t`, and a
string is a `std::string`, whose length with its padding fits a `size_t`. -/
def Entry.fits : Entry → Bool
  | .file _ size _ => decide (size < 2 ^ 64)
  | .symlink target => decide (target.length + 7 < 2 ^ 64)
  | .directory contents => childrenFit contents
/-- Every child name and child fits the C++ types. -/
def childrenFit : List (Bytes × Entry) → Bool
  | [] => true
  | (name, e) :: rest => decide (name.length + 7 < 2 ^ 64) && e.fits && childrenFit rest
end

mutual
/-- A recursion bound that suffices to parse the archive of the tree. -/
def Entry.need : Entry → Nat
  | .file _ _ _ => 1
  | .symlink _ => 1
  | .directory contents => needOfChildren contents + 1
/-- A recursion bound that suffices to read the children of a directory. -/
def needOfChildren : List (Bytes × Entry) → Nat
  | [] => 1
  | (_, e) :: rest => e.need + needOfChildren rest + 1
end

/-- The map `names` of the directory reader after the children `cs` were read. -/
def namesAfter (useCaseHack : Bool) (marker : Bytes) :
    List (Bytes × Nat) → List (Bytes × Entry) → List (Bytes × Nat)
  | names, [] => names
  | names, (name, _) :: rest =>
      namesAfter useCaseHack marker (applyCaseHack useCaseHack marker names name).2 rest

/-- The variable `prevName` of the directory reader after the children `cs` were
read. -/
def lastName : Bytes → List (Bytes × Entry) → Bytes
  | prevName, [] => prevName
  | _, (name, _) :: rest => lastName name rest

mutual
/-- The tree as the parser yields it: every directory child under the name the
case hack gives it (its own name when the case hack is disabled). -/
def Entry.caseHacked (useCaseHack : Bool) (marker : Bytes) : Entry → Entry
  | .file executable size contents => .file executable size contents
  | .symlink target => .symlink target
  | .directory contents => .directory (caseHackedChildren useCaseHack marker [] contents)
/-- The children of a directory as the parser yields them, `names` being the
map of the directory reader before them. -/
def caseHackedChildren (useCaseHack : Bool) (marker : Bytes) :
    List (Bytes × Nat) → List (Bytes × Entry) → List (Bytes × Entry)
  | _, [] => []
  | names, (name, e) :: rest =>
      ((applyCaseHack useCaseHack marker names name).1, e.caseHacked useCaseHack marker)
        :: caseHackedChildren useCaseHack marker
            (applyCaseHack useCaseHack marker names name).2 rest
end

/-- Puts the children already read in front of the outcome of reading the rest
of a directory. -/
def Res.prepend (cs : List (Bytes × Entry)) :
    Res (List (Bytes × Entry)) → Res (List (Bytes × Entry))
  | .ok rest src out => .ok (cs ++ rest) src out
  | .fail e out => .fail e out
  | .outOfFuel => .outOfFuel

/-- The bytes that open a directory and hold its children `cs`. -/
def dirBytes (cs : List (Bytes × Entry)) : Bytes :=
  wireString (lit "(") ++ (wireString (lit "type") ++ (wireString (lit "directory")
    ++ dumpEntries cs))

/-- The bytes that open a directory entry up to and including its name. -/
def entryBytes (name : Bytes) : Bytes :=
  wireString (lit "entry") ++ (wireString (lit "(") ++ (wireString (lit "name")
    ++ wireString name))

/-- One step into an archive: a directory whose children `before` are complete
and whose next child, called `name`, is being entered. -/
structure Frame where
  before : List (Bytes × Entry)
  name : Bytes

/-- The archive bytes from the start of the outermost directory of the path to
the start of the node it leads to. -/
def pathBytes : List Frame → Bytes
  | [] => []
  | f :: fs => dirBytes f.before ++ (entryBytes f.name ++ (wireString (lit "node") ++ pathBytes fs))

/-- The path is well formed: in every frame the complete children are valid
trees under valid, strictly increasing names, and the name being entered is
valid and greater than the name before it. -/
def pathValid (marker : Bytes) : List Frame → Bool
  | [] => true
  | f :: fs =>
      strictlyIncreasing (f.before.map Prod.fst) && validChildren marker f.before
        && childrenFit f.before && validName marker f.name
        && decide (f.name.length + 7 < 2 ^ 64) && strLt (lastName [] f.before) f.name
        && pathValid marker fs

/-- The name under which the parser yields the child `name` that follows the
children `before`. -/
def yieldedName (useCaseHack : Bool) (marker : Bytes) (before : List (Bytes × Entry))
    (name : Bytes) : Bytes :=
  (applyCaseHack useCaseHack marker (namesAfter useCaseHack marker [] before) name).1

/-- The name under which the node the path leads to is yielded, `root` being the
name of the outermost directory. -/
def holeName (useCaseHack : Bool) (marker : Bytes) : Option Bytes → List Frame → Option Bytes
  | root, [] => root
  | _, f :: fs =>
      holeName useCaseHack marker (some (yieldedName useCaseHack marker f.before f.name)) fs

/-- The events yielded while the parser follows the path. -/
def pathEvents (useCaseHack : Bool) (marker : Bytes) : Option Bytes → List Frame → List Event
  | _, [] => []
  | root, f :: fs =>
      .directory root :: eventsOfChildren (caseHackedChildren useCaseHack marker [] f.before)
        ++ pathEvents useCaseHack marker
            (some (yieldedName useCaseHack marker f.before f.name)) fs

/-- The tree of the scenario: a directory holding the file `a.txt` with contents
`hi` and the directory `bin`, which holds the empty executable file `run`. -/
def scenarioTree : Entry :=
  .directory [(lit "a.txt", .file false 2 (lit "hi")),
    (lit "bin", .directory [(lit "run", .file true 0 [])])]

/-! ## Filesystem scanner (archive.cc lines 103-304) -/

/-- Modelled from the spec: the file tree that `lstat`, `readDirectory`,
`readLink` and `open` of `file-system.hh` (not among the sources at hand) show
at a path, unchanged while it is scanned and dumped: a regular file with its
`st_mtime`, its `S_IXUSR` bit and its `st_size` bytes, a directory with its
`st_mtime` and the entries `readDirectory` returns in that order, a symlink
with its target, or a node of another type. -/
inductive FsNode where
  | regular (st_mtime : Int) (executable : Bool) (contents : Bytes)
  | directory (st_mtime : Int) (entries : List (Bytes × FsNode))
  | symlink (st_mtime : Int) (target : Bytes)
  | other (st_mtime : Int)

/-- The filter `defaultPathFilter` (archive.cc line 34). -/
def defaultPathFilter : Bytes → Bool := fun _ => true

/-- The value stored under `key` in a `std::map` kept as a list in key order. -/
def mapFind {α : Type} (key : Bytes) : List (Bytes × α) → Option α
  | [] => none
  | (k, v) :: rest => if k = key then some v else mapFind key rest

/-- The method `std::map::emplace` on a map kept as a list in key order: the
map afterwards and whether the pair was inserted (it is not when the key is
present). -/
def mapEmplace {α : Type} (key : Bytes) (value : α) :
    List (Bytes × α) → List (Bytes × α) × Bool
  | [] => ([(key, value)], true)
  | (k, v) :: rest =>
      if strLt key k then ((key, value) :: (k, v) :: rest, true)
      else if key = k then ((k, v) :: rest, false)
      else ((k, v) :: (mapEmplace key value rest).1, (mapEmplace key value rest).2)

/-- The method `name.erase(pos)` after `pos = name.find(caseHackSuffix)`, and
`name.substr(0, name.find(caseHackSuffix))`: the name up to the first
occurrence of the marker, the whole name when there is none. -/
def removeCaseHack (caseHackSuffix name : Bytes) : Bytes :=
  match find name caseHackSuffix with
  | some pos => name.take pos
  | none => name

/-- The first loop of the directory generator of `list` (archive.cc lines
127-141), filling the map `unhacked`; each on-disk name comes with a payload
(the listing of that entry), which the map keeps next to the name. -/
def fillUnhacked {α : Type} (useCaseHack : Bool) (caseHackSuffix path : Bytes) :
    List (Bytes × α) → List (Bytes × Bytes × α) → Except NarError (List (Bytes × Bytes × α))
  | [], unhacked => .ok unhacked
  | (iname, payload) :: rest, unhacked =>
      if useCaseHack then
        match mapEmplace (removeCaseHack caseHackSuffix iname) (iname, payload) unhacked with
        | (_, false) =>
            .error (.Error (lit "file name collision in between '"
              ++ (path ++ lit "/"
                ++ ((mapFind (removeCaseHack caseHackSuffix iname) unhacked).map
                    (fun v => v.1)).getD [])
              ++ lit "' and '" ++ (path ++ lit "/" ++ iname) ++ lit "'"))
        | (unhacked1, true) => fillUnhacked useCaseHack caseHackSuffix path rest unhacked1
      else
        fillUnhacked useCaseHack caseHackSuffix path rest
          (mapEmplace iname (iname, payload) unhacked).1

/-- The second loop of the directory generator of `list` (archive.cc lines
143-155), drained: the children that pass the filter, in map order, and the
`mtime` afterwards. The payload of a map entry is the outcome of
`list(diskPath, tmp_mtime, filter, returnUnhacked)`, looked at only when the
filter accepts the entry. -/
def listChildren (filter : Bytes → Bool) (returnUnhacked : Bool) (path : Bytes) :
    Int → List (Bytes × Bytes × Except NarError (Entry × Int)) →
    Except NarError (List (Bytes × Entry) × Int)
  | mtime, [] => .ok ([], mtime)
  | mtime, (first, second, listed) :: rest =>
      if filter (path ++ lit "/" ++ first) then
        match listed with
        | .error e => .error e
        | .ok (entry, tmp_mtime) =>
            match listChildren filter returnUnhacked path
                (if tmp_mtime > mtime then tmp_mtime else mtime) rest with
            | .error e => .error e
            | .ok (contents, mtime1) =>
                .ok ((if returnUnhacked then first else second, entry) :: contents, mtime1)
      else listChildren filter returnUnhacked path mtime rest

mutual
/-- The function `list` (archive.cc lines 109-164) with the entry it returns
drained: the entry and the final value of `mtime`. -/
def list (useCaseHack : Bool) (caseHackSuffix : Bytes) (filter : Bytes → Bool)
    (returnUnhacked : Bool) (path : Bytes) : FsNode → Except NarError (Entry × Int)
  | .regular st_mtime executable contents =>
      .ok (.file executable contents.length contents, st_mtime)
  | .directory st_mtime entries =>
      match fillUnhacked useCaseHack caseHackSuffix path
          (listEach useCaseHack caseHackSuffix filter returnUnhacked path entries) [] with
      | .error e => .error e
      | .ok unhacked =>
          match listChildren filter returnUnhacked path st_mtime unhacked with
          | .error e => .error e
          | .ok (contents, mtime) => .ok (.directory contents, mtime)
  | .symlink st_mtime target => .ok (.symlink target, st_mtime)
  | .other _ => .error (.Error (lit "file '" ++ path ++ lit "' has an unsupported type"))
/-- The outcome of `list(path + "/" + i.name, ...)` for every entry of
`readDirectory(path)`, next to its name. -/
def listEach (useCaseHack : Bool) (caseHackSuffix : Bytes) (filter : Bytes → Bool)
    (returnUnhacked : Bool) (path : Bytes) :
    List (Bytes × FsNode) → List (Bytes × Except NarError (Entry × Int))
  | [] => []
  | (name, node) :: rest =>
      (name, list useCaseHack caseHackSuffix filter returnUnhacked
          (path ++ lit "/" ++ name) node)
        :: listEach useCaseHack caseHackSuffix filter returnUnhacked path rest
end

/-- The generator `dumpPathAndGetMtime` (archive.cc lines 166-173), drained:
the bytes and the final `mtime`. -/
def dumpPathAndGetMtime (useCaseHack : Bool) (caseHackSuffix path : Bytes) (fs : FsNode) :
    Except NarError (Bytes × Int) :=
  match list useCaseHack caseHackSuffix defaultPathFilter true path fs with
  | .error e => .error e
  | .ok (i, mtime) => .ok (wireString narVersionMagic1 ++ dump i, mtime)

/-- The generator `UnfilteredDump::dump` (archive.cc lines 203-209), drained. -/
def UnfilteredDump.dump (useCaseHack : Bool) (caseHackSuffix rootPath : Bytes) (fs : FsNode) :
    Except NarError Bytes :=
  match list useCaseHack caseHackSuffix defaultPathFilter true rootPath fs with
  | .error e => .error e
  | .ok (all, _) => .ok (wireString narVersionMagic1 ++ nix.dump all)

/-- The type `PrefilteredDump::Entry` (archive.cc lines 214-232). -/
inductive PrefilteredDump.Entry where
  | File (executable : Bool) (size : Nat)
  | Symlink (target : Bytes)
  | Directory (contents : List (Bytes × PrefilteredDump.Entry))

mutual
/-- The function `PrefilteredDump::fillFrom` (archive.cc lines 242-259). -/
def PrefilteredDump.fillFrom : nix.Entry → PrefilteredDump.Entry
  | .file executable size _ => .File executable size
  | .symlink target => .Symlink target
  | .directory contents => .Directory (PrefilteredDump.fillFromEach contents)
/-- The `while` loop of `fillFrom` over the children of a directory. -/
def PrefilteredDump.fillFromEach :
    List (Bytes × nix.Entry) → List (Bytes × PrefilteredDump.Entry)
  | [] => []
  | (name, e) :: rest => (name, PrefilteredDump.fillFrom e) :: PrefilteredDump.fillFromEach rest
end

/-- The constructor of `PrefilteredDump` (archive.cc lines 236-240): the field
`root`. -/
def PrefilteredDump.create (useCaseHack : Bool) (caseHackSuffix : Bytes)
    (filter : Bytes → Bool) (path : Bytes) (fs : FsNode) :
    Except NarError PrefilteredDump.Entry :=
  match list useCaseHack caseHackSuffix filter false path fs with
  | .error e => .error e
  | .ok (e, _) => .ok (PrefilteredDump.fillFrom e)

/-- The generator `dumpContents(path, size)` (archive.cc lines 37-51), drained,
`file` being what is found at `path`: the first `size` bytes of a regular
file. -/
def dumpContents (path : Bytes) (file : Option FsNode) (size : Nat) : Except NarError Bytes :=
  match file with
  | some (.regular _ _ contents) =>
      if size ≤ contents.length then .ok (contents.take size) else .error .EndOfFile
  | _ => .error (.Error (lit "opening file '" ++ path ++ lit "'"))

/-- The node found under `name` in a directory, if any. -/
def FsNode.child (name : Bytes) : Option FsNode → Option FsNode
  | some (.directory _ entries) => mapFind name entries
  | _ => none

mutual
/-- The function `PrefilteredDump::convert` (archive.cc lines 261-285) with the
entry it returns drained, `file` being what is found at `path`. -/
def PrefilteredDump.convert (useCaseHack : Bool) (caseHackSuffix : Bytes) :
    Bytes → Option FsNode → PrefilteredDump.Entry → Except NarError nix.Entry
  | path, file, .File executable size =>
      match dumpContents path file size with
      | .error e => .error e
      | .ok contents => .ok (.file executable size contents)
  | _, _, .Symlink target => .ok (.symlink target)
  | path, file, .Directory contents =>
      match PrefilteredDump.convertEach useCaseHack caseHackSuffix path file contents with
      | .error e => .error e
      | .ok cs => .ok (.directory cs)
/-- The `for` loop of `convert` over the children of a directory. -/
def PrefilteredDump.convertEach (useCaseHack : Bool) (caseHackSuffix : Bytes) :
    Bytes → Option FsNode → List (Bytes × PrefilteredDump.Entry) →
    Except NarError (List (Bytes × nix.Entry))
  | _, _, [] => .ok []
  | path, file, (name, entry) :: rest =>
      match PrefilteredDump.convert useCaseHack caseHackSuffix (path ++ lit "/" ++ name)
          (FsNode.child name file) entry with
      | .error e => .error e
      | .ok e =>
          match PrefilteredDump.convertEach useCaseHack caseHackSuffix path file rest with
          | .error err => .error err
          | .ok cs =>
              .ok ((if useCaseHack then removeCaseHack caseHackSuffix name else name, e) :: cs)
end

/-- The generator `PrefilteredDump::dump` (archive.cc lines 287-293), drained. -/
def PrefilteredDump.dump (useCaseHack : Bool) (caseHackSuffix rootPath : Bytes) (fs : FsNode)
    (root : PrefilteredDump.Entry) : Except NarError Bytes :=
  match PrefilteredDump.convert useCaseHack caseHackSuffix rootPath (some fs) root with
  | .error e => .error e
  | .ok i => .ok (wireString narVersionMagic1 ++ nix.dump i)

/-- The requests `co_yield WantBytes{n}` of the macro `READ_U64` (through
`FETCH_U64`), in order. -/
def READ_U64.wants : List Nat := [8]

/-- The requests `co_yield WantBytes{n}` of the macro `READ_STRING` on the
source `src`, in order: 8 bytes for the length and, once these were fed and
decoded as `len`, `len + (8 - len % 8) % 8` as a `size_t`. -/
def READ_STRING.wants (src : Bytes) : List Nat :=
  match Source.read 8 src with
  | .error _ => [8]
  | .ok (buffer, _) =>
      match readNum buffer with
      | .error _ => [8]
      | .ok (len, _) => [8, wantString len]

/-- The requests `co_yield WantBytes{n}` of the macro `READ_PADDING(size)`. -/
def READ_PADDING.wants (size : Nat) : List Nat :=
  if size % 8 ≠ 0 then [8 - size % 8] else []

/-- A source that declares a string of `2 ^ 64 - 1` bytes. -/
def hugeLength : Bytes := List.replicate 8 255

/-- A valid tree whose root directory holds `A` and `a`, two names that differ
only in case. -/
def caseCollidingTree : Entry :=
  .directory [(lit "A", .symlink (lit "x")), (lit "a", .symlink (lit "y"))]

/-! ## Restoration (archive.cc lines 587-738) -/

/-- A call on a `NARParseVisitor` or on a `FileHandle` one of them returned. A
visitor is identified by the names given to the `createDirectory` calls that
returned it and its ancestors, outermost first, the visitor passed to
`parseDump` being the empty list; a file handle is identified by the visitor
and the name of the `createRegularFile` call that returned it. -/
inductive SinkCall where
  | createDirectory (sink : List Bytes) (name : Bytes)
  | createRegularFile (sink : List Bytes) (name : Bytes) (size : Nat) (executable : Bool)
  | receiveContents (sink : List Bytes) (name : Bytes) (data : Bytes)
  | close (sink : List Bytes) (name : Bytes)
  | createSymlink (sink : List Bytes) (name : Bytes) (target : Bytes)
  deriving DecidableEq

/-- The visitor a call is made on (for a handle, the one that returned it). -/
def SinkCall.sink : SinkCall → List Bytes
  | .createDirectory sink _ => sink
  | .createRegularFile sink _ _ _ => sink
  | .receiveContents sink _ _ => sink
  | .close sink _ => sink
  | .createSymlink sink _ _ => sink

/-- The name a call passes (for a handle, the name it was created under). -/
def SinkCall.name : SinkCall → Bytes
  | .createDirectory _ name => name
  | .createRegularFile _ name _ _ => name
  | .receiveContents _ name _ => name
  | .close _ name => name
  | .createSymlink _ name _ => name

/-- The call creates an entry: `createDirectory`, `createRegularFile` or
`createSymlink`. -/
def SinkCall.isCreate : SinkCall → Bool
  | .createDirectory _ _ => true
  | .createRegularFile _ _ _ _ => true
  | .receiveContents _ _ _ => false
  | .close _ _ => false
  | .createSymlink _ _ _ => true

/-- The blocks the contents generator of a drained `File` delivers: 65536 bytes
at a time, the last one shorter; `fuel` bounds their number. -/
def contentChunks : Nat → Bytes → List Bytes
  | 0, _ => []
  | fuel + 1, data =>
      if data = [] then [] else data.take 65536 :: contentChunks fuel (data.drop 65536)

mutual
/-- The function `restore` (archive.cc lines 587-608) on a drained entry: the
calls it makes, in order. -/
def restore (sink : List Bytes) : Entry → Bytes → List SinkCall
  | .file executable size contents, path =>
      .createRegularFile sink path size executable
        :: ((contentChunks contents.length contents).map (.receiveContents sink path)
          ++ [.close sink path])
  | .symlink target, path => [.createSymlink sink path target]
  | .directory contents, path =>
      .createDirectory sink path :: restoreEach (sink ++ [path]) contents
/-- The `while` loop of `restore` over the children of a directory, `dir` being
the visitor `createDirectory` returned. -/
def restoreEach (dir : List Bytes) : List (Bytes × Entry) → List SinkCall
  | [] => []
  | (name, e) :: rest => restore dir e name ++ restoreEach dir rest
end

/-- Where `restore` stands while the entries are drained: the visitor the next
entry is created on, and the file handle that is open, if any, with the number
of bytes its contents generator has still to deliver. -/
structure RestoreState where
  sink : List Bytes
  handle : Option (Bytes × Nat)

/-- The reaction of `restore` to the next thing the parser yields: the state
afterwards and the calls made. A file is closed as soon as its contents
generator is exhausted, which is when the declared size has been delivered. -/
def restoreStep (st : RestoreState) : Event → RestoreState × List SinkCall
  | .file name executable size =>
      if size = 0 then
        (⟨st.sink, none⟩,
          [.createRegularFile st.sink (name.getD []) size executable,
            .close st.sink (name.getD [])])
      else
        (⟨st.sink, some (name.getD [], size)⟩,
          [.createRegularFile st.sink (name.getD []) size executable])
  | .block data =>
      match st.handle with
      | none => (st, [])
      | some (path, left) =>
          if left - data.length = 0 then
            (⟨st.sink, none⟩, [.receiveContents st.sink path data, .close st.sink path])
          else
            (⟨st.sink, some (path, left - data.length)⟩, [.receiveContents st.sink path data])
  | .symlink name target => (⟨st.sink, none⟩, [.createSymlink st.sink (name.getD []) target])
  | .directory name =>
      (⟨st.sink ++ [name.getD []], none⟩, [.createDirectory st.sink (name.getD [])])
  | .leave => (⟨st.sink.dropLast, none⟩, [])

/-- The state of `restore` after the events. -/
def restoreState : RestoreState → List Event → RestoreState
  | st, [] => st
  | st, ev :: evs => restoreState (restoreStep st ev).1 evs

/-- The calls `restore` makes while the events are yielded, in order. -/
def restoreEvents : RestoreState → List Event → List SinkCall
  | _, [] => []
  | st, ev :: evs => (restoreStep st ev).2 ++ restoreEvents (restoreStep st ev).1 evs

/-- The events yielded when the generator was drained, up to its failure if it
failed. -/
def Res.trace {α : Type} : Res α → List Event
  | .ok _ _ out => out
  | .fail _ out => out
  | .outOfFuel => []

/-- The exception the generator ended with, if any. -/
def Res.error? {α : Type} : Res α → Option NarError
  | .ok _ _ _ => none
  | .fail e _ => some e
  | .outOfFuel => none

/-- The calls `parseDump` (archive.cc lines 610-616) makes on a sink that
accepts every call, the root entry being restored under the empty name. -/
def parseDump.calls (useCaseHack : Bool) (caseHackSuffix source : Bytes) : List SinkCall :=
  restoreEvents ⟨[], none⟩ (nar.parse useCaseHack caseHackSuffix source).trace

/-- Makes the calls on a sink with state `σ` until one of them throws: the state
reached and the exception, if any. -/
def runSink {σ : Type} (apply : σ → SinkCall → Except NarError σ) :
    σ → List SinkCall → σ × Option NarError
  | s, [] => (s, none)
  | s, c :: cs =>
      match apply s c with
      | .error e => (s, some e)
      | .ok s1 => runSink apply s1 cs

/-- The function `parseDump` (archive.cc lines 610-616) on a sink given by its
state and its reaction to a call: the state of the sink afterwards, and the
exception that ended the run, of the sink or else of the parser, if any. -/
def parseDump {σ : Type} (apply : σ → SinkCall → Except NarError σ) (sink : σ)
    (useCaseHack : Bool) (caseHackSuffix source : Bytes) : σ × Option NarError :=
  match runSink apply sink (parseDump.calls useCaseHack caseHackSuffix source) with
  | (s, some e) => (s, some e)
  | (s, none) => (s, (nar.parse useCaseHack caseHackSuffix source).error?)

/-! ### The in-memory sink of the tests (tests/unit/libutil/archive.cc lines 267-304) -/

/-- Applies `f` to the map of the directory that the visitor `sink` refers to,
inside the map `parent` of the outermost visitor. -/
def ReconstructVisitor.atSink (f : List (Bytes × Entry) → List (Bytes × Entry)) :
    List Bytes → List (Bytes × Entry) → List (Bytes × Entry)
  | [], parent => f parent
  | d :: sink, parent =>
      parent.map (fun kv =>
        if kv.1 = d then
          (kv.1, match kv.2 with
            | .directory sub => .directory (ReconstructVisitor.atSink f sink sub)
            | other => other)
        else kv)

/-- The method `FileReader::receiveContents`: `file.contents += data` on the file
stored under `name`. -/
def ReconstructVisitor.append (name data : Bytes) (parent : List (Bytes × Entry)) :
    List (Bytes × Entry) :=
  parent.map (fun kv =>
    if kv.1 = name then
      (kv.1, match kv.2 with
        | .file executable size contents => .file executable size (contents ++ data)
        | other => other)
    else kv)

/-- The methods of `ReconstructVisitor` and `FileReader` on the map `contents`
of the test, kept as a list in key order: `createDirectory`, `createRegularFile`
and `createSymlink` emplace an empty directory, an empty file and a symlink
under the name, `receiveContents` appends to the file, `close` does nothing.
Where the name is present with an entry of another kind, `std::get` throws in
the test; here the call changes nothing. -/
def ReconstructVisitor.step (contents : List (Bytes × Entry)) :
    SinkCall → List (Bytes × Entry)
  | .createDirectory sink name =>
      ReconstructVisitor.atSink (fun parent => (mapEmplace name (.directory []) parent).1)
        sink contents
  | .createRegularFile sink name size executable =>
      ReconstructVisitor.atSink
        (fun parent => (mapEmplace name (.file executable size []) parent).1) sink contents
  | .receiveContents sink name data =>
      ReconstructVisitor.atSink (ReconstructVisitor.append name data) sink contents
  | .close _ _ => contents
  | .createSymlink sink name target =>
      ReconstructVisitor.atSink (fun parent => (mapEmplace name (.symlink target) parent).1)
        sink contents

/-- The sink `ReconstructVisitor` as a sink that never throws. -/
def ReconstructVisitor.apply (contents : List (Bytes × Entry)) (c : SinkCall) :
    Except NarError (List (Bytes × Entry)) :=
  .ok (ReconstructVisitor.step contents c)

/-! ### The on-disk sink `NARRestoreVisitor` (archive.cc lines 647-738) -/

/-- Modelled from the spec: what the destination file system holds at a path, as
`mkdir`, `open` and `symlink` leave it: a directory, a regular file with its
executable bit and the bytes written so far, or a symlink. -/
inductive DiskNode where
  | directory
  | regular (executable : Bool) (contents : Bytes)
  | symlink (target : Bytes)
  deriving DecidableEq

/-- Modelled from the spec: the destination file system, the paths created so
far with what they hold. -/
abbrev Disk := List (Bytes × DiskNode)

/-- Modelled from the spec: the path exists on the file system, `same` telling
which paths the file system takes for the same name (equality of bytes, or
equality up to case on a case-insensitive file system). -/
def Disk.present (same : Bytes → Bytes → Bool) (disk : Disk) (p : Bytes) : Bool :=
  disk.any (fun entry => same entry.1 p)

/-- The field `dstPath` of the visitor `sink`, the outermost one having been
constructed with `dst`: `createDirectory` returns a visitor for `p + "/"`. -/
def NARRestoreVisitor.dstPath (dst : Bytes) (sink : List Bytes) : Bytes :=
  dst ++ (sink.map (fun name => name ++ lit "/")).flatten

/-- The path `p = dstPath + name` a creation call hands to `mkdir`, `open` or
`symlink`. -/
def NARRestoreVisitor.path (dst : Bytes) (c : SinkCall) : Bytes :=
  NARRestoreVisitor.dstPath dst c.sink ++ c.name

/-- The methods of `NARRestoreVisitor` and `MyFileHandle` (archive.cc lines
652-730) on the file system: `mkdir`, `open` with `O_CREAT | O_EXCL` and
`symlink` fail when the path exists ("exclusive create ... fails if the target
name already exists") and create it otherwise, `receiveContents` writes to the
file the handle has created, `close` changes nothing. Other failures of the
system calls are left out. -/
def NARRestoreVisitor.apply (same : Bytes → Bytes → Bool) (dst : Bytes) (disk : Disk)
    (c : SinkCall) : Except NarError Disk :=
  match c with
  | .createDirectory _ _ =>
      if Disk.present same disk (NARRestoreVisitor.path dst c) then
        .error (.Error (lit "creating directory '" ++ NARRestoreVisitor.path dst c ++ lit "'"))
      else .ok (disk ++ [(NARRestoreVisitor.path dst c, .directory)])
  | .createRegularFile _ _ _ executable =>
      if Disk.present same disk (NARRestoreVisitor.path dst c) then
        .error (.Error (lit "creating file '" ++ NARRestoreVisitor.path dst c ++ lit "'"))
      else .ok (disk ++ [(NARRestoreVisitor.path dst c, .regular executable [])])
  | .receiveContents _ _ data =>
      .ok (disk.map (fun entry =>
        if entry.1 = NARRestoreVisitor.path dst c then
          (entry.1, match entry.2 with
            | .regular executable contents => .regular executable (contents ++ data)
            | other => other)
        else entry))
  | .close _ _ => .ok disk
  | .createSymlink _ _ target =>
      if Disk.present same disk (NARRestoreVisitor.path dst c) then
        .error (.Error (lit "creating symlink from '" ++ NARRestoreVisitor.path dst c
          ++ lit "' to '" ++ target ++ lit "'"))
      else .ok (disk ++ [(NARRestoreVisitor.path dst c, .symlink target)])

/-- The function `restorePath` (archive.cc lines 734-738) on the file system
`disk`: the file system afterwards and the exception, if any. -/
def restorePath (same : Bytes → Bytes → Bool) (disk : Disk) (path : Bytes)
    (useCaseHack : Bool) (caseHackSuffix source : Bytes) : Disk × Option NarError :=
  parseDump (NARRestoreVisitor.apply same path) disk useCaseHack caseHackSuffix source

/-! ### Vocabulary of the statements on restoration -/

/-- A name that is safe as a path component: non-empty, not `.` or `..`, without
`/` and without a NUL byte. -/
def safeName (name : Bytes) : Bool :=
  name != [] && name != lit "." && name != lit ".." && !name.contains (chr '/')
    && !name.contains 0

/-- The call is made on the visitor `dir` or on one nested in it through
directories with safe names, and the name it passes is safe. -/
def SinkCall.below (dir : List Bytes) (c : SinkCall) : Bool :=
  dir.isPrefixOf c.sink && (c.sink.drop dir.length).all safeName && safeName c.name

/-- The calls made for one entry restored on the visitor `sink` under `name`:
none, or the creation of the entry followed by calls that create nothing or are
made below it. -/
def entryCalls (sink : List Bytes) (name : Bytes) : List SinkCall → Bool
  | [] => true
  | c :: rest =>
      c.isCreate && c.sink == sink && c.name == name
        && rest.all (fun next => !next.isCreate || next.below (sink ++ [name]))

/-- The calls actually made on a sink: those of the list up to and including
the first that throws. -/
def runSink.made {σ : Type} (apply : σ → SinkCall → Except NarError σ) :
    σ → List SinkCall → List SinkCall
  | _, [] => []
  | s, c :: cs =>
      match apply s c with
      | .error _ => [c]
      | .ok s1 => c :: runSink.made apply s1 cs

/-- The calls `parseDump` makes on the sink before it returns or throws. -/
def parseDump.made {σ : Type} (apply : σ → SinkCall → Except NarError σ) (sink : σ)
    (useCaseHack : Bool) (caseHackSuffix source : Bytes) : List SinkCall :=
  runSink.made apply sink (parseDump.calls useCaseHack caseHackSuffix source)

/-- The calls `restorePath` makes on the `NARRestoreVisitor` and its handles. -/
def restorePath.made (same : Bytes → Bytes → Bool) (disk : Disk) (path : Bytes)
    (useCaseHack : Bool) (caseHackSuffix source : Bytes) : List SinkCall :=
  parseDump.made (NARRestoreVisitor.apply same path) disk useCaseHack caseHackSuffix source

/-- Modelled from the spec: a "case-insensitive destination", which takes two
paths for the same when they are equal up to the case of ASCII letters. -/
def caseInsensitive (a b : Bytes) : Bool := a.map tolower == b.map tolower

/-- A directory holding the files `A` and `a`. -/
def caseCollidingFiles : Entry :=
  .directory [(lit "A", .file false 5 (lit "hello")), (lit "a", .file false 5 (lit "world"))]

mutual
/-- The contents of every file of the tree have exactly `size` bytes. -/
def Entry.sized : Entry → Bool
  | .file _ size contents => contents.length == size
  | .symlink _ => true
  | .directory contents => childrenSized contents
/-- The contents of every file below the children have exactly `size` bytes. -/
def childrenSized : List (Bytes × Entry) → Bool
  | [] => true
  | (_, e) :: rest => e.sized && childrenSized rest
end

/-- The call as made through the visitor that `createDirectory dir` returned:
the same call, one directory further in. -/
def SinkCall.shift (dir : Bytes) : SinkCall → SinkCall
  | .createDirectory sink name => .createDirectory (dir :: sink) name
  | .createRegularFile sink name size executable =>
      .createRegularFile (dir :: sink) name size executable
  | .receiveContents sink name data => .receiveContents (dir :: sink) name data
  | .close sink name => .close (dir :: sink) name
  | .createSymlink sink name target => .createSymlink (dir :: sink) name target

mutual
/-- The number of entries of the tree, itself included. -/
def Entry.count : Entry → Nat
  | .file _ _ _ => 1
  | .symlink _ => 1
  | .directory contents => 1 + countOfChildren contents
/-- The number of entries below the children, themselves included. -/
def countOfChildren : List (Bytes × Entry) → Nat
  | [] => 0
  | (_, e) :: rest => e.count + countOfChildren rest
end

/-- The in-memory sink of the test driven by `parseDump`: the map `contents`
afterwards, and the exception, if any. -/
def reconstruct (useCaseHack : Bool) (caseHackSuffix source : Bytes) :
    List (Bytes × Entry) × Option NarError :=
  parseDump ReconstructVisitor.apply [] useCaseHack caseHackSuffix source

/-- An outcome within the recursion bound: the generator threw, or it returned
with at most `bound` bytes of the source unread. -/
def Res.done {α : Type} (bound : Nat) : Res α → Prop
  | .outOfFuel => False
  | .fail _ _ => True
  | .ok _ rest _ => rest.length ≤ bound

/-! ## Preallocation (archive.cc lines 674-690) -/

/-- The method `MyFileHandle::maybePreallocateContents(len)` (archive.cc lines
674-690): the lengths `posix_fallocate` was called with, and the outcome. The
setting `preallocateContents`, the macro `HAVE_POSIX_FALLOCATE`, the result of
`posix_fallocate(fd, 0, len)` and the error numbers of `errno.h` are
parameters. -/
def maybePreallocateContents (preallocateContents HAVE_POSIX_FALLOCATE : Bool)
    (posix_fallocate : Nat → Int) (EINVAL EOPNOTSUPP ENOSYS : Int) (len : Nat) :
    List Nat × Except NarError Unit :=
  if !preallocateContents then ([], .ok ())
  else if HAVE_POSIX_FALLOCATE then
    if len ≠ 0 then
      if posix_fallocate len ≠ 0 ∧ posix_fallocate len ≠ EINVAL
          ∧ posix_fallocate len ≠ EOPNOTSUPP ∧ posix_fallocate len ≠ ENOSYS then
        ([len], .error (.Error (lit "preallocating file of " ++ to_string len ++ lit " bytes")))
      else ([len], .ok ())
    else ([], .ok ())
  else ([], .ok ())

/-- The loop of `dumpContents` (archive.cc lines 45-50) on the unread bytes
`fd` of the open file: the spans it yields, or the exception of `readFull` when
the file ends early. `fuel` bounds the number of turns; `none` marks a bound
that was too small. -/
def dumpContents.loop : Nat → Nat → Bytes → Option (Except NarError (List Bytes))
  | 0, left, _ => if left = 0 then some (.ok []) else none
  | fuel + 1, left, fd =>
      if left = 0 then some (.ok [])
      else
        match Source.read (min left 65536) fd with
        | .error e => some (.error e)
        | .ok (buf, fd1) =>
            match dumpContents.loop fuel (left - min left 65536) fd1 with
            | none => none
            | some (.error e) => some (.error e)
            | some (.ok rest) => some (.ok (buf :: rest))

/-- The generator `dumpContents(path, size)` (archive.cc lines 37-51) span by
span, `file` being what is found at `path`; every turn of the loop yields at
least one byte, so `size` bounds the number of turns. -/
def dumpContents.chunks (path : Bytes) (file : Option FsNode) (size : Nat) :
    Option (Except NarError (List Bytes)) :=
  match file with
  | some (.regular _ _ contents) => dumpContents.loop size size contents
  | _ => some (.error (.Error (lit "opening file '" ++ path ++ lit "'")))

/-- The blocks the content reader of the parser has yielded: the `block`
events, in order. -/
def blocksOf : List Event → List Bytes
  | [] => []
  | .block data :: rest => data :: blocksOf rest
  | _ :: rest => blocksOf rest

/-- The chunks are those of a stream of `n` bytes in blocks of 65536: there are
`ceil(n / 65536)` of them, none empty and none longer than 65536 bytes, all but
the last of exactly 65536 bytes, `n` bytes in all. -/
def blocked (n : Nat) (chunks : List Bytes) : Prop :=
  chunks.length = (n + 65535) / 65536
    ∧ (∀ c ∈ chunks, 0 < c.length ∧ c.length ≤ 65536)
    ∧ (∀ c ∈ chunks.dropLast, c.length = 65536)
    ∧ (chunks.map List.length).sum = n

/-! ### The case hack on read as the specification words it -/

/-- The number of earlier siblings whose name equals `name` ignoring ASCII case
(`strcasecmp` returns 0): the number of collisions seen for the recorded name
once `name` has been read. -/
def collisions (earlier : List Bytes) (name : Bytes) : Nat :=
  earlier.countP (fun n => strcasecmp n name == 0)

/-- The name a directory child is yielded under according to the
specification, after the siblings `earlier`: the name itself when it collides
with none of them, else the name, the marker and the decimal collision
count. -/
def hackedName (marker : Bytes) (earlier : List Bytes) (name : Bytes) : Bytes :=
  if collisions earlier name = 0 then name
  else name ++ marker ++ to_string (collisions earlier name)

mutual
/-- The tree the specification says the parser yields with the case hack
enabled: in every directory, with a record that starts empty, every child
under its `hackedName`. -/
def Entry.hackedSpec (marker : Bytes) : Entry → Entry
  | .file executable size contents => .file executable size contents
  | .symlink target => .symlink target
  | .directory contents => .directory (childrenHackedSpec marker [] contents)
/-- The children of a directory as the specification says they are yielded,
after the siblings `earlier`. -/
def childrenHackedSpec (marker : Bytes) :
    List Bytes → List (Bytes × Entry) → List (Bytes × Entry)
  | _, [] => []
  | earlier, (name, e) :: rest =>
      (hackedName marker earlier name, e.hackedSpec marker)
        :: childrenHackedSpec marker (earlier ++ [name]) rest
end

/-- A valid directory whose third name lies between the second name and the
name the second child is yielded under. -/
def caseHackOrderTree : Entry :=
  .directory [(lit "A", .symlink (lit "x")), (lit "a", .symlink (lit "y")),
    (lit "a~", .symlink (lit "z"))]

/-! ### Vocabulary of the statements on the scanner -/

/-- The archive name of an on-disk name: the name without its case-hack suffix
when the case hack is enabled, the name itself otherwise. -/
def archiveName (useCaseHack : Bool) (caseHackSuffix name : Bytes) : Bytes :=
  if useCaseHack then removeCaseHack caseHackSuffix name else name

/-- The keys of a map kept as a list are strictly increasing in byte order. -/
def sortedKeys {α : Type} (m : List (Bytes × α)) : Prop :=
  (m.map Prod.fst).Pairwise (fun a b => strLt a b = true)

mutual
/-- In every directory of the tree the child names are strictly increasing in
byte order. -/
def Entry.sorted : Entry → Bool
  | .file _ _ _ => true
  | .symlink _ => true
  | .directory contents =>
      strictlyIncreasing (contents.map Prod.fst) && childrenSorted contents
/-- Every child is sorted. -/
def childrenSorted : List (Bytes × Entry) → Bool
  | [] => true
  | (_, e) :: rest => e.sorted && childrenSorted rest
end

mutual
/-- Modelled from the spec: a file tree as `readDirectory` can show it, each
directory listing every name once. -/
def FsNode.distinctNames : FsNode → Bool
  | .directory _ entries =>
      decide ((entries.map Prod.fst).Nodup) && entriesDistinct entries
  | _ => true
/-- Every entry has distinct names throughout. -/
def entriesDistinct : List (Bytes × FsNode) → Bool
  | [] => true
  | (_, node) :: rest => node.distinctNames && entriesDistinct rest
end

/-- The exception of archive.cc lines 137-139 for the on-disk names `a`
(recorded first) and `b` of the directory `path`. -/
def collisionError (path a b : Bytes) : NarError :=
  .Error (lit "file name collision in between '" ++ (path ++ lit "/" ++ a)
    ++ lit "' and '" ++ (path ++ lit "/" ++ b) ++ lit "'")
/-- A directory listing in which `foo~nix~case~hack~1` and `foo~nix~case~hack~2`
have the archive name `foo`; the second is of an unsupported type. -/
def collidingListing : List (Bytes × FsNode) :=
  [(lit "foo~nix~case~hack~1", .regular 1 false (lit "x")),
    (lit "bar", .symlink 2 (lit "t")),
    (lit "foo~nix~case~hack~2", .other 3)]

/-- The entry a successful listing returned (a placeholder for a listing that
threw). -/
def listedEntry : Except NarError (Entry × Int) → Entry
  | .ok (entry, _) => entry
  | .error _ => .symlink []

/-- The `mtime` a successful listing left (0 for a listing that threw). -/
def listedMtime : Except NarError (Entry × Int) → Int
  | .ok (_, tmp_mtime) => tmp_mtime
  | .error _ => 0

/-- The entries of the map `unhacked` that the filter accepts, in map order. -/
def accepted {α : Type} (filter : Bytes → Bool) (path : Bytes)
    (unhacked : List (Bytes × Bytes × α)) : List (Bytes × Bytes × α) :=
  unhacked.filter (fun y => filter (path ++ lit "/" ++ y.1))

mutual
/-- In every directory of the snapshot the archive names of the children are
strictly increasing in byte order. -/
def PrefilteredDump.Entry.sortedArchive (useCaseHack : Bool) (caseHackSuffix : Bytes) :
    PrefilteredDump.Entry → Bool
  | .File _ _ => true
  | .Symlink _ => true
  | .Directory contents =>
      strictlyIncreasing (contents.map (fun c => archiveName useCaseHack caseHackSuffix c.1))
        && PrefilteredDump.childrenSortedArchive useCaseHack caseHackSuffix contents
/-- Every child of the snapshot is sorted by archive names. -/
def PrefilteredDump.childrenSortedArchive (useCaseHack : Bool) (caseHackSuffix : Bytes) :
    List (Bytes × PrefilteredDump.Entry) → Bool
  | [] => true
  | (_, e) :: rest =>
      e.sortedArchive useCaseHack caseHackSuffix
        && PrefilteredDump.childrenSortedArchive useCaseHack caseHackSuffix rest
end

/-- A directory whose listing comes in no particular order and holds a name
with a case-hack suffix. -/
def unsortedListing : FsNode :=
  .directory 5 [(lit "b", .symlink 7 (lit "t")),
    (lit "a~nix~case~hack~1", .regular 9 false (lit "x")),
    (lit "A", .regular 3 true (lit "y"))]

mutual
/-- The `st_mtime` of the node and of every node below it. -/
def FsNode.mtimes : FsNode → List Int
  | .regular st_mtime _ _ => [st_mtime]
  | .directory st_mtime entries => st_mtime :: mtimesOf entries
  | .symlink st_mtime _ => [st_mtime]
  | .other st_mtime => [st_mtime]
/-- The `st_mtime` of every node at or below the entries. -/
def mtimesOf : List (Bytes × FsNode) → List Int
  | [] => []
  | (_, node) :: rest => node.mtimes ++ mtimesOf rest
end

mutual
/-- The greatest `st_mtime` of the node and the nodes below it. -/
def FsNode.maxMtime : FsNode → Int
  | .regular st_mtime _ _ => st_mtime
  | .directory st_mtime entries => maxMtimeOf st_mtime entries
  | .symlink st_mtime _ => st_mtime
  | .other st_mtime => st_mtime
/-- The greatest of `acc` and the `st_mtime` of every node at or below the
entries. -/
def maxMtimeOf : Int → List (Bytes × FsNode) → Int
  | acc, [] => acc
  | acc, (_, node) :: rest => maxMtimeOf (max acc node.maxMtime) rest
end

/-! ### The filtered scan as the specification words it -/

mutual
/-- The tree obtained from a file tree by deleting every directory child for
which `filter(parent path + "/" + archive name)` is false, with its whole
subtree. The root is kept, and nothing below a deleted child is looked at. -/
def FsNode.prune (useCaseHack : Bool) (caseHackSuffix : Bytes) (filter : Bytes → Bool)
    (path : Bytes) : FsNode → FsNode
  | .regular st_mtime executable contents => .regular st_mtime executable contents
  | .directory st_mtime entries =>
      .directory st_mtime (pruneEntries useCaseHack caseHackSuffix filter path entries)
  | .symlink st_mtime target => .symlink st_mtime target
  | .other st_mtime => .other st_mtime
/-- The entries of the directory at `path` that the filter keeps, pruned. -/
def pruneEntries (useCaseHack : Bool) (caseHackSuffix : Bytes) (filter : Bytes → Bool)
    (path : Bytes) : List (Bytes × FsNode) → List (Bytes × FsNode)
  | [] => []
  | (name, node) :: rest =>
      if filter (path ++ lit "/" ++ archiveName useCaseHack caseHackSuffix name) then
        (name, node.prune useCaseHack caseHackSuffix filter (path ++ lit "/" ++ name))
          :: pruneEntries useCaseHack caseHackSuffix filter path rest
      else pruneEntries useCaseHack caseHackSuffix filter path rest
end

mutual
/-- The entry with every child under its archive name. -/
def Entry.archived (useCaseHack : Bool) (caseHackSuffix : Bytes) : Entry → Entry
  | .file executable size contents => .file executable size contents
  | .symlink target => .symlink target
  | .directory contents => .directory (childrenArchived useCaseHack caseHackSuffix contents)
/-- The children, each under its archive name. -/
def childrenArchived (useCaseHack : Bool) (caseHackSuffix : Bytes) :
    List (Bytes × Entry) → List (Bytes × Entry)
  | [] => []
  | (name, e) :: rest =>
      (archiveName useCaseHack caseHackSuffix name, e.archived useCaseHack caseHackSuffix)
        :: childrenArchived useCaseHack caseHackSuffix rest
end

/-- The arguments the second loop of the directory generator of `list`
(archive.cc lines 143-155) passes to `filter`, in order, the loop being drained
until it ends or throws. The payload of a map entry is the outcome of
`list(diskPath, tmp_mtime, filter, returnUnhacked)` and the arguments passed to
`filter` while that entry is drained, looked at only when the filter accepts
the entry. -/
def listChildren.filterCalls (filter : Bytes → Bool) (path : Bytes) :
    List (Bytes × Bytes × Except NarError (Entry × Int) × List Bytes) → List Bytes
  | [] => []
  | (first, _, listed, calls) :: rest =>
      (path ++ lit "/" ++ first) ::
        (if filter (path ++ lit "/" ++ first) then
          calls ++ (match listed with
            | .error _ => []
            | .ok _ => listChildren.filterCalls filter path rest)
        else listChildren.filterCalls filter path rest)

mutual
/-- The arguments `filter` is applied to while the entry `list` returns
(archive.cc lines 109-164) is drained, in order. -/
def list.filterCalls (useCaseHack : Bool) (caseHackSuffix : Bytes) (filter : Bytes → Bool)
    (returnUnhacked : Bool) (path : Bytes) : FsNode → List Bytes
  | .regular _ _ _ => []
  | .directory _ entries =>
      match fillUnhacked useCaseHack caseHackSuffix path
          (listEach.filterCalls useCaseHack caseHackSuffix filter returnUnhacked path entries)
          [] with
      | .error _ => []
      | .ok unhacked => listChildren.filterCalls filter path unhacked
  | .symlink _ _ => []
  | .other _ => []
/-- The outcome of `list(path + "/" + i.name, ...)` and the arguments it passes
to `filter`, for every entry of `readDirectory(path)`, next to its name. -/
def listEach.filterCalls (useCaseHack : Bool) (caseHackSuffix : Bytes) (filter : Bytes → Bool)
    (returnUnhacked : Bool) (path : Bytes) :
    List (Bytes × FsNode) → List (Bytes × Except NarError (Entry × Int) × List Bytes)
  | [] => []
  | (name, node) :: rest =>
      (name, list useCaseHack caseHackSuffix filter returnUnhacked
          (path ++ lit "/" ++ name) node,
        list.filterCalls useCaseHack caseHackSuffix filter returnUnhacked
          (path ++ lit "/" ++ name) node)
        :: listEach.filterCalls useCaseHack caseHackSuffix filter returnUnhacked path rest
end

mutual
/-- The questions the specification lets the filter be asked about the tree at
`path`: one, `parent path + "/" + archive name`, for each child of the root and
of every directory that was accepted; none for the root, none below a rejected
child. -/
def FsNode.queries (useCaseHack : Bool) (caseHackSuffix : Bytes) (filter : Bytes → Bool)
    (path : Bytes) : FsNode → List Bytes
  | .regular _ _ _ => []
  | .directory _ entries => entryQueries useCaseHack caseHackSuffix filter path entries
  | .symlink _ _ => []
  | .other _ => []
/-- The questions about the entries of the directory at `path`. -/
def entryQueries (useCaseHack : Bool) (caseHackSuffix : Bytes) (filter : Bytes → Bool)
    (path : Bytes) : List (Bytes × FsNode) → List Bytes
  | [] => []
  | (name, node) :: rest =>
      ((path ++ lit "/" ++ archiveName useCaseHack caseHackSuffix name) ::
        (if filter (path ++ lit "/" ++ archiveName useCaseHack caseHackSuffix name) then
          node.queries useCaseHack caseHackSuffix filter (path ++ lit "/" ++ name)
        else []))
        ++ entryQueries useCaseHack caseHackSuffix filter path rest
end

/-- A filter that rejects the path `/r/foo` and accepts every other. -/
def rejectFoo : Bytes → Bool := fun p => !decide (p = lit "/r/foo")

/-- A directory whose two entries have the archive name `foo` when the case
hack is enabled. -/
def rejectedCollision : FsNode :=
  .directory 1 [(lit "foo~nix~case~hack~1", .regular 2 false (lit "x")),
    (lit "foo", .regular 3 false (lit "y"))]

/-- A directory with a subdirectory `foo` holding a node of an unsupported
type, and a subdirectory `keep` holding a name with a case-hack suffix. -/
def filteredListing : FsNode :=
  .directory 1 [(lit "keep", .directory 2
      [(lit "a~nix~case~hack~1", .regular 3 false (lit "x"))]),
    (lit "foo", .directory 4 [(lit "dev", .other 5)]),
    (lit "b", .symlink 6 (lit "t"))]

/-! ### Tokens of an archive -/

/-- What one `co_yield` of `dump` (archive.cc lines 53-101) puts on the wire: a
string, an integer, the contents of a file, or the padding after them. -/
inductive Token where
  | string (s : Bytes)
  | integer (n : Nat)
  | contents (data : Bytes)
  | padding (size : Nat)

/-- The bytes of a token. -/
def Token.bytes : Token → Bytes
  | .string s => wireString s
  | .integer n => u64le n
  | .contents data => data
  | .padding size => nix.padding size

/-- The token is the padding after the contents of a file. -/
def Token.isPadding : Token → Bool
  | .padding _ => true
  | _ => false

mutual
/-- The tokens of `dump`, in the order of its `co_yield`s. -/
def dump.tokens : Entry → List Token
  | .file executable size contents =>
      [.string (lit "("), .string (lit "type"), .string (lit "regular")]
        ++ (if executable then [.string (lit "executable"), .string (lit "")] else [])
        ++ [.string (lit "contents"), .integer size, .contents contents, .padding size,
          .string (lit ")")]
  | .symlink target =>
      [.string (lit "("), .string (lit "type"), .string (lit "symlink"),
        .string (lit "target"), .string target, .string (lit ")")]
  | .directory contents =>
      [.string (lit "("), .string (lit "type"), .string (lit "directory")]
        ++ dumpEntries.tokens contents ++ [.string (lit ")")]
/-- The tokens of the children of a directory. -/
def dumpEntries.tokens : List (Bytes × Entry) → List Token
  | [] => []
  | (name, i) :: rest =>
      [.string (lit "entry"), .string (lit "("), .string (lit "name"), .string name,
          .string (lit "node")]
        ++ dump.tokens i ++ [.string (lit ")")] ++ dumpEntries.tokens rest
end

/-- The tokens of a full archive. -/
def serialize.tokens (root : Entry) : List Token :=
  .string narVersionMagic1 :: dump.tokens root

/-- The bytes of a list of tokens. -/
def Token.flatten (tokens : List Token) : Bytes := (tokens.map Token.bytes).flatten

/-- Every token with the offset at which it starts, the first one starting at
`start`. -/
def Token.starts : Nat → List Token → List (Token × Nat)
  | _, [] => []
  | start, t :: rest => (t, start) :: Token.starts (start + t.bytes.length) rest

/-- Every token of the list that is not padding starts at a multiple of 8, the
first one starting at `start`. -/
def Token.alignedFrom : Nat → List Token → Bool
  | _, [] => true
  | start, t :: rest =>
      (t.isPadding || start % 8 == 0) && Token.alignedFrom (start + t.bytes.length) rest

/-- The outcome of a listing with every child under its archive name. -/
def listedArchived (useCaseHack : Bool) (caseHackSuffix : Bytes) :
    Except NarError (Entry × Int) → Except NarError (Entry × Int)
  | .error e => .error e
  | .ok (T, mtime) => .ok (T.archived useCaseHack caseHackSuffix, mtime)

/-- The generator `dumpPath(path, filter)` (archive.cc lines 175-179), drained:
`prepareDump(path, filter)->dump()`, or the exception of the constructor of
`PrefilteredDump`. -/
def dumpPath.filtered (useCaseHack : Bool) (caseHackSuffix : Bytes) (filter : Bytes → Bool)
    (path : Bytes) (fs : FsNode) : Except NarError Bytes :=
  match PrefilteredDump.create useCaseHack caseHackSuffix filter path fs with
  | .error e => .error e
  | .ok filtered => PrefilteredDump.dump useCaseHack caseHackSuffix path fs filtered

/-- The generator `dumpPath(path)` (archive.cc lines 181-185), drained:
`prepareDump(path)->dump()`. -/
def dumpPath (useCaseHack : Bool) (caseHackSuffix path : Bytes) (fs : FsNode) :
    Except NarError Bytes :=
  UnfilteredDump.dump useCaseHack caseHackSuffix path fs

mutual
/-- Every on-disk name of the tree is a valid entry name: non-empty, not `.`
or `..`, without `/`, without NUL and without the case-hack marker. -/
def FsNode.namesValid (marker : Bytes) : FsNode → Bool
  | .directory _ entries => entriesNamesValid marker entries
  | _ => true
/-- Every on-disk name of the entries and below them is a valid entry name. -/
def entriesNamesValid (marker : Bytes) : List (Bytes × FsNode) → Bool
  | [] => true
  | (name, node) :: rest =>
      validName marker name && node.namesValid marker && entriesNamesValid marker rest
end

/-- A directory holding a file whose on-disk name carries a case-hack suffix. -/
def hackedOnDisk : FsNode :=
  .directory 1 [(lit "a~nix~case~hack~1", .regular 2 false (lit "x"))]

/-- A directory holding a symlink whose on-disk name is a case-hack suffix and
nothing else. -/
def suffixOnly : FsNode :=
  .directory 1 [(lit "~nix~case~hack~1", .symlink 2 (lit "t"))]

/-! ### Vocabulary of the statements on names ignoring case -/

/-- The byte is an ASCII decimal digit. -/
def isDigit (b : UInt8) : Bool := decide (48 ≤ b.toNat ∧ b.toNat ≤ 57)

/-- The number a string of decimal digits stands for. -/
def decimalValue (s : Bytes) : Nat := s.foldl (fun acc b => 10 * acc + (b.toNat - 48)) 0

/-- The string with its ASCII capital letters in lower case. -/
def foldCase (s : Bytes) : Bytes := s.map tolower

/-- A marker that can be told from what stands around it: not empty, without a
NUL byte, and not ending in a decimal digit. -/
def plainMarker (marker : Bytes) : Bool :=
  marker != [] && !marker.contains 0
    && (match marker.getLast? with
      | some b => !isDigit b
      | none => false)

mutual
/-- In every directory of the tree no two child names are equal ignoring ASCII
case: `CaseInsensitiveCompare` puts neither before the other. -/
def Entry.distinctIgnoringCase : Entry → Bool
  | .file _ _ _ => true
  | .symlink _ => true
  | .directory contents =>
      decide ((contents.map Prod.fst).Pairwise (fun a b => sameKey a b = false))
        && childrenDistinctIgnoringCase contents
/-- Every child has directories with names distinct ignoring case only. -/
def childrenDistinctIgnoringCase : List (Bytes × Entry) → Bool
  | [] => true
  | (_, e) :: rest => e.distinctIgnoringCase && childrenDistinctIgnoringCase rest
end

mutual
/-- No child name of the tree holds the marker, in whatever letter case. -/
def Entry.markerFree (marker : Bytes) : Entry → Bool
  | .file _ _ _ => true
  | .symlink _ => true
  | .directory contents => childrenMarkerFree marker contents
/-- No name of the children or below them holds the marker, in whatever letter
case. -/
def childrenMarkerFree (marker : Bytes) : List (Bytes × Entry) → Bool
  | [] => true
  | (name, e) :: rest =>
      !decide (foldCase marker <:+: foldCase name) && e.markerFree marker
        && childrenMarkerFree marker rest
end

/-- A valid directory with the names `A` and `a`, and a third name that holds
the marker in capital letters. -/
def caseVariantTree : Entry :=
  .directory [(lit "A", .symlink (lit "x")), (lit "a", .symlink (lit "y")),
    (lit "a~NIX~CASE~HACK~1", .symlink (lit "z"))]

/-! ### The assertions of the parser under the consumers `restore` and `dump` -/

/-- One resumption `f.contents.next()` of the content reader
`makeReader(source, left)` (archive.cc lines 541-551). `n` is the length of the
block it yielded at the resumption before, 0 at the first one: the generator
goes on after its `co_yield`, executes `left -= n` and tests `while (left)`.
Returns the block it yields, if any, the value of `left` and the source
afterwards. -/
def makeReader.next (left n : Nat) (src : Bytes) :
    Except NarError (Option Bytes × Nat × Bytes) :=
  if left - n = 0 then .ok (none, left - n, src)
  else
    match Source.read (min 65536 (left - n)) src with
    | .error e => .error e
    | .ok (buf, src1) => .ok (some buf, left - n, src1)

/-- The loop `while (auto block = f.contents.next())` of `restore` (archive.cc
lines 593-595), which is also how the generator of `dump(nar::File)` drains the
`f.contents` it yields (line 64): the content reader is resumed until it
returns no block. Returns the value of `left` and the source when the loop
ends; `none` marks a recursion bound that was too small. -/
def drainContents : Nat → Nat → Nat → Bytes → Option (Except NarError (Nat × Bytes))
  | 0, _, _, _ => none
  | fuel + 1, left, n, src =>
      match makeReader.next left n src with
      | .error e => some (.error e)
      | .ok (none, left1, src1) => some (.ok (left1, src1))
      | .ok (some buf, left1, src1) => drainContents fuel left1 buf.length src1

mutual
/-- The values on which `assert(left == 0)` (archive.cc line 556) and
`assert(completed)` (line 475) are evaluated, in order, while the node at the
head of the source is parsed for a consumer that drains the contents of a file
with the loop `drainContents` and the children of a directory with the loop
`while (auto entry = d.contents.next())` (`restore`, lines 599-601, and `dump`,
line 84) before it asks for the next entry. An assertion is evaluated when the
consumer asks for what follows the file or directory; an exception ends the
run before that. -/
def SyncParser.parse.asserts (useCaseHack : Bool) (caseHackSuffix : Bytes) :
    Nat → Bytes → List Bool
  | 0, _ => []
  | fuel + 1, src =>
      match EXPECT (lit "(") (lit "open") src with
      | .error _ => []
      | .ok src1 =>
      match EXPECT (lit "type") (lit "type") src1 with
      | .error _ => []
      | .ok src2 =>
      match READ_STRING src2 with
      | .error _ => []
      | .ok (t, src3) =>
          if t = lit "regular" then
            match readFileHeader src3 with
            | .error _ => []
            | .ok ((_, size), src4) =>
                match drainContents (size + 1) size 0 src4 with
                | some (.ok (left, _)) => [decide (left = 0)]
                | _ => []
          else if t = lit "directory" then
            match SyncParser.readDir.asserts useCaseHack caseHackSuffix fuel [] [] src3 with
            | (log, some completed) => log ++ [completed]
            | (log, none) => log
          else []
/-- The values of the assertions evaluated while the children of a directory
are drained, and the value of `completed` when the directory reader has ended:
it ends only past `completed = true` (archive.cc line 469), which follows the
`break` at the closing `)`. -/
def SyncParser.readDir.asserts (useCaseHack : Bool) (caseHackSuffix : Bytes) :
    Nat → List (Bytes × Nat) → Bytes → Bytes → List Bool × Option Bool
  | 0, _, _, _ => ([], none)
  | fuel + 1, names, prevName, src =>
      match readEntryHeader useCaseHack caseHackSuffix names prevName src with
      | .error _ => ([], none)
      | .ok (none, _) => ([], some true)
      | .ok (some (name, yielded, names1), src1) =>
          match SyncParser.parse useCaseHack caseHackSuffix fuel (some yielded) src1 [] with
          | .ok _ src2 _ =>
              match EXPECT (lit ")") (lit "close") src2 with
              | .error _ =>
                  (SyncParser.parse.asserts useCaseHack caseHackSuffix fuel src1, none)
              | .ok src3 =>
                  (SyncParser.parse.asserts useCaseHack caseHackSuffix fuel src1
                      ++ (SyncParser.readDir.asserts useCaseHack caseHackSuffix fuel names1 name
                        src3).1,
                    (SyncParser.readDir.asserts useCaseHack caseHackSuffix fuel names1 name
                      src3).2)
          | _ => (SyncParser.parse.asserts useCaseHack caseHackSuffix fuel src1, none)
end

/-- The values of the assertions evaluated while `nar::parse` is drained by
such a consumer, in order. -/
def nar.parse.asserts (useCaseHack : Bool) (caseHackSuffix : Bytes) (source : Bytes) :
    List Bool :=
  let version : Except NarError (Bytes × Bytes) :=
    match readString narVersionMagic1.length source with
    | .error (.SerialisationError _) => .ok ([], source)
    | .error e => .error e
    | .ok r => .ok r
  match version with
  | .error _ => []
  | .ok (version, src1) =>
      if version ≠ narVersionMagic1 then []
      else SyncParser.parse.asserts useCaseHack caseHackSuffix (src1.length + 1) src1

/-- The values of the assertions evaluated during `parseDump` (archive.cc
lines 610-616), whose `restore` drains every file and directory in full. -/
def parseDump.asserts (useCaseHack : Bool) (caseHackSuffix source : Bytes) : List Bool :=
  nar.parse.asserts useCaseHack caseHackSuffix source

/-- The values of the assertions evaluated while `copyNAR` (archive.cc lines
741-751) is drained, whose `dump` drains every file and directory in full. -/
def copyNAR.asserts (useCaseHack : Bool) (caseHackSuffix source : Bytes) : List Bool :=
  nar.parse.asserts useCaseHack caseHackSuffix source

/-! ## The parser with its buffer (`SyncParser::feed`, archive.cc lines 509-516)

The macros and the parser above describe a run in which storage of any size
can be had. The definitions of this section add what depends on storage of a
size the input declares: the `buffer` of `SyncParser`, which `feed(n)` resizes
to `buffer.size() + n` bytes before it reads any of them, and the string `str`
that `READ_STRING` gets from `readString`. They record every call of `feed`.
`buffered_parse_sim` and `buffered_nar_parse_sim` relate the two descriptions:
they agree on every run that does not end on such a request for storage. -/

/-- A call `feed(n)`, made on `co_yield WantBytes{n}`: the bytes `buffer` held
when it was made, and `n`. -/
structure Feed where
  buffer : Bytes
  n : Nat
  deriving DecidableEq

/-- How a run of the parser with its buffer ends early: with an exception of
the codec; with the `std::length_error` or the `std::bad_alloc` of a container
that is made to hold more bytes than it can; or, without an exception, when
`feed` hands the source a range that lies past the end of the buffer (undefined
behaviour). -/
inductive Halt where
  | thrown (e : NarError)
  | length_error
  | bad_alloc
  | overrun
  deriving DecidableEq

/-- True of the endings that come from a request for storage. -/
def Halt.ofStorage : Halt → Bool
  | .thrown _ => false
  | .length_error => true
  | .bad_alloc => true
  | .overrun => true

/-- The storage the run has at hand: `max_size()` of `std::vector<char>` and of
`std::string`, two constants of the C++ library, and whether room for a given
number of bytes can be had once the given calls of `feed` were made. -/
structure Allocator where
  max_size : Nat
  string_max_size : Nat
  available : List Feed → Nat → Bool

/-- The function `SyncParser::feed` (archive.cc lines 509-516); `log` holds the
calls made before this one. `end + n` is a `size_t`. `buffer.resize` throws
`std::length_error` above `max_size()` and `std::bad_alloc` when the buffer has
to grow and no room can be had. When `end + n` wraps around, the buffer is
left shorter than `end` and `source(buffer.data() + end, n)` is given a range
past its end: a source that holds a byte writes it there, an empty one throws
`EndOfFile`. Otherwise the `n` bytes read are appended to the buffer.
`checkInterrupt()`, which throws only once the process was interrupted, is
left out. Returns the buffer and the source after the call. -/
def SyncParser.feed (mem : Allocator) (log : List Feed) (buffer : Bytes) (n : Nat)
    (source : Bytes) : Except Halt (Bytes × Bytes) :=
  if mem.max_size < (buffer.length + n) % 2 ^ 64 then .error .length_error
  else if buffer.length < (buffer.length + n) % 2 ^ 64
      ∧ mem.available log ((buffer.length + n) % 2 ^ 64) = false then .error .bad_alloc
  else if (buffer.length + n) % 2 ^ 64 < buffer.length + n then
    if source = [] then .error (.thrown .EndOfFile) else .error .overrun
  else
    match Source.read n source with
    | .error e => .error (.thrown e)
    | .ok (bytes, rest) => .ok (buffer ++ bytes, rest)

/-- Outcome of a macro run with the buffer: the value, the unread source and
the calls of `feed` so far (the buffer is empty again); or the early ending
with the calls of `feed` up to it. -/
inductive Fed (α : Type) where
  | ok (value : α) (src : Bytes) (log : List Feed)
  | halt (h : Halt) (log : List Feed)

/-- The macro `FETCH_U64` (archive.cc lines 357-362) on the buffer `buffer`:
returns the number and the buffer, which keeps the 8 bytes. -/
def buffered.FETCH_U64 (mem : Allocator) (log : List Feed) (buffer src : Bytes) :
    Fed (Nat × Bytes) :=
  match SyncParser.feed mem log buffer 8 src with
  | .error h => .halt h (log ++ [⟨buffer, 8⟩])
  | .ok (buffer1, src1) =>
      match readNum buffer1 with
      | .error e => .halt (.thrown e) (log ++ [⟨buffer, 8⟩])
      | .ok (u, _) => .ok (u, buffer1) src1 (log ++ [⟨buffer, 8⟩])

/-- The macro `READ_U64` (archive.cc lines 363-368), run on the empty buffer
the macro before it has left. -/
def buffered.READ_U64 (mem : Allocator) (log : List Feed) (src : Bytes) : Fed Nat :=
  match buffered.FETCH_U64 mem log [] src with
  | .halt h log1 => .halt h log1
  | .ok (u, _) src1 log1 => .ok u src1 log1

/-- The macro `READ_STRING` (archive.cc lines 369-377), run on the empty
buffer the macro before it has left: `FETCH_U64` leaves the 8 length bytes in
the buffer, `feed` is then called with `len + (8 - len % 8) % 8`, and
`readString` decodes the whole buffer into the string `str` of `len` bytes,
whose creation throws `std::length_error` above `max_size()` of `std::string`
and `std::bad_alloc` when no room can be had. -/
def buffered.READ_STRING (mem : Allocator) (log : List Feed) (src : Bytes) : Fed Bytes :=
  match buffered.FETCH_U64 mem log [] src with
  | .halt h log1 => .halt h log1
  | .ok (len, buffer) src1 log1 =>
      match SyncParser.feed mem log1 buffer (wantString len) src1 with
      | .error h => .halt h (log1 ++ [⟨buffer, wantString len⟩])
      | .ok (buffer2, src2) =>
          if mem.string_max_size < len then
            .halt .length_error (log1 ++ [⟨buffer, wantString len⟩])
          else if mem.available (log1 ++ [⟨buffer, wantString len⟩]) len = false then
            .halt .bad_alloc (log1 ++ [⟨buffer, wantString len⟩])
          else
            match readString (2 ^ 64 - 1) buffer2 with
            | .error e => .halt (.thrown e) (log1 ++ [⟨buffer, wantString len⟩])
            | .ok (str, _) => .ok str src2 (log1 ++ [⟨buffer, wantString len⟩])

/-- The macro `READ_PADDING(size)` (archive.cc lines 378-386), run on an empty
buffer. -/
def buffered.READ_PADDING (mem : Allocator) (log : List Feed) (size : Nat) (src : Bytes) :
    Fed Unit :=
  if size % 8 ≠ 0 then
    match SyncParser.feed mem log [] (8 - size % 8) src with
    | .error h => .halt h (log ++ [⟨[], 8 - size % 8⟩])
    | .ok (buffer, src1) =>
        match readPadding size buffer with
        | .error e => .halt (.thrown e) (log ++ [⟨[], 8 - size % 8⟩])
        | .ok _ => .ok () src1 (log ++ [⟨[], 8 - size % 8⟩])
  else .ok () src log

/-- The macro `EXPECT(raw, kind)` (archive.cc lines 387-393). -/
def buffered.EXPECT (mem : Allocator) (log : List Feed) (raw kind : Bytes) (src : Bytes) :
    Fed Unit :=
  match buffered.READ_STRING mem log src with
  | .halt h log1 => .halt h log1
  | .ok s src1 log1 =>
      if s ≠ raw then .halt (.thrown (badArchive (lit "expected " ++ kind ++ lit " tag"))) log1
      else .ok () src1 log1

/-- The header of a regular file (archive.cc lines 401-411), read through the
buffer. -/
def buffered.readFileHeader (mem : Allocator) (log : List Feed) (src : Bytes) :
    Fed (Bool × Nat) :=
  match buffered.READ_STRING mem log src with
  | .halt h log1 => .halt h log1
  | .ok contentsOrFlag src1 log1 =>
      let executable : Bool := contentsOrFlag == lit "executable"
      let next : Fed Bytes :=
        if executable then
          match buffered.READ_STRING mem log1 src1 with
          | .halt h log2 => .halt h log2
          | .ok s src2 log2 =>
              if s ≠ lit "" then
                .halt (.thrown (badArchive (lit "executable marker has non-empty value"))) log2
              else buffered.READ_STRING mem log2 src2
        else .ok contentsOrFlag src1 log1
      match next with
      | .halt h log3 => .halt h log3
      | .ok contentsOrFlag src3 log3 =>
          if contentsOrFlag = lit "contents" then
            match buffered.READ_U64 mem log3 src3 with
            | .halt h log4 => .halt h log4
            | .ok size src4 log4 => .ok (executable, size) src4 log4
          else .halt (.thrown (badArchive (lit "file without contents found"))) log3

/-- One turn of the `while (1)` loop of the directory reader up to and
including `EXPECT("node", "node")` (archive.cc lines 423-463), read through the
buffer: `none` when the closing `)` was read, otherwise the name as read, the
name to yield and the updated map. -/
def buffered.readEntryHeader (mem : Allocator) (log : List Feed) (useCaseHack : Bool)
    (caseHackSuffix : Bytes) (names : List (Bytes × Nat)) (prevName : Bytes) (src : Bytes) :
    Fed (Option (Bytes × Bytes × List (Bytes × Nat))) :=
  match buffered.READ_STRING mem log src with
  | .halt h log1 => .halt h log1
  | .ok s src1 log1 =>
      if s = lit ")" then .ok none src1 log1
      else if s ≠ lit "entry" then .halt (.thrown (badArchive (lit "expected entry tag"))) log1
      else
        match buffered.EXPECT mem log1 (lit "(") (lit "open") src1 with
        | .halt h log2 => .halt h log2
        | .ok _ src2 log2 =>
            match buffered.EXPECT mem log2 (lit "name") (lit "name") src2 with
            | .halt h log3 => .halt h log3
            | .ok _ src3 log3 =>
                match buffered.READ_STRING mem log3 src3 with
                | .halt h log4 => .halt h log4
                | .ok name src4 log4 =>
                    if invalidFileName caseHackSuffix name then
                      .halt (.thrown
                        (.Error (lit "NAR contains invalid file name '" ++ name ++ lit "'"))) log4
                    else if strLe name prevName then
                      .halt (.thrown (.Error (lit "NAR directory is not sorted"))) log4
                    else
                      match buffered.EXPECT mem log4 (lit "node") (lit "node") src4 with
                      | .halt h log5 => .halt h log5
                      | .ok _ src5 log5 =>
                          let hacked := applyCaseHack useCaseHack caseHackSuffix names name
                          .ok (some (name, hacked.1, hacked.2)) src5 log5

/-- Outcome of draining the parser with its buffer: the value, the unread
source, the events and the calls of `feed` so far; or the early ending with the
events yielded and the calls of `feed` made before it. `outOfFuel` marks a
recursion bound that was too small. -/
inductive Run (α : Type) where
  | ok (value : α) (src : Bytes) (out : List Event) (log : List Feed)
  | halt (h : Halt) (out : List Event) (log : List Feed)
  | outOfFuel

/-- The calls of `feed` of a run, in order. -/
def Run.log {α : Type} : Run α → List Feed
  | .ok _ _ _ log => log
  | .halt _ _ log => log
  | .outOfFuel => []

mutual
/-- The generator `Parser::parse` (archive.cc lines 351-494) as driven by
`SyncParser::parse` (lines 535-566), which answers every `WantBytes{n}` with
`feed(n)` and reads file contents from the source into a block of its own, and
drained by the consumer: parses one node, yielded under `name`. -/
def buffered.SyncParser.parse (mem : Allocator) (useCaseHack : Bool) (caseHackSuffix : Bytes) :
    Nat → Option Bytes → Bytes → List Event → List Feed → Run Entry
  | 0, _, _, _, _ => .outOfFuel
  | fuel + 1, name, src, out, log =>
      match buffered.EXPECT mem log (lit "(") (lit "open") src with
      | .halt h log1 => .halt h out log1
      | .ok _ src1 log1 =>
      match buffered.EXPECT mem log1 (lit "type") (lit "type") src1 with
      | .halt h log2 => .halt h out log2
      | .ok _ src2 log2 =>
      match buffered.READ_STRING mem log2 src2 with
      | .halt h log3 => .halt h out log3
      | .ok t src3 log3 =>
          if t = lit "regular" then
            match buffered.readFileHeader mem log3 src3 with
            | .halt h log4 => .halt h out log4
            | .ok (executable, size) src4 log4 =>
                match readContents size size src4 (out ++ [.file name executable size]) with
                | .outOfFuel => .outOfFuel
                | .fail e out1 => .halt (.thrown e) out1 log4
                | .ok contents src5 out1 =>
                    match buffered.READ_PADDING mem log4 size src5 with
                    | .halt h log5 => .halt h out1 log5
                    | .ok _ src6 log5 =>
                        match buffered.EXPECT mem log5 (lit ")") (lit "close") src6 with
                        | .halt h log6 => .halt h out1 log6
                        | .ok _ src7 log6 => .ok (.file executable size contents) src7 out1 log6
          else if t = lit "directory" then
            match buffered.SyncParser.readDir mem useCaseHack caseHackSuffix fuel [] [] src3
                (out ++ [.directory name]) log3 with
            | .outOfFuel => .outOfFuel
            | .halt h out1 log4 => .halt h out1 log4
            | .ok contents src4 out1 log4 => .ok (.directory contents) src4 out1 log4
          else if t = lit "symlink" then
            match buffered.EXPECT mem log3 (lit "target") (lit "target") src3 with
            | .halt h log4 => .halt h out log4
            | .ok _ src4 log4 =>
                match buffered.READ_STRING mem log4 src4 with
                | .halt h log5 => .halt h out log5
                | .ok target src5 log5 =>
                    match buffered.EXPECT mem log5 (lit ")") (lit "close") src5 with
                    | .halt h log6 => .halt h (out ++ [.symlink name target]) log6
                    | .ok _ src6 log6 =>
                        .ok (.symlink target) src6 (out ++ [.symlink name target]) log6
          else .halt (.thrown (badArchive (lit "unknown file type " ++ t))) out log3
/-- The directory reader `makeReader` of `Parser::parse` (archive.cc lines
419-469) as driven by `SyncParser::readDir` (lines 518-533), which answers
every `WantBytes{n}` with `feed(n)`, and drained: the children of one
directory, each with the name it is yielded under. -/
def buffered.SyncParser.readDir (mem : Allocator) (useCaseHack : Bool)
    (caseHackSuffix : Bytes) :
    Nat → List (Bytes × Nat) → Bytes → Bytes → List Event → List Feed →
      Run (List (Bytes × Entry))
  | 0, _, _, _, _, _ => .outOfFuel
  | fuel + 1, names, prevName, src, out, log =>
      match buffered.readEntryHeader mem log useCaseHack caseHackSuffix names prevName src with
      | .halt h log1 => .halt h out log1
      | .ok none src1 log1 => .ok [] src1 (out ++ [.leave]) log1
      | .ok (some (name, yielded, names1)) src1 log1 =>
          match buffered.SyncParser.parse mem useCaseHack caseHackSuffix fuel (some yielded) src1
              out log1 with
          | .outOfFuel => .outOfFuel
          | .halt h out1 log2 => .halt h out1 log2
          | .ok entry src2 out1 log2 =>
              match buffered.EXPECT mem log2 (lit ")") (lit "close") src2 with
              | .halt h log3 => .halt h out1 log3
              | .ok _ src3 log3 =>
                  match buffered.SyncParser.readDir mem useCaseHack caseHackSuffix fuel names1 name
                      src3 out1 log3 with
                  | .outOfFuel => .outOfFuel
                  | .halt h out2 log4 => .halt h out2 log4
                  | .ok rest src4 out2 log4 => .ok ((yielded, entry) :: rest) src4 out2 log4
end

/-- The generator `nar::parse` (archive.cc lines 570-583) with the buffer of
its `SyncParser`, which starts empty, drained: the entries it yields. The
version string is read from the source itself, with a bound of 13 bytes. -/
def buffered.nar.parse (mem : Allocator) (useCaseHack : Bool) (caseHackSuffix : Bytes)
    (source : Bytes) : Run (List Entry) :=
  let version : Except NarError (Bytes × Bytes) :=
    match readString narVersionMagic1.length source with
    | .error (.SerialisationError _) => .ok ([], source)
    | .error e => .error e
    | .ok r => .ok r
  match version with
  | .error e => .halt (.thrown e) [] []
  | .ok (version, src1) =>
      if version ≠ narVersionMagic1 then
        .halt (.thrown (badArchive (lit "input doesn't look like a Nix archive"))) [] []
      else
        match buffered.SyncParser.parse mem useCaseHack caseHackSuffix (src1.length + 1) none src1
            [] [] with
        | .outOfFuel => .outOfFuel
        | .halt h out log => .halt h out log
        | .ok entry src2 out log => .ok [entry] src2 out log

/-- A call of `feed` as the macros make it: for at most 8 bytes on an empty
buffer (8 for a length or an integer, 1 to 7 for the padding of a file); or,
with the 8 bytes of a length field in the buffer, for the length they declare
rounded up to a multiple of 8 as a `size_t`. -/
def Feed.wellFormed (f : Feed) : Prop :=
  (f.buffer = [] ∧ 1 ≤ f.n ∧ f.n ≤ 8)
    ∨ (f.buffer.length = 8 ∧ f.n = wantString (readLittleEndian f.buffer))

/-- The log `log1` continues `log` with calls the macros make. -/
def Feed.continues (log log1 : List Feed) : Prop :=
  ∃ fs, log1 = log ++ fs ∧ ∀ f ∈ fs, f.wellFormed

/-- The run with the buffer `r` against the run `o` of the parser: they end
alike, with the same value, unread source, events and exception, unless `r`
ends on a request for storage; and the calls of `feed` of `r` continue `log`
with calls the macros make. -/
def Run.sim {α : Type} (log : List Feed) (r : Run α) (o : Res α) : Prop :=
  match r with
  | .ok v src out l => o = .ok v src out ∧ Feed.continues log l
  | .halt (.thrown e) out l => o = .fail e out ∧ Feed.continues log l
  | .halt _ _ l => Feed.continues log l
  | .outOfFuel => o = .outOfFuel

/-- The storage of a usual 64-bit platform: both `max_size()` are `2 ^ 63 - 1`,
and room can be had for up to `2 ^ 48` bytes. -/
def Allocator.usual : Allocator := ⟨2 ^ 63 - 1, 2 ^ 63 - 1, fun _ size => decide (size ≤ 2 ^ 48)⟩

/-- The magic followed by a length field that declares `len` bytes. -/
def declaring (len : Nat) : Bytes := wireString narVersionMagic1 ++ u64le len

/-- A valid tree whose root directory holds `X~nix~case~hack` and
`x~nix~case~hack`: two names that differ only in case and end with the
case-hack marker less its last byte. -/
def overlapTree : Entry :=
  .directory [(lit "X~nix~case~hack", .symlink (lit "t")),
    (lit "x~nix~case~hack", .symlink (lit "u"))]

/-- The directory on disk after `overlapTree` was restored with the case hack
enabled: each child under the name the parser yields for it. -/
def overlapOnDisk : FsNode :=
  .directory 1 [(lit "X~nix~case~hack", .symlink 2 (lit "t")),
    (lit "x~nix~case~hack~nix~case~hack~1", .symlink 3 (lit "u"))]

/-! ## Lemmas -/

theorem ofNat_toNat_self (b : UInt8) : UInt8.ofNat b.toNat = b := by
  rcases b with ⟨v⟩
  simp [UInt8.ofNat, UInt8.toNat]

theorem toNat_ofNat (n : Nat) : (UInt8.ofNat n).toNat = n % 256 := rfl

theorem toNat_lt (b : UInt8) : b.toNat < 256 := UInt8.toNat_lt_size b

theorem u64le_length (n : Nat) : (u64le n).length = 8 := rfl

theorem readLittleEndian_u64le (n : Nat) : readLittleEndian (u64le n) = n % 2 ^ 64 := by
  simp only [u64le, readLittleEndian, List.foldr, toNat_ofNat]
  norm_num
  omega

theorem u64le_readLittleEndian (bs : Bytes) (h : bs.length = 8) :
    u64le (readLittleEndian bs) = bs := by
  match bs, h with
  | [b0, b1, b2, b3, b4, b5, b6, b7], _ =>
    have h0 := toNat_lt b0
    have h1 := toNat_lt b1
    have h2 := toNat_lt b2
    have h3 := toNat_lt b3
    have h4 := toNat_lt b4
    have h5 := toNat_lt b5
    have h6 := toNat_lt b6
    have h7 := toNat_lt b7
    simp only [u64le, readLittleEndian, List.foldr]
    conv_rhs => rw [← ofNat_toNat_self b0, ← ofNat_toNat_self b1,
      ← ofNat_toNat_self b2, ← ofNat_toNat_self b3, ← ofNat_toNat_self b4,
      ← ofNat_toNat_self b5, ← ofNat_toNat_self b6, ← ofNat_toNat_self b7]
    norm_num
    refine ⟨?_, ?_, ?_, ?_, ?_, ?_, ?_, ?_⟩ <;> congr 1 <;> omega

theorem readLittleEndian_lt (bs : Bytes) (h : bs.length = 8) : readLittleEndian bs < 2 ^ 64 := by
  match bs, h with
  | [b0, b1, b2, b3, b4, b5, b6, b7], _ =>
    have h0 := toNat_lt b0
    have h1 := toNat_lt b1
    have h2 := toNat_lt b2
    have h3 := toNat_lt b3
    have h4 := toNat_lt b4
    have h5 := toNat_lt b5
    have h6 := toNat_lt b6
    have h7 := toNat_lt b7
    simp only [readLittleEndian, List.foldr]
    omega

theorem Source.read_append (a b : Bytes) : Source.read a.length (a ++ b) = .ok (a, b) := by
  simp [Source.read]

theorem Source.read_ok {n : Nat} {src bs rest : Bytes}
    (h : Source.read n src = .ok (bs, rest)) : src = bs ++ rest ∧ bs.length = n := by
  unfold Source.read at h
  split at h
  · rename_i hle
    simp only [Except.ok.injEq, Prod.mk.injEq] at h
    obtain ⟨h1, h2⟩ := h
    subst h1 h2
    simp [List.length_take, hle]
  · simp at h

theorem Source.read_error {n : Nat} {src : Bytes} {e : NarError}
    (h : Source.read n src = .error e) : e = .EndOfFile ∧ src.length < n := by
  unfold Source.read at h
  split at h
  · simp at h
  · simp only [Except.error.injEq] at h
    exact ⟨h.symm, by omega⟩

theorem padding_length (n : Nat) : (padding n).length = (8 - n % 8) % 8 := by
  simp [padding]

theorem wireString_length (s : Bytes) :
    (wireString s).length = 8 + s.length + (8 - s.length % 8) % 8 := by
  simp [wireString, u64le_length, padding_length, Nat.add_assoc]

theorem readNum_u64le (n : Nat) (rest : Bytes) :
    readNum (u64le n ++ rest) = .ok (n % 2 ^ 64, rest) := by
  have h := Source.read_append (u64le n) rest
  rw [u64le_length] at h
  simp [readNum, h, readLittleEndian_u64le]

theorem readNum_ok {src rest : Bytes} {n : Nat} (h : readNum src = .ok (n, rest)) :
    src = u64le n ++ rest ∧ n < 2 ^ 64 := by
  unfold readNum at h
  split at h
  · simp at h
  · rename_i bs r hr
    simp only [Except.ok.injEq, Prod.mk.injEq] at h
    obtain ⟨h1, h2⟩ := h
    obtain ⟨h3, h4⟩ := Source.read_ok hr
    subst h1 h2
    exact ⟨by rw [u64le_readLittleEndian bs h4]; exact h3, readLittleEndian_lt bs h4⟩

theorem all_zero_iff (z : Bytes) : z.all (fun b => b == 0) = true ↔ z = List.replicate z.length 0 := by
  induction z with
  | nil => simp
  | cons a t ih =>
    simp only [List.all_cons, Bool.and_eq_true, beq_iff_eq, List.length_cons, List.replicate_succ,
      List.cons.injEq, ih]

theorem readPadding_padding (len : Nat) (rest : Bytes) :
    readPadding len (padding len ++ rest) = .ok ((), rest) := by
  unfold readPadding
  split
  · rename_i h
    have h8 : (8 - len % 8) % 8 = 8 - len % 8 := by omega
    have hr := Source.read_append (padding len) rest
    rw [padding_length, h8] at hr
    rw [hr]
    simp [padding]
  · rename_i h
    have h8 : (8 - len % 8) % 8 = 0 := by omega
    simp [padding, h8]

theorem readPadding_ok {len : Nat} {src rest : Bytes} (h : readPadding len src = .ok ((), rest)) :
    src = padding len ++ rest := by
  unfold readPadding at h
  split at h
  · rename_i hne
    split at h
    · simp at h
    · rename_i z r hr
      split at h
      · rename_i hz
        simp only [Except.ok.injEq, Prod.mk.injEq, true_and] at h
        subst h
        obtain ⟨h1, h2⟩ := Source.read_ok hr
        rw [all_zero_iff, h2] at hz
        have h8 : (8 - len % 8) % 8 = 8 - len % 8 := by omega
        rw [h1, padding, h8, ← hz]
      · simp at h
  · rename_i hne
    have h8 : (8 - len % 8) % 8 = 0 := by omega
    simp only [Except.ok.injEq, Prod.mk.injEq, true_and] at h
    simp [padding, h8, h]

theorem readString_wire (max : Nat) (s rest : Bytes) (h : s.length ≤ max)
    (h2 : s.length < 2 ^ 64) : readString max (wireString s ++ rest) = .ok (s, rest) := by
  unfold readString wireString
  rw [List.append_assoc, List.append_assoc, readNum_u64le, Nat.mod_eq_of_lt h2]
  simp only [gt_iff_lt, Nat.not_lt.mpr h, if_false, Source.read_append, readPadding_padding]

theorem readString_ok {max : Nat} {src s rest : Bytes} (h : readString max src = .ok (s, rest)) :
    src = wireString s ++ rest ∧ s.length ≤ max ∧ s.length < 2 ^ 64 := by
  unfold readString at h
  split at h
  · simp at h
  · rename_i len src1 hn
    split at h
    · simp at h
    · rename_i hmax
      split at h
      · simp at h
      · rename_i res src2 hr
        split at h
        · simp at h
        · rename_i u src3 hp
          simp only [Except.ok.injEq, Prod.mk.injEq] at h
          obtain ⟨h1, h2⟩ := h
          subst h1 h2
          obtain ⟨e1, l1⟩ := readNum_ok hn
          obtain ⟨e2, l2⟩ := Source.read_ok hr
          have e3 := readPadding_ok hp
          subst l2
          refine ⟨?_, by omega, l1⟩
          rw [e1, e2, e3, wireString]
          simp

theorem wantString_eq (len : Nat) (h : len + 7 < 2 ^ 64) :
    wantString len = len + (8 - len % 8) % 8 := by
  unfold wantString
  apply Nat.mod_eq_of_lt
  omega

theorem READ_STRING_wire (s rest : Bytes) (h : s.length + 7 < 2 ^ 64) :
    READ_STRING (wireString s ++ rest) = .ok (s, rest) := by
  have hlen : s.length < 2 ^ 64 := by omega
  have h1 : Source.read 8 (wireString s ++ rest)
      = .ok (u64le s.length, s ++ padding s.length ++ rest) := by
    have := Source.read_append (u64le s.length) (s ++ padding s.length ++ rest)
    rw [u64le_length] at this
    simpa [wireString] using this
  have h2 : readNum (u64le s.length) = .ok (s.length, []) := by
    have := readNum_u64le s.length []
    rw [Nat.mod_eq_of_lt hlen] at this
    simpa using this
  have h3 : Source.read (wantString s.length) (s ++ padding s.length ++ rest)
      = .ok (s ++ padding s.length, rest) := by
    have := Source.read_append (s ++ padding s.length) rest
    rw [List.length_append, padding_length] at this
    rw [wantString_eq _ h]
    exact this
  have h4 : readString (2 ^ 64 - 1) (u64le s.length ++ (s ++ padding s.length))
      = .ok (s, []) := by
    have := readString_wire (2 ^ 64 - 1) s [] (by omega) hlen
    simpa [wireString] using this
  simp only [READ_STRING, h1, h2, h3, h4]

theorem READ_STRING_ok {src s rest : Bytes} (h : READ_STRING src = .ok (s, rest)) :
    src = wireString s ++ rest := by
  unfold READ_STRING at h
  split at h
  · simp at h
  · rename_i buffer src1 hb
    split at h
    · simp at h
    · rename_i len r hn
      split at h
      · simp at h
      · rename_i more src2 hm
        split at h
        · simp at h
        · rename_i str left hs
          simp only [Except.ok.injEq, Prod.mk.injEq] at h
          obtain ⟨e1, e2⟩ := h
          subst e1 e2
          obtain ⟨b1, b2⟩ := Source.read_ok hb
          obtain ⟨m1, m2⟩ := Source.read_ok hm
          obtain ⟨s1, s2, s3⟩ := readString_ok hs
          obtain ⟨n1, n2⟩ := readNum_ok hn
          -- the length decoded from the buffer is the length of the string
          have hl : len = str.length := by
            have hh : (buffer ++ more).take 8 = buffer := by
              rw [List.take_append_of_le_length (by omega)]
              exact List.take_of_length_le (by omega)
            have h8 : (wireString str ++ left).take 8 = u64le str.length := by
              rw [wireString, List.append_assoc, List.append_assoc,
                List.take_append_of_le_length (by rw [u64le_length])]
              exact List.take_of_length_le (by rw [u64le_length])
            rw [s1, h8] at hh
            have hr : r = [] := by
              have := congrArg List.length n1
              rw [List.length_append, u64le_length] at this
              exact List.length_eq_zero.mp (by omega)
            rw [hr, List.append_nil] at n1
            have := congrArg readLittleEndian (hh.trans n1)
            rw [readLittleEndian_u64le, readLittleEndian_u64le, Nat.mod_eq_of_lt s3,
              Nat.mod_eq_of_lt n2] at this
            exact this.symm
          have hlen := congrArg List.length s1
          rw [List.length_append, List.length_append, wireString_length, b2, m2] at hlen
          have hw : wantString len ≤ len + (8 - len % 8) % 8 := by
            unfold wantString
            exact Nat.mod_le _ _
          have hleft : left = [] := List.length_eq_zero.mp (by omega)
          rw [hleft, List.append_nil] at s1
          rw [b1, m1, ← s1, List.append_assoc]

theorem EXPECT_wire (raw kind rest : Bytes) (h : raw.length + 7 < 2 ^ 64) :
    EXPECT raw kind (wireString raw ++ rest) = .ok rest := by
  simp [EXPECT, READ_STRING_wire raw rest h]

theorem EXPECT_ok {raw kind src rest : Bytes} (h : EXPECT raw kind src = .ok rest) :
    src = wireString raw ++ rest := by
  unfold EXPECT at h
  split at h
  · simp at h
  · rename_i s src1 hs
    split at h
    · simp at h
    · rename_i hne
      simp only [ne_eq, Decidable.not_not] at hne
      simp only [Except.ok.injEq] at h
      subst h hne
      exact READ_STRING_ok hs

theorem READ_U64_u64le (n : Nat) (rest : Bytes) :
    READ_U64 (u64le n ++ rest) = .ok (n % 2 ^ 64, rest) := by
  have h1 := Source.read_append (u64le n) rest
  rw [u64le_length] at h1
  have h2 := readNum_u64le n []
  rw [List.append_nil] at h2
  simp only [READ_U64, h1, h2]

theorem READ_U64_ok {src rest : Bytes} {n : Nat} (h : READ_U64 src = .ok (n, rest)) :
    src = u64le n ++ rest ∧ n < 2 ^ 64 := by
  unfold READ_U64 at h
  split at h
  · simp at h
  · rename_i buffer src1 hb
    split at h
    · simp at h
    · rename_i u r hn
      simp only [Except.ok.injEq, Prod.mk.injEq] at h
      obtain ⟨e1, e2⟩ := h
      subst e1 e2
      obtain ⟨b1, b2⟩ := Source.read_ok hb
      obtain ⟨n1, n2⟩ := readNum_ok hn
      have hr : r = [] := by
        have := congrArg List.length n1
        rw [List.length_append, u64le_length] at this
        exact List.length_eq_zero.mp (by omega)
      rw [hr, List.append_nil] at n1
      exact ⟨by rw [b1, n1], n2⟩

theorem READ_PADDING_padding (size : Nat) (rest : Bytes) :
    READ_PADDING size (padding size ++ rest) = .ok rest := by
  unfold READ_PADDING
  split
  · rename_i h
    have h8 : (8 - size % 8) % 8 = 8 - size % 8 := by omega
    have hr := Source.read_append (padding size) rest
    rw [padding_length, h8] at hr
    have hp := readPadding_padding size []
    rw [List.append_nil] at hp
    simp only [hr, hp]
  · rename_i h
    have h8 : (8 - size % 8) % 8 = 0 := by omega
    simp [padding, h8]

theorem READ_PADDING_ok {size : Nat} {src rest : Bytes} (h : READ_PADDING size src = .ok rest) :
    src = padding size ++ rest := by
  unfold READ_PADDING at h
  split at h
  · rename_i hne
    split at h
    · simp at h
    · rename_i buffer src1 hb
      split at h
      · simp at h
      · rename_i u hp
        simp only [Except.ok.injEq] at h
        subst h
        obtain ⟨b1, b2⟩ := Source.read_ok hb
        obtain ⟨⟨⟩, r⟩ := u
        have e := readPadding_ok hp
        have hr : r = [] := by
          have := congrArg List.length e
          rw [List.length_append, padding_length] at this
          exact List.length_eq_zero.mp (by omega)
        rw [hr, List.append_nil] at e
        rw [b1, e]
  · rename_i hne
    have h8 : (8 - size % 8) % 8 = 0 := by omega
    simp only [Except.ok.injEq] at h
    simp [padding, h8, h]

theorem READ_STRING_ok_length {src s rest : Bytes} (h : READ_STRING src = .ok (s, rest)) :
    s.length + 7 < 2 ^ 64 := by
  have hsrc := READ_STRING_ok h
  unfold READ_STRING at h
  split at h
  · simp at h
  · rename_i buffer src1 hb
    split at h
    · simp at h
    · rename_i len r hn
      split at h
      · simp at h
      · rename_i more src2 hm
        split at h
        · simp at h
        · rename_i str left hs
          simp only [Except.ok.injEq, Prod.mk.injEq] at h
          obtain ⟨e1, e2⟩ := h
          subst e1 e2
          obtain ⟨b1, b2⟩ := Source.read_ok hb
          obtain ⟨m1, m2⟩ := Source.read_ok hm
          obtain ⟨s1, s2, s3⟩ := readString_ok hs
          obtain ⟨n1, n2⟩ := readNum_ok hn
          have hr : r = [] := by
            have := congrArg List.length n1
            rw [List.length_append, u64le_length] at this
            exact List.length_eq_zero.mp (by omega)
          rw [hr, List.append_nil] at n1
          have hl : len = str.length := by
            have hh : (buffer ++ more).take 8 = buffer := by
              rw [List.take_append_of_le_length (by omega)]
              exact List.take_of_length_le (by omega)
            have h8 : (wireString str ++ left).take 8 = u64le str.length := by
              rw [wireString, List.append_assoc, List.append_assoc,
                List.take_append_of_le_length (by rw [u64le_length])]
              exact List.take_of_length_le (by rw [u64le_length])
            rw [s1, h8] at hh
            have := congrArg readLittleEndian (hh.trans n1)
            rw [readLittleEndian_u64le, readLittleEndian_u64le, Nat.mod_eq_of_lt s3,
              Nat.mod_eq_of_lt n2] at this
            exact this.symm
          have hlen := congrArg List.length s1
          rw [List.length_append, List.length_append, wireString_length, b2, m2] at hlen
          subst hl
          unfold wantString at hlen
          by_contra hcon
          have hge : 2 ^ 64 ≤ str.length + (8 - str.length % 8) % 8 := by omega
          have hlt : str.length + (8 - str.length % 8) % 8 < 2 ^ 64 + 8 := by omega
          have : (str.length + (8 - str.length % 8) % 8) % 2 ^ 64
              = str.length + (8 - str.length % 8) % 8 - 2 ^ 64 := by
            rw [Nat.mod_eq_sub_mod hge]
            exact Nat.mod_eq_of_lt (by omega)
          omega

theorem readContents_data : ∀ (fuel : Nat) (data rest : Bytes) (out : List Event),
    data.length ≤ fuel →
    readContents fuel data.length (data ++ rest) out
      = .ok data rest (out ++ contentBlocks fuel data) := by
  intro fuel
  induction fuel with
  | zero =>
    intro data rest out h
    have : data = [] := List.length_eq_zero.mp (by omega)
    subst this
    simp [readContents, contentBlocks]
  | succ fuel ih =>
    intro data rest out h
    by_cases hd : data = []
    · subst hd
      simp [readContents, contentBlocks]
    · have hl : data.length ≠ 0 := fun h0 => hd (List.length_eq_zero.mp h0)
      have hr : Source.read (min 65536 data.length) (data ++ rest)
          = .ok (data.take 65536, data.drop 65536 ++ rest) := by
        have := Source.read_append (data.take 65536) (data.drop 65536 ++ rest)
        rw [← List.append_assoc, List.take_append_drop, List.length_take] at this
        exact this
      have hlen : data.length - min 65536 data.length = (data.drop 65536).length := by
        rw [List.length_drop]; omega
      have hf : (data.drop 65536).length ≤ fuel := by
        rw [List.length_drop]; omega
      rw [readContents, if_neg hl, hr]
      simp only
      rw [hlen, ih _ _ _ hf, contentBlocks, if_neg hd]
      simp

theorem readFileHeader_wire (executable : Bool) (size : Nat) (rest : Bytes) :
    readFileHeader ((if executable then wireString (lit "executable") ++ wireString (lit "")
        else []) ++ (wireString (lit "contents") ++ (u64le size ++ rest)))
      = .ok ((executable, size % 2 ^ 64), rest) := by
  have hc : (lit "contents" == lit "executable") = false := by decide
  cases executable with
  | false =>
    simp only [Bool.false_eq_true, ↓reduceIte, List.nil_append, readFileHeader,
      READ_STRING_wire (lit "contents") _ (by decide), READ_U64_u64le, hc]
  | true =>
    simp only [↓reduceIte, List.append_assoc, readFileHeader,
      READ_STRING_wire (lit "executable") _ (by decide),
      READ_STRING_wire (lit "") _ (by decide),
      READ_STRING_wire (lit "contents") _ (by decide), READ_U64_u64le, beq_self_eq_true,
      ne_eq, not_true_eq_false]

theorem strictlyIncreasing_cons (a b : Bytes) (rest : List Bytes) :
    strictlyIncreasing (a :: b :: rest) = (strLt a b && strictlyIncreasing (b :: rest)) := by
  simp [strictlyIncreasing]

theorem isSome_find_iff (s needle : Bytes) : (find s needle).isSome = true ↔ needle <:+: s := by
  induction s with
  | nil =>
    simp only [find]
    split
    · rename_i h; subst h; simp
    · rename_i h; simp [h]
  | cons c s ih =>
    simp only [find]
    split
    · rename_i h
      simp only [Option.isSome_some, true_iff]
      exact (List.isPrefixOf_iff_prefix.mp h).isInfix
    · rename_i h
      have hm : (Option.map (fun pos => pos + 1) (find s needle)).isSome
          = (find s needle).isSome := by
        cases find s needle <;> rfl
      rw [hm, ih, List.infix_cons_iff]
      constructor
      · intro h1; exact Or.inr h1
      · rintro (h1 | h1)
        · exact absurd (List.isPrefixOf_iff_prefix.mpr h1) h
        · exact h1

theorem invalidFileName_eq (marker name : Bytes) :
    invalidFileName marker name = !validName marker name := by
  have h := isSome_find_iff name marker
  unfold invalidFileName validName
  by_cases hi : marker <:+: name
  · simp [hi, h.mpr hi]
  · have : (find name marker).isSome = false := by
      cases hs : (find name marker).isSome
      · rfl
      · exact absurd (h.mp hs) hi
    simp only [this, hi, decide_False, Bool.not_false, Bool.and_true, Bool.or_false]
    cases name <;> simp [List.isEmpty, bne]

theorem readEntryHeader_close (useCaseHack : Bool) (marker : Bytes) (names : List (Bytes × Nat))
    (prevName rest : Bytes) :
    readEntryHeader useCaseHack marker names prevName (wireString (lit ")") ++ rest)
      = .ok (none, rest) := by
  simp [readEntryHeader, READ_STRING_wire (lit ")") _ (by decide)]

theorem readEntryHeader_entry (useCaseHack : Bool) (marker : Bytes) (names : List (Bytes × Nat))
    (prevName name rest : Bytes) (hv : validName marker name = true)
    (hs : strLt prevName name = true) (hf : name.length + 7 < 2 ^ 64) :
    readEntryHeader useCaseHack marker names prevName
        (wireString (lit "entry") ++ (wireString (lit "(") ++ (wireString (lit "name")
          ++ (wireString name ++ (wireString (lit "node") ++ rest)))))
      = .ok (some (name, (applyCaseHack useCaseHack marker names name).1,
          (applyCaseHack useCaseHack marker names name).2), rest) := by
  simp only [readEntryHeader, READ_STRING_wire (lit "entry") _ (by decide),
    EXPECT_wire (lit "(") _ _ (by decide), EXPECT_wire (lit "name") _ _ (by decide),
    EXPECT_wire (lit "node") _ _ (by decide), READ_STRING_wire name _ hf,
    invalidFileName_eq, hv, strLe, hs,
    show (lit "entry" = lit ")") = False from eq_false (by decide),
    ↓reduceIte, ne_eq, not_true_eq_false, Bool.not_true, Bool.false_eq_true]

theorem parse_file (useCaseHack : Bool) (marker : Bytes) (executable : Bool) (contents : Bytes)
    (fuel : Nat) (name : Option Bytes) (rest : Bytes) (out : List Event)
    (hfit : contents.length < 2 ^ 64) :
    SyncParser.parse useCaseHack marker (fuel + 1) name
        (dump (.file executable contents.length contents) ++ rest) out
      = .ok (.file executable contents.length contents) rest
          (out ++ (Entry.file executable contents.length contents).events name) := by
  have hd : dump (.file executable contents.length contents) ++ rest
      = wireString (lit "(") ++ (wireString (lit "type") ++ (wireString (lit "regular")
        ++ ((if executable then wireString (lit "executable") ++ wireString (lit "") else [])
        ++ (wireString (lit "contents") ++ (u64le contents.length
        ++ (contents ++ (padding contents.length ++ (wireString (lit ")") ++ rest)))))))) := by
    simp only [dump, List.append_assoc]
  rw [hd, SyncParser.parse]
  simp only [EXPECT_wire (lit "(") _ _ (by decide), EXPECT_wire (lit "type") _ _ (by decide),
    READ_STRING_wire (lit "regular") _ (by decide), ↓reduceIte, readFileHeader_wire,
    Nat.mod_eq_of_lt hfit, readContents_data _ _ _ _ (Nat.le_refl _), READ_PADDING_padding,
    EXPECT_wire (lit ")") _ _ (by decide), Entry.events, List.append_assoc, List.singleton_append]

theorem parse_symlink (useCaseHack : Bool) (marker : Bytes) (target : Bytes)
    (fuel : Nat) (name : Option Bytes) (rest : Bytes) (out : List Event)
    (hfit : target.length + 7 < 2 ^ 64) :
    SyncParser.parse useCaseHack marker (fuel + 1) name (dump (.symlink target) ++ rest) out
      = .ok (.symlink target) rest (out ++ (Entry.symlink target).events name) := by
  have hd : dump (.symlink target) ++ rest
      = wireString (lit "(") ++ (wireString (lit "type") ++ (wireString (lit "symlink")
        ++ (wireString (lit "target") ++ (wireString target
        ++ (wireString (lit ")") ++ rest))))) := by
    simp only [dump, List.append_assoc]
  rw [hd, SyncParser.parse]
  simp only [EXPECT_wire (lit "(") _ _ (by decide), EXPECT_wire (lit "type") _ _ (by decide),
    READ_STRING_wire (lit "symlink") _ (by decide), ↓reduceIte,
    show (lit "symlink" = lit "regular") = False from eq_false (by decide),
    show (lit "symlink" = lit "directory") = False from eq_false (by decide),
    EXPECT_wire (lit "target") _ _ (by decide), READ_STRING_wire target _ hfit,
    EXPECT_wire (lit ")") _ _ (by decide), Entry.events]

theorem parse_directory_unfold (useCaseHack : Bool) (marker : Bytes)
    (fuel : Nat) (name : Option Bytes) (rest : Bytes) (out : List Event) :
    SyncParser.parse useCaseHack marker (fuel + 1) name
        (wireString (lit "(") ++ (wireString (lit "type") ++ (wireString (lit "directory")
          ++ rest))) out
      = match SyncParser.readDir useCaseHack marker fuel [] [] rest (out ++ [.directory name]) with
        | .outOfFuel => .outOfFuel
        | .fail e out1 => .fail e out1
        | .ok contents src4 out1 => .ok (.directory contents) src4 out1 := by
  rw [SyncParser.parse]
  simp only [EXPECT_wire (lit "(") _ _ (by decide), EXPECT_wire (lit "type") _ _ (by decide),
    READ_STRING_wire (lit "directory") _ (by decide), ↓reduceIte,
    show (lit "directory" = lit "regular") = False from eq_false (by decide)]

theorem strLt_nil_of_ne (name : Bytes) (h : name ≠ []) : strLt [] name = true := by
  cases name with
  | nil => exact absurd rfl h
  | cons a t => rfl

theorem validName_ne_nil {marker name : Bytes} (h : validName marker name = true) : name ≠ [] := by
  intro h0
  subst h0
  simp [validName] at h

theorem length_le_needOfChildren : ∀ (cs : List (Bytes × Entry)),
    cs.length + 1 ≤ needOfChildren cs
  | [] => by simp [needOfChildren]
  | (_, e) :: cs => by
    have := length_le_needOfChildren cs
    simp only [needOfChildren, List.length_cons]
    omega

theorem need_pos : ∀ (T : Entry), 1 ≤ T.need
  | .file _ _ _ => by simp [Entry.need]
  | .symlink _ => by simp [Entry.need]
  | .directory _ => by simp [Entry.need]

theorem strictlyIncreasing_nil_cons (marker : Bytes) (cs : List (Bytes × Entry))
    (hs : strictlyIncreasing (cs.map Prod.fst) = true) (hv : validChildren marker cs = true) :
    strictlyIncreasing ([] :: cs.map Prod.fst) = true := by
  cases cs with
  | nil => rfl
  | cons c cs =>
    obtain ⟨n, e⟩ := c
    simp only [validChildren, Bool.and_eq_true] at hv
    simp only [List.map_cons, strictlyIncreasing_cons, Bool.and_eq_true]
    exact ⟨strLt_nil_of_ne n (validName_ne_nil hv.1.1), hs⟩

mutual
theorem parse_dump (useCaseHack : Bool) (marker : Bytes) : ∀ (T : Entry) (fuel : Nat)
    (name : Option Bytes) (rest : Bytes) (out : List Event),
    T.valid marker = true → T.fits = true → T.need ≤ fuel →
    SyncParser.parse useCaseHack marker fuel name (dump T ++ rest) out
      = .ok (T.caseHacked useCaseHack marker) rest
          (out ++ (T.caseHacked useCaseHack marker).events name)
  | .file executable size contents, fuel, name, rest, out, hv, hf, hn => by
    simp only [Entry.valid, beq_iff_eq] at hv
    simp only [Entry.fits, decide_eq_true_eq] at hf
    simp only [Entry.need] at hn
    subst hv
    obtain ⟨f, rfl⟩ : ∃ f, fuel = f + 1 := ⟨fuel - 1, by omega⟩
    exact parse_file useCaseHack marker executable contents f name rest out hf
  | .symlink target, fuel, name, rest, out, _, hf, hn => by
    simp only [Entry.fits, decide_eq_true_eq] at hf
    simp only [Entry.need] at hn
    obtain ⟨f, rfl⟩ : ∃ f, fuel = f + 1 := ⟨fuel - 1, by omega⟩
    exact parse_symlink useCaseHack marker target f name rest out hf
  | .directory contents, fuel, name, rest, out, hv, hf, hn => by
    simp only [Entry.valid, Bool.and_eq_true] at hv
    simp only [Entry.fits] at hf
    simp only [Entry.need] at hn
    obtain ⟨f, rfl⟩ : ∃ f, fuel = f + 1 := ⟨fuel - 1, by omega⟩
    have hd : dump (.directory contents) ++ rest
        = wireString (lit "(") ++ (wireString (lit "type") ++ (wireString (lit "directory")
          ++ (dumpEntries contents ++ (wireString (lit ")") ++ rest)))) := by
      simp only [dump, List.append_assoc]
    have hs := strictlyIncreasing_nil_cons marker contents hv.1 hv.2
    have hl := length_le_needOfChildren contents
    obtain ⟨g, hg⟩ : ∃ g, f - contents.length = g + 1 := ⟨f - contents.length - 1, by omega⟩
    rw [hd, parse_directory_unfold,
      readDir_children useCaseHack marker contents f [] [] _ _ hs hv.2 hf (by omega), hg,
      SyncParser.readDir]
    simp only [readEntryHeader_close, Res.prepend, Entry.caseHacked, Entry.events,
      List.append_assoc, List.singleton_append, List.cons_append, List.nil_append,
      List.append_nil]
theorem readDir_children (useCaseHack : Bool) (marker : Bytes) : ∀ (cs : List (Bytes × Entry))
    (fuel : Nat) (names : List (Bytes × Nat)) (prevName tail : Bytes) (out : List Event),
    strictlyIncreasing (prevName :: cs.map Prod.fst) = true →
    validChildren marker cs = true → childrenFit cs = true → needOfChildren cs ≤ fuel + 1 →
    SyncParser.readDir useCaseHack marker fuel names prevName (dumpEntries cs ++ tail) out
      = (SyncParser.readDir useCaseHack marker (fuel - cs.length)
            (namesAfter useCaseHack marker names cs) (lastName prevName cs) tail
            (out ++ eventsOfChildren (caseHackedChildren useCaseHack marker names cs))).prepend
          (caseHackedChildren useCaseHack marker names cs)
  | [], fuel, names, prevName, tail, out, _, _, _, _ => by
    simp only [dumpEntries, List.nil_append, List.length_nil, Nat.sub_zero, namesAfter, lastName,
      caseHackedChildren, eventsOfChildren, List.append_nil]
    cases SyncParser.readDir useCaseHack marker fuel names prevName tail out <;> rfl
  | (n, e) :: cs, fuel, names, prevName, tail, out, hs, hv, hf, hn => by
    simp only [needOfChildren] at hn
    simp only [validChildren, Bool.and_eq_true] at hv
    simp only [childrenFit, Bool.and_eq_true, decide_eq_true_eq] at hf
    simp only [List.map_cons, strictlyIncreasing_cons, Bool.and_eq_true] at hs
    have hnp := need_pos e
    have hlp := length_le_needOfChildren cs
    obtain ⟨f, rfl⟩ : ∃ f, fuel = f + 1 := ⟨fuel - 1, by omega⟩
    have hd : dumpEntries ((n, e) :: cs) ++ tail
        = wireString (lit "entry") ++ (wireString (lit "(") ++ (wireString (lit "name")
          ++ (wireString n ++ (wireString (lit "node") ++ (dump e ++ (wireString (lit ")")
          ++ (dumpEntries cs ++ tail))))))) := by
      simp only [dumpEntries, List.append_assoc]
    have hsub : f + 1 - ((n, e) :: cs).length = f - cs.length := by
      simp only [List.length_cons]; omega
    rw [hd, SyncParser.readDir, hsub]
    simp only [readEntryHeader_entry useCaseHack marker names prevName n _ hv.1.1 hs.1 hf.1.1,
      parse_dump useCaseHack marker e f _ _ out hv.1.2 hf.1.2 (by omega),
      EXPECT_wire (lit ")") _ _ (by decide),
      readDir_children useCaseHack marker cs f _ n tail _ hs.2 hv.2 hf.2 (by omega),
      eventsOfChildren, caseHackedChildren, namesAfter, lastName, List.append_assoc]
    cases SyncParser.readDir useCaseHack marker (f - cs.length)
      (namesAfter useCaseHack marker (applyCaseHack useCaseHack marker names n).2 cs)
      (lastName n cs) tail
      (out ++ ((e.caseHacked useCaseHack marker).events
          (some (applyCaseHack useCaseHack marker names n).1)
        ++ eventsOfChildren (caseHackedChildren useCaseHack marker
          (applyCaseHack useCaseHack marker names n).2 cs))) <;> rfl
end

mutual
theorem caseHacked_false (marker : Bytes) : ∀ (T : Entry), T.caseHacked false marker = T
  | .file _ _ _ => rfl
  | .symlink _ => rfl
  | .directory cs => by
    simp only [Entry.caseHacked, caseHackedChildren_false marker [] cs]
theorem caseHackedChildren_false (marker : Bytes) : ∀ (names : List (Bytes × Nat))
    (cs : List (Bytes × Entry)), caseHackedChildren false marker names cs = cs
  | _, [] => rfl
  | names, (n, e) :: cs => by
    have h : applyCaseHack false marker names n = (n, names) := rfl
    simp only [caseHackedChildren, h, caseHacked_false marker e,
      caseHackedChildren_false marker names cs]
end

theorem wireString_length_pos (s : Bytes) : 8 ≤ (wireString s).length := by
  rw [wireString_length]; omega

mutual
theorem need_le_length : ∀ (T : Entry), T.need ≤ (dump T).length
  | .file executable size contents => by
    have := wireString_length_pos (lit "(")
    simp only [Entry.need, dump, List.length_append]
    omega
  | .symlink target => by
    have := wireString_length_pos (lit "(")
    simp only [Entry.need, dump, List.length_append]
    omega
  | .directory contents => by
    have h1 := wireString_length_pos (lit "(")
    have h2 := wireString_length_pos (lit ")")
    have := needOfChildren_le_length contents
    simp only [Entry.need, dump, List.length_append]
    omega
theorem needOfChildren_le_length : ∀ (cs : List (Bytes × Entry)),
    needOfChildren cs ≤ (dumpEntries cs).length + 1
  | [] => by simp [needOfChildren]
  | (n, e) :: cs => by
    have h1 := wireString_length_pos (lit "entry")
    have h2 := need_le_length e
    have h3 := needOfChildren_le_length cs
    simp only [needOfChildren, dumpEntries, List.length_append]
    omega
end

theorem readString_magic (rest : Bytes) :
    readString narVersionMagic1.length (wireString narVersionMagic1 ++ rest)
      = .ok (narVersionMagic1, rest) :=
  readString_wire _ _ _ (Nat.le_refl _) (by decide)

theorem parse_serialize_append (useCaseHack : Bool) (marker : Bytes) (T : Entry) (rest : Bytes)
    (hv : T.valid marker = true) (hf : T.fits = true) :
    nar.parse useCaseHack marker (serialize T ++ rest)
      = .ok [T.caseHacked useCaseHack marker] rest
          ((T.caseHacked useCaseHack marker).events none) := by
  have hp := parse_dump useCaseHack marker T ((dump T ++ rest).length + 1) none rest [] hv hf
    (by have := need_le_length T; rw [List.length_append]; omega)
  rw [List.nil_append] at hp
  simp only [nar.parse, serialize, List.append_assoc, readString_magic, ne_eq,
    not_true_eq_false, ↓reduceIte, hp]

theorem parse_serialize (marker : Bytes) (T : Entry) (hv : T.valid marker = true)
    (hf : T.fits = true) :
    nar.parse false marker (serialize T) = .ok [T] [] (T.events none) := by
  have h := parse_serialize_append false marker T [] hv hf
  rw [List.append_nil, caseHacked_false] at h
  exact h

theorem readContents_ok : ∀ (fuel left : Nat) (src : Bytes) (out : List Event)
    (data rest : Bytes) (out1 : List Event),
    readContents fuel left src out = .ok data rest out1 →
    src = data ++ rest ∧ data.length = left := by
  intro fuel
  induction fuel with
  | zero =>
    intro left src out data rest out1 h
    unfold readContents at h
    split at h
    · rename_i h0
      simp only [Res.ok.injEq] at h
      obtain ⟨h1, h2, _⟩ := h
      subst h1 h2 h0
      simp
    · simp at h
  | succ fuel ih =>
    intro left src out data rest out1 h
    unfold readContents at h
    split at h
    · rename_i h0
      simp only [Res.ok.injEq] at h
      obtain ⟨h1, h2, _⟩ := h
      subst h1 h2 h0
      simp
    · rename_i h0
      split at h
      · simp at h
      · rename_i buf src1 hr
        split at h
        · rename_i d r o hc
          simp only [Res.ok.injEq] at h
          obtain ⟨h1, h2, _⟩ := h
          subst h1 h2
          obtain ⟨e1, e2⟩ := Source.read_ok hr
          obtain ⟨e3, e4⟩ := ih _ _ _ _ _ _ hc
          refine ⟨by rw [e1, e3, List.append_assoc], ?_⟩
          rw [List.length_append, e2, e4]
          omega
        · simp at h
        · simp at h

theorem readFileHeader_ok {src rest : Bytes} {executable : Bool} {size : Nat}
    (h : readFileHeader src = .ok ((executable, size), rest)) :
    src = (if executable then wireString (lit "executable") ++ wireString (lit "") else [])
        ++ (wireString (lit "contents") ++ (u64le size ++ rest)) ∧ size < 2 ^ 64 := by
  unfold readFileHeader at h
  split at h
  · simp at h
  · rename_i cof src1 h1
    have e1 := READ_STRING_ok h1
    by_cases hx : (cof == lit "executable") = true
    · simp only [hx, ↓reduceIte] at h
      split at h
      · simp at h
      · rename_i cof2 src3 hnext
        split at hnext
        · simp at hnext
        · rename_i s src2 h2
          have e2 := READ_STRING_ok h2
          split at hnext
          · simp at hnext
          · rename_i hs
            simp only [ne_eq, Decidable.not_not] at hs
            have e3 := READ_STRING_ok hnext
            split at h
            · rename_i hc
              split at h
              · simp at h
              · rename_i sz src4 h4
                obtain ⟨e4, l4⟩ := READ_U64_ok h4
                simp only [Except.ok.injEq, Prod.mk.injEq] at h
                obtain ⟨⟨hx1, hx2⟩, hx3⟩ := h
                subst hx1 hx2 hx3 hc hs
                have hcof : cof = lit "executable" := by simpa using hx
                subst hcof
                refine ⟨?_, l4⟩
                simp only [↓reduceIte, List.append_assoc]
                rw [e1, e2, e3, e4]
            · simp at h
    · have hx0 : (cof == lit "executable") = false := by simpa using hx
      simp only [hx0, Bool.false_eq_true, ↓reduceIte] at h
      split at h
      · rename_i hc
        split at h
        · simp at h
        · rename_i sz src4 h4
          obtain ⟨e4, l4⟩ := READ_U64_ok h4
          simp only [Except.ok.injEq, Prod.mk.injEq] at h
          obtain ⟨⟨hx1, hx2⟩, hx3⟩ := h
          subst hx1 hx2 hx3 hc
          refine ⟨?_, l4⟩
          simp only [Bool.false_eq_true, ↓reduceIte, List.nil_append]
          rw [e1, e4]
      · simp at h

theorem readEntryHeader_none {useCaseHack : Bool} {marker : Bytes} {names : List (Bytes × Nat)}
    {prevName src rest : Bytes}
    (h : readEntryHeader useCaseHack marker names prevName src = .ok (none, rest)) :
    src = wireString (lit ")") ++ rest := by
  unfold readEntryHeader at h
  split at h
  · simp at h
  · rename_i s src1 h1
    have e1 := READ_STRING_ok h1
    split at h
    · rename_i hs
      simp only [Except.ok.injEq, Prod.mk.injEq, true_and] at h
      subst h hs
      exact e1
    · split at h
      · simp at h
      · split at h
        · simp at h
        · split at h
          · simp at h
          · split at h
            · simp at h
            · split at h
              · simp at h
              · split at h
                · simp at h
                · split at h
                  · simp at h
                  · simp at h

theorem readEntryHeader_some {useCaseHack : Bool} {marker : Bytes} {names names1 : List (Bytes × Nat)}
    {prevName src rest name yielded : Bytes}
    (h : readEntryHeader useCaseHack marker names prevName src
      = .ok (some (name, yielded, names1), rest)) :
    src = wireString (lit "entry") ++ (wireString (lit "(") ++ (wireString (lit "name")
        ++ (wireString name ++ (wireString (lit "node") ++ rest))))
      ∧ invalidFileName marker name = false ∧ strLe name prevName = false
      ∧ (yielded, names1) = applyCaseHack useCaseHack marker names name
      ∧ name.length + 7 < 2 ^ 64 := by
  unfold readEntryHeader at h
  split at h
  · simp at h
  · rename_i s src1 h1
    have e1 := READ_STRING_ok h1
    split at h
    · simp at h
    · split at h
      · simp at h
      · rename_i hs
        simp only [ne_eq, Decidable.not_not] at hs
        split at h
        · simp at h
        · rename_i src2 h2
          have e2 := EXPECT_ok h2
          split at h
          · simp at h
          · rename_i src3 h3
            have e3 := EXPECT_ok h3
            split at h
            · simp at h
            · rename_i nm src4 h4
              have e4 := READ_STRING_ok h4
              have l4 := READ_STRING_ok_length h4
              split at h
              · simp at h
              · rename_i hinv
                split at h
                · simp at h
                · rename_i hsort
                  split at h
                  · simp at h
                  · rename_i src5 h5
                    have e5 := EXPECT_ok h5
                    simp only [Except.ok.injEq, Prod.mk.injEq, Option.some.injEq] at h
                    obtain ⟨⟨hn, hy, hnm⟩, hr⟩ := h
                    subst hn hr hs
                    refine ⟨by rw [e1, e2, e3, e4, e5], by simpa using hinv, by simpa using hsort,
                      ?_, l4⟩
                    rw [← hy, ← hnm]

theorem strLe_eq_false {a b : Bytes} (h : strLe a b = false) : strLt b a = true := by
  simpa [strLe] using h

theorem strictlyIncreasing_tail {a : Bytes} {l : List Bytes}
    (h : strictlyIncreasing (a :: l) = true) : strictlyIncreasing l = true := by
  cases l with
  | nil => rfl
  | cons b t =>
    rw [strictlyIncreasing_cons, Bool.and_eq_true] at h
    exact h.2

theorem validName_of_invalidFileName {marker name : Bytes}
    (h : invalidFileName marker name = false) : validName marker name = true := by
  rw [invalidFileName_eq] at h
  simpa using h

theorem parse_ok_aux (marker : Bytes) : ∀ (fuel : Nat),
    (∀ (name : Option Bytes) (src : Bytes) (out : List Event) (T : Entry) (rest : Bytes)
        (out1 : List Event),
      SyncParser.parse false marker fuel name src out = .ok T rest out1 →
      src = dump T ++ rest ∧ T.valid marker = true ∧ T.fits = true)
    ∧ (∀ (names : List (Bytes × Nat)) (prevName src : Bytes) (out : List Event)
        (cs : List (Bytes × Entry)) (rest : Bytes) (out1 : List Event),
      SyncParser.readDir false marker fuel names prevName src out = .ok cs rest out1 →
      src = dumpEntries cs ++ (wireString (lit ")") ++ rest)
        ∧ strictlyIncreasing (prevName :: cs.map Prod.fst) = true
        ∧ validChildren marker cs = true ∧ childrenFit cs = true) := by
  intro fuel
  induction fuel with
  | zero =>
    constructor
    · intro name src out T rest out1 h
      simp [SyncParser.parse] at h
    · intro names prevName src out cs rest out1 h
      simp [SyncParser.readDir] at h
  | succ fuel ih =>
    obtain ⟨ihp, ihd⟩ := ih
    constructor
    · intro name src out T rest out1 h
      rw [SyncParser.parse] at h
      split at h
      · simp at h
      · rename_i src1 h1
        have e1 := EXPECT_ok h1
        split at h
        · simp at h
        · rename_i src2 h2
          have e2 := EXPECT_ok h2
          split at h
          · simp at h
          · rename_i t src3 h3
            have e3 := READ_STRING_ok h3
            split at h
            · rename_i ht
              split at h
              · simp at h
              · rename_i executable size src4 h4
                obtain ⟨e4, l4⟩ := readFileHeader_ok h4
                split at h
                · simp at h
                · simp at h
                · rename_i contents src5 o1 h5
                  obtain ⟨e5, l5⟩ := readContents_ok _ _ _ _ _ _ _ h5
                  split at h
                  · simp at h
                  · rename_i src6 h6
                    have e6 := READ_PADDING_ok h6
                    split at h
                    · simp at h
                    · rename_i src7 h7
                      have e7 := EXPECT_ok h7
                      simp only [Res.ok.injEq] at h
                      obtain ⟨hT, hr, _⟩ := h
                      subst hT hr ht
                      refine ⟨?_, by simp [Entry.valid, l5],
                        by simp only [Entry.fits, decide_eq_true_eq]; exact l4⟩
                      simp only [dump, List.append_assoc]
                      rw [e1, e2, e3, e4, e5, e6, e7]
            · split at h
              · rename_i ht
                split at h
                · simp at h
                · simp at h
                · rename_i contents src4 o1 h4
                  obtain ⟨e4, s4, v4, f4⟩ := ihd _ _ _ _ _ _ _ h4
                  simp only [Res.ok.injEq] at h
                  obtain ⟨hT, hr, _⟩ := h
                  subst hT hr ht
                  refine ⟨?_, ?_, by simpa [Entry.fits] using f4⟩
                  · simp only [dump, List.append_assoc]
                    rw [e1, e2, e3, e4]
                  · simp only [Entry.valid, Bool.and_eq_true]
                    exact ⟨strictlyIncreasing_tail s4, v4⟩
              · split at h
                · rename_i ht
                  split at h
                  · simp at h
                  · rename_i src4 h4
                    have e4 := EXPECT_ok h4
                    split at h
                    · simp at h
                    · rename_i target src5 h5
                      have e5 := READ_STRING_ok h5
                      have l5 := READ_STRING_ok_length h5
                      split at h
                      · simp at h
                      · rename_i src6 h6
                        have e6 := EXPECT_ok h6
                        simp only [Res.ok.injEq] at h
                        obtain ⟨hT, hr, _⟩ := h
                        subst hT hr ht
                        refine ⟨?_, by simp [Entry.valid], by simpa [Entry.fits] using l5⟩
                        simp only [dump, List.append_assoc]
                        rw [e1, e2, e3, e4, e5, e6]
                · simp at h
    · intro names prevName src out cs rest out1 h
      rw [SyncParser.readDir] at h
      split at h
      · simp at h
      · rename_i src1 h1
        have e1 := readEntryHeader_none h1
        simp only [Res.ok.injEq] at h
        obtain ⟨hc, hr, _⟩ := h
        subst hc hr
        exact ⟨by simp [dumpEntries, e1], by simp [strictlyIncreasing], by simp [validChildren],
          by simp [childrenFit]⟩
      · rename_i name yielded names1 src1 h1
        obtain ⟨e1, v1, s1, c1, l1⟩ := readEntryHeader_some h1
        simp only [applyCaseHack, Bool.false_eq_true, ↓reduceIte, Prod.mk.injEq] at c1
        obtain ⟨hy, hn⟩ := c1
        subst hy hn
        split at h
        · simp at h
        · simp at h
        · rename_i entry src2 o1 h2
          obtain ⟨e2, v2, f2⟩ := ihp _ _ _ _ _ _ h2
          split at h
          · simp at h
          · rename_i src3 h3
            have e3 := EXPECT_ok h3
            split at h
            · simp at h
            · simp at h
            · rename_i rest1 src4 o2 h4
              obtain ⟨e4, s4, v4, f4⟩ := ihd _ _ _ _ _ _ _ h4
              simp only [Res.ok.injEq] at h
              obtain ⟨hc, hr, _⟩ := h
              subst hc hr
              refine ⟨?_, ?_, ?_, ?_⟩
              · simp only [dumpEntries, List.append_assoc]
                rw [e1, e2, e3, e4]
              · simp only [List.map_cons, strictlyIncreasing_cons, Bool.and_eq_true]
                exact ⟨strLe_eq_false s1, s4⟩
              · simp only [validChildren, Bool.and_eq_true]
                exact ⟨⟨validName_of_invalidFileName v1, v2⟩, v4⟩
              · simp only [childrenFit, Bool.and_eq_true, decide_eq_true_eq]
                exact ⟨⟨l1, f2⟩, f4⟩

theorem nar_parse_magic (useCaseHack : Bool) (marker rest : Bytes) :
    nar.parse useCaseHack marker (wireString narVersionMagic1 ++ rest)
      = match SyncParser.parse useCaseHack marker (rest.length + 1) none rest [] with
        | .outOfFuel => .outOfFuel
        | .fail e out => .fail e out
        | .ok entry src2 out => .ok [entry] src2 out := by
  simp only [nar.parse, readString_magic, ne_eq, not_true_eq_false, ↓reduceIte]

theorem readPadding_error {len : Nat} {src : Bytes} {e : NarError}
    (h : readPadding len src = .error e) :
    e = .EndOfFile ∨ e = .SerialisationError (lit "non-zero padding") := by
  unfold readPadding at h
  split at h
  · split at h
    · rename_i e2 h2
      obtain ⟨h3, _⟩ := Source.read_error h2
      simp only [Except.error.injEq] at h
      subst h h3
      exact Or.inl rfl
    · split at h
      · simp at h
      · simp only [Except.error.injEq] at h
        exact Or.inr h.symm
  · simp at h

theorem readNum_error {src : Bytes} {e : NarError} (h : readNum src = .error e) :
    e = .EndOfFile := by
  unfold readNum at h
  split at h
  · rename_i e2 h2
    obtain ⟨h3, _⟩ := Source.read_error h2
    simp only [Except.error.injEq] at h
    subst h h3
    rfl
  · simp at h

theorem readString_error {max : Nat} {src : Bytes} {e : NarError}
    (h : readString max src = .error e) :
    e = .EndOfFile ∨ ∃ msg, e = .SerialisationError msg := by
  unfold readString at h
  split at h
  · rename_i e1 h1
    simp only [Except.error.injEq] at h
    subst h
    exact Or.inl (readNum_error h1)
  · split at h
    · simp only [Except.error.injEq] at h
      exact Or.inr ⟨_, h.symm⟩
    · split at h
      · rename_i e2 h2
        obtain ⟨h3, _⟩ := Source.read_error h2
        simp only [Except.error.injEq] at h
        subst h h3
        exact Or.inl rfl
      · split at h
        · rename_i e3 h3
          simp only [Except.error.injEq] at h
          subst h
          rcases readPadding_error h3 with h4 | h4
          · exact Or.inl h4
          · exact Or.inr ⟨_, h4⟩
        · simp at h

theorem nar_parse_no_magic (useCaseHack : Bool) (marker src : Bytes)
    (h : src.take 24 ≠ wireString narVersionMagic1) :
    (∃ e, nar.parse useCaseHack marker src = .fail e [])
      ∧ (readString narVersionMagic1.length src ≠ .error .EndOfFile →
          nar.parse useCaseHack marker src
            = .fail (badArchive (lit "input doesn't look like a Nix archive")) []) := by
  have hnil : ([] : Bytes) ≠ narVersionMagic1 := by decide
  cases hr : readString narVersionMagic1.length src with
  | error e =>
    rcases readString_error hr with he | ⟨msg, he⟩
    · subst he
      simp only [nar.parse, hr]
      exact ⟨⟨_, rfl⟩, fun hne => absurd rfl hne⟩
    · subst he
      have hp : nar.parse useCaseHack marker src
          = .fail (badArchive (lit "input doesn't look like a Nix archive")) [] := by
        simp only [nar.parse, hr, hnil, ne_eq, not_false_eq_true, ↓reduceIte]
      exact ⟨⟨_, hp⟩, fun _ => hp⟩
  | ok r =>
    obtain ⟨version, src1⟩ := r
    have hv : version ≠ narVersionMagic1 := by
      intro hv
      subst hv
      obtain ⟨e1, _, _⟩ := readString_ok hr
      apply h
      rw [e1, List.take_append_of_le_length (by decide)]
      exact List.take_of_length_le (by decide)
    have hp : nar.parse useCaseHack marker src
        = .fail (badArchive (lit "input doesn't look like a Nix archive")) [] := by
      simp only [nar.parse, hr, hv, ne_eq, not_false_eq_true, ↓reduceIte]
    exact ⟨⟨_, hp⟩, fun _ => hp⟩

theorem readPadding_no_eof (len : Nat) (src : Bytes) (h : 8 - len % 8 ≤ src.length) :
    readPadding len src ≠ .error .EndOfFile := by
  intro hr
  unfold readPadding at hr
  split at hr
  · have hrd : Source.read (8 - len % 8) src
        = .ok (src.take (8 - len % 8), src.drop (8 - len % 8)) := by
      simp only [Source.read]
      rw [if_pos h]
    rw [hrd] at hr
    simp only at hr
    split at hr
    · simp at hr
    · simp at hr
  · simp at hr

theorem readString_no_eof (max : Nat) (src : Bytes) (hmax : max ≤ 13) (h : 24 ≤ src.length) :
    readString max src ≠ .error .EndOfFile := by
  intro hr
  have h8 : Source.read 8 src = .ok (src.take 8, src.drop 8) := by
    simp only [Source.read]
    rw [if_pos (by omega)]
  unfold readString readNum at hr
  rw [h8] at hr
  simp only at hr
  split at hr
  · simp at hr
  · rename_i hlen
    have hl : readLittleEndian (src.take 8) ≤ (src.drop 8).length := by
      rw [List.length_drop]; omega
    have hrd : Source.read (readLittleEndian (src.take 8)) (src.drop 8)
        = .ok ((src.drop 8).take (readLittleEndian (src.take 8)),
            (src.drop 8).drop (readLittleEndian (src.take 8))) := by
      simp only [Source.read]
      rw [if_pos hl]
    rw [hrd] at hr
    simp only at hr
    split at hr
    · rename_i e he
      simp only [Except.error.injEq] at hr
      subst hr
      refine readPadding_no_eof _ _ ?_ he
      rw [List.length_drop, List.length_drop]
      omega
    · simp at hr

theorem nar_parse_ok {marker B rest : Bytes} {items : List Entry} {out : List Event}
    (h : nar.parse false marker B = .ok items rest out) :
    ∃ T, items = [T] ∧ B = serialize T ++ rest ∧ T.valid marker = true ∧ T.fits = true := by
  have hnil : ([] : Bytes) ≠ narVersionMagic1 := by decide
  cases hr : readString narVersionMagic1.length B with
  | error e =>
    cases e with
    | SerialisationError msg =>
      simp [nar.parse, hr, hnil] at h
    | Error msg => simp [nar.parse, hr] at h
    | EndOfFile => simp [nar.parse, hr] at h
  | ok r =>
    obtain ⟨version, src1⟩ := r
    simp only [nar.parse, hr] at h
    split at h
    · simp at h
    · rename_i hv
      simp only [ne_eq, Decidable.not_not] at hv
      subst hv
      obtain ⟨e1, _, _⟩ := readString_ok hr
      split at h
      · simp at h
      · simp at h
      · rename_i entry src2 o hp
        simp only [Res.ok.injEq] at h
        obtain ⟨h1, h2, _⟩ := h
        subst h1 h2
        obtain ⟨e2, v2, f2⟩ := (parse_ok_aux marker _).1 _ _ _ _ _ _ hp
        exact ⟨entry, rfl, by rw [e1, e2, serialize, List.append_assoc], v2, f2⟩

theorem copyNAR_of_parse_ok {marker B : Bytes} {items : List Entry} {out : List Event}
    (h : nar.parse false marker B = .ok items [] out) :
    copyNAR false marker B = .ok B [] out
      ∧ ∃ T, items = [T] ∧ B = serialize T ∧ T.valid marker = true ∧ T.fits = true := by
  obtain ⟨T, h1, h2, h3, h4⟩ := nar_parse_ok h
  rw [List.append_nil] at h2
  refine ⟨?_, T, h1, h2, h3, h4⟩
  simp only [copyNAR, h]
  subst h1
  simp [h2, serialize]

theorem dumpEntries_length_ge : ∀ (cs : List (Bytes × Entry)), cs.length ≤ (dumpEntries cs).length
  | [] => by simp
  | (n, e) :: cs => by
    have h1 := wireString_length_pos (lit "entry")
    have h2 := dumpEntries_length_ge cs
    simp only [dumpEntries, List.length_append, List.length_cons]
    omega

theorem Res.prepend_fail (cs : List (Bytes × Entry)) {r : Res (List (Bytes × Entry))}
    {e : NarError} {out : List Event} (h : r = .fail e out) : r.prepend cs = .fail e out := by
  subst h; rfl

/-- Reading a directory whose first children are the valid children `cs`: the
reader arrives at what follows them with its state advanced. -/
theorem parse_dirBytes (useCaseHack : Bool) (marker : Bytes) (cs : List (Bytes × Entry))
    (g : Nat) (name : Option Bytes) (tail : Bytes) (out : List Event)
    (hs : strictlyIncreasing (cs.map Prod.fst) = true) (hv : validChildren marker cs = true)
    (hf : childrenFit cs = true) (hg : (dirBytes cs ++ tail).length ≤ g) :
    SyncParser.parse useCaseHack marker (g + 1) name (dirBytes cs ++ tail) out
      = match (SyncParser.readDir useCaseHack marker (g - cs.length)
            (namesAfter useCaseHack marker [] cs) (lastName [] cs) tail
            (out ++ (.directory name
              :: eventsOfChildren (caseHackedChildren useCaseHack marker [] cs)))).prepend
            (caseHackedChildren useCaseHack marker [] cs) with
        | .outOfFuel => .outOfFuel
        | .fail e out1 => .fail e out1
        | .ok contents src4 out1 => .ok (.directory contents) src4 out1 := by
  have hd : dirBytes cs ++ tail = wireString (lit "(") ++ (wireString (lit "type")
      ++ (wireString (lit "directory") ++ (dumpEntries cs ++ tail))) := by
    simp only [dirBytes, List.append_assoc]
  have hn := needOfChildren_le_length cs
  have hlen : (dumpEntries cs).length + 24 ≤ g := by
    have h1 := wireString_length_pos (lit "(")
    have h2 := wireString_length_pos (lit "type")
    have h3 := wireString_length_pos (lit "directory")
    rw [hd] at hg
    simp only [List.length_append] at hg
    omega
  rw [hd, parse_directory_unfold,
    readDir_children useCaseHack marker cs g [] [] tail _
      (strictlyIncreasing_nil_cons marker cs hs hv) hv hf (by omega)]
  simp only [List.append_assoc, List.singleton_append]

theorem readDir_entryBytes_node (useCaseHack : Bool) (marker : Bytes) (g : Nat)
    (names : List (Bytes × Nat)) (prevName name tail : Bytes) (out : List Event)
    (hv : validName marker name = true) (hs : strLt prevName name = true)
    (hf : name.length + 7 < 2 ^ 64) :
    SyncParser.readDir useCaseHack marker (g + 1) names prevName
        (entryBytes name ++ (wireString (lit "node") ++ tail)) out
      = match SyncParser.parse useCaseHack marker g
            (some (applyCaseHack useCaseHack marker names name).1) tail out with
        | .outOfFuel => .outOfFuel
        | .fail e out1 => .fail e out1
        | .ok entry src2 out1 =>
            match EXPECT (lit ")") (lit "close") src2 with
            | .error e => .fail e out1
            | .ok src3 =>
                match SyncParser.readDir useCaseHack marker g
                    (applyCaseHack useCaseHack marker names name).2 name src3 out1 with
                | .outOfFuel => .outOfFuel
                | .fail e out2 => .fail e out2
                | .ok rest src4 out2 =>
                    .ok (((applyCaseHack useCaseHack marker names name).1, entry) :: rest)
                      src4 out2 := by
  have hd : entryBytes name ++ (wireString (lit "node") ++ tail)
      = wireString (lit "entry") ++ (wireString (lit "(") ++ (wireString (lit "name")
        ++ (wireString name ++ (wireString (lit "node") ++ tail)))) := by
    simp only [entryBytes, List.append_assoc]
  rw [hd, SyncParser.readDir]
  simp only [readEntryHeader_entry useCaseHack marker names prevName name _ hv hs hf]

/-- A failure of the node a path leads to is the failure of the whole parse, the
events of the path having been yielded before it. -/
theorem parse_path_fail (useCaseHack : Bool) (marker : Bytes) (X : Bytes) (e : NarError)
    (o : Option Bytes → List Event)
    (hX : ∀ (g : Nat) (name : Option Bytes) (out : List Event), X.length ≤ g →
      SyncParser.parse useCaseHack marker (g + 1) name X out = .fail e (out ++ o name)) :
    ∀ (fs : List Frame) (g : Nat) (name : Option Bytes) (out : List Event),
      pathValid marker fs = true → (pathBytes fs ++ X).length ≤ g →
      SyncParser.parse useCaseHack marker (g + 1) name (pathBytes fs ++ X) out
        = .fail e (out ++ (pathEvents useCaseHack marker name fs
            ++ o (holeName useCaseHack marker name fs)))
  | [], g, name, out, _, hg => by
    simp only [pathBytes, List.nil_append] at hg ⊢
    simp only [hX g name out hg, pathEvents, holeName, List.nil_append]
  | f :: fs, g, name, out, hv, hg => by
    obtain ⟨before, n⟩ := f
    simp only [pathValid, Bool.and_eq_true, decide_eq_true_eq] at hv
    obtain ⟨⟨⟨⟨⟨⟨h1, h2⟩, h3⟩, h4⟩, h5⟩, h6⟩, h7⟩ := hv
    have hb : pathBytes (⟨before, n⟩ :: fs) ++ X
        = dirBytes before ++ (entryBytes n ++ (wireString (lit "node") ++ (pathBytes fs ++ X))) := by
      simp only [pathBytes, List.append_assoc]
    rw [hb] at hg ⊢
    have hlen : before.length + 24 + 32 + 8 + (pathBytes fs ++ X).length ≤ g := by
      have l1 := wireString_length_pos (lit "(")
      have l2 := wireString_length_pos (lit "type")
      have l3 := wireString_length_pos (lit "directory")
      have l4 := wireString_length_pos (lit "entry")
      have l5 := wireString_length_pos (lit "name")
      have l6 := wireString_length_pos n
      have l7 := wireString_length_pos (lit "node")
      have l8 := dumpEntries_length_ge before
      simp only [dirBytes, entryBytes, List.length_append] at hg
      simp only [List.length_append]
      omega
    obtain ⟨g1, hg1⟩ : ∃ g1, g - before.length = g1 + 1 := ⟨g - before.length - 1, by omega⟩
    obtain ⟨g2, hg2⟩ : ∃ g2, g1 = g2 + 1 := ⟨g1 - 1, by omega⟩
    have ih := parse_path_fail useCaseHack marker X e o hX fs g2
      (some (yieldedName useCaseHack marker before n))
      (out ++ (.directory name
        :: eventsOfChildren (caseHackedChildren useCaseHack marker [] before))) h7 (by omega)
    rw [parse_dirBytes useCaseHack marker before g name _ out h1 h2 h3 hg, hg1,
      readDir_entryBytes_node useCaseHack marker g1 _ _ n _ _ h4 h6 h5, hg2]
    unfold yieldedName at ih
    rw [ih]
    simp only [Res.prepend, pathEvents, holeName, yieldedName, List.append_assoc,
      List.cons_append]

theorem readEntryHeader_name (useCaseHack : Bool) (marker : Bytes) (names : List (Bytes × Nat))
    (prevName name X : Bytes) (hf : name.length + 7 < 2 ^ 64) :
    readEntryHeader useCaseHack marker names prevName (entryBytes name ++ X)
      = if invalidFileName marker name then
          .error (.Error (lit "NAR contains invalid file name '" ++ name ++ lit "'"))
        else if strLe name prevName then
          .error (.Error (lit "NAR directory is not sorted"))
        else
          match EXPECT (lit "node") (lit "node") X with
          | .error e => .error e
          | .ok src5 =>
              .ok (some (name, (applyCaseHack useCaseHack marker names name).1,
                (applyCaseHack useCaseHack marker names name).2), src5) := by
  have hd : entryBytes name ++ X
      = wireString (lit "entry") ++ (wireString (lit "(") ++ (wireString (lit "name")
        ++ (wireString name ++ X))) := by
    simp only [entryBytes, List.append_assoc]
  rw [hd]
  simp only [readEntryHeader, READ_STRING_wire (lit "entry") _ (by decide),
    EXPECT_wire (lit "(") _ _ (by decide), EXPECT_wire (lit "name") _ _ (by decide),
    READ_STRING_wire name _ hf,
    show (lit "entry" = lit ")") = False from eq_false (by decide),
    ↓reduceIte, ne_eq, not_true_eq_false]

theorem readDir_invalid_name (useCaseHack : Bool) (marker : Bytes) (g : Nat)
    (names : List (Bytes × Nat)) (prevName name X : Bytes) (out : List Event)
    (hf : name.length + 7 < 2 ^ 64) (hv : validName marker name = false) :
    SyncParser.readDir useCaseHack marker (g + 1) names prevName (entryBytes name ++ X) out
      = .fail (.Error (lit "NAR contains invalid file name '" ++ name ++ lit "'")) out := by
  have hi : invalidFileName marker name = true := by rw [invalidFileName_eq, hv]; rfl
  rw [SyncParser.readDir, readEntryHeader_name _ _ _ _ _ _ hf]
  simp only [hi, ↓reduceIte]

theorem readDir_unsorted (useCaseHack : Bool) (marker : Bytes) (g : Nat)
    (names : List (Bytes × Nat)) (prevName name X : Bytes) (out : List Event)
    (hf : name.length + 7 < 2 ^ 64) (hv : validName marker name = true)
    (hs : strLe name prevName = true) :
    SyncParser.readDir useCaseHack marker (g + 1) names prevName (entryBytes name ++ X) out
      = .fail (.Error (lit "NAR directory is not sorted")) out := by
  have hi : invalidFileName marker name = false := by rw [invalidFileName_eq, hv]; rfl
  rw [SyncParser.readDir, readEntryHeader_name _ _ _ _ _ _ hf]
  simp only [hi, hs, ↓reduceIte, Bool.false_eq_true]

/-- A failure of the directory reader after the complete children `cs` of the
directory a path leads to is the failure of the whole parse. -/
theorem nar_parse_dir_fail (useCaseHack : Bool) (marker : Bytes) (fs : List Frame)
    (cs : List (Bytes × Entry)) (Y : Bytes) (e : NarError) (o : List Event)
    (hp : pathValid marker fs = true)
    (hs : strictlyIncreasing (cs.map Prod.fst) = true) (hv : validChildren marker cs = true)
    (hf : childrenFit cs = true)
    (hY : ∀ (g : Nat) (out : List Event), Y.length ≤ g →
      SyncParser.readDir useCaseHack marker (g + 1) (namesAfter useCaseHack marker [] cs)
        (lastName [] cs) Y out = .fail e (out ++ o)) :
    nar.parse useCaseHack marker (wireString narVersionMagic1 ++ (pathBytes fs ++ (dirBytes cs ++ Y)))
      = .fail e (pathEvents useCaseHack marker none fs
          ++ (.directory (holeName useCaseHack marker none fs)
            :: eventsOfChildren (caseHackedChildren useCaseHack marker [] cs) ++ o)) := by
  have hX : ∀ (g : Nat) (name : Option Bytes) (out : List Event), (dirBytes cs ++ Y).length ≤ g →
      SyncParser.parse useCaseHack marker (g + 1) name (dirBytes cs ++ Y) out
        = .fail e (out ++ (.directory name
            :: eventsOfChildren (caseHackedChildren useCaseHack marker [] cs) ++ o)) := by
    intro g name out hg
    have hlen : cs.length + 24 ≤ g := by
      have l1 := wireString_length_pos (lit "(")
      have l2 := wireString_length_pos (lit "type")
      have l3 := wireString_length_pos (lit "directory")
      have l4 := dumpEntries_length_ge cs
      simp only [dirBytes, List.length_append] at hg
      omega
    have hlenY : cs.length + 24 + Y.length ≤ g := by
      have l1 := wireString_length_pos (lit "(")
      have l2 := wireString_length_pos (lit "type")
      have l3 := wireString_length_pos (lit "directory")
      have l4 := dumpEntries_length_ge cs
      simp only [dirBytes, List.length_append] at hg
      omega
    obtain ⟨g1, hg1⟩ : ∃ g1, g - cs.length = g1 + 1 := ⟨g - cs.length - 1, by omega⟩
    rw [parse_dirBytes useCaseHack marker cs g name Y out hs hv hf hg, hg1,
      hY g1 _ (by omega)]
    simp only [Res.prepend, List.append_assoc, List.cons_append]
  rw [nar_parse_magic,
    parse_path_fail useCaseHack marker (dirBytes cs ++ Y) e _ hX fs _ none [] hp (Nat.le_refl _)]
  simp only [List.nil_append]

theorem strLe_nil_of_valid {marker name : Bytes} (h : validName marker name = true) :
    strLe name [] = false := by
  simp [strLe, strLt_nil_of_ne name (validName_ne_nil h)]

theorem validName_iff (marker name : Bytes) :
    validName marker name = true ↔
      ¬ (name = [] ∨ name = lit "." ∨ name = lit ".." ∨ chr '/' ∈ name ∨ (0 : UInt8) ∈ name
        ∨ marker <:+: name) := by
  simp only [validName, Bool.and_eq_true, bne_iff_ne, ne_eq, Bool.not_eq_true',
    decide_eq_false_iff_not, not_or, List.contains_eq_any_beq, List.any_eq_false, beq_iff_eq]
  constructor
  · rintro ⟨⟨⟨⟨⟨h1, h2⟩, h3⟩, h4⟩, h5⟩, h6⟩
    exact ⟨h1, h2, h3, fun hm => h4 _ hm rfl, fun hm => h5 _ hm rfl, h6⟩
  · rintro ⟨h1, h2, h3, h4, h5, h6⟩
    exact ⟨⟨⟨⟨⟨h1, h2⟩, h3⟩, fun x hx hxe => h4 (hxe ▸ hx)⟩, fun x hx hxe => h5 (hxe ▸ hx)⟩, h6⟩

theorem EXPECT_nil (raw kind : Bytes) : EXPECT raw kind [] = .error .EndOfFile := rfl

theorem readDir_child_then_eof (useCaseHack : Bool) (marker : Bytes) (g : Nat)
    (names : List (Bytes × Nat)) (prevName name : Bytes) (out : List Event)
    (hf : name.length + 7 < 2 ^ 64) (hv : validName marker name = true)
    (hs : strLt prevName name = true) (hg : 1 ≤ g) :
    SyncParser.readDir useCaseHack marker (g + 1) names prevName
        (entryBytes name ++ (wireString (lit "node") ++ dump (.symlink []))) out
      = .fail .EndOfFile
          (out ++ [.symlink (some (applyCaseHack useCaseHack marker names name).1) []]) := by
  obtain ⟨g1, rfl⟩ : ∃ g1, g = g1 + 1 := ⟨g - 1, by omega⟩
  have hp := parse_symlink useCaseHack marker [] g1
    (some (applyCaseHack useCaseHack marker names name).1) [] out (by decide)
  rw [List.append_nil] at hp
  rw [readDir_entryBytes_node useCaseHack marker _ names prevName name _ out hv hs hf, hp]
  simp only [EXPECT_nil, Entry.events]

/-- C1 (round trip). With the case hack disabled and for any marker, parsing the
archive `serialize T` of a valid tree `T` (file contents of exactly `size`
bytes, child names valid and strictly increasing; sizes and string lengths
being values of the C++ types) succeeds, consumes the whole input and yields
exactly the one root entry `T`, the consumer observing exactly the events of
`T`. -/
theorem C1_round_trip (marker : Bytes) (T : Entry) (hvalid : T.valid marker = true)
    (hfits : T.fits = true) :
    nar.parse false marker (serialize T) = .ok [T] [] (T.events none) :=
  parse_serialize marker T hvalid hfits

theorem C1_round_trip_witness :
    scenarioTree.valid caseHackSuffix = true ∧ scenarioTree.fits = true
      ∧ nar.parse false caseHackSuffix (serialize scenarioTree)
          = .ok [scenarioTree] [] (scenarioTree.events none) :=
  ⟨by decide, by decide, C1_round_trip caseHackSuffix scenarioTree (by decide) (by decide)⟩

/-- C2 (idempotent recoding). With the case hack disabled, if `nar::parse`
accepts the byte string `B` and consumes it in full, then draining `copyNAR`
over `B` yields exactly `B`; and `B` is the canonical archive `serialize T` of
the one valid tree `T` that was parsed. -/
theorem C2_recoding_identity (marker B : Bytes) (items : List Entry) (out : List Event)
    (h : nar.parse false marker B = .ok items [] out) :
    copyNAR false marker B = .ok B [] out
      ∧ ∃ T, items = [T] ∧ B = serialize T ∧ T.valid marker = true ∧ T.fits = true :=
  copyNAR_of_parse_ok h

set_option maxRecDepth 100000 in
theorem C2_recoding_identity_witness :
    nar.parse false caseHackSuffix (serialize (.symlink (lit "x")))
        = .ok [.symlink (lit "x")] [] [.symlink none (lit "x")]
      ∧ copyNAR false caseHackSuffix (serialize (.symlink (lit "x")))
          = .ok (serialize (.symlink (lit "x"))) [] [.symlink none (lit "x")] :=
  ⟨rfl, (C2_recoding_identity caseHackSuffix (serialize (.symlink (lit "x")))
    [.symlink (lit "x")] [.symlink none (lit "x")] rfl).1⟩

/-- C3 (scenario bytes). The archive of the scenario tree is exactly the magic
header, the listed wire strings, the integer 2 as 8 little-endian bytes, the
bytes `hi` and 6 zero bytes, the wire strings up to the contents of `run`, the
integer 0 as 8 bytes, and five closing wire strings. -/
theorem C3_scenario_bytes :
    serialize scenarioTree
      = wireString (lit "nix-archive-1")
        ++ wireString (lit "(") ++ wireString (lit "type") ++ wireString (lit "directory")
        ++ wireString (lit "entry") ++ wireString (lit "(") ++ wireString (lit "name")
        ++ wireString (lit "a.txt") ++ wireString (lit "node")
        ++ wireString (lit "(") ++ wireString (lit "type") ++ wireString (lit "regular")
        ++ wireString (lit "contents")
        ++ [2, 0, 0, 0, 0, 0, 0, 0]
        ++ lit "hi" ++ [0, 0, 0, 0, 0, 0]
        ++ wireString (lit ")") ++ wireString (lit ")")
        ++ wireString (lit "entry") ++ wireString (lit "(") ++ wireString (lit "name")
        ++ wireString (lit "bin") ++ wireString (lit "node")
        ++ wireString (lit "(") ++ wireString (lit "type") ++ wireString (lit "directory")
        ++ wireString (lit "entry") ++ wireString (lit "(") ++ wireString (lit "name")
        ++ wireString (lit "run") ++ wireString (lit "node")
        ++ wireString (lit "(") ++ wireString (lit "type") ++ wireString (lit "regular")
        ++ wireString (lit "executable") ++ wireString (lit "")
        ++ wireString (lit "contents")
        ++ [0, 0, 0, 0, 0, 0, 0, 0]
        ++ wireString (lit ")") ++ wireString (lit ")") ++ wireString (lit ")")
        ++ wireString (lit ")") ++ wireString (lit ")") := by
  have h2 : u64le 2 = [2, 0, 0, 0, 0, 0, 0, 0] := by decide
  have h0 : u64le 0 = [0, 0, 0, 0, 0, 0, 0, 0] := by decide
  have p2 : padding 2 = [0, 0, 0, 0, 0, 0] := by decide
  have p0 : padding 0 = [] := by decide
  simp only [serialize, scenarioTree, dump, dumpEntries, narVersionMagic1, h2, h0, p2, p0,
    List.append_assoc, Bool.false_eq_true, ↓reduceIte, List.nil_append, List.append_nil]

theorem u64le_toNat (n : Nat) :
    (u64le n).map UInt8.toNat = (List.range 8).map (fun i => n / 256 ^ i % 256) := by
  simp [u64le, List.range, List.range.loop, toNat_ofNat]

theorem dumpEntries_eq_flatten : ∀ (cs : List (Bytes × Entry)),
    dumpEntries cs
      = (cs.map (fun c => wireString (lit "entry") ++ wireString (lit "(")
          ++ wireString (lit "name") ++ wireString c.1 ++ wireString (lit "node")
          ++ dump c.2 ++ wireString (lit ")"))).flatten
  | [] => rfl
  | (n, e) :: cs => by
    simp only [dumpEntries, List.map_cons, List.flatten_cons, dumpEntries_eq_flatten cs]

/-- C4 (regular-file encoding and padding). For a file whose contents have
exactly `size` bytes, `dump` emits the wire strings `(`, `type`, `regular`, then
`executable` and the empty string exactly when the file is executable, then
`contents`, the size as 8 little-endian bytes, the contents, `(8 - size mod 8)
mod 8` zero bytes, and the wire string `)`, the contents with their padding
filling a multiple of 8 bytes. A wire string is the length as 8 little-endian
bytes, the bytes, and the zero padding. A file of size 5 gets 3 zero bytes and a
file of size 8 none. -/
theorem C4_file_encoding (executable : Bool) (size : Nat) (contents : Bytes)
    (h : contents.length = size) :
    dump (.file executable size contents)
        = wireString (lit "(") ++ wireString (lit "type") ++ wireString (lit "regular")
          ++ (if executable then wireString (lit "executable") ++ wireString (lit "") else [])
          ++ wireString (lit "contents") ++ u64le size ++ contents
          ++ List.replicate ((8 - size % 8) % 8) 0 ++ wireString (lit ")")
      ∧ (contents ++ List.replicate ((8 - size % 8) % 8) (0 : UInt8)).length % 8 = 0
      ∧ (∀ s : Bytes, wireString s
          = u64le s.length ++ s ++ List.replicate ((8 - s.length % 8) % 8) 0)
      ∧ (∀ n : Nat, (u64le n).map UInt8.toNat
          = (List.range 8).map (fun i => n / 256 ^ i % 256))
      ∧ (size = 5 → dump (.file executable size contents)
          = wireString (lit "(") ++ wireString (lit "type") ++ wireString (lit "regular")
            ++ (if executable then wireString (lit "executable") ++ wireString (lit "") else [])
            ++ wireString (lit "contents") ++ u64le 5 ++ contents ++ [0, 0, 0]
            ++ wireString (lit ")"))
      ∧ (size = 8 → dump (.file executable size contents)
          = wireString (lit "(") ++ wireString (lit "type") ++ wireString (lit "regular")
            ++ (if executable then wireString (lit "executable") ++ wireString (lit "") else [])
            ++ wireString (lit "contents") ++ u64le 8 ++ contents
            ++ wireString (lit ")")) := by
  refine ⟨rfl, ?_, fun _ => rfl, u64le_toNat, ?_, ?_⟩
  · rw [List.length_append, List.length_replicate, h]
    omega
  · intro h5
    subst h5
    rfl
  · intro h8
    subst h8
    simp [dump, padding]

theorem C4_file_encoding_witness :
    (lit "short").length = 5
      ∧ dump (.file true 5 (lit "short"))
        = wireString (lit "(") ++ wireString (lit "type") ++ wireString (lit "regular")
          ++ wireString (lit "executable") ++ wireString (lit "")
          ++ wireString (lit "contents") ++ u64le 5 ++ lit "short" ++ [0, 0, 0]
          ++ wireString (lit ")") :=
  ⟨by decide, (C4_file_encoding true 5 (lit "short") (by decide)).2.2.2.2.1 rfl⟩

/-- C5 (directory encoding). For every list of children, in whatever order and
under whatever names, `dump` of the directory is the wire strings `(`, `type`,
`directory`, then for each child in the order given the wire strings `entry`,
`(`, `name`, the wire string of its name, `node`, the encoding of the child and
the wire string `)`, and finally the wire string `)`. An empty directory is
just `(`, `type`, `directory`, `)`. -/
theorem C5_directory_encoding (contents : List (Bytes × Entry)) :
    dump (.directory contents)
        = wireString (lit "(") ++ wireString (lit "type") ++ wireString (lit "directory")
          ++ (contents.map (fun c => wireString (lit "entry") ++ wireString (lit "(")
              ++ wireString (lit "name") ++ wireString c.1 ++ wireString (lit "node")
              ++ dump c.2 ++ wireString (lit ")"))).flatten
          ++ wireString (lit ")")
      ∧ dump (.directory [])
        = wireString (lit "(") ++ wireString (lit "type") ++ wireString (lit "directory")
          ++ wireString (lit ")") := by
  refine ⟨?_, by simp [dump, dumpEntries]⟩
  rw [← dumpEntries_eq_flatten]
  rfl

/-- C6 (symlink encoding). For every target, the empty one included, `dump` of
the symlink is the wire strings `(`, `type`, `symlink`, `target`, then the
target unchanged as a wire string (its length as 8 little-endian bytes, its
bytes, zero bytes up to the next multiple of 8), and the wire string `)`. -/
theorem C6_symlink_encoding (target : Bytes) :
    dump (.symlink target)
        = wireString (lit "(") ++ wireString (lit "type") ++ wireString (lit "symlink")
          ++ wireString (lit "target")
          ++ (u64le target.length ++ target
            ++ List.replicate ((8 - target.length % 8) % 8) 0)
          ++ wireString (lit ")")
      ∧ (target ++ List.replicate ((8 - target.length % 8) % 8) (0 : UInt8)).length % 8 = 0
      ∧ (u64le target.length).map UInt8.toNat
          = (List.range 8).map (fun i => target.length / 256 ^ i % 256)
      ∧ dump (.symlink [])
        = wireString (lit "(") ++ wireString (lit "type") ++ wireString (lit "symlink")
          ++ wireString (lit "target") ++ [0, 0, 0, 0, 0, 0, 0, 0] ++ wireString (lit ")") := by
  refine ⟨rfl, ?_, u64le_toNat _, rfl⟩
  rw [List.length_append, List.length_replicate]
  omega

/-- C8 (magic mismatch). For every input that does not begin with the 24-byte
wire string of `nix-archive-1`, under either case-hack setting, `nar::parse`
fails without having yielded anything; unless reading the header ran out of
input the error is `bad archive: input doesn't look like a Nix archive`, and
the header read cannot run out of input when at least 24 bytes are there. -/
theorem C8_magic_mismatch (useCaseHack : Bool) (marker src : Bytes)
    (h : src.take 24 ≠ wireString (lit "nix-archive-1")) :
    (∃ e, nar.parse useCaseHack marker src = .fail e [])
      ∧ (readString narVersionMagic1.length src ≠ .error .EndOfFile →
          nar.parse useCaseHack marker src
            = .fail (.SerialisationError
                (lit "bad archive: input doesn't look like a Nix archive")) [])
      ∧ (24 ≤ src.length →
          nar.parse useCaseHack marker src
            = .fail (.SerialisationError
                (lit "bad archive: input doesn't look like a Nix archive")) []) := by
  have hb : badArchive (lit "input doesn't look like a Nix archive")
      = .SerialisationError (lit "bad archive: input doesn't look like a Nix archive") := by
    decide
  obtain ⟨h1, h2⟩ := nar_parse_no_magic useCaseHack marker src h
  rw [hb] at h2
  exact ⟨h1, h2, fun h24 => h2 (readString_no_eof _ _ (by decide) h24)⟩

theorem C8_magic_mismatch_witness :
    (wireString (lit "nix-archive-2") ++ dump (.symlink [])).take 24
        ≠ wireString (lit "nix-archive-1")
      ∧ nar.parse false caseHackSuffix (wireString (lit "nix-archive-2") ++ dump (.symlink []))
        = .fail (.SerialisationError
            (lit "bad archive: input doesn't look like a Nix archive")) [] :=
  ⟨by decide, (C8_magic_mismatch false caseHackSuffix
    (wireString (lit "nix-archive-2") ++ dump (.symlink [])) (by decide)).2.2 (by decide)⟩

/-- C9 (sorting enforcement). Take an archive that is well formed up to a
directory child: a valid path `fs` leads to a directory whose complete children
`cs` are valid, and the next child has a valid name `name` that is less than or
equal to the name before it. Whatever bytes `X` follow the name and under either
case-hack setting, the parse fails with `NAR directory is not sorted`, having
yielded only the directories of the path and the children before that name. A
listing of `b` then `a` is such a case, and the first child of a directory,
compared with the empty string, never fails the check. -/
theorem C9_sorting_enforcement (useCaseHack : Bool) (marker : Bytes) (fs : List Frame)
    (cs : List (Bytes × Entry)) (name X : Bytes)
    (hpath : pathValid marker fs = true)
    (hsorted : strictlyIncreasing (cs.map Prod.fst) = true)
    (hvalid : validChildren marker cs = true) (hfit : childrenFit cs = true)
    (hname : validName marker name = true) (hlen : name.length + 7 < 2 ^ 64)
    (hle : strLe name (lastName [] cs) = true) :
    nar.parse useCaseHack marker
        (wireString narVersionMagic1 ++ (pathBytes fs ++ (dirBytes cs ++ (entryBytes name ++ X))))
      = .fail (.Error (lit "NAR directory is not sorted"))
          (pathEvents useCaseHack marker none fs
            ++ (.directory (holeName useCaseHack marker none fs)
              :: eventsOfChildren (caseHackedChildren useCaseHack marker [] cs)))
    ∧ (∀ (e : Entry), e.valid caseHackSuffix = true → e.fits = true →
        nar.parse useCaseHack caseHackSuffix
            (wireString narVersionMagic1 ++ (dirBytes [(lit "b", e)] ++ (entryBytes (lit "a") ++ X)))
          = .fail (.Error (lit "NAR directory is not sorted"))
              (.directory none :: (e.caseHacked useCaseHack caseHackSuffix).events (some (lit "b"))))
    ∧ (∀ (first : Bytes), validName marker first = true → strLe first (lastName [] []) = false) := by
  refine ⟨?_, ?_, fun first h => strLe_nil_of_valid h⟩
  · have h := nar_parse_dir_fail useCaseHack marker fs cs (entryBytes name ++ X)
      (.Error (lit "NAR directory is not sorted")) [] hpath hsorted hvalid hfit
      (fun g out _ => by
        rw [List.append_nil]
        exact readDir_unsorted useCaseHack marker g _ _ name X out hlen hname hle)
    rw [List.append_nil] at h
    exact h
  · intro e hv hf
    have hv1 : validChildren caseHackSuffix [(lit "b", e)] = true := by
      simp only [validChildren, hv, Bool.and_true]
      decide
    have hf1 : childrenFit [(lit "b", e)] = true := by
      simp only [childrenFit, hf, Bool.and_true]
      decide
    have h := nar_parse_dir_fail useCaseHack caseHackSuffix [] [(lit "b", e)]
      (entryBytes (lit "a") ++ X) (.Error (lit "NAR directory is not sorted")) [] rfl rfl hv1 hf1
      (fun g out _ => by
        rw [List.append_nil]
        have hle : strLe (lit "a") (lastName [] [(lit "b", e)]) = true := by
          simp only [lastName]
          decide
        exact readDir_unsorted useCaseHack caseHackSuffix g _ _ (lit "a") X out (by decide)
          (by decide) hle)
    have hn : (applyCaseHack useCaseHack caseHackSuffix [] (lit "b")).1 = lit "b" := by
      cases useCaseHack <;> rfl
    simp only [pathBytes, pathEvents, holeName, List.nil_append, List.append_nil,
      caseHackedChildren, eventsOfChildren, hn] at h
    exact h

theorem C9_sorting_enforcement_witness :
    pathValid caseHackSuffix [⟨[], lit "d"⟩] = true
      ∧ strictlyIncreasing ([(lit "b", Entry.symlink (lit "x"))].map Prod.fst) = true
      ∧ validChildren caseHackSuffix [(lit "b", Entry.symlink (lit "x"))] = true
      ∧ childrenFit [(lit "b", Entry.symlink (lit "x"))] = true
      ∧ validName caseHackSuffix (lit "b") = true ∧ (lit "b").length + 7 < 2 ^ 64
      ∧ strLe (lit "b") (lastName [] [(lit "b", Entry.symlink (lit "x"))]) = true
      ∧ nar.parse true caseHackSuffix
          (wireString narVersionMagic1 ++ (pathBytes [⟨[], lit "d"⟩]
            ++ (dirBytes [(lit "b", Entry.symlink (lit "x"))] ++ (entryBytes (lit "b") ++ []))))
        = .fail (.Error (lit "NAR directory is not sorted"))
            (pathEvents true caseHackSuffix none [⟨[], lit "d"⟩]
              ++ (.directory (holeName true caseHackSuffix none [⟨[], lit "d"⟩])
                :: eventsOfChildren (caseHackedChildren true caseHackSuffix []
                    [(lit "b", Entry.symlink (lit "x"))]))) :=
  ⟨by decide, by decide, by decide, by decide, by decide, by decide, by decide,
    (C9_sorting_enforcement true caseHackSuffix [⟨[], lit "d"⟩]
      [(lit "b", Entry.symlink (lit "x"))] (lit "b") [] (by decide) (by decide) (by decide)
      (by decide) (by decide) (by decide) (by decide)).1⟩

/-- C10 (name validation). Take an archive that is well formed up to the name of
a directory child: a valid path `fs` leads to a directory whose complete
children `cs` are valid, and the name `name` of the next child follows. Under
either case-hack setting the parse fails at that name, whatever bytes follow it
and having yielded only the directories of the path and the children before it,
if and only if the name is empty, is `.` or `..`, contains `/`, a NUL byte or
the case-hack marker, or is not strictly greater than the name before it. The
error is `NAR contains invalid file name` in the first six cases and `NAR
directory is not sorted` in the last one alone. In particular the names
(empty), `.`, `..`, `a/b` and every name containing the marker are rejected. -/
theorem C10_name_validation (useCaseHack : Bool) (marker : Bytes) (fs : List Frame)
    (cs : List (Bytes × Entry)) (name : Bytes)
    (hpath : pathValid marker fs = true)
    (hsorted : strictlyIncreasing (cs.map Prod.fst) = true)
    (hvalid : validChildren marker cs = true) (hfit : childrenFit cs = true)
    (hlen : name.length + 7 < 2 ^ 64) :
    ((∃ e, ∀ X, nar.parse useCaseHack marker
          (wireString narVersionMagic1 ++ (pathBytes fs ++ (dirBytes cs ++ (entryBytes name ++ X))))
        = .fail e (pathEvents useCaseHack marker none fs
            ++ (.directory (holeName useCaseHack marker none fs)
              :: eventsOfChildren (caseHackedChildren useCaseHack marker [] cs))))
      ↔ (name = [] ∨ name = lit "." ∨ name = lit ".." ∨ chr '/' ∈ name ∨ (0 : UInt8) ∈ name
          ∨ marker <:+: name ∨ strLt (lastName [] cs) name = false))
    ∧ ((name = [] ∨ name = lit "." ∨ name = lit ".." ∨ chr '/' ∈ name ∨ (0 : UInt8) ∈ name
          ∨ marker <:+: name) →
        ∀ X, nar.parse useCaseHack marker
          (wireString narVersionMagic1 ++ (pathBytes fs ++ (dirBytes cs ++ (entryBytes name ++ X))))
        = .fail (.Error (lit "NAR contains invalid file name '" ++ name ++ lit "'"))
            (pathEvents useCaseHack marker none fs
              ++ (.directory (holeName useCaseHack marker none fs)
                :: eventsOfChildren (caseHackedChildren useCaseHack marker [] cs))))
    ∧ (name = lit "" ∨ name = lit "." ∨ name = lit ".." ∨ name = lit "a/b" ∨ marker <:+: name →
        ∀ X, nar.parse useCaseHack marker
          (wireString narVersionMagic1 ++ (pathBytes fs ++ (dirBytes cs ++ (entryBytes name ++ X))))
        = .fail (.Error (lit "NAR contains invalid file name '" ++ name ++ lit "'"))
            (pathEvents useCaseHack marker none fs
              ++ (.directory (holeName useCaseHack marker none fs)
                :: eventsOfChildren (caseHackedChildren useCaseHack marker [] cs)))) := by
  have hinv : validName marker name = false → ∀ X, nar.parse useCaseHack marker
        (wireString narVersionMagic1 ++ (pathBytes fs ++ (dirBytes cs ++ (entryBytes name ++ X))))
      = .fail (.Error (lit "NAR contains invalid file name '" ++ name ++ lit "'"))
          (pathEvents useCaseHack marker none fs
            ++ (.directory (holeName useCaseHack marker none fs)
              :: eventsOfChildren (caseHackedChildren useCaseHack marker [] cs))) := by
    intro hv X
    have h := nar_parse_dir_fail useCaseHack marker fs cs (entryBytes name ++ X)
      (.Error (lit "NAR contains invalid file name '" ++ name ++ lit "'")) []
      hpath hsorted hvalid hfit
      (fun g out _ => by
        rw [List.append_nil]
        exact readDir_invalid_name useCaseHack marker g _ _ name X out hlen hv)
    rw [List.append_nil] at h
    exact h
  have hbad : (name = [] ∨ name = lit "." ∨ name = lit ".." ∨ chr '/' ∈ name
      ∨ (0 : UInt8) ∈ name ∨ marker <:+: name) → validName marker name = false := by
    intro hb
    cases hv : validName marker name
    · rfl
    · exact absurd hb ((validName_iff marker name).mp hv)
  refine ⟨⟨?_, ?_⟩, fun hb => hinv (hbad hb), ?_⟩
  · -- a failure at the name, whatever follows, means the name is bad
    rintro ⟨e, he⟩
    by_contra hgood
    simp only [not_or] at hgood
    obtain ⟨g1, g2, g3, g4, g5, g6, g7⟩ := hgood
    have hv : validName marker name = true :=
      (validName_iff marker name).mpr (by simp only [not_or]; exact ⟨g1, g2, g3, g4, g5, g6⟩)
    have hs : strLt (lastName [] cs) name = true := by
      cases h : strLt (lastName [] cs) name
      · exact absurd h g7
      · rfl
    have h := nar_parse_dir_fail useCaseHack marker fs cs
      (entryBytes name ++ (wireString (lit "node") ++ dump (.symlink [])))
      .EndOfFile
      [.symlink (some (applyCaseHack useCaseHack marker
        (namesAfter useCaseHack marker [] cs) name).1) []]
      hpath hsorted hvalid hfit
      (fun g out hg => by
        have l1 := wireString_length_pos (lit "entry")
        refine readDir_child_then_eof useCaseHack marker g _ _ name out hlen hv hs ?_
        simp only [entryBytes, List.length_append] at hg
        omega)
    rw [he] at h
    simp only [Res.fail.injEq] at h
    have hl := congrArg List.length h.2
    simp only [List.length_append, List.length_cons, List.length_nil] at hl
    omega
  · -- a bad name fails, whatever follows
    intro hb
    by_cases hv : validName marker name = true
    · have hs : strLe name (lastName [] cs) = true := by
        rcases hb with h | h | h | h | h | h | h
        · exact absurd (Or.inl h) ((validName_iff marker name).mp hv)
        · exact absurd (Or.inr (Or.inl h)) ((validName_iff marker name).mp hv)
        · exact absurd (Or.inr (Or.inr (Or.inl h))) ((validName_iff marker name).mp hv)
        · exact absurd (Or.inr (Or.inr (Or.inr (Or.inl h)))) ((validName_iff marker name).mp hv)
        · exact absurd (Or.inr (Or.inr (Or.inr (Or.inr (Or.inl h)))))
            ((validName_iff marker name).mp hv)
        · exact absurd (Or.inr (Or.inr (Or.inr (Or.inr (Or.inr h)))))
            ((validName_iff marker name).mp hv)
        · simp [strLe, h]
      refine ⟨.Error (lit "NAR directory is not sorted"), fun X => ?_⟩
      have h := nar_parse_dir_fail useCaseHack marker fs cs (entryBytes name ++ X)
        (.Error (lit "NAR directory is not sorted")) [] hpath hsorted hvalid hfit
        (fun g out _ => by
          rw [List.append_nil]
          exact readDir_unsorted useCaseHack marker g _ _ name X out hlen hv hs)
      rw [List.append_nil] at h
      exact h
    · have hv0 : validName marker name = false := by
        cases h : validName marker name
        · rfl
        · exact absurd h hv
      exact ⟨_, hinv hv0⟩
  · intro hb
    refine hinv (hbad ?_)
    rcases hb with h | h | h | h | h
    · exact Or.inl h
    · exact Or.inr (Or.inl h)
    · exact Or.inr (Or.inr (Or.inl h))
    · subst h
      exact Or.inr (Or.inr (Or.inr (Or.inl (by decide))))
    · exact Or.inr (Or.inr (Or.inr (Or.inr (Or.inr h))))

theorem C10_name_validation_witness :
    pathValid caseHackSuffix [] = true
      ∧ strictlyIncreasing ([(lit "a", Entry.symlink (lit "x"))].map Prod.fst) = true
      ∧ validChildren caseHackSuffix [(lit "a", Entry.symlink (lit "x"))] = true
      ∧ childrenFit [(lit "a", Entry.symlink (lit "x"))] = true
      ∧ (lit "b/c").length + 7 < 2 ^ 64
      ∧ ∀ X, nar.parse true caseHackSuffix
          (wireString narVersionMagic1 ++ (pathBytes []
            ++ (dirBytes [(lit "a", Entry.symlink (lit "x"))] ++ (entryBytes (lit "b/c") ++ X))))
        = .fail (.Error (lit "NAR contains invalid file name '" ++ lit "b/c" ++ lit "'"))
            (pathEvents true caseHackSuffix none []
              ++ (.directory (holeName true caseHackSuffix none [])
                :: eventsOfChildren (caseHackedChildren true caseHackSuffix []
                    [(lit "a", Entry.symlink (lit "x"))]))) :=
  ⟨by decide, by decide, by decide, by decide, by decide,
    (C10_name_validation true caseHackSuffix [] [(lit "a", Entry.symlink (lit "x"))] (lit "b/c")
      (by decide) (by decide) (by decide) (by decide) (by decide)).2.1
      (Or.inr (Or.inr (Or.inr (Or.inl (by decide)))))⟩

theorem nar_parse_items {useCaseHack : Bool} {marker src rest : Bytes} {items : List Entry}
    {out : List Event} (h : nar.parse useCaseHack marker src = .ok items rest out) :
    ∃ root, items = [root] := by
  unfold nar.parse at h
  simp only at h
  split at h
  · simp at h
  · split at h
    · simp at h
    · split at h
      · simp at h
      · simp at h
      · rename_i entry src2 o hp
        simp only [Res.ok.injEq] at h
        exact ⟨entry, h.1.symm⟩

/-- C7 (magic header first). The wire string of `nix-archive-1` is the 24 bytes
13, seven zeros, the 13 ASCII bytes and three zeros. Whenever one of the
serializer entry points `dumpString`, `dumpPathAndGetMtime`,
`UnfilteredDump::dump`, `PrefilteredDump::dump` and `copyNAR` is drained to the
end, its bytes are this header followed by the encoding `dump root` of exactly
one root node; for `dumpString` the root is the non-executable file holding the
string. -/
theorem C7_magic_header_first :
    (wireString narVersionMagic1
        = [13, 0, 0, 0, 0, 0, 0, 0] ++ lit "nix-archive-1" ++ [0, 0, 0]
      ∧ (wireString narVersionMagic1).length = 24)
    ∧ (∀ s : Bytes, dumpString s = wireString narVersionMagic1 ++ dump (.file false s.length s))
    ∧ (∀ (useCaseHack : Bool) (marker path : Bytes) (fs : FsNode) (bytes : Bytes) (mtime : Int),
        dumpPathAndGetMtime useCaseHack marker path fs = .ok (bytes, mtime) →
        ∃ root, bytes = wireString narVersionMagic1 ++ dump root)
    ∧ (∀ (useCaseHack : Bool) (marker path : Bytes) (fs : FsNode) (bytes : Bytes),
        UnfilteredDump.dump useCaseHack marker path fs = .ok bytes →
        ∃ root, bytes = wireString narVersionMagic1 ++ dump root)
    ∧ (∀ (useCaseHack : Bool) (marker path : Bytes) (fs : FsNode)
        (prepared : PrefilteredDump.Entry) (bytes : Bytes),
        PrefilteredDump.dump useCaseHack marker path fs prepared = .ok bytes →
        ∃ root, bytes = wireString narVersionMagic1 ++ dump root)
    ∧ (∀ (useCaseHack : Bool) (marker source bytes rest : Bytes) (out : List Event),
        copyNAR useCaseHack marker source = .ok bytes rest out →
        ∃ root, bytes = wireString narVersionMagic1 ++ dump root) := by
  refine ⟨⟨by decide, by decide⟩, ?_, ?_, ?_, ?_, ?_⟩
  · intro s
    simp only [dumpString, dump, wireString, Bool.false_eq_true, ↓reduceIte, List.append_assoc,
      List.append_nil, List.nil_append]
  · intro useCaseHack marker path fs bytes mtime h
    unfold dumpPathAndGetMtime at h
    split at h
    · simp at h
    · rename_i i m _
      simp only [Except.ok.injEq, Prod.mk.injEq] at h
      exact ⟨i, h.1.symm⟩
  · intro useCaseHack marker path fs bytes h
    unfold UnfilteredDump.dump at h
    split at h
    · simp at h
    · rename_i i m _
      simp only [Except.ok.injEq] at h
      exact ⟨i, h.symm⟩
  · intro useCaseHack marker path fs prepared bytes h
    unfold PrefilteredDump.dump at h
    split at h
    · simp at h
    · rename_i i _
      simp only [Except.ok.injEq] at h
      exact ⟨i, h.symm⟩
  · intro useCaseHack marker source bytes rest out h
    unfold copyNAR at h
    split at h
    · simp at h
    · simp at h
    · rename_i items src o hp
      obtain ⟨root, hr⟩ := nar_parse_items hp
      subst hr
      simp only [Res.ok.injEq] at h
      refine ⟨root, ?_⟩
      rw [← h.1]
      simp

theorem C7_magic_header_first_witness :
    dumpPathAndGetMtime true caseHackSuffix (lit "/p") (.symlink 7 (lit "x"))
        = .ok (wireString narVersionMagic1 ++ dump (.symlink (lit "x")), 7)
      ∧ ∃ root, wireString narVersionMagic1 ++ dump (.symlink (lit "x"))
          = wireString narVersionMagic1 ++ dump root :=
  ⟨rfl, C7_magic_header_first.2.2.1 true caseHackSuffix (lit "/p") (.symlink 7 (lit "x")) _ 7 rfl⟩

theorem dumpString_eq (s : Bytes) : dumpString s = serialize (.file false s.length s) := by
  simp only [dumpString, serialize, dump, wireString, Bool.false_eq_true, ↓reduceIte,
    List.append_assoc, List.append_nil, List.nil_append]

/-- C13 (dumpString is the single-file serializer). For every byte string `s`
(its length being a `size_t` value), the bytes of `dumpString s` are the magic
header followed by `dump` of the non-executable file of size `|s|` with contents
`s`, and under either case-hack setting `nar::parse` over them yields exactly
that one file and consumes the whole input. -/
theorem C13_dumpString_single_file (useCaseHack : Bool) (marker s : Bytes)
    (hsize : s.length < 2 ^ 64) :
    dumpString s = wireString narVersionMagic1 ++ dump (.file false s.length s)
      ∧ nar.parse useCaseHack marker (dumpString s)
          = .ok [.file false s.length s] []
              (.file none false s.length :: contentBlocks s.length s) := by
  refine ⟨dumpString_eq s, ?_⟩
  have h := parse_serialize_append useCaseHack marker (.file false s.length s) []
    (by simp [Entry.valid]) (by simp only [Entry.fits, decide_eq_true_eq]; exact hsize)
  rw [List.append_nil] at h
  rw [dumpString_eq, h]
  simp only [Entry.caseHacked, Entry.events]

theorem C13_dumpString_single_file_witness :
    (lit "hello").length < 2 ^ 64
      ∧ nar.parse true caseHackSuffix (dumpString (lit "hello"))
          = .ok [.file false (lit "hello").length (lit "hello")] []
              (.file none false (lit "hello").length
                :: contentBlocks (lit "hello").length (lit "hello")) :=
  ⟨by decide, (C13_dumpString_single_file true caseHackSuffix (lit "hello") (by decide)).2⟩

/-- The closing token `)` of an archive without its last 4 bytes. -/
theorem READ_STRING_cut :
    READ_STRING ((wireString (lit ")")).take ((wireString (lit ")")).length - 4))
      = .error .EndOfFile := rfl

theorem take_append_sub (a b : Bytes) (n : Nat) (h : n ≤ b.length) :
    (a ++ b).take ((a ++ b).length - n) = a ++ b.take (b.length - n) := by
  rw [List.length_append, List.take_append_eq_append_take]
  have h1 : a.length + b.length - n - a.length = b.length - n := by omega
  rw [h1, List.take_of_length_le (by omega)]

theorem parse_file_tail (useCaseHack : Bool) (marker : Bytes) (executable : Bool)
    (contents : Bytes) (fuel : Nat) (name : Option Bytes) (tail : Bytes) (out : List Event)
    (hfit : contents.length < 2 ^ 64) :
    SyncParser.parse useCaseHack marker (fuel + 1) name
        (wireString (lit "(") ++ (wireString (lit "type") ++ (wireString (lit "regular")
          ++ ((if executable then wireString (lit "executable") ++ wireString (lit "") else [])
          ++ (wireString (lit "contents") ++ (u64le contents.length
          ++ (contents ++ (padding contents.length ++ tail)))))))) out
      = match EXPECT (lit ")") (lit "close") tail with
        | .error e =>
            .fail e (out ++ (Entry.file executable contents.length contents).events name)
        | .ok src7 =>
            .ok (.file executable contents.length contents) src7
              (out ++ (Entry.file executable contents.length contents).events name) := by
  rw [SyncParser.parse]
  simp only [EXPECT_wire (lit "(") _ _ (by decide), EXPECT_wire (lit "type") _ _ (by decide),
    READ_STRING_wire (lit "regular") _ (by decide), ↓reduceIte, readFileHeader_wire,
    Nat.mod_eq_of_lt hfit, readContents_data _ _ _ _ (Nat.le_refl _), READ_PADDING_padding,
    Entry.events, List.append_assoc, List.singleton_append]

theorem parse_symlink_tail (useCaseHack : Bool) (marker : Bytes) (target : Bytes)
    (fuel : Nat) (name : Option Bytes) (tail : Bytes) (out : List Event)
    (hfit : target.length + 7 < 2 ^ 64) :
    SyncParser.parse useCaseHack marker (fuel + 1) name
        (wireString (lit "(") ++ (wireString (lit "type") ++ (wireString (lit "symlink")
          ++ (wireString (lit "target") ++ (wireString target ++ tail))))) out
      = match EXPECT (lit ")") (lit "close") tail with
        | .error e => .fail e (out ++ [.symlink name target])
        | .ok src6 => .ok (.symlink target) src6 (out ++ [.symlink name target]) := by
  rw [SyncParser.parse]
  simp only [EXPECT_wire (lit "(") _ _ (by decide), EXPECT_wire (lit "type") _ _ (by decide),
    READ_STRING_wire (lit "symlink") _ (by decide), ↓reduceIte,
    show (lit "symlink" = lit "regular") = False from eq_false (by decide),
    show (lit "symlink" = lit "directory") = False from eq_false (by decide),
    EXPECT_wire (lit "target") _ _ (by decide), READ_STRING_wire target _ hfit]

/-- Parsing a valid node whose closing token lacks its last 4 bytes runs out of
input. -/
theorem parse_cut (useCaseHack : Bool) (marker : Bytes) (T : Entry) (g : Nat)
    (name : Option Bytes) (out : List Event)
    (hv : T.valid marker = true) (hf : T.fits = true) (hg : (dump T).length ≤ g + 4) :
    ∃ o t, SyncParser.parse useCaseHack marker (g + 1) name
        ((dump T).take ((dump T).length - 4)) out = .fail .EndOfFile (out ++ o)
      ∧ (T.caseHacked useCaseHack marker).events name = o ++ t := by
  have hc : EXPECT (lit ")") (lit "close")
      ((wireString (lit ")")).take ((wireString (lit ")")).length - 4))
      = .error .EndOfFile := rfl
  cases T with
  | file executable size contents =>
    simp only [Entry.valid, beq_iff_eq] at hv
    simp only [Entry.fits, decide_eq_true_eq] at hf
    subst hv
    have hd : dump (.file executable contents.length contents)
        = (wireString (lit "(") ++ (wireString (lit "type") ++ (wireString (lit "regular")
          ++ ((if executable then wireString (lit "executable") ++ wireString (lit "") else [])
          ++ (wireString (lit "contents") ++ (u64le contents.length
          ++ (contents ++ padding contents.length))))))) ++ wireString (lit ")") := by
      simp only [dump, List.append_assoc]
    rw [hd, take_append_sub _ _ 4 (by decide)]
    simp only [List.append_assoc]
    rw [parse_file_tail useCaseHack marker executable contents g name _ out hf, hc]
    exact ⟨_, [], rfl, by simp only [Entry.caseHacked, List.append_nil]⟩
  | symlink target =>
    simp only [Entry.fits, decide_eq_true_eq] at hf
    have hd : dump (.symlink target)
        = (wireString (lit "(") ++ (wireString (lit "type") ++ (wireString (lit "symlink")
          ++ (wireString (lit "target") ++ wireString target)))) ++ wireString (lit ")") := by
      simp only [dump, List.append_assoc]
    rw [hd, take_append_sub _ _ 4 (by decide)]
    simp only [List.append_assoc]
    rw [parse_symlink_tail useCaseHack marker target g name _ out hf, hc]
    exact ⟨_, [], rfl, by simp only [Entry.caseHacked, Entry.events, List.append_nil]⟩
  | directory cs =>
    simp only [Entry.valid, Bool.and_eq_true] at hv
    simp only [Entry.fits] at hf
    have hd : dump (.directory cs) = dirBytes cs ++ wireString (lit ")") := by
      simp only [dump, dirBytes, List.append_assoc]
    have h16 : (wireString (lit ")")).length = 16 := by decide
    have hlen : (dirBytes cs).length + 12 ≤ g := by
      rw [hd, List.length_append] at hg
      omega
    have hcs : cs.length + 24 ≤ (dirBytes cs).length := by
      have l1 := wireString_length_pos (lit "(")
      have l2 := wireString_length_pos (lit "type")
      have l3 := wireString_length_pos (lit "directory")
      have l4 := dumpEntries_length_ge cs
      simp only [dirBytes, List.length_append]
      omega
    obtain ⟨g1, hg1⟩ : ∃ g1, g - cs.length = g1 + 1 := ⟨g - cs.length - 1, by omega⟩
    rw [hd, take_append_sub _ _ 4 (by decide),
      parse_dirBytes useCaseHack marker cs g name _ out hv.1 hv.2 hf
        (by rw [List.length_append, List.length_take]; omega),
      hg1, SyncParser.readDir]
    simp only [readEntryHeader, READ_STRING_cut, Res.prepend]
    exact ⟨_, [.leave], rfl, by simp only [Entry.caseHacked, Entry.events, List.cons_append]⟩

/-- C11 (truncation). For every valid archive `B = serialize T`, under either
case-hack setting, draining `nar::parse` over `B` without its final 4 bytes
fails, with the end-of-file error of the source: it does not complete
successfully. What was yielded before the failure is an initial part of the
events of `T`, so every file was delivered with the blocks of its full
contents and none was cut short. -/
theorem C11_truncation (useCaseHack : Bool) (marker : Bytes) (T : Entry)
    (hvalid : T.valid marker = true) (hfits : T.fits = true) :
    ∃ out t, nar.parse useCaseHack marker ((serialize T).take ((serialize T).length - 4))
        = .fail .EndOfFile out
      ∧ (T.caseHacked useCaseHack marker).events none = out ++ t := by
  have h4 : 4 ≤ (dump T).length := by
    cases T with
    | file executable size contents =>
      have := wireString_length_pos (lit "(")
      simp only [dump, List.length_append]; omega
    | symlink target =>
      have := wireString_length_pos (lit "(")
      simp only [dump, List.length_append]; omega
    | directory cs =>
      have := wireString_length_pos (lit "(")
      simp only [dump, List.length_append]; omega
  rw [serialize, take_append_sub _ _ 4 h4, nar_parse_magic]
  obtain ⟨o, t, ho, ht⟩ := parse_cut useCaseHack marker T
    (((dump T).take ((dump T).length - 4)).length) none [] hvalid hfits
    (by rw [List.length_take]; omega)
  rw [ho]
  exact ⟨o, t, rfl, ht⟩

theorem C11_truncation_witness :
    scenarioTree.valid caseHackSuffix = true ∧ scenarioTree.fits = true
      ∧ ∃ out t, nar.parse false caseHackSuffix
            ((serialize scenarioTree).take ((serialize scenarioTree).length - 4))
          = .fail .EndOfFile out
        ∧ (scenarioTree.caseHacked false caseHackSuffix).events none = out ++ t :=
  ⟨by decide, by decide, C11_truncation false caseHackSuffix scenarioTree (by decide) (by decide)⟩

theorem wantString_le (len : Nat) : wantString len ≤ 2 ^ 64 - 8 := by
  unfold wantString
  have h8 : (len + (8 - len % 8) % 8) % 8 = 0 := by omega
  have hm : (len + (8 - len % 8) % 8) % 2 ^ 64 % 8 = 0 := by
    rw [Nat.mod_mod_of_dvd _ (by norm_num : 8 ∣ 2 ^ 64)]
    exact h8
  have hlt : (len + (8 - len % 8) % 8) % 2 ^ 64 < 2 ^ 64 := Nat.mod_lt _ (by norm_num)
  omega

theorem READ_STRING_wants_of_ok {src s rest : Bytes} (h : READ_STRING src = .ok (s, rest)) :
    READ_STRING.wants src = [8, wantString s.length]
      ∧ src.length = 8 + wantString s.length + rest.length := by
  have hsrc := READ_STRING_ok h
  have hlen := READ_STRING_ok_length h
  have h1 : Source.read 8 src = .ok (u64le s.length, s ++ padding s.length ++ rest) := by
    have := Source.read_append (u64le s.length) (s ++ padding s.length ++ rest)
    rw [u64le_length] at this
    rw [hsrc]
    simpa [wireString] using this
  have h2 : readNum (u64le s.length) = .ok (s.length, []) := by
    have := readNum_u64le s.length []
    rw [Nat.mod_eq_of_lt (by omega)] at this
    simpa using this
  refine ⟨by simp only [READ_STRING.wants, h1, h2], ?_⟩
  rw [hsrc, List.length_append, wireString_length, wantString_eq _ hlen]
  omega

/-- C19 (parser byte requests, amended). For every declared string length `L`
with `L <= 2 ^ 64 - 8`, the request after the length field is exactly `L + (8 -
L mod 8) mod 8` bytes: a multiple of 8, at least `L` and less than `L + 8`.
Whenever `READ_STRING` returns a string, its requests were 8 bytes and then
that number for the length of the string, and exactly these bytes were taken
from the source. An integer field is requested as exactly 8 bytes, and file
padding as exactly `8 - size mod 8` bytes when `size mod 8` is not zero, with no
request otherwise. -/
theorem C19_byte_requests (L : Nat) (hL : L ≤ 2 ^ 64 - 8) :
    (wantString L = L + (8 - L % 8) % 8 ∧ wantString L % 8 = 0 ∧ L ≤ wantString L
        ∧ wantString L < L + 8)
      ∧ (∀ src s rest, READ_STRING src = .ok (s, rest) →
          READ_STRING.wants src = [8, wantString s.length]
            ∧ wantString s.length = s.length + (8 - s.length % 8) % 8
            ∧ src.length = 8 + wantString s.length + rest.length)
      ∧ READ_U64.wants = [8]
      ∧ (∀ src u rest, READ_U64 src = .ok (u, rest) → src.length = 8 + rest.length)
      ∧ (∀ size, size % 8 ≠ 0 → READ_PADDING.wants size = [8 - size % 8])
      ∧ (∀ size, size % 8 = 0 → READ_PADDING.wants size = [])
      ∧ (∀ size src rest, READ_PADDING size src = .ok rest →
          src.length = (8 - size % 8) % 8 + rest.length) := by
  have hw := wantString_eq L (by omega)
  refine ⟨⟨hw, by omega, by omega, by omega⟩, ?_, rfl, ?_, ?_, ?_, ?_⟩
  · intro src s rest h
    obtain ⟨h1, h2⟩ := READ_STRING_wants_of_ok h
    exact ⟨h1, wantString_eq _ (READ_STRING_ok_length h), h2⟩
  · intro src u rest h
    obtain ⟨h1, _⟩ := READ_U64_ok h
    rw [h1, List.length_append, u64le_length]
  · intro size hs
    simp only [READ_PADDING.wants, hs, ne_eq, not_false_eq_true, ↓reduceIte]
  · intro size hs
    simp [READ_PADDING.wants, hs]
  · intro size src rest h
    have h1 := READ_PADDING_ok h
    rw [h1, List.length_append, padding_length]

theorem C19_byte_requests_witness :
    5 ≤ 2 ^ 64 - 8 ∧ wantString 5 = 8 :=
  ⟨by decide, (C19_byte_requests 5 (by decide)).1.1⟩

/-- C19, as stated, fails: a source whose length field is eight bytes `0xff`
declares `L = 2 ^ 64 - 1`; the sum `L + (8 - L mod 8) mod 8` is `2 ^ 64` as a
natural number, but the `size_t` request is 0 bytes, fewer than `L`. -/
theorem C19_wrap_counterexample :
    readNum hugeLength = .ok (2 ^ 64 - 1, [])
      ∧ READ_STRING.wants hugeLength = [8, 0]
      ∧ (2 ^ 64 - 1) + (8 - (2 ^ 64 - 1) % 8) % 8 = 2 ^ 64
      ∧ wantString (2 ^ 64 - 1) ≠ (2 ^ 64 - 1) + (8 - (2 ^ 64 - 1) % 8) % 8
      ∧ wantString (2 ^ 64 - 1) < 2 ^ 64 - 1 := by
  refine ⟨rfl, by decide, by decide, by decide, by decide⟩

theorem copyNAR_serialize (useCaseHack : Bool) (marker : Bytes) (T : Entry)
    (hv : T.valid marker = true) (hf : T.fits = true) :
    copyNAR useCaseHack marker (serialize T)
      = .ok (serialize (T.caseHacked useCaseHack marker)) []
          ((T.caseHacked useCaseHack marker).events none) := by
  have h := parse_serialize_append useCaseHack marker T [] hv hf
  rw [List.append_nil] at h
  unfold copyNAR
  rw [h]
  simp only [serialize, List.map_cons, List.map_nil, List.flatten_cons,
    List.flatten_nil, List.append_nil]

theorem caseHacked_colliding :
    caseCollidingTree.caseHacked true caseHackSuffix
      = .directory [(lit "A", .symlink (lit "x")),
          (lit "a~nix~case~hack~1", .symlink (lit "y"))] := by
  rfl

/-- C18 at the failing input. With the case hack enabled, `copyNAR` over the
valid archive of a directory holding `A` and `a` succeeds and emits the archive
of a directory holding `A` and `a~nix~case~hack~1`: the second entry name in
the bytes produced contains the case-hack marker, and `nar::parse` itself
rejects these bytes for it. With the case hack disabled the same input is
copied unchanged. -/
theorem C18_copyNAR_emits_marker :
    caseCollidingTree.valid caseHackSuffix = true
      ∧ copyNAR true caseHackSuffix (serialize caseCollidingTree)
        = .ok (serialize (.directory [(lit "A", .symlink (lit "x")),
              (lit "a~nix~case~hack~1", .symlink (lit "y"))])) []
            [.directory none, .symlink (some (lit "A")) (lit "x"),
              .symlink (some (lit "a~nix~case~hack~1")) (lit "y"), .leave]
      ∧ caseHackSuffix <:+: lit "a~nix~case~hack~1"
      ∧ nar.parse false caseHackSuffix
          (serialize (.directory [(lit "A", .symlink (lit "x")),
            (lit "a~nix~case~hack~1", .symlink (lit "y"))]))
        = .fail (.Error (lit "NAR contains invalid file name 'a~nix~case~hack~1'"))
            [.directory none, .symlink (some (lit "A")) (lit "x")]
      ∧ copyNAR false caseHackSuffix (serialize caseCollidingTree)
        = .ok (serialize caseCollidingTree) []
            [.directory none, .symlink (some (lit "A")) (lit "x"),
              .symlink (some (lit "a")) (lit "y"), .leave] := by
  refine ⟨by decide, ?_, by decide, ?_, ?_⟩
  · rw [copyNAR_serialize true caseHackSuffix caseCollidingTree (by decide) (by decide),
      caseHacked_colliding]
    rfl
  · have hv1 : validChildren caseHackSuffix [(lit "A", Entry.symlink (lit "x"))] = true := by
      decide
    have hf1 : childrenFit [(lit "A", Entry.symlink (lit "x"))] = true := by decide
    have h := nar_parse_dir_fail false caseHackSuffix [] [(lit "A", .symlink (lit "x"))]
      (entryBytes (lit "a~nix~case~hack~1") ++ (wireString (lit "node")
        ++ (dump (.symlink (lit "y")) ++ (wireString (lit ")") ++ wireString (lit ")")))))
      (.Error (lit "NAR contains invalid file name '" ++ lit "a~nix~case~hack~1" ++ lit "'"))
      [] rfl rfl hv1 hf1
      (fun g out _ => by
        rw [List.append_nil]
        exact readDir_invalid_name false caseHackSuffix g _ _ (lit "a~nix~case~hack~1") _ out
          (by decide) (by decide))
    have hb : serialize (.directory [(lit "A", .symlink (lit "x")),
          (lit "a~nix~case~hack~1", .symlink (lit "y"))])
        = wireString narVersionMagic1 ++ (pathBytes []
          ++ (dirBytes [(lit "A", .symlink (lit "x"))] ++ (entryBytes (lit "a~nix~case~hack~1")
            ++ (wireString (lit "node") ++ (dump (.symlink (lit "y"))
            ++ (wireString (lit ")") ++ wireString (lit ")"))))))) := by
      simp only [serialize, dump, dumpEntries, dirBytes, entryBytes, pathBytes,
        List.append_assoc, List.nil_append, List.append_nil]
    rw [hb, h]
    rfl
  · rw [copyNAR_serialize false caseHackSuffix caseCollidingTree (by decide) (by decide),
      caseHacked_false]
    rfl

theorem restoreEvents_append (a b : List Event) : ∀ (st : RestoreState),
    restoreEvents st (a ++ b) = restoreEvents st a ++ restoreEvents (restoreState st a) b := by
  induction a with
  | nil => intro st; simp [restoreEvents, restoreState]
  | cons ev a ih =>
    intro st
    rw [List.cons_append]
    simp only [restoreEvents, restoreState, ih, List.append_assoc]

theorem restoreState_append (a b : List Event) : ∀ (st : RestoreState),
    restoreState st (a ++ b) = restoreState (restoreState st a) b := by
  induction a with
  | nil => intro st; simp [restoreState]
  | cons ev a ih =>
    intro st
    rw [List.cons_append]
    simp only [restoreState, ih]

theorem contentBlocks_nil : ∀ (fuel : Nat), contentBlocks fuel [] = []
  | 0 => rfl
  | fuel + 1 => by simp [contentBlocks]

theorem contentChunks_flatten : ∀ (fuel : Nat) (data : Bytes), data.length ≤ fuel →
    (contentChunks fuel data).flatten = data
  | 0, data, h => by
    have : data = [] := List.length_eq_zero.mp (by omega)
    subst this
    rfl
  | fuel + 1, data, h => by
    by_cases hd : data = []
    · subst hd
      simp [contentChunks]
    · have hl : data.length ≠ 0 := fun h0 => hd (List.length_eq_zero.mp h0)
      have hf : (data.drop 65536).length ≤ fuel := by
        rw [List.length_drop]; omega
      simp only [contentChunks, hd, ↓reduceIte, List.flatten_cons,
        contentChunks_flatten fuel _ hf, List.take_append_drop]

/-- The blocks of a file of `left` bytes, seen by `restore` with the handle
open: every block is handed to `receiveContents`, and `close` follows the last
one. -/
theorem restore_blocks (sink : List Bytes) (path : Bytes) : ∀ (fuel : Nat) (data : Bytes),
    data ≠ [] → data.length ≤ fuel →
    restoreEvents ⟨sink, some (path, data.length)⟩ (contentBlocks fuel data)
        = (contentChunks fuel data).map (.receiveContents sink path) ++ [.close sink path]
      ∧ restoreState ⟨sink, some (path, data.length)⟩ (contentBlocks fuel data) = ⟨sink, none⟩
  | 0, data, hd, h => by
    exact absurd (List.length_eq_zero.mp (by omega)) hd
  | fuel + 1, data, hd, h => by
    have hl : data.length ≠ 0 := fun h0 => hd (List.length_eq_zero.mp h0)
    have htake : (data.take 65536).length = min 65536 data.length := List.length_take _ _
    have hdrop : (data.drop 65536).length = data.length - 65536 := List.length_drop _ _
    by_cases hrest : data.drop 65536 = []
    · have hz : data.length - (data.take 65536).length = 0 := by
        have := congrArg List.length hrest
        simp only [List.length_nil] at this
        omega
      cases fuel with
      | zero =>
        simp only [contentBlocks, contentChunks, hd, ↓reduceIte, restoreEvents, restoreState,
          restoreStep, hz, List.map_cons, List.map_nil, List.append_nil, List.cons_append,
          List.nil_append, and_self]
      | succ fuel =>
        simp only [contentBlocks, contentChunks, hd, hrest, ↓reduceIte, restoreEvents,
          restoreState, restoreStep, hz, List.map_cons, List.map_nil, List.append_nil,
          List.cons_append, List.nil_append, and_self]
    · have hnz : ¬ (data.length - (data.take 65536).length = 0) := by
        intro h0
        apply hrest
        apply List.length_eq_zero.mp
        omega
      have hlen : data.length - (data.take 65536).length = (data.drop 65536).length := by
        omega
      have hnz2 : ¬ ((data.drop 65536).length = 0) := by omega
      have hf : (data.drop 65536).length ≤ fuel := by omega
      obtain ⟨ih1, ih2⟩ := restore_blocks sink path fuel (data.drop 65536) hrest hf
      simp only [contentBlocks, contentChunks, hd, ↓reduceIte, restoreEvents, restoreState,
        restoreStep, hlen, hnz2, ih1, ih2, List.map_cons, List.cons_append, List.nil_append,
        List.singleton_append, and_self]

theorem contentBlocks_eq_nil (fuel : Nat) (data : Bytes) (h : data = []) :
    contentBlocks fuel data = [] := by
  subst h; exact contentBlocks_nil fuel

mutual
/-- Draining a complete entry: `restore` as it reacts to the events of the tree
makes the calls of `restore` on the drained tree, and is back where it was. -/
theorem restoreEvents_events : ∀ (T : Entry) (sink : List Bytes) (name : Option Bytes),
    T.sized = true →
    restoreEvents ⟨sink, none⟩ (T.events name) = restore sink T (name.getD [])
      ∧ restoreState ⟨sink, none⟩ (T.events name) = ⟨sink, none⟩
  | .file executable size contents, sink, name, hs => by
    simp only [Entry.sized, beq_iff_eq] at hs
    subst hs
    by_cases hd : contents = []
    · subst hd
      simp [Entry.events, restore, restoreEvents, restoreState, restoreStep, contentBlocks,
        contentChunks]
    · have hl : contents.length ≠ 0 := fun h0 => hd (List.length_eq_zero.mp h0)
      obtain ⟨h1, h2⟩ := restore_blocks sink (name.getD []) contents.length contents hd
        (Nat.le_refl _)
      simp only [Entry.events, restore, restoreEvents, restoreState, restoreStep, hl,
        ↓reduceIte, h1, h2, List.singleton_append, and_self]
  | .symlink target, sink, name, _ => by
    simp [Entry.events, restore, restoreEvents, restoreState, restoreStep]
  | .directory cs, sink, name, hs => by
    simp only [Entry.sized] at hs
    obtain ⟨h1, h2⟩ := restoreEvents_children cs (sink ++ [name.getD []]) hs
    have e1 : Entry.events name (.directory cs)
        = [.directory name] ++ (eventsOfChildren cs ++ [.leave]) := by
      simp [Entry.events]
    rw [e1, restoreEvents_append, restoreState_append, restoreEvents_append,
      restoreState_append]
    simp only [restore, restoreEvents, restoreState, restoreStep, h1, h2,
      List.singleton_append, List.append_nil, List.dropLast_concat, and_self]
theorem restoreEvents_children : ∀ (cs : List (Bytes × Entry)) (dir : List Bytes),
    childrenSized cs = true →
    restoreEvents ⟨dir, none⟩ (eventsOfChildren cs) = restoreEach dir cs
      ∧ restoreState ⟨dir, none⟩ (eventsOfChildren cs) = ⟨dir, none⟩
  | [], dir, _ => by
    simp [eventsOfChildren, restoreEach, restoreEvents, restoreState]
  | (n, e) :: cs, dir, hs => by
    simp only [childrenSized, Bool.and_eq_true] at hs
    obtain ⟨h1, h2⟩ := restoreEvents_events e dir (some n) hs.1
    obtain ⟨h3, h4⟩ := restoreEvents_children cs dir hs.2
    simp only [Option.getD_some] at h1
    simp only [eventsOfChildren, restoreEach, restoreEvents_append, restoreState_append,
      h1, h2, h3, h4, and_self]
end

mutual
theorem sized_of_valid (marker : Bytes) : ∀ (T : Entry), T.valid marker = true → T.sized = true
  | .file _ _ _, h => by simpa [Entry.valid, Entry.sized] using h
  | .symlink _, _ => rfl
  | .directory cs, h => by
    simp only [Entry.valid, Bool.and_eq_true] at h
    simp only [Entry.sized]
    exact childrenSized_of_valid marker cs h.2
theorem childrenSized_of_valid (marker : Bytes) : ∀ (cs : List (Bytes × Entry)),
    validChildren marker cs = true → childrenSized cs = true
  | [], _ => rfl
  | (n, e) :: cs, h => by
    simp only [validChildren, Bool.and_eq_true] at h
    simp only [childrenSized, Bool.and_eq_true]
    exact ⟨sized_of_valid marker e h.1.2, childrenSized_of_valid marker cs h.2⟩
end

mutual
theorem sized_caseHacked (useCaseHack : Bool) (marker : Bytes) : ∀ (T : Entry),
    T.sized = true → (T.caseHacked useCaseHack marker).sized = true
  | .file _ _ _, h => h
  | .symlink _, _ => rfl
  | .directory cs, h => by
    simp only [Entry.sized] at h
    simp only [Entry.caseHacked, Entry.sized]
    exact childrenSized_caseHacked useCaseHack marker cs [] h
theorem childrenSized_caseHacked (useCaseHack : Bool) (marker : Bytes) :
    ∀ (cs : List (Bytes × Entry)) (names : List (Bytes × Nat)),
    childrenSized cs = true →
    childrenSized (caseHackedChildren useCaseHack marker names cs) = true
  | [], _, _ => rfl
  | (n, e) :: cs, names, h => by
    simp only [childrenSized, Bool.and_eq_true] at h
    simp only [caseHackedChildren, childrenSized, Bool.and_eq_true]
    exact ⟨sized_caseHacked useCaseHack marker e h.1,
      childrenSized_caseHacked useCaseHack marker cs _ h.2⟩
end

theorem parseDump_calls_serialize (useCaseHack : Bool) (marker : Bytes) (T : Entry)
    (hv : T.valid marker = true) (hf : T.fits = true) :
    parseDump.calls useCaseHack marker (serialize T)
      = restore [] (T.caseHacked useCaseHack marker) [] := by
  have h := parse_serialize_append useCaseHack marker T [] hv hf
  rw [List.append_nil] at h
  have hs := sized_caseHacked useCaseHack marker T (sized_of_valid marker T hv)
  simp only [parseDump.calls, h, Res.trace]
  exact (restoreEvents_events _ [] none hs).1

theorem strLt_irrefl : ∀ (a : Bytes), strLt a a = false
  | [] => rfl
  | a :: as => by
    simp only [strLt, Nat.lt_irrefl, ↓reduceIte, strLt_irrefl as]

theorem strLt_asymm : ∀ (a b : Bytes), strLt a b = true → strLt b a = false
  | _, [], h => by simp [strLt] at h
  | [], _ :: _, _ => by simp [strLt]
  | a :: as, b :: bs, h => by
    simp only [strLt] at h ⊢
    by_cases h1 : a.toNat < b.toNat
    · have h2 : ¬ b.toNat < a.toNat := by omega
      simp [h1, h2]
    · by_cases h2 : b.toNat < a.toNat
      · simp [h1, h2] at h
      · simp only [h1, h2, ↓reduceIte] at h ⊢
        exact strLt_asymm as bs h

theorem strLt_trans : ∀ (a b c : Bytes), strLt a b = true → strLt b c = true →
    strLt a c = true
  | _, [], _, h, _ => by simp [strLt] at h
  | _, _ :: _, [], _, h => by simp [strLt] at h
  | [], _ :: _, _ :: _, _, _ => by simp [strLt]
  | a :: as, b :: bs, c :: cs, h1, h2 => by
    simp only [strLt] at h1 h2 ⊢
    by_cases hab : a.toNat < b.toNat
    · by_cases hbc : b.toNat < c.toNat
      · have : a.toNat < c.toNat := by omega
        simp [this]
      · by_cases hcb : c.toNat < b.toNat
        · simp [hbc, hcb] at h2
        · have : a.toNat < c.toNat := by omega
          simp [this]
    · by_cases hba : b.toNat < a.toNat
      · simp [hab, hba] at h1
      · simp only [hab, hba, ↓reduceIte] at h1
        by_cases hbc : b.toNat < c.toNat
        · have : a.toNat < c.toNat := by omega
          simp [this]
        · by_cases hcb : c.toNat < b.toNat
          · simp [hbc, hcb] at h2
          · simp only [hbc, hcb, ↓reduceIte] at h2
            have e1 : ¬ a.toNat < c.toNat := by omega
            have e2 : ¬ c.toNat < a.toNat := by omega
            simp only [e1, e2, ↓reduceIte]
            exact strLt_trans as bs cs h1 h2

theorem strLt_ne {a b : Bytes} (h : strLt a b = true) : a ≠ b := by
  intro e
  subst e
  rw [strLt_irrefl] at h
  exact Bool.noConfusion h

/-- Emplacing a key greater than every key of the map appends the pair. -/
theorem mapEmplace_last {α : Type} (key : Bytes) (value : α) :
    ∀ (m : List (Bytes × α)), (∀ kv ∈ m, strLt kv.1 key = true) →
      (mapEmplace key value m).1 = m ++ [(key, value)]
  | [], _ => rfl
  | (k, v) :: rest, h => by
    have hk : strLt k key = true := h (k, v) (List.mem_cons_self _ _)
    have h1 : strLt key k = false := strLt_asymm k key hk
    have h2 : ¬ key = k := fun e => strLt_ne hk e.symm
    simp only [mapEmplace, h1, h2, ↓reduceIte, List.cons_append, Bool.false_eq_true,
      mapEmplace_last key value rest (fun kv hm => h kv (List.mem_cons_of_mem _ hm))]

/-- A change of the entry under the greatest key, which is the last one. -/
theorem map_update_last {α : Type} (key : Bytes) (f : α → α) (v : α) :
    ∀ (m : List (Bytes × α)), (∀ kv ∈ m, strLt kv.1 key = true) →
      (m ++ [(key, v)]).map (fun kv => if kv.1 = key then (kv.1, f kv.2) else kv)
        = m ++ [(key, f v)]
  | [], _ => by simp
  | (k, w) :: rest, h => by
    have hk : strLt k key = true := h (k, w) (List.mem_cons_self _ _)
    have h2 : ¬ k = key := strLt_ne hk
    have ih := map_update_last key f v rest (fun kv hm => h kv (List.mem_cons_of_mem _ hm))
    simp only [List.cons_append, List.map_cons, h2, ↓reduceIte, ih]

theorem restore_shift_aux (d : Bytes) (sink : List Bytes) (name : Bytes) (blocks : List Bytes) :
    (blocks.map (SinkCall.receiveContents sink name)).map (SinkCall.shift d)
      = blocks.map (SinkCall.receiveContents (d :: sink) name) := by
  simp [List.map_map, Function.comp_def, SinkCall.shift]

mutual
theorem restore_shift (d : Bytes) : ∀ (T : Entry) (sink : List Bytes) (name : Bytes),
    restore (d :: sink) T name = (restore sink T name).map (SinkCall.shift d)
  | .file executable size contents, sink, name => by
    simp only [restore, List.map_cons, List.map_append, restore_shift_aux, SinkCall.shift,
      List.map_nil]
  | .symlink target, sink, name => by
    simp only [restore, List.map_cons, SinkCall.shift, List.map_nil]
  | .directory cs, sink, name => by
    simp only [restore, List.map_cons, SinkCall.shift, List.cons_append,
      restoreEach_shift d cs (sink ++ [name])]
theorem restoreEach_shift (d : Bytes) : ∀ (cs : List (Bytes × Entry)) (dir : List Bytes),
    restoreEach (d :: dir) cs = (restoreEach dir cs).map (SinkCall.shift d)
  | [], _ => by simp [restoreEach]
  | (n, e) :: cs, dir => by
    simp only [restoreEach, List.map_append, restore_shift d e dir n,
      restoreEach_shift d cs dir]
end
theorem strictlyIncreasing_head_lt : ∀ (l : List Bytes) (n : Bytes),
    strictlyIncreasing (n :: l) = true → ∀ x ∈ l, strLt n x = true
  | [], _, _ => by simp
  | b :: rest, n, h => by
    rw [strictlyIncreasing_cons, Bool.and_eq_true] at h
    intro x hx
    rcases List.mem_cons.mp hx with e | hm
    · subst e; exact h.1
    · exact strLt_trans n b x h.1 (strictlyIncreasing_head_lt rest b h.2 x hm)

theorem runSink_reconstruct : ∀ (calls : List SinkCall) (contents : List (Bytes × Entry)),
    runSink ReconstructVisitor.apply contents calls
      = (calls.foldl ReconstructVisitor.step contents, none)
  | [], _ => rfl
  | c :: calls, contents => by
    simp only [runSink, ReconstructVisitor.apply, List.foldl_cons,
      runSink_reconstruct calls]

theorem atSink_cons_last (g : List (Bytes × Entry) → List (Bytes × Entry)) (d : Bytes)
    (sink : List Bytes) (parent sub : List (Bytes × Entry))
    (h : ∀ kv ∈ parent, strLt kv.1 d = true) :
    ReconstructVisitor.atSink g (d :: sink) (parent ++ [(d, .directory sub)])
      = parent ++ [(d, .directory (ReconstructVisitor.atSink g sink sub))] := by
  simp only [ReconstructVisitor.atSink]
  exact map_update_last d (fun v => match v with
    | .directory sub => .directory (ReconstructVisitor.atSink g sink sub)
    | other => other) (.directory sub) parent h

/-- A call made through the visitor that `createDirectory d` returned acts on
the directory stored under `d`, here the greatest key. -/
theorem step_shift (d : Bytes) (parent sub : List (Bytes × Entry)) (c : SinkCall)
    (h : ∀ kv ∈ parent, strLt kv.1 d = true) :
    ReconstructVisitor.step (parent ++ [(d, .directory sub)]) (c.shift d)
      = parent ++ [(d, .directory (ReconstructVisitor.step sub c))] := by
  cases c with
  | close sink name => rfl
  | createDirectory sink name =>
    simp only [SinkCall.shift, ReconstructVisitor.step, atSink_cons_last _ d sink parent sub h]
  | createRegularFile sink name size executable =>
    simp only [SinkCall.shift, ReconstructVisitor.step, atSink_cons_last _ d sink parent sub h]
  | receiveContents sink name data =>
    simp only [SinkCall.shift, ReconstructVisitor.step, atSink_cons_last _ d sink parent sub h]
  | createSymlink sink name target =>
    simp only [SinkCall.shift, ReconstructVisitor.step, atSink_cons_last _ d sink parent sub h]

theorem foldl_step_shift (d : Bytes) (parent : List (Bytes × Entry))
    (h : ∀ kv ∈ parent, strLt kv.1 d = true) :
    ∀ (calls : List SinkCall) (sub : List (Bytes × Entry)),
      (calls.map (SinkCall.shift d)).foldl ReconstructVisitor.step
          (parent ++ [(d, .directory sub)])
        = parent ++ [(d, .directory (calls.foldl ReconstructVisitor.step sub))]
  | [], _ => rfl
  | c :: calls, sub => by
    simp only [List.map_cons, List.foldl_cons, step_shift d parent sub c h,
      foldl_step_shift d parent h calls]

/-- The blocks handed to the handle of the file stored under the greatest key
are appended to its contents. -/
theorem foldl_step_receive (n : Bytes) (executable : Bool) (size : Nat)
    (parent : List (Bytes × Entry)) (h : ∀ kv ∈ parent, strLt kv.1 n = true) :
    ∀ (blocks : List Bytes) (contents : Bytes),
      (blocks.map (SinkCall.receiveContents [] n)).foldl ReconstructVisitor.step
          (parent ++ [(n, .file executable size contents)])
        = parent ++ [(n, .file executable size (contents ++ blocks.flatten))]
  | [], contents => by simp
  | b :: blocks, contents => by
    have e : ReconstructVisitor.step (parent ++ [(n, .file executable size contents)])
        (.receiveContents [] n b)
        = parent ++ [(n, .file executable size (contents ++ b))] := by
      simp only [ReconstructVisitor.step, ReconstructVisitor.atSink, ReconstructVisitor.append]
      exact map_update_last n (fun v => match v with
        | .file executable size contents => .file executable size (contents ++ b)
        | other => other) (.file executable size contents) parent h
    simp only [List.map_cons, List.foldl_cons, e, foldl_step_receive n executable size parent h
      blocks, List.flatten_cons, List.append_assoc]

mutual
/-- The in-memory sink after the calls `restore` makes for a valid tree under a
name greater than every key of the map: the tree is stored under that name. -/
theorem reconstruct_entry (marker : Bytes) : ∀ (T : Entry) (n : Bytes)
    (parent : List (Bytes × Entry)), T.valid marker = true →
    (∀ kv ∈ parent, strLt kv.1 n = true) →
    (restore [] T n).foldl ReconstructVisitor.step parent = parent ++ [(n, T)]
  | .file executable size contents, n, parent, _, h => by
    have e1 : ReconstructVisitor.step parent (.createRegularFile [] n size executable)
        = parent ++ [(n, .file executable size [])] :=
      mapEmplace_last n _ parent h
    have e2 : ∀ (m : List (Bytes × Entry)), ReconstructVisitor.step m (.close [] n) = m :=
      fun _ => rfl
    simp only [restore, List.foldl_cons, List.foldl_append, e1, e2,
      foldl_step_receive n executable size parent h, List.nil_append, List.foldl_nil,
      contentChunks_flatten contents.length contents (Nat.le_refl _)]
  | .symlink target, n, parent, _, h => by
    have e1 : ReconstructVisitor.step parent (.createSymlink [] n target)
        = parent ++ [(n, .symlink target)] :=
      mapEmplace_last n _ parent h
    simp only [restore, List.foldl_cons, List.foldl_nil, e1]
  | .directory cs, n, parent, hv, h => by
    have e1 : ReconstructVisitor.step parent (.createDirectory [] n)
        = parent ++ [(n, .directory [])] :=
      mapEmplace_last n _ parent h
    simp only [Entry.valid, Bool.and_eq_true] at hv
    have e2 := reconstruct_children marker cs [] hv.2 hv.1 (by simp)
    simp only [restore, List.foldl_cons, e1, List.nil_append, restoreEach_shift n cs [],
      foldl_step_shift n parent h, e2]
theorem reconstruct_children (marker : Bytes) : ∀ (cs : List (Bytes × Entry))
    (pre : List (Bytes × Entry)), validChildren marker cs = true →
    strictlyIncreasing (cs.map Prod.fst) = true →
    (∀ kv ∈ pre, ∀ c ∈ cs, strLt kv.1 c.1 = true) →
    (restoreEach [] cs).foldl ReconstructVisitor.step pre = pre ++ cs
  | [], pre, _, _, _ => by simp [restoreEach]
  | (n, e) :: cs, pre, hv, hs, h => by
    simp only [validChildren, Bool.and_eq_true] at hv
    have e1 := reconstruct_entry marker e n pre hv.1.2
      (fun kv hm => h kv hm (n, e) (List.mem_cons_self _ _))
    have hlt := strictlyIncreasing_head_lt (cs.map Prod.fst) n hs
    have e2 := reconstruct_children marker cs (pre ++ [(n, e)]) hv.2
      (strictlyIncreasing_tail hs) (by
        intro kv hm c hc
        rcases List.mem_append.mp hm with h1 | h1
        · exact h kv h1 c (List.mem_cons_of_mem _ hc)
        · rw [List.mem_singleton] at h1
          subst h1
          exact hlt c.1 (List.mem_map_of_mem Prod.fst hc))
    simp only [restoreEach, List.foldl_append, e1, e2, List.append_assoc,
      List.singleton_append]
end

theorem reconstruct_serialize (marker : Bytes) (T : Entry) (hv : T.valid marker = true)
    (hf : T.fits = true) : reconstruct false marker (serialize T) = ([([], T)], none) := by
  have hc := parseDump_calls_serialize false marker T hv hf
  rw [caseHacked_false] at hc
  have hp := parse_serialize marker T hv hf
  have hr := reconstruct_entry marker T [] [] hv (by simp)
  simp only [reconstruct, parseDump, hc, runSink_reconstruct, hr, hp, Res.error?,
    List.nil_append]

mutual
theorem countP_restore : ∀ (T : Entry) (sink : List Bytes) (name : Bytes),
    (restore sink T name).countP SinkCall.isCreate = T.count
  | .file executable size contents, sink, name => by
    have h0 : ∀ (blocks : List Bytes),
        (blocks.map (SinkCall.receiveContents sink name)).countP SinkCall.isCreate = 0 := by
      intro blocks
      induction blocks with
      | nil => rfl
      | cons b bs ih => simp [List.countP_cons, ih, SinkCall.isCreate]
    simp [restore, List.countP_cons, List.countP_append, h0, SinkCall.isCreate, Entry.count]
  | .symlink target, sink, name => by
    simp [restore, List.countP_cons, SinkCall.isCreate, Entry.count]
  | .directory cs, sink, name => by
    simp [restore, List.countP_cons, SinkCall.isCreate, Entry.count,
      countP_restoreEach cs (sink ++ [name]), Nat.add_comm]
theorem countP_restoreEach : ∀ (cs : List (Bytes × Entry)) (dir : List Bytes),
    (restoreEach dir cs).countP SinkCall.isCreate = countOfChildren cs
  | [], _ => by simp [restoreEach, countOfChildren]
  | (n, e) :: cs, dir => by
    simp [restoreEach, List.countP_append, countOfChildren, countP_restore e dir n,
      countP_restoreEach cs dir]
end

mutual
theorem count_caseHacked (useCaseHack : Bool) (marker : Bytes) : ∀ (T : Entry),
    (T.caseHacked useCaseHack marker).count = T.count
  | .file _ _ _ => rfl
  | .symlink _ => rfl
  | .directory cs => by
    simp only [Entry.caseHacked, Entry.count, countOfChildren_caseHacked useCaseHack marker cs []]
theorem countOfChildren_caseHacked (useCaseHack : Bool) (marker : Bytes) :
    ∀ (cs : List (Bytes × Entry)) (names : List (Bytes × Nat)),
    countOfChildren (caseHackedChildren useCaseHack marker names cs) = countOfChildren cs
  | [], _ => rfl
  | (n, e) :: cs, names => by
    simp only [caseHackedChildren, countOfChildren, count_caseHacked useCaseHack marker e,
      countOfChildren_caseHacked useCaseHack marker cs]
end

theorem reconstruct_of_calls (useCaseHack : Bool) (marker source : Bytes) :
    reconstruct useCaseHack marker source
      = ((parseDump.calls useCaseHack marker source).foldl ReconstructVisitor.step [],
          (nar.parse useCaseHack marker source).error?) := by
  simp only [reconstruct, parseDump, runSink_reconstruct]

/-- C14 (visitor drive order). For the archive `serialize T` of a valid tree `T`
and either case-hack setting, the calls `parseDump` makes are exactly those of
`restore` on the tree the parser yields (`T` with the case hack applied, which
is `T` itself when the case hack is disabled), the root under the empty name on
the outermost visitor; there is exactly one creation call per entry. A
directory gives `createDirectory` and then the calls of its children, in order,
on the visitor nested under its name; a symlink gives one `createSymlink`; a
file gives `createRegularFile`, then `receiveContents` calls whose blocks
concatenated are the contents, then one `close`, before any later call. With the
case hack disabled the in-memory sink of the tests ends up holding exactly `T`
under the empty key, no exception being raised. -/
theorem C14_visitor_drive_order (useCaseHack : Bool) (marker : Bytes) (T : Entry)
    (hvalid : T.valid marker = true) (hfits : T.fits = true) :
    parseDump.calls useCaseHack marker (serialize T)
        = restore [] (T.caseHacked useCaseHack marker) []
      ∧ (parseDump.calls useCaseHack marker (serialize T)).countP SinkCall.isCreate = T.count
      ∧ (∀ (sink : List Bytes) (name : Bytes) (cs : List (Bytes × Entry)),
          restore sink (.directory cs) name
            = .createDirectory sink name :: restoreEach (sink ++ [name]) cs)
      ∧ (∀ (dir : List Bytes) (n : Bytes) (e : Entry) (rest : List (Bytes × Entry)),
          restoreEach dir ((n, e) :: rest) = restore dir e n ++ restoreEach dir rest)
      ∧ (∀ (dir : List Bytes), restoreEach dir [] = [])
      ∧ (∀ (sink : List Bytes) (name target : Bytes),
          restore sink (.symlink target) name = [.createSymlink sink name target])
      ∧ (∀ (sink : List Bytes) (name : Bytes) (executable : Bool) (size : Nat)
          (contents : Bytes), ∃ blocks : List Bytes, blocks.flatten = contents ∧
            restore sink (.file executable size contents) name
              = .createRegularFile sink name size executable
                  :: (blocks.map (.receiveContents sink name) ++ [.close sink name]))
      ∧ reconstruct false marker (serialize T) = ([([], T)], none) := by
  have hc := parseDump_calls_serialize useCaseHack marker T hvalid hfits
  refine ⟨hc, ?_, ?_, ?_, ?_, ?_, ?_, reconstruct_serialize marker T hvalid hfits⟩
  · rw [hc, countP_restore, count_caseHacked]
  · intro sink name cs
    simp only [restore]
  · intro dir n e rest
    simp only [restoreEach]
  · intro dir
    simp only [restoreEach]
  · intro sink name target
    simp only [restore]
  · intro sink name executable size contents
    exact ⟨contentChunks contents.length contents,
      contentChunks_flatten contents.length contents (Nat.le_refl _), by simp only [restore]⟩

theorem C14_visitor_drive_order_witness :
    scenarioTree.valid caseHackSuffix = true ∧ scenarioTree.fits = true
      ∧ parseDump.calls true caseHackSuffix (serialize scenarioTree)
          = restore [] (scenarioTree.caseHacked true caseHackSuffix) []
      ∧ reconstruct false caseHackSuffix (serialize scenarioTree)
          = ([([], scenarioTree)], none) :=
  ⟨by decide, by decide,
    (C14_visitor_drive_order true caseHackSuffix scenarioTree (by decide) (by decide)).1,
    (C14_visitor_drive_order true caseHackSuffix scenarioTree (by decide)
      (by decide)).2.2.2.2.2.2.2⟩

/-- C14 with the case hack enabled. The archive of the valid directory holding
`A` and `a` drives the in-memory sink to a directory holding `A` and
`a~nix~case~hack~1`, which is not the tree that was archived. -/
theorem C14_case_hack_counterexample :
    caseCollidingTree.valid caseHackSuffix = true ∧ caseCollidingTree.fits = true
      ∧ reconstruct true caseHackSuffix (serialize caseCollidingTree)
        = ([([], .directory [(lit "A", .symlink (lit "x")),
              (lit "a~nix~case~hack~1", .symlink (lit "y"))])], none)
      ∧ Entry.directory [(lit "A", .symlink (lit "x")),
            (lit "a~nix~case~hack~1", .symlink (lit "y"))] ≠ caseCollidingTree := by
  have hv : caseCollidingTree.valid caseHackSuffix = true := by decide
  have hf : caseCollidingTree.fits = true := by decide
  refine ⟨hv, hf, ?_, ?_⟩
  · have hc := parseDump_calls_serialize true caseHackSuffix caseCollidingTree hv hf
    have hp := parse_serialize_append true caseHackSuffix caseCollidingTree [] hv hf
    rw [List.append_nil] at hp
    rw [caseHacked_colliding] at hc
    have hr := reconstruct_entry (lit "#") (.directory [(lit "A", .symlink (lit "x")),
      (lit "a~nix~case~hack~1", .symlink (lit "y"))]) [] [] (by decide) (by simp)
    rw [reconstruct_of_calls, hc, hr, hp]
    rfl
  · intro h
    have h2 := congrArg (fun (e : Entry) => (match e with
      | Entry.directory cs => cs.map (fun (kv : Bytes × Entry) => kv.1.length)
      | _ => [] : List Nat)) h
    revert h2
    decide

theorem safeName_iff (name : Bytes) :
    safeName name = true ↔
      name ≠ [] ∧ name ≠ lit "." ∧ name ≠ lit ".." ∧ chr '/' ∉ name ∧ (0 : UInt8) ∉ name := by
  simp only [safeName, Bool.and_eq_true, bne_iff_ne, ne_eq, Bool.not_eq_true',
    List.contains_eq_any_beq, List.any_eq_false, beq_iff_eq]
  constructor
  · rintro ⟨⟨⟨⟨h1, h2⟩, h3⟩, h4⟩, h5⟩
    exact ⟨h1, h2, h3, fun hm => h4 _ hm rfl, fun hm => h5 _ hm rfl⟩
  · rintro ⟨h1, h2, h3, h4, h5⟩
    exact ⟨⟨⟨⟨h1, h2⟩, h3⟩, fun x hx e => h4 (e ▸ hx)⟩, fun x hx e => h5 (e ▸ hx)⟩

theorem digitChar_safe (k : Nat) (h : k < 10) :
    chr (Nat.digitChar k) ≠ chr '/' ∧ chr (Nat.digitChar k) ≠ 0 := by
  interval_cases k <;> decide

theorem toDigitsCore_safe : ∀ (fuel n : Nat) (acc : List Char),
    (∀ c ∈ acc, chr c ≠ chr '/' ∧ chr c ≠ 0) →
    ∀ c ∈ Nat.toDigitsCore 10 fuel n acc, chr c ≠ chr '/' ∧ chr c ≠ 0
  | 0, _, acc, h => by simpa [Nat.toDigitsCore] using h
  | fuel + 1, n, acc, h => by
    have hd := digitChar_safe (n % 10) (Nat.mod_lt _ (by decide))
    have hacc : ∀ c ∈ Nat.digitChar (n % 10) :: acc, chr c ≠ chr '/' ∧ chr c ≠ 0 := by
      intro c hc
      rcases List.mem_cons.mp hc with e | hm
      · subst e; exact hd
      · exact h c hm
    unfold Nat.toDigitsCore
    by_cases h0 : n / 10 = 0
    · simp only [h0, ↓reduceIte]
      exact hacc
    · simp only [h0, ↓reduceIte]
      exact toDigitsCore_safe fuel (n / 10) _ hacc

theorem to_string_safe (n : Nat) : ∀ b ∈ to_string n, b ≠ chr '/' ∧ b ≠ 0 := by
  intro b hb
  simp only [to_string, List.mem_map] at hb
  obtain ⟨c, hc, rfl⟩ := hb
  exact toDigitsCore_safe _ _ [] (by simp) c hc

theorem safeName_of_validName {marker name : Bytes} (h : validName marker name = true) :
    safeName name = true := by
  rw [validName_iff] at h
  rw [safeName_iff]
  simp only [not_or] at h
  exact ⟨h.1, h.2.1, h.2.2.1, h.2.2.2.1, h.2.2.2.2.1⟩

theorem readContents_zero (fuel : Nat) (src : Bytes) (out : List Event) :
    readContents fuel 0 src out = .ok [] src out := by
  cases fuel <;> simp [readContents]

theorem entryCalls_nil (sink : List Bytes) (name : Bytes) : entryCalls sink name [] = true :=
  rfl

theorem EXPECT_len {raw kind src rest : Bytes} (h : EXPECT raw kind src = .ok rest) :
    rest.length + 8 ≤ src.length := by
  have e := congrArg List.length (EXPECT_ok h)
  rw [List.length_append, wireString_length] at e
  omega

theorem READ_STRING_len {src s rest : Bytes} (h : READ_STRING src = .ok (s, rest)) :
    rest.length + 8 ≤ src.length := by
  have e := congrArg List.length (READ_STRING_ok h)
  rw [List.length_append, wireString_length] at e
  omega

theorem readFileHeader_len {src rest : Bytes} {executable : Bool} {size : Nat}
    (h : readFileHeader src = .ok ((executable, size), rest)) : rest.length ≤ src.length := by
  have e := congrArg List.length (readFileHeader_ok h).1
  simp only [List.length_append] at e
  omega

theorem readEntryHeader_len {useCaseHack : Bool} {marker : Bytes} {names : List (Bytes × Nat)}
    {prevName src rest : Bytes} {r : Option (Bytes × Bytes × List (Bytes × Nat))}
    (h : readEntryHeader useCaseHack marker names prevName src = .ok (r, rest)) :
    rest.length + 8 ≤ src.length := by
  cases r with
  | none =>
    have e := congrArg List.length (readEntryHeader_none h)
    rw [List.length_append, wireString_length] at e
    omega
  | some v =>
    obtain ⟨name, yielded, names1⟩ := v
    have e := congrArg List.length (readEntryHeader_some h).1
    simp only [List.length_append, wireString_length] at e
    omega

/-- The contents reader has fuel for every block when it has one unit for every
byte to come. -/
theorem readContents_done : ∀ (fuel left : Nat) (src : Bytes) (out : List Event),
    left ≤ fuel → Res.done src.length (readContents fuel left src out)
  | 0, left, src, out, h => by
    have h0 : left = 0 := by omega
    subst h0
    simp [readContents, Res.done]
  | fuel + 1, left, src, out, h => by
    by_cases h0 : left = 0
    · subst h0
      rw [readContents_zero]
      simp [Res.done]
    · simp only [readContents, h0, ↓reduceIte]
      cases hr : Source.read (min 65536 left) src with
      | error e => trivial
      | ok v =>
        obtain ⟨buf, src1⟩ := v
        have hsrc := congrArg List.length (Source.read_ok hr).1
        rw [List.length_append] at hsrc
        have ih := readContents_done fuel (left - min 65536 left) src1 (out ++ [.block buf])
          (by omega)
        simp only []
        cases hr2 : readContents fuel (left - min 65536 left) src1 (out ++ [.block buf]) with
        | outOfFuel =>
          rw [hr2] at ih
          exact ih
        | fail e o => trivial
        | ok v2 src2 o =>
          rw [hr2] at ih
          simp only [Res.done] at ih ⊢
          omega

/-- The parser returns or throws within the recursion bound: a bound greater
than the length of the source is never exhausted, every nested node and every
directory turn consuming at least 8 bytes. -/
theorem parse_done (useCaseHack : Bool) (marker : Bytes) : ∀ (fuel : Nat),
    (∀ (name : Option Bytes) (src : Bytes) (out : List Event), src.length < fuel →
      Res.done src.length (SyncParser.parse useCaseHack marker fuel name src out))
    ∧ (∀ (names : List (Bytes × Nat)) (prevName src : Bytes) (out : List Event),
      src.length < fuel →
      Res.done src.length (SyncParser.readDir useCaseHack marker fuel names prevName src out)) := by
  intro fuel
  induction fuel with
  | zero =>
    constructor
    · intro name src out h
      omega
    · intro names prevName src out h
      omega
  | succ fuel ih =>
    obtain ⟨ihp, ihd⟩ := ih
    constructor
    · intro name src out hlt
      rw [SyncParser.parse]
      split
      · trivial
      · rename_i src1 h1
        have l1 := EXPECT_len h1
        split
        · trivial
        · rename_i src2 h2
          have l2 := EXPECT_len h2
          split
          · trivial
          · rename_i t src3 h3
            have l3 := READ_STRING_len h3
            split
            · split
              · trivial
              · rename_i executable size src4 h4
                have l4 := readFileHeader_len h4
                have hc := readContents_done size size src4
                  (out ++ [.file name executable size]) (Nat.le_refl _)
                cases hr : readContents size size src4
                    (out ++ [.file name executable size]) with
                | outOfFuel =>
                  rw [hr] at hc
                  exact hc
                | fail e o => trivial
                | ok v src5 o =>
                  rw [hr] at hc
                  simp only [Res.done] at hc
                  simp only []
                  split
                  · trivial
                  · rename_i src6 h6
                    have l6 := congrArg List.length (READ_PADDING_ok h6)
                    rw [List.length_append] at l6
                    split
                    · trivial
                    · rename_i src7 h7
                      have l7 := EXPECT_len h7
                      simp only [Res.done]
                      omega
            · split
              · have hd := ihd [] [] src3 (out ++ [.directory name]) (by omega)
                cases hr : SyncParser.readDir useCaseHack marker fuel [] [] src3
                    (out ++ [.directory name]) with
                | outOfFuel =>
                  rw [hr] at hd
                  exact hd
                | fail e o => trivial
                | ok v src4 o =>
                  rw [hr] at hd
                  simp only [Res.done] at hd ⊢
                  omega
              · split
                · split
                  · trivial
                  · rename_i src4 h4
                    have l4 := EXPECT_len h4
                    split
                    · trivial
                    · rename_i target src5 h5
                      have l5 := READ_STRING_len h5
                      split
                      · trivial
                      · rename_i src6 h6
                        have l6 := EXPECT_len h6
                        simp only [Res.done]
                        omega
                · trivial
    · intro names prevName src out hlt
      rw [SyncParser.readDir]
      split
      · trivial
      · rename_i src1 hh
        have l1 := readEntryHeader_len hh
        simp only [Res.done]
        omega
      · rename_i name yielded names1 src1 hh
        have l1 := readEntryHeader_len hh
        have hp := ihp (some yielded) src1 out (by omega)
        cases hr : SyncParser.parse useCaseHack marker fuel (some yielded) src1 out with
        | outOfFuel =>
          rw [hr] at hp
          exact hp
        | fail e o => trivial
        | ok entry src2 o =>
          rw [hr] at hp
          simp only [Res.done] at hp
          simp only []
          split
          · trivial
          · rename_i src3 h3
            have l3 := EXPECT_len h3
            have hd := ihd names1 name src3 o (by omega)
            cases hr2 : SyncParser.readDir useCaseHack marker fuel names1 name src3 o with
            | outOfFuel =>
              rw [hr2] at hd
              exact hd
            | fail e o2 => trivial
            | ok rest src4 o2 =>
              rw [hr2] at hd
              simp only [Res.done] at hd ⊢
              omega

/-- The generator `nar::parse` returns or throws on every input: the recursion
bound of the model is never exhausted. -/
theorem nar_parse_done (useCaseHack : Bool) (marker source : Bytes) :
    nar.parse useCaseHack marker source ≠ .outOfFuel := by
  unfold nar.parse
  simp only []
  split
  · intro h
    exact Res.noConfusion h
  · rename_i version src1 _
    split
    · intro h
      exact Res.noConfusion h
    · have hp := (parse_done useCaseHack marker (src1.length + 1)).1 none src1 []
        (Nat.lt_succ_self _)
      cases hr : SyncParser.parse useCaseHack marker (src1.length + 1) none src1 [] with
      | outOfFuel =>
        rw [hr] at hp
        exact absurd hp (by simp [Res.done])
      | fail e o =>
        intro h
        exact Res.noConfusion h
      | ok entry src2 o =>
        intro h
        exact Res.noConfusion h

theorem runSink_append_ok {σ : Type} (apply : σ → SinkCall → Except NarError σ) :
    ∀ (pre rest : List SinkCall) (s s1 : σ), runSink apply s pre = (s1, none) →
      runSink apply s (pre ++ rest) = runSink apply s1 rest
  | [], rest, s, s1, h => by
    simp only [runSink, Prod.mk.injEq, and_true] at h
    subst h
    rfl
  | c :: pre, rest, s, s1, h => by
    simp only [List.cons_append, runSink] at h ⊢
    cases ha : apply s c with
    | error e =>
      rw [ha] at h
      simp at h
    | ok s2 =>
      rw [ha] at h
      simp only [] at h ⊢
      exact runSink_append_ok apply pre rest s2 s1 h

/-- A call that succeeds removes no path from the file system, and a creation
that succeeds adds its path. -/
theorem apply_keys (same : Bytes → Bytes → Bool) (dst : Bytes) (disk disk1 : Disk)
    (c : SinkCall) (h : NARRestoreVisitor.apply same dst disk c = .ok disk1) :
    (∀ p ∈ disk.map Prod.fst, p ∈ disk1.map Prod.fst)
      ∧ (c.isCreate = true → NARRestoreVisitor.path dst c ∈ disk1.map Prod.fst) := by
  have hmap : ∀ (g : Bytes × DiskNode → Bytes × DiskNode), (∀ entry, (g entry).1 = entry.1) →
      (disk.map g).map Prod.fst = disk.map Prod.fst := by
    intro g hg
    rw [List.map_map]
    apply List.map_congr_left
    intro entry _
    exact hg entry
  have hadd : ∀ (node : DiskNode),
      (∀ p ∈ disk.map Prod.fst,
          p ∈ (disk ++ [(NARRestoreVisitor.path dst c, node)]).map Prod.fst)
        ∧ (c.isCreate = true → NARRestoreVisitor.path dst c
            ∈ (disk ++ [(NARRestoreVisitor.path dst c, node)]).map Prod.fst) := by
    intro node
    constructor
    · intro p hp
      rw [List.map_append]
      exact List.mem_append_left _ hp
    · intro _
      rw [List.map_append]
      exact List.mem_append_right _ (by simp)
  cases c with
  | createDirectory sink name =>
    simp only [NARRestoreVisitor.apply] at h
    split at h
    · simp at h
    · simp only [Except.ok.injEq] at h
      subst h
      exact hadd _
  | createRegularFile sink name size executable =>
    simp only [NARRestoreVisitor.apply] at h
    split at h
    · simp at h
    · simp only [Except.ok.injEq] at h
      subst h
      exact hadd _
  | receiveContents sink name data =>
    simp only [NARRestoreVisitor.apply, Except.ok.injEq] at h
    subst h
    constructor
    · intro p hp
      rw [hmap _ (by intro entry; split <;> rfl)]
      exact hp
    · intro hc
      simp [SinkCall.isCreate] at hc
  | close sink name =>
    simp only [NARRestoreVisitor.apply, Except.ok.injEq] at h
    subst h
    exact ⟨fun p hp => hp, fun hc => by simp [SinkCall.isCreate] at hc⟩
  | createSymlink sink name target =>
    simp only [NARRestoreVisitor.apply] at h
    split at h
    · simp at h
    · simp only [Except.ok.injEq] at h
      subst h
      exact hadd _

theorem runSink_keys (same : Bytes → Bytes → Bool) (dst : Bytes) :
    ∀ (calls : List SinkCall) (disk disk1 : Disk),
      runSink (NARRestoreVisitor.apply same dst) disk calls = (disk1, none) →
      (∀ p ∈ disk.map Prod.fst, p ∈ disk1.map Prod.fst)
        ∧ (∀ c ∈ calls, c.isCreate = true →
            NARRestoreVisitor.path dst c ∈ disk1.map Prod.fst)
  | [], disk, disk1, h => by
    simp only [runSink, Prod.mk.injEq, and_true] at h
    subst h
    simp
  | c :: calls, disk, disk1, h => by
    simp only [runSink] at h
    cases ha : NARRestoreVisitor.apply same dst disk c with
    | error e =>
      rw [ha] at h
      simp at h
    | ok disk2 =>
      rw [ha] at h
      obtain ⟨k1, k2⟩ := apply_keys same dst disk disk2 c ha
      obtain ⟨k3, k4⟩ := runSink_keys same dst calls disk2 disk1 h
      refine ⟨fun p hp => k3 p (k1 p hp), ?_⟩
      intro c' hc' hcr
      rcases List.mem_cons.mp hc' with e | hm
      · subst e
        exact k3 _ (k2 hcr)
      · exact k4 c' hm hcr

theorem present_of_key (same : Bytes → Bytes → Bool) (disk : Disk) (p q : Bytes)
    (hp : p ∈ disk.map Prod.fst) (hs : same p q = true) : Disk.present same disk q = true := by
  simp only [List.mem_map] at hp
  obtain ⟨entry, he, rfl⟩ := hp
  simp only [Disk.present, List.any_eq_true]
  exact ⟨entry, he, hs⟩

/-- A creation call on a path that exists throws. -/
theorem apply_present (same : Bytes → Bytes → Bool) (dst : Bytes) (disk : Disk)
    (c : SinkCall) (hc : c.isCreate = true)
    (hp : Disk.present same disk (NARRestoreVisitor.path dst c) = true) :
    ∃ msg, NARRestoreVisitor.apply same dst disk c = .error (.Error msg) := by
  cases c with
  | createDirectory sink name =>
    simp only [NARRestoreVisitor.apply, hp, ↓reduceIte]
    exact ⟨_, rfl⟩
  | createRegularFile sink name size executable =>
    simp only [NARRestoreVisitor.apply, hp, ↓reduceIte]
    exact ⟨_, rfl⟩
  | receiveContents sink name data => simp [SinkCall.isCreate] at hc
  | close sink name => simp [SinkCall.isCreate] at hc
  | createSymlink sink name target =>
    simp only [NARRestoreVisitor.apply, hp, ↓reduceIte]
    exact ⟨_, rfl⟩

theorem calls_caseCollidingFiles :
    parseDump.calls false caseHackSuffix (serialize caseCollidingFiles)
      = [.createDirectory [] [], .createRegularFile [[]] (lit "A") 5 false,
          .receiveContents [[]] (lit "A") (lit "hello"), .close [[]] (lit "A")]
        ++ .createRegularFile [[]] (lit "a") 5 false
          :: [.receiveContents [[]] (lit "a") (lit "world"), .close [[]] (lit "a")] := by
  rw [parseDump_calls_serialize false caseHackSuffix caseCollidingFiles (by decide) (by decide),
    caseHacked_false]
  rfl

/-- C17 (exclusive create). On the on-disk sink a creation call whose path
exists, as the file system sees it, throws and leaves the file system as it
was, whatever calls would follow. Consequently, on any input: when the calls up
to a creation `c2` have succeeded and one of them created a path that the file
system takes for the same as that of `c2` (two names of one directory that
differ only in case, the destination being case-insensitive and the case hack
disabled), `restorePath` ends with the exception of `c2`, and the file system
is exactly as the calls before `c2` left it, the first entry still there. -/
theorem C17_exclusive_create (same : Bytes → Bytes → Bool) (disk disk1 : Disk) (dst : Bytes)
    (useCaseHack : Bool) (marker source : Bytes) (pre post : List SinkCall)
    (c1 c2 : SinkCall)
    (hcalls : parseDump.calls useCaseHack marker source = pre ++ c2 :: post)
    (hpre : runSink (NARRestoreVisitor.apply same dst) disk pre = (disk1, none))
    (hmem : c1 ∈ pre) (hc1 : c1.isCreate = true) (hc2 : c2.isCreate = true)
    (hsame : same (NARRestoreVisitor.path dst c1) (NARRestoreVisitor.path dst c2) = true) :
    (∀ (d : Disk) (c : SinkCall) (rest : List SinkCall), c.isCreate = true →
        Disk.present same d (NARRestoreVisitor.path dst c) = true →
        ∃ msg, NARRestoreVisitor.apply same dst d c = .error (.Error msg)
          ∧ runSink (NARRestoreVisitor.apply same dst) d (c :: rest) = (d, some (.Error msg)))
      ∧ NARRestoreVisitor.path dst c1 ∈ disk1.map Prod.fst
      ∧ ∃ msg, NARRestoreVisitor.apply same dst disk1 c2 = .error (.Error msg)
          ∧ restorePath same disk dst useCaseHack marker source = (disk1, some (.Error msg)) := by
  have hgen : ∀ (d : Disk) (c : SinkCall) (rest : List SinkCall), c.isCreate = true →
      Disk.present same d (NARRestoreVisitor.path dst c) = true →
      ∃ msg, NARRestoreVisitor.apply same dst d c = .error (.Error msg)
        ∧ runSink (NARRestoreVisitor.apply same dst) d (c :: rest) = (d, some (.Error msg)) := by
    intro d c rest hc hp
    obtain ⟨msg, hm⟩ := apply_present same dst d c hc hp
    exact ⟨msg, hm, by simp only [runSink, hm]⟩
  have hkey := (runSink_keys same dst pre disk disk1 hpre).2 c1 hmem hc1
  have hpres := present_of_key same disk1 _ _ hkey hsame
  obtain ⟨msg, hm, hrun⟩ := hgen disk1 c2 post hc2 hpres
  refine ⟨hgen, hkey, msg, hm, ?_⟩
  simp only [restorePath, parseDump, hcalls,
    runSink_append_ok (NARRestoreVisitor.apply same dst) pre (c2 :: post) disk disk1 hpre, hrun]

set_option maxRecDepth 100000 in
theorem C17_exclusive_create_witness :
    parseDump.calls false caseHackSuffix (serialize caseCollidingFiles)
        = [.createDirectory [] [], .createRegularFile [[]] (lit "A") 5 false,
            .receiveContents [[]] (lit "A") (lit "hello"), .close [[]] (lit "A")]
          ++ .createRegularFile [[]] (lit "a") 5 false
            :: [.receiveContents [[]] (lit "a") (lit "world"), .close [[]] (lit "a")]
      ∧ runSink (NARRestoreVisitor.apply caseInsensitive (lit "/out")) []
          [.createDirectory [] [], .createRegularFile [[]] (lit "A") 5 false,
            .receiveContents [[]] (lit "A") (lit "hello"), .close [[]] (lit "A")]
        = ([(lit "/out", .directory), (lit "/out/A", .regular false (lit "hello"))], none)
      ∧ caseInsensitive
          (NARRestoreVisitor.path (lit "/out") (.createRegularFile [[]] (lit "A") 5 false))
          (NARRestoreVisitor.path (lit "/out") (.createRegularFile [[]] (lit "a") 5 false))
        = true
      ∧ restorePath caseInsensitive [] (lit "/out") false caseHackSuffix
          (serialize caseCollidingFiles)
        = ([(lit "/out", .directory), (lit "/out/A", .regular false (lit "hello"))],
            some (.Error (lit "creating file '/out/a'"))) := by
  refine ⟨calls_caseCollidingFiles, by rfl, by decide, ?_⟩
  obtain ⟨_, _, msg, hm, hr⟩ := C17_exclusive_create caseInsensitive []
    [(lit "/out", .directory), (lit "/out/A", .regular false (lit "hello"))] (lit "/out")
    false caseHackSuffix (serialize caseCollidingFiles)
    [.createDirectory [] [], .createRegularFile [[]] (lit "A") 5 false,
      .receiveContents [[]] (lit "A") (lit "hello"), .close [[]] (lit "A")]
    [.receiveContents [[]] (lit "a") (lit "world"), .close [[]] (lit "a")]
    (.createRegularFile [[]] (lit "A") 5 false) (.createRegularFile [[]] (lit "a") 5 false)
    calls_caseCollidingFiles (by rfl) (by decide) (by decide) (by decide) (by decide)
  have he : NARRestoreVisitor.apply caseInsensitive (lit "/out")
      [(lit "/out", .directory), (lit "/out/A", .regular false (lit "hello"))]
      (.createRegularFile [[]] (lit "a") 5 false)
      = .error (.Error (lit "creating file '/out/a'")) := by rfl
  rw [he] at hm
  simp only [Except.error.injEq, NarError.Error.injEq] at hm
  rw [hr, ← hm]

/-- C28 (preallocation tolerance). In `maybePreallocateContents(len)`: when
preallocation is disabled or `len = 0`, `posix_fallocate` is not called and the
call succeeds; otherwise it is called once with `len`, and the call succeeds
when the result is 0, `EINVAL`, `EOPNOTSUPP` or `ENOSYS` and throws
`preallocating file of <len> bytes` for every other result. -/
theorem C28_preallocation_tolerance (posix_fallocate : Nat → Int)
    (EINVAL EOPNOTSUPP ENOSYS : Int) (len : Nat) :
    (∀ (have_fallocate : Bool),
        maybePreallocateContents false have_fallocate posix_fallocate EINVAL EOPNOTSUPP ENOSYS
          len = ([], .ok ()))
      ∧ (∀ (enabled have_fallocate : Bool),
        maybePreallocateContents enabled have_fallocate posix_fallocate EINVAL EOPNOTSUPP
          ENOSYS 0 = ([], .ok ()))
      ∧ (len ≠ 0 →
          (posix_fallocate len = 0 ∨ posix_fallocate len = EINVAL
            ∨ posix_fallocate len = EOPNOTSUPP ∨ posix_fallocate len = ENOSYS) →
          maybePreallocateContents true true posix_fallocate EINVAL EOPNOTSUPP ENOSYS len
            = ([len], .ok ()))
      ∧ (len ≠ 0 → posix_fallocate len ≠ 0 → posix_fallocate len ≠ EINVAL →
          posix_fallocate len ≠ EOPNOTSUPP → posix_fallocate len ≠ ENOSYS →
          maybePreallocateContents true true posix_fallocate EINVAL EOPNOTSUPP ENOSYS len
            = ([len], .error (.Error
                (lit "preallocating file of " ++ to_string len ++ lit " bytes")))) := by
  refine ⟨?_, ?_, ?_, ?_⟩
  · intro have_fallocate
    simp [maybePreallocateContents]
  · intro enabled have_fallocate
    cases enabled <;> cases have_fallocate <;> simp [maybePreallocateContents]
  · intro hl h
    have hn : ¬ (posix_fallocate len ≠ 0 ∧ posix_fallocate len ≠ EINVAL
        ∧ posix_fallocate len ≠ EOPNOTSUPP ∧ posix_fallocate len ≠ ENOSYS) := by
      rintro ⟨h1, h2, h3, h4⟩
      rcases h with h | h | h | h
      · exact h1 h
      · exact h2 h
      · exact h3 h
      · exact h4 h
    simp only [maybePreallocateContents, Bool.not_true, Bool.false_eq_true, ↓reduceIte, ne_eq,
      hl, not_false_eq_true, hn]
  · intro hl h1 h2 h3 h4
    have hy : posix_fallocate len ≠ 0 ∧ posix_fallocate len ≠ EINVAL
        ∧ posix_fallocate len ≠ EOPNOTSUPP ∧ posix_fallocate len ≠ ENOSYS := ⟨h1, h2, h3, h4⟩
    simp only [maybePreallocateContents, Bool.not_true, Bool.false_eq_true, ↓reduceIte, ne_eq,
      hl, not_false_eq_true, hy, and_self]

theorem C28_preallocation_tolerance_witness :
    maybePreallocateContents true true (fun _ => 95) 22 95 38 4096 = ([4096], .ok ())
      ∧ maybePreallocateContents true true (fun _ => 28) 22 95 38 4096
        = ([4096], .error (.Error (lit "preallocating file of 4096 bytes"))) :=
  ⟨(C28_preallocation_tolerance (fun _ => 95) 22 95 38 4096).2.2.1 (by decide)
      (Or.inr (Or.inr (Or.inl rfl))),
    (C28_preallocation_tolerance (fun _ => 28) 22 95 38 4096).2.2.2 (by decide) (by decide)
      (by decide) (by decide) (by decide)⟩

theorem contentBlocks_eq_map : ∀ (fuel : Nat) (data : Bytes),
    contentBlocks fuel data = (contentChunks fuel data).map Event.block
  | 0, _ => rfl
  | fuel + 1, data => by
    by_cases hd : data = []
    · simp [contentBlocks, contentChunks, hd]
    · simp only [contentBlocks, contentChunks, hd, ↓reduceIte, List.map_cons,
        contentBlocks_eq_map fuel]

theorem blocksOf_append (a b : List Event) : blocksOf (a ++ b) = blocksOf a ++ blocksOf b := by
  induction a with
  | nil => rfl
  | cons ev a ih =>
    cases ev <;> simp [blocksOf, ih]

theorem blocksOf_map_block (chunks : List Bytes) : blocksOf (chunks.map Event.block) = chunks := by
  induction chunks with
  | nil => rfl
  | cons c cs ih => simp [blocksOf, ih]

/-- The blocks of `data` are blocked. -/
theorem contentChunks_blocked : ∀ (fuel : Nat) (data : Bytes), data.length ≤ fuel →
    blocked data.length (contentChunks fuel data)
  | 0, data, h => by
    have hd : data = [] := List.length_eq_zero.mp (by omega)
    subst hd
    simp [blocked, contentChunks]
  | fuel + 1, data, h => by
    by_cases hd : data = []
    · subst hd
      simp [blocked, contentChunks]
    · have hl : data.length ≠ 0 := fun h0 => hd (List.length_eq_zero.mp h0)
      have htake : (data.take 65536).length = min 65536 data.length := List.length_take _ _
      have hdrop : (data.drop 65536).length = data.length - 65536 := List.length_drop _ _
      obtain ⟨i1, i2, i3, i4⟩ := contentChunks_blocked fuel (data.drop 65536) (by omega)
      simp only [contentChunks, hd, ↓reduceIte]
      refine ⟨?_, ?_, ?_, ?_⟩
      · rw [List.length_cons, i1, hdrop]
        omega
      · intro c hc
        rcases List.mem_cons.mp hc with e | hm
        · subst e
          rw [htake]
          omega
        · exact i2 c hm
      · intro c hc
        cases hrest : contentChunks fuel (data.drop 65536) with
        | nil =>
          rw [hrest] at hc
          simp at hc
        | cons r rs =>
          rw [hrest, List.dropLast_cons₂] at hc
          rcases List.mem_cons.mp hc with e | hm
          · subst e
            have hpos : 0 < (contentChunks fuel (data.drop 65536)).length := by
              rw [hrest]; simp
            rw [i1, hdrop] at hpos
            rw [htake]
            have : 65536 < data.length := by
              by_contra hle
              have h0 : data.length - 65536 = 0 := by omega
              rw [h0] at hpos
              simp at hpos
            omega
          · apply i3
            rw [hrest]
            exact hm
      · rw [List.map_cons, List.sum_cons, i4, htake, hdrop]
        omega

theorem loop_eq_chunks : ∀ (fuel : Nat) (data rest : Bytes), data.length ≤ fuel →
    dumpContents.loop fuel data.length (data ++ rest) = some (.ok (contentChunks fuel data))
  | 0, data, rest, h => by
    have hd : data = [] := List.length_eq_zero.mp (by omega)
    subst hd
    simp [dumpContents.loop, contentChunks]
  | fuel + 1, data, rest, h => by
    by_cases hd : data = []
    · subst hd
      simp [dumpContents.loop, contentChunks]
    · have hl : data.length ≠ 0 := fun h0 => hd (List.length_eq_zero.mp h0)
      have hr : Source.read (min data.length 65536) (data ++ rest)
          = .ok (data.take 65536, data.drop 65536 ++ rest) := by
        have := Source.read_append (data.take 65536) (data.drop 65536 ++ rest)
        rw [← List.append_assoc, List.take_append_drop, List.length_take] at this
        rw [Nat.min_comm]
        exact this
      have hlen : data.length - min data.length 65536 = (data.drop 65536).length := by
        rw [List.length_drop]
        omega
      have ih := loop_eq_chunks fuel (data.drop 65536) rest (by rw [List.length_drop]; omega)
      simp only [dumpContents.loop, hl, ↓reduceIte, hr, hlen, ih, contentChunks, hd]
/-- C30 (content is streamed in blocks of at most 64 KiB). For a file of `n`
bytes `data` (whatever follows them in the file or in the archive), the
generator `dumpContents` of the serializer and the content reader of the parser
both succeed and produce the same chunks, which are `ceil(n / 65536)` in number,
each non-empty and at most 65536 bytes long, all but the last of exactly 65536
bytes, and which concatenated are `data`; for `n = 0` there is no chunk. -/
theorem C30_content_blocks (data extra rest path : Bytes) (st_mtime : Int) (executable : Bool)
    (out : List Event) :
    dumpContents.chunks path (some (.regular st_mtime executable (data ++ extra))) data.length
        = some (.ok (contentChunks data.length data))
      ∧ dumpContents path (some (.regular st_mtime executable (data ++ extra))) data.length
        = .ok (contentChunks data.length data).flatten
      ∧ readContents data.length data.length (data ++ rest) out
        = .ok data rest (out ++ (contentChunks data.length data).map .block)
      ∧ blocksOf ((contentChunks data.length data).map .block) = contentChunks data.length data
      ∧ (contentChunks data.length data).length = (data.length + 65535) / 65536
      ∧ (∀ c ∈ contentChunks data.length data, 0 < c.length ∧ c.length ≤ 65536)
      ∧ (∀ c ∈ (contentChunks data.length data).dropLast, c.length = 65536)
      ∧ ((contentChunks data.length data).map List.length).sum = data.length
      ∧ (contentChunks data.length data).flatten = data
      ∧ (data.length = 0 → contentChunks data.length data = []) := by
  obtain ⟨b1, b2, b3, b4⟩ := contentChunks_blocked data.length data (Nat.le_refl _)
  have hflat := contentChunks_flatten data.length data (Nat.le_refl _)
  refine ⟨?_, ?_, ?_, blocksOf_map_block _, b1, b2, b3, b4, hflat, ?_⟩
  · simp only [dumpContents.chunks]
    exact loop_eq_chunks data.length data extra (Nat.le_refl _)
  · simp [dumpContents, hflat]
  · rw [← contentBlocks_eq_map]
    exact readContents_data data.length data rest out (Nat.le_refl _)
  · intro h0
    have := List.length_eq_zero.mp h0
    subst this
    rfl

theorem EXPECT_ne (raw kind s rest : Bytes) (hs : s ≠ raw) (hl : s.length + 7 < 2 ^ 64) :
    EXPECT raw kind (wireString s ++ rest)
      = .error (badArchive (lit "expected " ++ kind ++ lit " tag")) := by
  simp only [EXPECT, READ_STRING_wire s rest hl, hs, ne_eq, not_false_eq_true, ↓reduceIte]

/-- A failure of the parser at the node a valid path leads to is the failure of
`nar::parse` on the archive, after the events of the path. -/
theorem nar_parse_node_fail (useCaseHack : Bool) (marker : Bytes) (X : Bytes) (e : NarError)
    (o : Option Bytes → List Event)
    (hX : ∀ (g : Nat) (name : Option Bytes) (out : List Event), X.length ≤ g →
      SyncParser.parse useCaseHack marker (g + 1) name X out = .fail e (out ++ o name))
    (fs : List Frame) (hp : pathValid marker fs = true) :
    nar.parse useCaseHack marker (wireString narVersionMagic1 ++ (pathBytes fs ++ X))
      = .fail e (pathEvents useCaseHack marker none fs
          ++ o (holeName useCaseHack marker none fs)) := by
  rw [nar_parse_magic,
    parse_path_fail useCaseHack marker X e o hX fs _ none [] hp (Nat.le_refl _)]
  simp only [List.nil_append]

theorem parse_no_open (useCaseHack : Bool) (marker s Y : Bytes) (hs : s ≠ lit "(")
    (hl : s.length + 7 < 2 ^ 64) (g : Nat) (name : Option Bytes) (out : List Event) :
    SyncParser.parse useCaseHack marker (g + 1) name (wireString s ++ Y) out
      = .fail (badArchive (lit "expected open tag")) (out ++ []) := by
  rw [SyncParser.parse]
  simp only [EXPECT_ne (lit "(") (lit "open") s Y hs hl, List.append_nil]
  rfl

theorem parse_no_type (useCaseHack : Bool) (marker s Y : Bytes) (hs : s ≠ lit "type")
    (hl : s.length + 7 < 2 ^ 64) (g : Nat) (name : Option Bytes) (out : List Event) :
    SyncParser.parse useCaseHack marker (g + 1) name
        (wireString (lit "(") ++ (wireString s ++ Y)) out
      = .fail (badArchive (lit "expected type tag")) (out ++ []) := by
  rw [SyncParser.parse]
  simp only [EXPECT_wire (lit "(") _ _ (by decide),
    EXPECT_ne (lit "type") (lit "type") s Y hs hl, List.append_nil]
  rfl

theorem parse_unknown_type (useCaseHack : Bool) (marker s Y : Bytes) (h1 : s ≠ lit "regular")
    (h2 : s ≠ lit "directory") (h3 : s ≠ lit "symlink")
    (hl : s.length + 7 < 2 ^ 64) (g : Nat) (name : Option Bytes) (out : List Event) :
    SyncParser.parse useCaseHack marker (g + 1) name
        (wireString (lit "(") ++ (wireString (lit "type") ++ (wireString s ++ Y))) out
      = .fail (badArchive (lit "unknown file type " ++ s)) (out ++ []) := by
  rw [SyncParser.parse]
  simp only [EXPECT_wire (lit "(") _ _ (by decide), EXPECT_wire (lit "type") _ _ (by decide),
    READ_STRING_wire s Y hl, h1, h2, h3, ↓reduceIte, List.append_nil]

theorem parse_no_target (useCaseHack : Bool) (marker s Y : Bytes) (hs : s ≠ lit "target")
    (hl : s.length + 7 < 2 ^ 64) (g : Nat) (name : Option Bytes) (out : List Event) :
    SyncParser.parse useCaseHack marker (g + 1) name
        (wireString (lit "(") ++ (wireString (lit "type") ++ (wireString (lit "symlink")
          ++ (wireString s ++ Y)))) out
      = .fail (badArchive (lit "expected target tag")) (out ++ []) := by
  rw [SyncParser.parse]
  simp only [EXPECT_wire (lit "(") _ _ (by decide), EXPECT_wire (lit "type") _ _ (by decide),
    READ_STRING_wire (lit "symlink") _ (by decide), ↓reduceIte,
    show (lit "symlink" = lit "regular") = False from eq_false (by decide),
    show (lit "symlink" = lit "directory") = False from eq_false (by decide),
    EXPECT_ne (lit "target") (lit "target") s Y hs hl, List.append_nil]
  rfl

theorem parse_symlink_open (useCaseHack : Bool) (marker s Y target : Bytes) (hs : s ≠ lit ")")
    (hl : s.length + 7 < 2 ^ 64) (ht : target.length + 7 < 2 ^ 64) (g : Nat)
    (name : Option Bytes) (out : List Event) :
    SyncParser.parse useCaseHack marker (g + 1) name
        (wireString (lit "(") ++ (wireString (lit "type") ++ (wireString (lit "symlink")
          ++ (wireString (lit "target") ++ (wireString target ++ (wireString s ++ Y)))))) out
      = .fail (badArchive (lit "expected close tag")) (out ++ [.symlink name target]) := by
  rw [SyncParser.parse]
  simp only [EXPECT_wire (lit "(") _ _ (by decide), EXPECT_wire (lit "type") _ _ (by decide),
    READ_STRING_wire (lit "symlink") _ (by decide), ↓reduceIte,
    show (lit "symlink" = lit "regular") = False from eq_false (by decide),
    show (lit "symlink" = lit "directory") = False from eq_false (by decide),
    EXPECT_wire (lit "target") _ _ (by decide), READ_STRING_wire target _ ht,
    EXPECT_ne (lit ")") (lit "close") s Y hs hl]
  rfl

theorem parse_file_open (useCaseHack : Bool) (marker s Y : Bytes) (executable : Bool)
    (contents : Bytes) (hs : s ≠ lit ")") (hl : s.length + 7 < 2 ^ 64)
    (hc : contents.length < 2 ^ 64) (g : Nat) (name : Option Bytes) (out : List Event) :
    SyncParser.parse useCaseHack marker (g + 1) name
        (wireString (lit "(") ++ (wireString (lit "type") ++ (wireString (lit "regular")
          ++ ((if executable then wireString (lit "executable") ++ wireString (lit "") else [])
          ++ (wireString (lit "contents") ++ (u64le contents.length
          ++ (contents ++ (padding contents.length ++ (wireString s ++ Y)))))))) ) out
      = .fail (badArchive (lit "expected close tag"))
          (out ++ (.file name executable contents.length
            :: contentBlocks contents.length contents)) := by
  rw [SyncParser.parse]
  simp only [EXPECT_wire (lit "(") _ _ (by decide), EXPECT_wire (lit "type") _ _ (by decide),
    READ_STRING_wire (lit "regular") _ (by decide), ↓reduceIte, readFileHeader_wire,
    Nat.mod_eq_of_lt hc, readContents_data _ _ _ _ (Nat.le_refl _), READ_PADDING_padding,
    EXPECT_ne (lit ")") (lit "close") s Y hs hl, List.append_assoc, List.singleton_append]
  rfl

theorem readDir_no_entry (useCaseHack : Bool) (marker s Y : Bytes) (h1 : s ≠ lit ")")
    (h2 : s ≠ lit "entry") (hl : s.length + 7 < 2 ^ 64) (g : Nat)
    (names : List (Bytes × Nat)) (prevName : Bytes) (out : List Event) :
    SyncParser.readDir useCaseHack marker (g + 1) names prevName (wireString s ++ Y) out
      = .fail (badArchive (lit "expected entry tag")) (out ++ []) := by
  rw [SyncParser.readDir]
  simp only [readEntryHeader, READ_STRING_wire s Y hl, h1, h2, ↓reduceIte, ne_eq,
    not_false_eq_true, List.append_nil]
/-- C27 (structural tag errors). Take a node at any depth: a valid path `fs`
of enclosing directories and complete siblings leads to it. Whatever bytes `X`
follow and under either case-hack setting, with `s` a token read in the place
named: a first token other than `(` fails with `bad archive: expected open
tag`; a second token other than `type` with `bad archive: expected type tag`; a
type other than `regular`, `directory` and `symlink` with `bad archive: unknown
file type ` followed by the type; in a symlink a token other than `target` with
`bad archive: expected target tag`; a symlink or a file followed by a token
other than `)` with `bad archive: expected close tag`, the symlink or the file
with all its blocks having been yielded; and in a directory, after valid
children, a token that is neither `)` nor `entry` with `bad archive: expected
entry tag`. Nothing but the events of the path is yielded besides. -/
theorem C27_structural_tag_errors (useCaseHack : Bool) (marker : Bytes) (fs : List Frame)
    (s X : Bytes) (hpath : pathValid marker fs = true) (hlen : s.length + 7 < 2 ^ 64) :
    (s ≠ lit "(" →
        nar.parse useCaseHack marker
            (wireString narVersionMagic1 ++ (pathBytes fs ++ (wireString s ++ X)))
          = .fail (.SerialisationError (lit "bad archive: expected open tag"))
              (pathEvents useCaseHack marker none fs))
      ∧ (s ≠ lit "type" →
        nar.parse useCaseHack marker
            (wireString narVersionMagic1 ++ (pathBytes fs
              ++ (wireString (lit "(") ++ (wireString s ++ X))))
          = .fail (.SerialisationError (lit "bad archive: expected type tag"))
              (pathEvents useCaseHack marker none fs))
      ∧ (s ≠ lit "regular" → s ≠ lit "directory" → s ≠ lit "symlink" →
        nar.parse useCaseHack marker
            (wireString narVersionMagic1 ++ (pathBytes fs
              ++ (wireString (lit "(") ++ (wireString (lit "type") ++ (wireString s ++ X)))))
          = .fail (.SerialisationError (lit "bad archive: unknown file type " ++ s))
              (pathEvents useCaseHack marker none fs))
      ∧ (s ≠ lit "target" →
        nar.parse useCaseHack marker
            (wireString narVersionMagic1 ++ (pathBytes fs
              ++ (wireString (lit "(") ++ (wireString (lit "type")
                ++ (wireString (lit "symlink") ++ (wireString s ++ X))))))
          = .fail (.SerialisationError (lit "bad archive: expected target tag"))
              (pathEvents useCaseHack marker none fs))
      ∧ (s ≠ lit ")" → ∀ (target : Bytes), target.length + 7 < 2 ^ 64 →
        nar.parse useCaseHack marker
            (wireString narVersionMagic1 ++ (pathBytes fs
              ++ (wireString (lit "(") ++ (wireString (lit "type")
                ++ (wireString (lit "symlink") ++ (wireString (lit "target")
                ++ (wireString target ++ (wireString s ++ X))))))))
          = .fail (.SerialisationError (lit "bad archive: expected close tag"))
              (pathEvents useCaseHack marker none fs
                ++ [.symlink (holeName useCaseHack marker none fs) target]))
      ∧ (s ≠ lit ")" → ∀ (executable : Bool) (contents : Bytes), contents.length < 2 ^ 64 →
        nar.parse useCaseHack marker
            (wireString narVersionMagic1 ++ (pathBytes fs
              ++ (wireString (lit "(") ++ (wireString (lit "type")
                ++ (wireString (lit "regular")
                ++ ((if executable then wireString (lit "executable") ++ wireString (lit "")
                    else [])
                ++ (wireString (lit "contents") ++ (u64le contents.length
                ++ (contents ++ (padding contents.length ++ (wireString s ++ X)))))))))))
          = .fail (.SerialisationError (lit "bad archive: expected close tag"))
              (pathEvents useCaseHack marker none fs
                ++ (.file (holeName useCaseHack marker none fs) executable contents.length
                  :: contentBlocks contents.length contents)))
      ∧ (s ≠ lit ")" → s ≠ lit "entry" → ∀ (cs : List (Bytes × Entry)),
        strictlyIncreasing (cs.map Prod.fst) = true → validChildren marker cs = true →
        childrenFit cs = true →
        nar.parse useCaseHack marker
            (wireString narVersionMagic1 ++ (pathBytes fs ++ (dirBytes cs ++ (wireString s ++ X))))
          = .fail (.SerialisationError (lit "bad archive: expected entry tag"))
              (pathEvents useCaseHack marker none fs
                ++ (.directory (holeName useCaseHack marker none fs)
                  :: eventsOfChildren (caseHackedChildren useCaseHack marker [] cs)))) := by
  refine ⟨?_, ?_, ?_, ?_, ?_, ?_, ?_⟩
  · intro hs
    have h := nar_parse_node_fail useCaseHack marker (wireString s ++ X) _ (fun _ => [])
      (fun g name out _ => parse_no_open useCaseHack marker s X hs hlen g name out) fs hpath
    rw [List.append_nil] at h
    exact h
  · intro hs
    have h := nar_parse_node_fail useCaseHack marker _ _ (fun _ => [])
      (fun g name out _ => parse_no_type useCaseHack marker s X hs hlen g name out) fs hpath
    rw [List.append_nil] at h
    exact h
  · intro h1 h2 h3
    have h := nar_parse_node_fail useCaseHack marker _ _ (fun _ => [])
      (fun g name out _ =>
        parse_unknown_type useCaseHack marker s X h1 h2 h3 hlen g name out) fs hpath
    rw [List.append_nil] at h
    exact h
  · intro hs
    have h := nar_parse_node_fail useCaseHack marker _ _ (fun _ => [])
      (fun g name out _ => parse_no_target useCaseHack marker s X hs hlen g name out) fs hpath
    rw [List.append_nil] at h
    exact h
  · intro hs target ht
    exact nar_parse_node_fail useCaseHack marker _ _ (fun name => [.symlink name target])
      (fun g name out _ =>
        parse_symlink_open useCaseHack marker s X target hs hlen ht g name out) fs hpath
  · intro hs executable contents hc
    exact nar_parse_node_fail useCaseHack marker _ _
      (fun name => .file name executable contents.length
        :: contentBlocks contents.length contents)
      (fun g name out _ =>
        parse_file_open useCaseHack marker s X executable contents hs hlen hc g name out)
      fs hpath
  · intro h1 h2 cs hsorted hvalid hfit
    have h := nar_parse_dir_fail useCaseHack marker fs cs (wireString s ++ X) _ []
      hpath hsorted hvalid hfit
      (fun g out _ => readDir_no_entry useCaseHack marker s X h1 h2 hlen g _ _ out)
    rw [List.append_nil] at h
    exact h

theorem C27_structural_tag_errors_witness :
    pathValid caseHackSuffix [⟨[(lit "a", .symlink (lit "x"))], lit "d"⟩] = true
      ∧ (lit "oops").length + 7 < 2 ^ 64
      ∧ nar.parse true caseHackSuffix
          (wireString narVersionMagic1
            ++ (pathBytes [⟨[(lit "a", .symlink (lit "x"))], lit "d"⟩]
              ++ (wireString (lit "(") ++ (wireString (lit "type")
                ++ (wireString (lit "oops") ++ [])))))
        = .fail (.SerialisationError (lit "bad archive: unknown file type " ++ lit "oops"))
            (pathEvents true caseHackSuffix none [⟨[(lit "a", .symlink (lit "x"))], lit "d"⟩]) :=
  ⟨by decide, by decide,
    (C27_structural_tag_errors true caseHackSuffix [⟨[(lit "a", .symlink (lit "x"))], lit "d"⟩]
      (lit "oops") [] (by decide) (by decide)).2.2.1 (by decide) (by decide) (by decide)⟩

theorem readFileHeader_marker_value (s Y : Bytes) (hs : s ≠ lit "")
    (hl : s.length + 7 < 2 ^ 64) :
    readFileHeader (wireString (lit "executable") ++ (wireString s ++ Y))
      = .error (badArchive (lit "executable marker has non-empty value")) := by
  simp only [readFileHeader, READ_STRING_wire (lit "executable") _ (by decide),
    READ_STRING_wire s Y hl, beq_self_eq_true, ↓reduceIte, hs, ne_eq, not_false_eq_true]

theorem readFileHeader_no_contents (s Y : Bytes) (h1 : s ≠ lit "contents")
    (h2 : s ≠ lit "executable") (hl : s.length + 7 < 2 ^ 64) :
    readFileHeader (wireString s ++ Y)
      = .error (badArchive (lit "file without contents found")) := by
  have hb : (s == lit "executable") = false := by
    rw [beq_eq_false_iff_ne]
    exact h2
  simp only [readFileHeader, READ_STRING_wire s Y hl, hb, Bool.false_eq_true, ↓reduceIte, h1]

theorem readFileHeader_marker_no_contents (s Y : Bytes) (h1 : s ≠ lit "contents")
    (hl : s.length + 7 < 2 ^ 64) :
    readFileHeader (wireString (lit "executable") ++ (wireString (lit "") ++ (wireString s ++ Y)))
      = .error (badArchive (lit "file without contents found")) := by
  simp only [readFileHeader, READ_STRING_wire (lit "executable") _ (by decide),
    READ_STRING_wire (lit "") _ (by decide), READ_STRING_wire s Y hl,
    beq_self_eq_true, ↓reduceIte, ne_eq, not_true_eq_false, h1]

/-- A failure of the header of a regular file is the failure of the node. -/
theorem parse_header_fail (useCaseHack : Bool) (marker Z : Bytes) (e : NarError)
    (h : readFileHeader Z = .error e) (g : Nat) (name : Option Bytes) (out : List Event) :
    SyncParser.parse useCaseHack marker (g + 1) name
        (wireString (lit "(") ++ (wireString (lit "type") ++ (wireString (lit "regular") ++ Z)))
        out
      = .fail e (out ++ []) := by
  rw [SyncParser.parse]
  simp only [EXPECT_wire (lit "(") _ _ (by decide), EXPECT_wire (lit "type") _ _ (by decide),
    READ_STRING_wire (lit "regular") _ (by decide), ↓reduceIte, h, List.append_nil]

theorem readFileHeader_executable_iff {src rest : Bytes} {executable : Bool} {size : Nat}
    (h : readFileHeader src = .ok ((executable, size), rest)) :
    executable = true ↔ ∃ Y, src = wireString (lit "executable") ++ Y := by
  obtain ⟨hsrc, _⟩ := readFileHeader_ok h
  cases executable with
  | true =>
    simp only [↓reduceIte, List.append_assoc] at hsrc
    exact ⟨fun _ => ⟨_, hsrc⟩, fun _ => rfl⟩
  | false =>
    simp only [Bool.false_eq_true, ↓reduceIte, List.nil_append] at hsrc
    constructor
    · intro h0
      exact Bool.noConfusion h0
    · rintro ⟨Y, hY⟩
      rw [hsrc] at hY
      have e1 : (wireString (lit "contents") ++ (u64le size ++ rest)).head?
          = some (UInt8.ofNat 8) := rfl
      have e2 : (wireString (lit "executable") ++ Y).head? = some (UInt8.ofNat 10) := rfl
      have := congrArg List.head? hY
      rw [e1, e2] at this
      revert this
      decide

/-- C29 (regular-file header errors). Take a node of type `regular` at any
depth: a valid path `fs` leads to it. Whatever bytes `X` follow and under
either case-hack setting: when the token after `regular` is `executable` and
the next token `s` is not empty the parse fails with `bad archive: executable
marker has non-empty value`; when the token `s` in the contents position, after
`regular` or after the empty value of the marker, is not `contents` it fails
with `bad archive: file without contents found`. No file is yielded in these
cases. A header that is read marks the file executable exactly when it starts
with the token `executable`, and the archive of a file is parsed to a file with
the flag it was written with. -/
theorem C29_file_header_errors (useCaseHack : Bool) (marker : Bytes) (fs : List Frame)
    (s X : Bytes) (hpath : pathValid marker fs = true) (hlen : s.length + 7 < 2 ^ 64) :
    (s ≠ lit "" →
        nar.parse useCaseHack marker
            (wireString narVersionMagic1 ++ (pathBytes fs
              ++ (wireString (lit "(") ++ (wireString (lit "type")
                ++ (wireString (lit "regular") ++ (wireString (lit "executable")
                ++ (wireString s ++ X)))))))
          = .fail (.SerialisationError
                (lit "bad archive: executable marker has non-empty value"))
              (pathEvents useCaseHack marker none fs))
      ∧ (s ≠ lit "contents" → s ≠ lit "executable" →
        nar.parse useCaseHack marker
            (wireString narVersionMagic1 ++ (pathBytes fs
              ++ (wireString (lit "(") ++ (wireString (lit "type")
                ++ (wireString (lit "regular") ++ (wireString s ++ X))))))
          = .fail (.SerialisationError (lit "bad archive: file without contents found"))
              (pathEvents useCaseHack marker none fs))
      ∧ (s ≠ lit "contents" →
        nar.parse useCaseHack marker
            (wireString narVersionMagic1 ++ (pathBytes fs
              ++ (wireString (lit "(") ++ (wireString (lit "type")
                ++ (wireString (lit "regular") ++ (wireString (lit "executable")
                ++ (wireString (lit "") ++ (wireString s ++ X))))))))
          = .fail (.SerialisationError (lit "bad archive: file without contents found"))
              (pathEvents useCaseHack marker none fs))
      ∧ (∀ (src rest : Bytes) (executable : Bool) (size : Nat),
          readFileHeader src = .ok ((executable, size), rest) →
          (executable = true ↔ ∃ Y, src = wireString (lit "executable") ++ Y))
      ∧ (∀ (executable : Bool) (contents rest : Bytes), contents.length < 2 ^ 64 →
          nar.parse useCaseHack marker
              (wireString narVersionMagic1
                ++ (wireString (lit "(") ++ (wireString (lit "type")
                  ++ (wireString (lit "regular")
                  ++ ((if executable then wireString (lit "executable") ++ wireString (lit "")
                      else [])
                  ++ (wireString (lit "contents") ++ (u64le contents.length
                  ++ (contents ++ (padding contents.length
                  ++ (wireString (lit ")") ++ rest))))))))))
            = .ok [.file executable contents.length contents] rest
                (.file none executable contents.length
                  :: contentBlocks contents.length contents)) := by
  refine ⟨?_, ?_, ?_, ?_, ?_⟩
  · intro hs
    have h := nar_parse_node_fail useCaseHack marker _ _ (fun _ => [])
      (fun g name out _ => parse_header_fail useCaseHack marker _ _
        (readFileHeader_marker_value s X hs hlen) g name out) fs hpath
    rw [List.append_nil] at h
    exact h
  · intro h1 h2
    have h := nar_parse_node_fail useCaseHack marker _ _ (fun _ => [])
      (fun g name out _ => parse_header_fail useCaseHack marker _ _
        (readFileHeader_no_contents s X h1 h2 hlen) g name out) fs hpath
    rw [List.append_nil] at h
    exact h
  · intro h1
    have h := nar_parse_node_fail useCaseHack marker _ _ (fun _ => [])
      (fun g name out _ => parse_header_fail useCaseHack marker _ _
        (readFileHeader_marker_no_contents s X h1 hlen) g name out) fs hpath
    rw [List.append_nil] at h
    exact h
  · intro src rest executable size h
    exact readFileHeader_executable_iff h
  · intro executable contents rest hc
    have h := parse_serialize_append useCaseHack marker
      (.file executable contents.length contents) rest
      (by simp [Entry.valid]) (by simp only [Entry.fits, decide_eq_true_eq]; exact hc)
    simp only [serialize, dump, Entry.caseHacked, Entry.events, List.append_assoc] at h
    exact h

theorem C29_file_header_errors_witness :
    pathValid caseHackSuffix [⟨[(lit "a", .symlink (lit "x"))], lit "d"⟩] = true
      ∧ (lit "x").length + 7 < 2 ^ 64
      ∧ nar.parse false caseHackSuffix
          (wireString narVersionMagic1
            ++ (pathBytes [⟨[(lit "a", .symlink (lit "x"))], lit "d"⟩]
              ++ (wireString (lit "(") ++ (wireString (lit "type")
                ++ (wireString (lit "regular") ++ (wireString (lit "executable")
                ++ (wireString (lit "x") ++ [])))))))
        = .fail (.SerialisationError
              (lit "bad archive: executable marker has non-empty value"))
            (pathEvents false caseHackSuffix none
              [⟨[(lit "a", .symlink (lit "x"))], lit "d"⟩]) :=
  ⟨by decide, by decide,
    (C29_file_header_errors false caseHackSuffix [⟨[(lit "a", .symlink (lit "x"))], lit "d"⟩]
      (lit "x") [] (by decide) (by decide)).1 (by decide)⟩

theorem toNat_inj {a b : UInt8} (h : a.toNat = b.toNat) : a = b := by
  rw [← ofNat_toNat_self a, ← ofNat_toNat_self b, h]

theorem tolower_ne_zero {b : UInt8} (h : b ≠ 0) : (tolower b).toNat ≠ 0 := by
  have hb : b.toNat ≠ 0 := by
    intro h0
    apply h
    apply toNat_inj
    rw [h0]
    rfl
  unfold tolower
  split
  · rename_i hr
    have := toNat_lt b
    rw [toNat_ofNat]
    omega
  · exact hb

theorem strcasecmpLoop_neg : ∀ (a b : Bytes), strcasecmpLoop b a = - strcasecmpLoop a b
  | [], [] => rfl
  | [], b :: _ => by simp [strcasecmpLoop]
  | a :: _, [] => by simp [strcasecmpLoop]
  | a :: as, b :: bs => by
    by_cases h : tolower a = tolower b
    · simp only [strcasecmpLoop, h, ↓reduceIte]
      exact strcasecmpLoop_neg as bs
    · have h2 : ¬ tolower b = tolower a := fun e => h e.symm
      simp only [strcasecmpLoop, h, h2, ↓reduceIte]
      omega

theorem strcasecmpLoop_eq_zero : ∀ (a b : Bytes), (∀ x ∈ a, x ≠ 0) → (∀ x ∈ b, x ≠ 0) →
    (strcasecmpLoop a b = 0 ↔ a.map tolower = b.map tolower)
  | [], [], _, _ => by simp [strcasecmpLoop]
  | [], b :: _, _, hb => by
    have := tolower_ne_zero (hb b (List.mem_cons_self _ _))
    simp only [strcasecmpLoop, List.map_nil, List.map_cons]
    constructor
    · intro h
      omega
    · intro h
      exact absurd h (by simp)
  | a :: _, [], ha, _ => by
    have := tolower_ne_zero (ha a (List.mem_cons_self _ _))
    simp only [strcasecmpLoop, List.map_nil, List.map_cons]
    constructor
    · intro h
      omega
    · intro h
      exact absurd h (by simp)
  | a :: as, b :: bs, ha, hb => by
    have ih := strcasecmpLoop_eq_zero as bs (fun x hx => ha x (List.mem_cons_of_mem _ hx))
      (fun x hx => hb x (List.mem_cons_of_mem _ hx))
    by_cases h : tolower a = tolower b
    · simp only [strcasecmpLoop, h, ↓reduceIte, List.map_cons, List.cons.injEq, true_and, ih]
    · simp only [strcasecmpLoop, h, ↓reduceIte, List.map_cons, List.cons.injEq, false_and,
        iff_false]
      intro h0
      apply h
      apply toNat_inj
      omega

theorem c_str_ne_zero (s : Bytes) : ∀ x ∈ c_str s, x ≠ 0 := by
  intro x hx
  have := List.mem_takeWhile_imp hx
  simpa using this

theorem c_str_of_no_nul : ∀ (s : Bytes), (0 : UInt8) ∉ s → c_str s = s
  | [], _ => rfl
  | a :: s, h => by
    have ha : a ≠ 0 := fun e => h (e ▸ List.mem_cons_self _ _)
    have hs : (0 : UInt8) ∉ s := fun hm => h (List.mem_cons_of_mem _ hm)
    have ih := c_str_of_no_nul s hs
    unfold c_str at ih ⊢
    rw [List.takeWhile_cons]
    simp only [bne_iff_ne, ne_eq, ha, not_false_eq_true, ↓reduceIte, ih]

/-- The comparison `strcasecmp` returns 0 exactly on strings that are equal up
to the case of ASCII letters, as far as their first NUL byte. -/
theorem strcasecmp_eq_zero (a b : Bytes) :
    strcasecmp a b = 0 ↔ (c_str a).map tolower = (c_str b).map tolower :=
  strcasecmpLoop_eq_zero _ _ (c_str_ne_zero a) (c_str_ne_zero b)

theorem sameKey_iff (a b : Bytes) : sameKey a b = true ↔ strcasecmp a b = 0 := by
  have h := strcasecmpLoop_neg (c_str a) (c_str b)
  simp only [sameKey, CaseInsensitiveCompare, strcasecmp, Bool.and_eq_true, Bool.not_eq_true',
    decide_eq_false_iff_not, h]
  omega

theorem sameKey_fold (a b : Bytes) :
    sameKey a b = true ↔ (c_str a).map tolower = (c_str b).map tolower :=
  (sameKey_iff a b).trans (strcasecmp_eq_zero a b)

theorem sameKey_congr {n q : Bytes} (h : sameKey n q = true) (j : Bytes) :
    sameKey j q = sameKey j n := by
  rw [sameKey_fold] at h
  cases h1 : sameKey j q <;> cases h2 : sameKey j n
  · rfl
  · rw [sameKey_fold] at h2
    have : sameKey j q = true := (sameKey_fold j q).mpr (h2.trans h)
    rw [h1] at this
    exact Bool.noConfusion this
  · rw [sameKey_fold] at h1
    have : sameKey j n = true := (sameKey_fold j n).mpr (h1.trans h.symm)
    rw [h2] at this
    exact Bool.noConfusion this
  · rfl

theorem collisions_append (earlier : List Bytes) (n q : Bytes) :
    collisions (earlier ++ [n]) q
      = collisions earlier q + (if sameKey n q = true then 1 else 0) := by
  simp only [collisions, List.countP_append, List.countP_cons, List.countP_nil, Nat.zero_add,
    beq_iff_eq]
  by_cases h : sameKey n q = true
  · simp [h, (sameKey_iff n q).mp h]
  · have : ¬ strcasecmp n q = 0 := fun e => h ((sameKey_iff n q).mpr e)
    simp [h, this]

/-- The map `names` of the directory reader records the siblings `earlier`:
every name finds its collision count in it. -/
theorem record_step (names : List (Bytes × Nat)) (earlier : List Bytes) (marker n : Bytes)
    (hinv : ∀ q, match names.find? (fun i => sameKey i.1 q) with
      | none => collisions earlier q = 0
      | some i => collisions earlier q = i.2 + 1) :
    (applyCaseHack true marker names n).1 = hackedName marker earlier n
      ∧ ∀ q, match (applyCaseHack true marker names n).2.find? (fun i => sameKey i.1 q) with
        | none => collisions (earlier ++ [n]) q = 0
        | some i => collisions (earlier ++ [n]) q = i.2 + 1 := by
  have hn := hinv n
  cases hf : names.find? (fun i => sameKey i.1 n) with
  | none =>
    rw [hf] at hn
    simp only [] at hn
    have happ : applyCaseHack true marker names n = (n, names ++ [(n, 0)]) := by
      simp only [applyCaseHack, ↓reduceIte, hf]
    rw [happ]
    refine ⟨by simp only [hackedName, hn, ↓reduceIte], ?_⟩
    intro q
    have hq := hinv q
    rw [collisions_append]
    by_cases hs : sameKey n q = true
    · have hnone : names.find? (fun i => sameKey i.1 q) = none := by
        rw [← hf]
        congr 1
        funext i
        exact sameKey_congr hs i.1
      rw [hnone] at hq
      simp only [] at hq
      simp only [List.find?_append, hnone, Option.none_or, List.find?_cons, hs, hq,
        ↓reduceIte]
    · simp only [hs, ↓reduceIte, Nat.add_zero]
      cases hfq : names.find? (fun i => sameKey i.1 q) with
      | none =>
        rw [hfq] at hq
        have hs2 : sameKey n q = false := by
          cases h : sameKey n q
          · rfl
          · exact absurd h hs
        simp only [List.find?_append, hfq, Option.none_or, List.find?_cons, hs2,
          List.find?_nil]
        exact hq
      | some i =>
        rw [hfq] at hq
        simp only [List.find?_append, hfq, Option.or]
        exact hq
  | some i =>
    rw [hf] at hn
    simp only [] at hn
    have happ : applyCaseHack true marker names n
        = (n ++ marker ++ to_string (i.2 + 1),
            names.map (fun j => if sameKey j.1 n then (j.1, j.2 + 1) else j)) := by
      simp only [applyCaseHack, ↓reduceIte, hf]
    rw [happ]
    have hne : ¬ collisions earlier n = 0 := by omega
    refine ⟨by rw [hackedName, if_neg hne, hn], ?_⟩
    intro q
    have hq := hinv q
    rw [collisions_append]
    have hkey : ∀ (j : Bytes × Nat),
        (if sameKey j.1 n = true then (j.1, j.2 + 1) else j).1 = j.1 := by
      intro j
      split <;> rfl
    have hfind : (names.map (fun j => if sameKey j.1 n then (j.1, j.2 + 1) else j)).find?
          (fun i => sameKey i.1 q)
        = (names.find? (fun i => sameKey i.1 q)).map
            (fun j => if sameKey j.1 n then (j.1, j.2 + 1) else j) := by
      have hcomp : ((fun (i : Bytes × Nat) => sameKey i.1 q)
          ∘ fun j => if sameKey j.1 n = true then (j.1, j.2 + 1) else j)
          = (fun (i : Bytes × Nat) => sameKey i.1 q) := by
        funext j
        simp only [Function.comp, hkey]
      rw [List.find?_map, hcomp]
    rw [hfind]
    by_cases hs : sameKey n q = true
    · have hsome : names.find? (fun i => sameKey i.1 q) = some i := by
        rw [← hf]
        congr 1
        funext j
        exact sameKey_congr hs j.1
      have hin : sameKey i.1 n = true := by
        have := List.find?_some hf
        simpa using this
      rw [hsome] at hq ⊢
      simp only [] at hq
      simp only [Option.map_some', hin, ↓reduceIte, hs, hq]
    · simp only [hs, ↓reduceIte, Nat.add_zero]
      cases hfq : names.find? (fun i => sameKey i.1 q) with
      | none =>
        rw [hfq] at hq
        simp only [Option.map_none']
        exact hq
      | some j =>
        rw [hfq] at hq
        have hjq : sameKey j.1 q = true := by
          have := List.find?_some hfq
          simpa using this
        have hjn : sameKey j.1 n = false := by
          cases h : sameKey j.1 n
          · rfl
          · exfalso
            apply hs
            rw [sameKey_fold] at h hjq ⊢
            exact h.symm.trans hjq
        simp only [Option.map_some', hjn, Bool.false_eq_true, ↓reduceIte]
        exact hq
mutual
/-- The tree the parser yields with the case hack enabled is the tree the
specification describes. -/
theorem caseHacked_eq_spec (marker : Bytes) : ∀ (T : Entry),
    T.caseHacked true marker = T.hackedSpec marker
  | .file _ _ _ => rfl
  | .symlink _ => rfl
  | .directory cs => by
    simp only [Entry.caseHacked, Entry.hackedSpec]
    rw [caseHackedChildren_eq_spec marker cs [] [] (by intro q; simp [collisions])]
theorem caseHackedChildren_eq_spec (marker : Bytes) : ∀ (cs : List (Bytes × Entry))
    (names : List (Bytes × Nat)) (earlier : List Bytes),
    (∀ q, match names.find? (fun i => sameKey i.1 q) with
      | none => collisions earlier q = 0
      | some i => collisions earlier q = i.2 + 1) →
    caseHackedChildren true marker names cs = childrenHackedSpec marker earlier cs
  | [], _, _, _ => rfl
  | (n, e) :: cs, names, earlier, hinv => by
    obtain ⟨h1, h2⟩ := record_step names earlier marker n hinv
    simp only [caseHackedChildren, childrenHackedSpec, h1, caseHacked_eq_spec marker e,
      caseHackedChildren_eq_spec marker cs _ (earlier ++ [n]) h2]
end

/-- C21 (case hack on read). For the archive of a valid tree `T`: with the case
hack enabled the parser yields the tree in which, in every directory and with a
record that starts empty there, a child whose name equals an earlier sibling's
ignoring ASCII case comes under name + marker + k in decimal, k being the
number of such earlier siblings (1 at the first collision with the recorded
name, then 2, ...), and every other child under its own name; with the case
hack disabled it yields `T` itself. The archive is accepted whenever the names
as written are strictly increasing, so the sort check uses the name before the
suffix is added. In a step of the directory reader: a name that finds a
recorded name with `strcasecmp` equal to 0 is yielded with the marker and the
counter of that record raised by one; a name that finds none is yielded
unchanged and recorded with counter 0. `strcasecmp` returns 0 exactly on names
equal up to the case of ASCII letters. -/
theorem C21_case_hack_on_read (marker : Bytes) (T : Entry) (hvalid : T.valid marker = true)
    (hfits : T.fits = true) :
    nar.parse true marker (serialize T)
        = .ok [T.hackedSpec marker] [] ((T.hackedSpec marker).events none)
      ∧ nar.parse false marker (serialize T) = .ok [T] [] (T.events none)
      ∧ (∀ (names : List (Bytes × Nat)) (name : Bytes),
          applyCaseHack false marker names name = (name, names))
      ∧ (∀ (names : List (Bytes × Nat)) (name : Bytes) (i : Bytes × Nat),
          names.find? (fun i => decide (strcasecmp i.1 name = 0)) = some i →
          applyCaseHack true marker names name
            = (name ++ marker ++ to_string (i.2 + 1),
                names.map (fun j => if strcasecmp j.1 name = 0 then (j.1, j.2 + 1) else j)))
      ∧ (∀ (names : List (Bytes × Nat)) (name : Bytes),
          names.find? (fun i => decide (strcasecmp i.1 name = 0)) = none →
          applyCaseHack true marker names name = (name, names ++ [(name, 0)]))
      ∧ (∀ (a b : Bytes), (0 : UInt8) ∉ a → (0 : UInt8) ∉ b →
          (strcasecmp a b = 0 ↔ a.map tolower = b.map tolower)) := by
  have hk : ∀ (name : Bytes), (fun (i : Bytes × Nat) => sameKey i.1 name)
      = (fun (i : Bytes × Nat) => decide (strcasecmp i.1 name = 0)) := by
    intro name
    funext i
    cases h : sameKey i.1 name
    · have : ¬ strcasecmp i.1 name = 0 := fun e => by
        rw [(sameKey_iff _ _).mpr e] at h
        exact Bool.noConfusion h
      simp [this]
    · simp [(sameKey_iff _ _).mp h]
  refine ⟨?_, parse_serialize marker T hvalid hfits, fun _ _ => rfl, ?_, ?_, ?_⟩
  · have h := parse_serialize_append true marker T [] hvalid hfits
    rw [List.append_nil, caseHacked_eq_spec] at h
    exact h
  · intro names name i hf
    rw [← hk] at hf
    simp only [applyCaseHack, ↓reduceIte, hf]
    congr 1
    apply List.map_congr_left
    intro j _
    cases h : sameKey j.1 name
    · have : ¬ strcasecmp j.1 name = 0 := fun e => by
        rw [(sameKey_iff _ _).mpr e] at h
        exact Bool.noConfusion h
      simp [this]
    · simp [(sameKey_iff _ _).mp h]
  · intro names name hf
    rw [← hk] at hf
    simp only [applyCaseHack, ↓reduceIte, hf]
  · intro a b ha hb
    have h := strcasecmp_eq_zero a b
    rw [c_str_of_no_nul a ha, c_str_of_no_nul b hb] at h
    exact h

set_option maxRecDepth 100000 in
theorem C21_case_hack_on_read_witness :
    caseHackOrderTree.valid caseHackSuffix = true ∧ caseHackOrderTree.fits = true
      ∧ caseHackOrderTree.hackedSpec caseHackSuffix
        = .directory [(lit "A", .symlink (lit "x")),
            (lit "a~nix~case~hack~1", .symlink (lit "y")), (lit "a~", .symlink (lit "z"))]
      ∧ nar.parse true caseHackSuffix (serialize caseHackOrderTree)
        = .ok [caseHackOrderTree.hackedSpec caseHackSuffix] []
            ((caseHackOrderTree.hackedSpec caseHackSuffix).events none) :=
  ⟨by decide, by decide, by rfl,
    (C21_case_hack_on_read caseHackSuffix caseHackOrderTree (by decide) (by decide)).1⟩

theorem strLt_total : ∀ (a b : Bytes), a ≠ b → strLt a b = false → strLt b a = true
  | [], [], h, _ => absurd rfl h
  | [], _ :: _, _, h => by simp [strLt] at h
  | _ :: _, [], _, _ => by simp [strLt]
  | a :: as, b :: bs, hne, h => by
    simp only [strLt] at h ⊢
    by_cases h1 : a.toNat < b.toNat
    · simp [h1] at h
    · by_cases h2 : b.toNat < a.toNat
      · simp [h2]
      · simp only [h1, h2, ↓reduceIte] at h ⊢
        have hab : a = b := toNat_inj (by omega)
        subst hab
        exact strLt_total as bs (fun e => hne (by rw [e])) h

theorem strictlyIncreasing_iff (l : List Bytes) :
    strictlyIncreasing l = true ↔ l.Pairwise (fun a b => strLt a b = true) := by
  induction l with
  | nil => simp [strictlyIncreasing]
  | cons a l ih =>
    rw [List.pairwise_cons]
    constructor
    · intro h
      exact ⟨strictlyIncreasing_head_lt l a h, ih.mp (strictlyIncreasing_tail h)⟩
    · rintro ⟨h1, h2⟩
      cases l with
      | nil => rfl
      | cons b t =>
        rw [strictlyIncreasing_cons, Bool.and_eq_true]
        exact ⟨h1 b (List.mem_cons_self _ _), ih.mpr h2⟩

theorem pairwise_strLt_nodup {l : List Bytes}
    (h : l.Pairwise (fun a b => strLt a b = true)) : l.Nodup :=
  h.imp (fun hlt => strLt_ne hlt)

theorem mapEmplace_mem {α : Type} (key : Bytes) (value : α) :
    ∀ (m : List (Bytes × α)) (y : Bytes × α), y ∈ (mapEmplace key value m).1 →
      y = (key, value) ∨ y ∈ m
  | [], y, h => by
    simp only [mapEmplace, List.mem_singleton] at h
    exact Or.inl h
  | (k, v) :: rest, y, h => by
    unfold mapEmplace at h
    split at h
    · rcases List.mem_cons.mp h with e | hm
      · exact Or.inl e
      · exact Or.inr hm
    · split at h
      · exact Or.inr h
      · rcases List.mem_cons.mp h with e | hm
        · exact Or.inr (e ▸ List.mem_cons_self _ _)
        · rcases mapEmplace_mem key value rest y hm with e | hm2
          · exact Or.inl e
          · exact Or.inr (List.mem_cons_of_mem _ hm2)

theorem mapEmplace_sorted {α : Type} (key : Bytes) (value : α) :
    ∀ (m : List (Bytes × α)), sortedKeys m → sortedKeys (mapEmplace key value m).1
  | [], _ => by simp [mapEmplace, sortedKeys]
  | (k, v) :: rest, h => by
    unfold sortedKeys at h ⊢
    rw [List.map_cons, List.pairwise_cons] at h
    obtain ⟨h1, h2⟩ := h
    unfold mapEmplace
    split
    · rename_i hlt
      simp only [List.map_cons, List.pairwise_cons]
      refine ⟨?_, h1, h2⟩
      intro x hx
      rcases List.mem_cons.mp hx with e | hm
      · subst e; exact hlt
      · exact strLt_trans key k x hlt (h1 x hm)
    · rename_i hlt
      split
      · simp only [List.map_cons, List.pairwise_cons]
        exact ⟨h1, h2⟩
      · rename_i hne
        have hk : strLt k key = true :=
          strLt_total key k hne (by simpa using hlt)
        simp only [List.map_cons, List.pairwise_cons]
        refine ⟨?_, mapEmplace_sorted key value rest h2⟩
        intro x hx
        rw [List.mem_map] at hx
        obtain ⟨y, hy, rfl⟩ := hx
        rcases mapEmplace_mem key value rest y hy with e | hm
        · subst e; exact hk
        · exact h1 y.1 (List.mem_map_of_mem Prod.fst hm)

/-- On a map in key order, `emplace` inserts exactly when the key is absent. -/
theorem mapEmplace_inserted_iff {α : Type} (key : Bytes) (value : α) :
    ∀ (m : List (Bytes × α)), sortedKeys m →
      ((mapEmplace key value m).2 = false ↔ key ∈ m.map Prod.fst)
  | [], _ => by simp [mapEmplace]
  | (k, v) :: rest, h => by
    unfold sortedKeys at h
    rw [List.map_cons, List.pairwise_cons] at h
    obtain ⟨h1, h2⟩ := h
    unfold mapEmplace
    split
    · rename_i hlt
      simp only [Bool.true_eq_false, List.map_cons, List.mem_cons, false_iff, not_or]
      refine ⟨strLt_ne hlt, ?_⟩
      intro hm
      have := strLt_trans key k key hlt (h1 key hm)
      rw [strLt_irrefl] at this
      exact Bool.noConfusion this
    · split
      · rename_i he
        simp [he]
      · rename_i hne
        have ih := mapEmplace_inserted_iff key value rest h2
        simp only [ih, List.map_cons, List.mem_cons, hne, false_or]

theorem mapEmplace_not_inserted {α : Type} (key : Bytes) (value : α) :
    ∀ (m : List (Bytes × α)), (mapEmplace key value m).2 = false →
      (mapEmplace key value m).1 = m
  | [], h => by simp [mapEmplace] at h
  | (k, v) :: rest, h => by
    unfold mapEmplace at h ⊢
    split
    · rename_i hlt
      simp [hlt] at h
    · rename_i hlt
      simp only [hlt, Bool.false_eq_true, ↓reduceIte] at h
      split
      · rfl
      · rename_i hne
        simp only [hne, ↓reduceIte] at h
        simp only [mapEmplace_not_inserted key value rest h]

theorem mapEmplace_perm {α : Type} (key : Bytes) (value : α) :
    ∀ (m : List (Bytes × α)), (mapEmplace key value m).2 = true →
      (mapEmplace key value m).1.Perm ((key, value) :: m)
  | [], _ => by simp [mapEmplace]
  | (k, v) :: rest, h => by
    unfold mapEmplace at h ⊢
    split
    · exact List.Perm.refl _
    · rename_i hlt
      simp only [hlt, Bool.false_eq_true, ↓reduceIte] at h
      split
      · rename_i he
        simp [he] at h
      · rename_i hne
        simp only [hne, ↓reduceIte] at h
        exact ((mapEmplace_perm key value rest h).cons (k, v)).trans (List.Perm.swap _ _ _)

theorem mapEmplace_map {α β : Type} (f : α → β) (key : Bytes) (value : α) :
    ∀ (m : List (Bytes × α)),
      mapEmplace key (f value) (m.map (fun y => (y.1, f y.2)))
        = ((mapEmplace key value m).1.map (fun y => (y.1, f y.2)), (mapEmplace key value m).2)
  | [] => rfl
  | (k, v) :: rest => by
    have ih := mapEmplace_map f key value rest
    simp only [List.map_cons, mapEmplace]
    split
    · rfl
    · split
      · rfl
      · simp only [ih, List.map_cons]

theorem mapFind_map {α β : Type} (f : α → β) (key : Bytes) :
    ∀ (m : List (Bytes × α)),
      mapFind key (m.map (fun y => (y.1, f y.2))) = (mapFind key m).map f
  | [] => rfl
  | (k, v) :: rest => by
    simp only [List.map_cons, mapFind]
    split
    · rfl
    · exact mapFind_map f key rest

theorem fillUnhacked_cons_true {α : Type} (marker path iname : Bytes) (payload : α)
    (rest : List (Bytes × α)) (unhacked : List (Bytes × Bytes × α)) :
    fillUnhacked true marker path ((iname, payload) :: rest) unhacked
      = if (mapEmplace (removeCaseHack marker iname) (iname, payload) unhacked).2 = true then
          fillUnhacked true marker path rest
            (mapEmplace (removeCaseHack marker iname) (iname, payload) unhacked).1
        else .error (collisionError path
          (((mapFind (removeCaseHack marker iname) unhacked).map (fun v => v.1)).getD [])
          iname) := by
  rw [fillUnhacked]
  simp only [↓reduceIte]
  cases h : mapEmplace (removeCaseHack marker iname) (iname, payload) unhacked with
  | mk m1 b =>
    cases b <;> simp [collisionError]

theorem fillUnhacked_cons_false {α : Type} (marker path iname : Bytes) (payload : α)
    (rest : List (Bytes × α)) (unhacked : List (Bytes × Bytes × α)) :
    fillUnhacked false marker path ((iname, payload) :: rest) unhacked
      = fillUnhacked false marker path rest (mapEmplace iname (iname, payload) unhacked).1 := by
  rw [fillUnhacked]
  simp only [Bool.false_eq_true, ↓reduceIte]

/-- One turn of the first loop, for either setting: the name is emplaced under
its archive name, and the turn throws when the case hack is enabled and the
archive name is present. -/
theorem fillUnhacked_cons {α : Type} (useCaseHack : Bool) (marker path iname : Bytes)
    (payload : α) (rest : List (Bytes × α)) (unhacked : List (Bytes × Bytes × α)) :
    fillUnhacked useCaseHack marker path ((iname, payload) :: rest) unhacked
      = if useCaseHack = true
          ∧ (mapEmplace (archiveName useCaseHack marker iname) (iname, payload) unhacked).2
            = false then
          .error (collisionError path
            (((mapFind (archiveName useCaseHack marker iname) unhacked).map
              (fun v => v.1)).getD []) iname)
        else fillUnhacked useCaseHack marker path rest
          (mapEmplace (archiveName useCaseHack marker iname) (iname, payload) unhacked).1 := by
  cases useCaseHack with
  | false =>
    rw [fillUnhacked_cons_false]
    simp [archiveName]
  | true =>
    rw [fillUnhacked_cons_true]
    simp only [archiveName, ↓reduceIte, true_and]
    cases h : (mapEmplace (removeCaseHack marker iname) (iname, payload) unhacked).2 <;> simp

theorem fillUnhacked_nil {α : Type} (useCaseHack : Bool) (marker path : Bytes)
    (unhacked : List (Bytes × Bytes × α)) :
    fillUnhacked useCaseHack marker path [] unhacked = .ok unhacked := by
  rw [fillUnhacked]

/-- The first loop does not look at the payloads. -/
theorem fill_natural {α β : Type} (g : Bytes → α → β) (useCaseHack : Bool)
    (marker path : Bytes) : ∀ (items : List (Bytes × α)) (init : List (Bytes × Bytes × α)),
    fillUnhacked useCaseHack marker path (items.map (fun x => (x.1, g x.1 x.2)))
        (init.map (fun y => (y.1, (y.2.1, g y.2.1 y.2.2))))
      = match fillUnhacked useCaseHack marker path items init with
        | .error e => .error e
        | .ok m => .ok (m.map (fun y => (y.1, (y.2.1, g y.2.1 y.2.2))))
  | [], init => by
    simp only [List.map_nil, fillUnhacked_nil]
  | (n, p) :: items, init => by
    have hm := mapEmplace_map (fun (v : Bytes × α) => (v.1, g v.1 v.2))
      (archiveName useCaseHack marker n) (n, p) init
    have hf := mapFind_map (fun (v : Bytes × α) => (v.1, g v.1 v.2))
      (archiveName useCaseHack marker n) init
    simp only [] at hm hf
    simp only [List.map_cons, fillUnhacked_cons, hm, hf, Option.map_map]
    split
    · rfl
    · exact fill_natural g useCaseHack marker path items _

/-- What the first loop keeps: the map stays in key order, every key is the
archive name of the on-disk name stored under it, and every entry was there
before or comes from the listing. -/
theorem fill_inv {α : Type} (useCaseHack : Bool) (marker path : Bytes) :
    ∀ (items : List (Bytes × α)) (init m : List (Bytes × Bytes × α)),
    fillUnhacked useCaseHack marker path items init = .ok m →
    sortedKeys init → (∀ y ∈ init, y.1 = archiveName useCaseHack marker y.2.1) →
    sortedKeys m ∧ (∀ y ∈ m, y.1 = archiveName useCaseHack marker y.2.1)
      ∧ (∀ y ∈ m, y ∈ init ∨ ∃ x ∈ items, y = (archiveName useCaseHack marker x.1, x.1, x.2))
  | [], init, m, h, hs, hk => by
    rw [fillUnhacked_nil] at h
    simp only [Except.ok.injEq] at h
    subst h
    exact ⟨hs, hk, fun y hy => Or.inl hy⟩
  | (n, p) :: items, init, m, h, hs, hk => by
    rw [fillUnhacked_cons] at h
    split at h
    · simp at h
    · have hs1 := mapEmplace_sorted (archiveName useCaseHack marker n) (n, p) init hs
      have hk1 : ∀ y ∈ (mapEmplace (archiveName useCaseHack marker n) (n, p) init).1,
          y.1 = archiveName useCaseHack marker y.2.1 := by
        intro y hy
        rcases mapEmplace_mem _ _ init y hy with e | hm
        · subst e; rfl
        · exact hk y hm
      obtain ⟨r1, r2, r3⟩ := fill_inv useCaseHack marker path items _ m h hs1 hk1
      refine ⟨r1, r2, ?_⟩
      intro y hy
      rcases r3 y hy with h1 | ⟨x, hx, e⟩
      · rcases mapEmplace_mem _ _ init y h1 with e | hm
        · exact Or.inr ⟨(n, p), List.mem_cons_self _ _, e⟩
        · exact Or.inl hm
      · exact Or.inr ⟨x, List.mem_cons_of_mem _ hx, e⟩

theorem mapFind_of_key {α : Type} (key : Bytes) : ∀ (m : List (Bytes × α)),
    key ∈ m.map Prod.fst → ∃ v, mapFind key m = some v ∧ (key, v) ∈ m
  | [], h => by simp at h
  | (k, v) :: rest, h => by
    by_cases hk : k = key
    · subst hk
      exact ⟨v, by simp [mapFind], List.mem_cons_self _ _⟩
    · have h2 : key ∈ rest.map Prod.fst := by
        rcases List.mem_cons.mp h with e | hm
        · exact absurd e.symm hk
        · exact hm
      obtain ⟨w, hw1, hw2⟩ := mapFind_of_key key rest h2
      exact ⟨w, by simp [mapFind, hk, hw1], List.mem_cons_of_mem _ hw2⟩

/-- With the case hack disabled the first loop never throws. -/
theorem fill_false_ok {α : Type} (marker path : Bytes) :
    ∀ (items : List (Bytes × α)) (init : List (Bytes × Bytes × α)),
    ∃ m, fillUnhacked false marker path items init = .ok m
  | [], init => ⟨init, fillUnhacked_nil _ _ _ _⟩
  | (n, p) :: items, init => by
    rw [fillUnhacked_cons_false]
    exact fill_false_ok marker path items _

/-- With the case hack enabled the first loop throws exactly when two archive
names coincide; the exception names two on-disk names with one archive name. -/
theorem fill_true_error {α : Type} (marker path : Bytes) :
    ∀ (items : List (Bytes × α)) (init : List (Bytes × Bytes × α)),
    sortedKeys init → (∀ y ∈ init, y.1 = removeCaseHack marker y.2.1) →
    ((∀ m, fillUnhacked true marker path items init ≠ .ok m) ↔
        ¬ (init.map Prod.fst ++ items.map (fun x => removeCaseHack marker x.1)).Nodup)
      ∧ (∀ e, fillUnhacked true marker path items init = .error e →
          ∃ a b pre post payload, items = pre ++ (b, payload) :: post
            ∧ (a ∈ init.map (fun y => y.2.1) ∨ a ∈ pre.map Prod.fst)
            ∧ removeCaseHack marker a = removeCaseHack marker b
            ∧ e = collisionError path a b)
  | [], init, hs, hk => by
    constructor
    · simp only [fillUnhacked_nil, ne_eq, Except.ok.injEq, List.map_nil, List.append_nil]
      constructor
      · intro h
        exact absurd rfl (h init)
      · intro h
        exact absurd (pairwise_strLt_nodup hs) h
    · intro e h
      rw [fillUnhacked_nil] at h
      simp at h
  | (n, p) :: items, init, hs, hk => by
    have hins := mapEmplace_inserted_iff (removeCaseHack marker n) (n, p) init hs
    rw [fillUnhacked_cons_true]
    cases hb : (mapEmplace (removeCaseHack marker n) (n, p) init).2 with
    | false =>
      have hmem := hins.mp hb
      simp only [Bool.false_eq_true, ↓reduceIte]
      constructor
      · constructor
        · intro _ hnd
          rw [List.map_cons, List.nodup_append] at hnd
          exact hnd.2.2 hmem (List.mem_cons_self _ _)
        · intro _ m hm
          simp at hm
      · intro e he
        simp only [Except.error.injEq] at he
        rw [List.mem_map] at hmem
        obtain ⟨y, hy, hyk⟩ := hmem
        obtain ⟨v, hv1, hvm⟩ := mapFind_of_key (removeCaseHack marker n) init
          (List.mem_map.mpr ⟨y, hy, hyk⟩)
        have hv2 : removeCaseHack marker v.1 = removeCaseHack marker n :=
          (hk _ hvm).symm
        have hv3 : v.1 ∈ init.map (fun y => y.2.1) :=
          List.mem_map.mpr ⟨_, hvm, rfl⟩
        refine ⟨v.1, n, [], items, p, rfl, Or.inl hv3, hv2, ?_⟩
        rw [← he, hv1]
        rfl
    | true =>
      have hnot : removeCaseHack marker n ∉ init.map Prod.fst := by
        intro hm
        have := hins.mpr hm
        rw [hb] at this
        exact Bool.noConfusion this
      have hperm := mapEmplace_perm (removeCaseHack marker n) (n, p) init hb
      have hs1 := mapEmplace_sorted (removeCaseHack marker n) (n, p) init hs
      have hk1 : ∀ y ∈ (mapEmplace (removeCaseHack marker n) (n, p) init).1,
          y.1 = removeCaseHack marker y.2.1 := by
        intro y hy
        rcases mapEmplace_mem _ _ init y hy with e | hm
        · subst e; rfl
        · exact hk y hm
      obtain ⟨ih1, ih2⟩ := fill_true_error marker path items _ hs1 hk1
      simp only [↓reduceIte]
      have hpk : ((mapEmplace (removeCaseHack marker n) (n, p) init).1.map Prod.fst
            ++ items.map (fun x => removeCaseHack marker x.1)).Perm
          (init.map Prod.fst
            ++ ((n, p) :: items).map (fun x => removeCaseHack marker x.1)) := by
        have h1 := (hperm.map Prod.fst).append_right
          (items.map (fun x => removeCaseHack marker x.1))
        refine h1.trans ?_
        simp only [List.map_cons, List.cons_append]
        exact List.perm_middle.symm
      constructor
      · rw [ih1, hpk.nodup_iff]
      · intro e he
        obtain ⟨a, b, pre, post, pb, hitems, ha, hab, hee⟩ := ih2 e he
        refine ⟨a, b, (n, p) :: pre, post, pb, by rw [hitems]; rfl, ?_, hab, hee⟩
        rcases ha with ha | ha
        · rw [List.mem_map] at ha
          obtain ⟨y, hy, rfl⟩ := ha
          rcases mapEmplace_mem _ _ init y hy with e1 | hm
          · subst e1
            exact Or.inr (List.mem_cons_self _ _)
          · exact Or.inl (List.mem_map_of_mem (fun y => y.2.1) hm)
        · exact Or.inr (List.mem_cons_of_mem _ ha)
theorem listEach_eq_map (useCaseHack : Bool) (marker : Bytes) (filter : Bytes → Bool)
    (returnUnhacked : Bool) (path : Bytes) : ∀ (entries : List (Bytes × FsNode)),
    listEach useCaseHack marker filter returnUnhacked path entries
      = entries.map (fun x => (x.1,
          list useCaseHack marker filter returnUnhacked (path ++ lit "/" ++ x.1) x.2))
  | [] => by simp [listEach]
  | (n, node) :: rest => by
    simp only [listEach, List.map_cons, listEach_eq_map useCaseHack marker filter
      returnUnhacked path rest]

theorem list_directory (useCaseHack : Bool) (marker : Bytes) (filter : Bytes → Bool)
    (returnUnhacked : Bool) (path : Bytes) (st_mtime : Int) (entries : List (Bytes × FsNode)) :
    list useCaseHack marker filter returnUnhacked path (.directory st_mtime entries)
      = match fillUnhacked useCaseHack marker path
            (listEach useCaseHack marker filter returnUnhacked path entries) [] with
        | .error e => .error e
        | .ok unhacked =>
            match listChildren filter returnUnhacked path st_mtime unhacked with
            | .error e => .error e
            | .ok (contents, mtime) => .ok (.directory contents, mtime) := by
  rw [list]

/-- The second loop throws only the exception of the listing of an entry the
filter accepts. -/
theorem listChildren_error (filter : Bytes → Bool) (returnUnhacked : Bool) (path : Bytes) :
    ∀ (m : List (Bytes × Bytes × Except NarError (Entry × Int))) (mtime : Int) (e : NarError),
    listChildren filter returnUnhacked path mtime m = .error e →
    ∃ y ∈ m, filter (path ++ lit "/" ++ y.1) = true ∧ y.2.2 = .error e
  | [], mtime, e, h => by simp [listChildren] at h
  | (first, second, listed) :: rest, mtime, e, h => by
    unfold listChildren at h
    split at h
    · rename_i hf
      split at h
      · rename_i e1
        simp only [Except.error.injEq] at h
        subst h
        exact ⟨_, List.mem_cons_self _ _, hf, rfl⟩
      · split at h
        · rename_i e1 h1
          simp only [Except.error.injEq] at h
          subst h
          obtain ⟨y, hy, r⟩ := listChildren_error filter returnUnhacked path rest _ _ h1
          exact ⟨y, List.mem_cons_of_mem _ hy, r⟩
        · simp at h
    · obtain ⟨y, hy, r⟩ := listChildren_error filter returnUnhacked path rest _ _ h
      exact ⟨y, List.mem_cons_of_mem _ hy, r⟩

/-- The children the second loop yields: each comes from an entry of the map
that the filter accepts, under the key when `returnUnhacked` and under the
on-disk name otherwise. -/
theorem listChildren_mem (filter : Bytes → Bool) (returnUnhacked : Bool) (path : Bytes) :
    ∀ (m : List (Bytes × Bytes × Except NarError (Entry × Int))) (mtime mtime1 : Int)
      (cs : List (Bytes × Entry)),
    listChildren filter returnUnhacked path mtime m = .ok (cs, mtime1) →
    ∀ c ∈ cs, ∃ y ∈ m, ∃ t, filter (path ++ lit "/" ++ y.1) = true ∧ y.2.2 = .ok (c.2, t)
      ∧ c.1 = if returnUnhacked then y.1 else y.2.1
  | [], mtime, mtime1, cs, h => by
    simp only [listChildren, Except.ok.injEq, Prod.mk.injEq] at h
    intro c hc
    rw [← h.1] at hc
    simp at hc
  | (first, second, listed) :: rest, mtime, mtime1, cs, h => by
    unfold listChildren at h
    split at h
    · rename_i hf
      split at h
      · simp at h
      · rename_i entry tmp
        split at h
        · simp at h
        · rename_i contents m1 h1
          simp only [Except.ok.injEq, Prod.mk.injEq] at h
          obtain ⟨hcs, _⟩ := h
          intro c hc
          rw [← hcs] at hc
          rcases List.mem_cons.mp hc with e | hm
          · subst e
            exact ⟨_, List.mem_cons_self _ _, tmp, hf, rfl, rfl⟩
          · obtain ⟨y, hy, r⟩ := listChildren_mem filter returnUnhacked path rest _ _ _ h1 c hm
            exact ⟨y, List.mem_cons_of_mem _ hy, r⟩
    · intro c hc
      obtain ⟨y, hy, r⟩ := listChildren_mem filter returnUnhacked path rest _ _ _ h c hc
      exact ⟨y, List.mem_cons_of_mem _ hy, r⟩
theorem listEach_names (useCaseHack : Bool) (marker : Bytes) (filter : Bytes → Bool)
    (returnUnhacked : Bool) (path : Bytes) (entries : List (Bytes × FsNode))
    (f : Bytes → Bytes) :
    (listEach useCaseHack marker filter returnUnhacked path entries).map (fun x => f x.1)
      = (entries.map Prod.fst).map f := by
  rw [listEach_eq_map]
  simp [List.map_map, Function.comp_def]

theorem except_error_iff {α : Type} (r : Except NarError α) :
    (∃ e, r = .error e) ↔ ∀ m, r ≠ .ok m := by
  cases r with
  | error e => simp
  | ok v => simp

/-- C23 (scanner collision error). For a directory whose listing names every
entry once, any filter and either value of `returnUnhacked`. With the case hack
enabled, the first loop of the listing throws if and only if two distinct
on-disk names have the same name once everything from the first occurrence of
the marker is removed; the exception is `file name collision in between` the
two paths, and it is the outcome of the listing of the directory whatever its
entries hold, no child having been listed or yielded; without such a pair the
listing throws only what the listing of an accepted entry throws. With the case
hack disabled the first loop never throws, every name is recorded under itself,
the listing throws only what the listing of an accepted entry throws, and the
children are yielded under on-disk names. -/
theorem C23_scanner_collision (marker path : Bytes) (st_mtime : Int)
    (entries : List (Bytes × FsNode)) (filter : Bytes → Bool) (returnUnhacked : Bool)
    (hdistinct : (entries.map Prod.fst).Nodup) :
    ((∃ e, fillUnhacked true marker path
          (listEach true marker filter returnUnhacked path entries) [] = .error e)
        ↔ ∃ a ∈ entries.map Prod.fst, ∃ b ∈ entries.map Prod.fst,
            a ≠ b ∧ removeCaseHack marker a = removeCaseHack marker b)
      ∧ (∀ e, fillUnhacked true marker path
            (listEach true marker filter returnUnhacked path entries) [] = .error e →
          list true marker filter returnUnhacked path (.directory st_mtime entries) = .error e
            ∧ ∃ a ∈ entries.map Prod.fst, ∃ b ∈ entries.map Prod.fst,
                a ≠ b ∧ removeCaseHack marker a = removeCaseHack marker b
                  ∧ e = collisionError path a b)
      ∧ (∀ e m, fillUnhacked true marker path
            (listEach true marker filter returnUnhacked path entries) [] = .ok m →
          list true marker filter returnUnhacked path (.directory st_mtime entries) = .error e →
          ∃ x ∈ entries, filter (path ++ lit "/" ++ removeCaseHack marker x.1) = true
            ∧ list true marker filter returnUnhacked (path ++ lit "/" ++ x.1) x.2 = .error e)
      ∧ (∃ m, fillUnhacked false marker path
            (listEach false marker filter returnUnhacked path entries) [] = .ok m
          ∧ ∀ y ∈ m, y.1 = y.2.1)
      ∧ (∀ e, list false marker filter returnUnhacked path (.directory st_mtime entries)
            = .error e →
          ∃ x ∈ entries, filter (path ++ lit "/" ++ x.1) = true
            ∧ list false marker filter returnUnhacked (path ++ lit "/" ++ x.1) x.2 = .error e)
      ∧ (∀ T m, list false marker filter returnUnhacked path (.directory st_mtime entries)
            = .ok (T, m) →
          ∃ cs, T = .directory cs ∧ ∀ c ∈ cs, c.1 ∈ entries.map Prod.fst) := by
  have hsorted : sortedKeys ([] : List (Bytes × Bytes × Except NarError (Entry × Int))) := by
    simp [sortedKeys]
  have herr := fill_true_error marker path
    (listEach true marker filter returnUnhacked path entries) [] hsorted (by simp)
  have hnames := listEach_names true marker filter returnUnhacked path entries
    (removeCaseHack marker)
  have hinj := List.nodup_map_iff_inj_on (f := removeCaseHack marker) hdistinct
  have hiff : (∃ e, fillUnhacked true marker path
        (listEach true marker filter returnUnhacked path entries) [] = .error e)
      ↔ ∃ a ∈ entries.map Prod.fst, ∃ b ∈ entries.map Prod.fst,
          a ≠ b ∧ removeCaseHack marker a = removeCaseHack marker b := by
    rw [except_error_iff, herr.1, List.map_nil, List.nil_append, hnames, hinj]
    constructor
    · intro h
      by_contra hno
      apply h
      intro x hx y hy hxy
      by_contra hne
      exact hno ⟨x, hx, y, hy, hne, hxy⟩
    · rintro ⟨a, ha, b, hb, hne, hab⟩ h
      exact hne (h a ha b hb hab)
  -- what the map holds when the loop returns
  have hfrom : ∀ (ch : Bool) (m : List (Bytes × Bytes × Except NarError (Entry × Int))),
      fillUnhacked ch marker path (listEach ch marker filter returnUnhacked path entries) []
        = .ok m →
      ∀ y ∈ m, y.1 = archiveName ch marker y.2.1 ∧ ∃ x ∈ entries, y.2.1 = x.1
        ∧ y.2.2 = list ch marker filter returnUnhacked (path ++ lit "/" ++ x.1) x.2 := by
    intro ch m hm y hy
    obtain ⟨_, r2, r3⟩ := fill_inv ch marker path _ [] m hm
      (by simp [sortedKeys]) (by simp)
    refine ⟨r2 y hy, ?_⟩
    rcases r3 y hy with h0 | ⟨x, hx, e⟩
    · simp at h0
    · rw [listEach_eq_map, List.mem_map] at hx
      obtain ⟨x0, hx0, rfl⟩ := hx
      exact ⟨x0, hx0, by rw [e], by rw [e]⟩
  have hchild : ∀ (ch : Bool) (e : NarError)
      (m : List (Bytes × Bytes × Except NarError (Entry × Int))),
      fillUnhacked ch marker path (listEach ch marker filter returnUnhacked path entries) []
        = .ok m →
      list ch marker filter returnUnhacked path (.directory st_mtime entries) = .error e →
      ∃ x ∈ entries, filter (path ++ lit "/" ++ archiveName ch marker x.1) = true
        ∧ list ch marker filter returnUnhacked (path ++ lit "/" ++ x.1) x.2 = .error e := by
    intro ch e m hm hl
    rw [list_directory, hm] at hl
    simp only [] at hl
    split at hl
    · rename_i e1 h1
      simp only [Except.error.injEq] at hl
      subst hl
      obtain ⟨y, hy, hf, he⟩ := listChildren_error filter returnUnhacked path m _ _ h1
      obtain ⟨hk, x, hx, hn, hp⟩ := hfrom ch m hm y hy
      refine ⟨x, hx, ?_, ?_⟩
      · rw [← hn, ← hk]
        exact hf
      · rw [← hp]
        exact he
    · simp at hl
  refine ⟨hiff, ?_, ?_, ?_, ?_, ?_⟩
  · intro e he
    constructor
    · rw [list_directory, he]
    · obtain ⟨a, b, pre, post, pb, hitems, ha, hab, hee⟩ := herr.2 e he
      have hfst : (listEach true marker filter returnUnhacked path entries).map Prod.fst
          = entries.map Prod.fst := by
        rw [listEach_eq_map]
        simp [List.map_map, Function.comp_def]
      have hnm := congrArg (List.map Prod.fst) hitems
      rw [hfst] at hnm
      simp only [List.map_append, List.map_cons] at hnm
      have ha2 : a ∈ pre.map Prod.fst := by
        rcases ha with h0 | h0
        · simp at h0
        · exact h0
      rw [hnm] at hdistinct
      have hnd := List.nodup_append.mp hdistinct
      refine ⟨a, ?_, b, ?_, ?_, hab, hee⟩
      · rw [hnm]
        exact List.mem_append_left _ ha2
      · rw [hnm]
        exact List.mem_append_right _ (List.mem_cons_self _ _)
      · intro hne
        exact hnd.2.2 ha2 (hne ▸ List.mem_cons_self _ _)
  · intro e m hm hl
    have := hchild true e m hm hl
    simpa [archiveName] using this
  · obtain ⟨m, hm⟩ := fill_false_ok marker path
      (listEach false marker filter returnUnhacked path entries) []
    refine ⟨m, hm, ?_⟩
    intro y hy
    have := (hfrom false m hm y hy).1
    simpa [archiveName] using this
  · intro e hl
    obtain ⟨m, hm⟩ := fill_false_ok marker path
      (listEach false marker filter returnUnhacked path entries) []
    have := hchild false e m hm hl
    simpa [archiveName] using this
  · intro T mt hl
    obtain ⟨m, hm⟩ := fill_false_ok marker path
      (listEach false marker filter returnUnhacked path entries) []
    rw [list_directory, hm] at hl
    simp only [] at hl
    split at hl
    · simp at hl
    · rename_i cs m1 h1
      simp only [Except.ok.injEq, Prod.mk.injEq] at hl
      refine ⟨cs, hl.1.symm, ?_⟩
      intro c hc
      obtain ⟨y, hy, t, _, _, hname⟩ := listChildren_mem filter returnUnhacked path m _ _ _ h1 c hc
      obtain ⟨hk, x, hx, hn, _⟩ := hfrom false m hm y hy
      have hk2 : y.1 = y.2.1 := by simpa [archiveName] using hk
      rw [List.mem_map]
      refine ⟨x, hx, ?_⟩
      rw [hname, ← hn]
      cases returnUnhacked
      · rfl
      · simp [hk2]

set_option maxRecDepth 100000 in
theorem C23_scanner_collision_witness :
    (collidingListing.map Prod.fst).Nodup
      ∧ list true caseHackSuffix defaultPathFilter true (lit "/d") (.directory 0 collidingListing)
        = .error (collisionError (lit "/d") (lit "foo~nix~case~hack~1")
            (lit "foo~nix~case~hack~2"))
      ∧ ∃ T m, list false caseHackSuffix defaultPathFilter true (lit "/d")
          (.directory 0 (collidingListing.take 2)) = .ok (T, m) := by
  have hd : (collidingListing.map Prod.fst).Nodup := by decide
  have he : fillUnhacked true caseHackSuffix (lit "/d")
      (listEach true caseHackSuffix defaultPathFilter true (lit "/d") collidingListing) []
      = .error (collisionError (lit "/d") (lit "foo~nix~case~hack~1")
          (lit "foo~nix~case~hack~2")) := by rfl
  exact ⟨hd, ((C23_scanner_collision caseHackSuffix (lit "/d") 0 collidingListing
    defaultPathFilter true hd).2.1 _ he).1, _, _, rfl⟩

/-- The second loop, when it returns: every accepted entry was listed
successfully, the children are the accepted entries in map order, and `mtime`
is the greatest of its initial value and their `mtime`s. -/
theorem listChildren_ok (filter : Bytes → Bool) (returnUnhacked : Bool) (path : Bytes) :
    ∀ (m : List (Bytes × Bytes × Except NarError (Entry × Int))) (mtime mtime1 : Int)
      (cs : List (Bytes × Entry)),
    listChildren filter returnUnhacked path mtime m = .ok (cs, mtime1) →
    (∀ y ∈ accepted filter path m, ∃ v, y.2.2 = .ok v)
      ∧ cs = (accepted filter path m).map
          (fun y => (if returnUnhacked then y.1 else y.2.1, listedEntry y.2.2))
      ∧ mtime1 = (accepted filter path m).foldl
          (fun acc y => if listedMtime y.2.2 > acc then listedMtime y.2.2 else acc) mtime
  | [], mtime, mtime1, cs, h => by
    simp only [listChildren, Except.ok.injEq, Prod.mk.injEq] at h
    simp [accepted, h.1.symm, h.2.symm]
  | (first, second, listed) :: rest, mtime, mtime1, cs, h => by
    unfold listChildren at h
    split at h
    · rename_i hf
      have hacc : accepted filter path ((first, second, listed) :: rest)
          = (first, second, listed) :: accepted filter path rest := by
        simp only [accepted, List.filter_cons, hf, ↓reduceIte, Bool.false_eq_true]
      split at h
      · simp at h
      · rename_i entry tmp
        split at h
        · simp at h
        · rename_i contents m1 h1
          simp only [Except.ok.injEq, Prod.mk.injEq] at h
          obtain ⟨hcs, hm⟩ := h
          obtain ⟨i1, i2, i3⟩ := listChildren_ok filter returnUnhacked path rest _ _ _ h1
          rw [hacc]
          refine ⟨?_, ?_, ?_⟩
          · intro y hy
            rcases List.mem_cons.mp hy with e | hm2
            · subst e
              exact ⟨_, rfl⟩
            · exact i1 y hm2
          · rw [← hcs, i2]
            rfl
          · rw [← hm, i3]
            rfl
    · rename_i hf
      have hacc : accepted filter path ((first, second, listed) :: rest)
          = accepted filter path rest := by
        simp only [accepted, List.filter_cons, hf, ↓reduceIte, Bool.false_eq_true]
      rw [hacc]
      exact listChildren_ok filter returnUnhacked path rest _ _ _ h

/-- The second loop returns when every accepted entry was listed
successfully. -/
theorem listChildren_of_ok (filter : Bytes → Bool) (returnUnhacked : Bool) (path : Bytes) :
    ∀ (m : List (Bytes × Bytes × Except NarError (Entry × Int))) (mtime : Int),
    (∀ y ∈ accepted filter path m, ∃ v, y.2.2 = .ok v) →
    listChildren filter returnUnhacked path mtime m
      = .ok ((accepted filter path m).map
          (fun y => (if returnUnhacked then y.1 else y.2.1, listedEntry y.2.2)),
        (accepted filter path m).foldl
          (fun acc y => if listedMtime y.2.2 > acc then listedMtime y.2.2 else acc) mtime)
  | [], mtime, _ => by simp [listChildren, accepted]
  | (first, second, listed) :: rest, mtime, h => by
    unfold listChildren
    by_cases hf : filter (path ++ lit "/" ++ first) = true
    · have hacc : accepted filter path ((first, second, listed) :: rest)
          = (first, second, listed) :: accepted filter path rest := by
        simp only [accepted, List.filter_cons, hf, ↓reduceIte, Bool.false_eq_true]
      rw [hacc] at h ⊢
      obtain ⟨v, hv⟩ := h _ (List.mem_cons_self _ _)
      simp only [] at hv
      subst hv
      have ih := listChildren_of_ok filter returnUnhacked path rest
        (if v.2 > mtime then v.2 else mtime) (fun y hy => h y (List.mem_cons_of_mem _ hy))
      simp only [hf, ↓reduceIte, ih, List.map_cons, List.foldl_cons, listedEntry, listedMtime]
    · have hacc : accepted filter path ((first, second, listed) :: rest)
          = accepted filter path rest := by
        simp only [accepted, List.filter_cons, hf, ↓reduceIte, Bool.false_eq_true]
      rw [hacc] at h ⊢
      simp only [hf, Bool.false_eq_true, ↓reduceIte]
      exact listChildren_of_ok filter returnUnhacked path rest mtime h

theorem accepted_keys_sorted {α : Type} (filter : Bytes → Bool) (path : Bytes)
    (m : List (Bytes × Bytes × α)) (h : sortedKeys m) :
    ((accepted filter path m).map Prod.fst).Pairwise (fun a b => strLt a b = true) := by
  unfold sortedKeys at h
  exact h.sublist ((List.filter_sublist m).map Prod.fst)
theorem childrenSorted_iff : ∀ (cs : List (Bytes × Entry)),
    childrenSorted cs = true ↔ ∀ c ∈ cs, c.2.sorted = true
  | [] => by simp [childrenSorted]
  | (n, e) :: cs => by
    simp only [childrenSorted, Bool.and_eq_true, childrenSorted_iff cs, List.mem_cons,
      forall_eq_or_imp]

theorem childrenSortedArchive_iff (useCaseHack : Bool) (marker : Bytes) :
    ∀ (cs : List (Bytes × PrefilteredDump.Entry)),
    PrefilteredDump.childrenSortedArchive useCaseHack marker cs = true
      ↔ ∀ c ∈ cs, c.2.sortedArchive useCaseHack marker = true
  | [] => by simp [PrefilteredDump.childrenSortedArchive]
  | (n, e) :: cs => by
    simp only [PrefilteredDump.childrenSortedArchive, Bool.and_eq_true,
      childrenSortedArchive_iff useCaseHack marker cs, List.mem_cons, forall_eq_or_imp]

theorem fillFromEach_eq_map : ∀ (cs : List (Bytes × Entry)),
    PrefilteredDump.fillFromEach cs = cs.map (fun c => (c.1, PrefilteredDump.fillFrom c.2))
  | [] => by simp [PrefilteredDump.fillFromEach]
  | (n, e) :: cs => by
    simp only [PrefilteredDump.fillFromEach, List.map_cons, fillFromEach_eq_map cs]

/-- What the listing of a directory returns, in terms of the map `unhacked`. -/
theorem list_directory_ok {useCaseHack : Bool} {marker : Bytes} {filter : Bytes → Bool}
    {returnUnhacked : Bool} {path : Bytes} {st_mtime : Int} {entries : List (Bytes × FsNode)}
    {T : Entry} {mtime : Int}
    (h : list useCaseHack marker filter returnUnhacked path (.directory st_mtime entries)
      = .ok (T, mtime)) :
    ∃ unhacked, fillUnhacked useCaseHack marker path
        (listEach useCaseHack marker filter returnUnhacked path entries) [] = .ok unhacked
      ∧ (∀ y ∈ accepted filter path unhacked, ∃ v, y.2.2 = .ok v)
      ∧ T = .directory ((accepted filter path unhacked).map
          (fun y => (if returnUnhacked then y.1 else y.2.1, listedEntry y.2.2)))
      ∧ mtime = (accepted filter path unhacked).foldl
          (fun acc y => if listedMtime y.2.2 > acc then listedMtime y.2.2 else acc) st_mtime := by
  rw [list_directory] at h
  split at h
  · simp at h
  · rename_i unhacked hu
    split at h
    · simp at h
    · rename_i cs m1 hc
      simp only [Except.ok.injEq, Prod.mk.injEq] at h
      obtain ⟨i1, i2, i3⟩ := listChildren_ok filter returnUnhacked path unhacked _ _ _ hc
      exact ⟨unhacked, hu, i1, by rw [← h.1, i2], by rw [← h.2, i3]⟩

/-- Where the entries of the map `unhacked` of a directory come from. -/
theorem unhacked_from {useCaseHack : Bool} {marker : Bytes} {filter : Bytes → Bool}
    {returnUnhacked : Bool} {path : Bytes} {entries : List (Bytes × FsNode)}
    {unhacked : List (Bytes × Bytes × Except NarError (Entry × Int))}
    (h : fillUnhacked useCaseHack marker path
      (listEach useCaseHack marker filter returnUnhacked path entries) [] = .ok unhacked) :
    sortedKeys unhacked
      ∧ ∀ y ∈ unhacked, y.1 = archiveName useCaseHack marker y.2.1
        ∧ ∃ x ∈ entries, y.2.1 = x.1
          ∧ y.2.2 = list useCaseHack marker filter returnUnhacked (path ++ lit "/" ++ x.1) x.2 := by
  obtain ⟨r1, r2, r3⟩ := fill_inv useCaseHack marker path _ [] unhacked h
    (by simp [sortedKeys]) (by simp)
  refine ⟨r1, ?_⟩
  intro y hy
  refine ⟨r2 y hy, ?_⟩
  rcases r3 y hy with h0 | ⟨x, hx, e⟩
  · simp at h0
  · rw [listEach_eq_map, List.mem_map] at hx
    obtain ⟨x0, hx0, rfl⟩ := hx
    exact ⟨x0, hx0, by rw [e], by rw [e]⟩

mutual
/-- The tree a listing returns is in order: by its names when the names are
the archive names, and by the archive names of its on-disk names otherwise. -/
theorem list_in_order (useCaseHack : Bool) (marker : Bytes) (filter : Bytes → Bool)
    (returnUnhacked : Bool) : ∀ (fs : FsNode) (path : Bytes) (T : Entry) (mtime : Int),
    list useCaseHack marker filter returnUnhacked path fs = .ok (T, mtime) →
    (returnUnhacked = true → T.sorted = true)
      ∧ (returnUnhacked = false →
          (PrefilteredDump.fillFrom T).sortedArchive useCaseHack marker = true)
  | .regular _ _ _, path, T, mtime, h => by
    simp only [list, Except.ok.injEq, Prod.mk.injEq] at h
    rw [← h.1]
    exact ⟨fun _ => rfl, fun _ => rfl⟩
  | .symlink _ _, path, T, mtime, h => by
    simp only [list, Except.ok.injEq, Prod.mk.injEq] at h
    rw [← h.1]
    exact ⟨fun _ => rfl, fun _ => rfl⟩
  | .other _, path, T, mtime, h => by
    simp [list] at h
  | .directory st_mtime entries, path, T, mtime, h => by
    obtain ⟨unhacked, hu, hok, hT, _⟩ := list_directory_ok h
    obtain ⟨hsorted, hfrom⟩ := unhacked_from hu
    have hpw := accepted_keys_sorted filter path unhacked hsorted
    have hsub : ∀ y ∈ accepted filter path unhacked, y ∈ unhacked := fun y hy =>
      (List.mem_filter.mp hy).1
    have hchild : ∀ y ∈ accepted filter path unhacked,
        (returnUnhacked = true → (listedEntry y.2.2).sorted = true)
          ∧ (returnUnhacked = false →
            (PrefilteredDump.fillFrom (listedEntry y.2.2)).sortedArchive useCaseHack marker
              = true) := by
      intro y hy
      obtain ⟨v, hv⟩ := hok y hy
      obtain ⟨_, x, hx, _, hp⟩ := hfrom y (hsub y hy)
      rw [hv] at hp
      have := entries_in_order useCaseHack marker filter returnUnhacked entries path x hx
        v.1 v.2 hp.symm
      rw [hv]
      exact this
    subst hT
    constructor
    · intro hr
      subst hr
      simp only [Entry.sorted, Bool.and_eq_true, ↓reduceIte]
      constructor
      · rw [strictlyIncreasing_iff, List.map_map]
        exact hpw
      · rw [childrenSorted_iff]
        intro c hc
        rw [List.mem_map] at hc
        obtain ⟨y, hy, rfl⟩ := hc
        exact (hchild y hy).1 rfl
    · intro hr
      subst hr
      simp only [PrefilteredDump.fillFrom, PrefilteredDump.Entry.sortedArchive,
        Bool.and_eq_true, fillFromEach_eq_map, Bool.false_eq_true, ↓reduceIte]
      constructor
      · have hkeys : List.map (fun c => archiveName useCaseHack marker c.1)
            (List.map (fun (c : Bytes × Entry) => (c.1, PrefilteredDump.fillFrom c.2))
              (List.map (fun y => (y.2.1, listedEntry y.2.2)) (accepted filter path unhacked)))
            = (accepted filter path unhacked).map Prod.fst := by
          rw [List.map_map, List.map_map]
          apply List.map_congr_left
          intro y hy
          exact ((hfrom y (hsub y hy)).1).symm
        rw [strictlyIncreasing_iff, hkeys]
        exact hpw
      · rw [childrenSortedArchive_iff]
        intro c hc
        rw [List.mem_map] at hc
        obtain ⟨c0, hc0, rfl⟩ := hc
        rw [List.mem_map] at hc0
        obtain ⟨y, hy, rfl⟩ := hc0
        exact (hchild y hy).2 rfl
theorem entries_in_order (useCaseHack : Bool) (marker : Bytes) (filter : Bytes → Bool)
    (returnUnhacked : Bool) : ∀ (entries : List (Bytes × FsNode)) (path : Bytes),
    ∀ x ∈ entries, ∀ (T : Entry) (mtime : Int),
    list useCaseHack marker filter returnUnhacked (path ++ lit "/" ++ x.1) x.2
      = .ok (T, mtime) →
    (returnUnhacked = true → T.sorted = true)
      ∧ (returnUnhacked = false →
          (PrefilteredDump.fillFrom T).sortedArchive useCaseHack marker = true)
  | [], _, x, hx, _, _, _ => by simp at hx
  | (n, node) :: rest, path, x, hx, T, mtime, h => by
    rcases List.mem_cons.mp hx with e | hm
    · subst e
      exact list_in_order useCaseHack marker filter returnUnhacked node _ T mtime h
    · exact entries_in_order useCaseHack marker filter returnUnhacked rest path x hm T mtime h
end

mutual
/-- The entry `convert` returns for a snapshot in order by archive names is in
order by its names. -/
theorem convert_in_order (useCaseHack : Bool) (marker : Bytes) :
    ∀ (pe : PrefilteredDump.Entry) (path : Bytes) (file : Option FsNode) (T : Entry),
    PrefilteredDump.convert useCaseHack marker path file pe = .ok T →
    pe.sortedArchive useCaseHack marker = true → T.sorted = true
  | .File executable size, path, file, T, h, _ => by
    simp only [PrefilteredDump.convert] at h
    split at h
    · simp at h
    · simp only [Except.ok.injEq] at h
      rw [← h]
      rfl
  | .Symlink target, path, file, T, h, _ => by
    simp only [PrefilteredDump.convert, Except.ok.injEq] at h
    rw [← h]
    rfl
  | .Directory contents, path, file, T, h, hs => by
    simp only [PrefilteredDump.convert] at h
    split at h
    · simp at h
    · rename_i cs hc
      simp only [Except.ok.injEq] at h
      simp only [PrefilteredDump.Entry.sortedArchive, Bool.and_eq_true] at hs
      obtain ⟨i1, i2⟩ := convertEach_in_order useCaseHack marker contents path file cs hc hs.2
      rw [← h]
      simp only [Entry.sorted, Bool.and_eq_true]
      exact ⟨by rw [i1]; exact hs.1, i2⟩
theorem convertEach_in_order (useCaseHack : Bool) (marker : Bytes) :
    ∀ (contents : List (Bytes × PrefilteredDump.Entry)) (path : Bytes) (file : Option FsNode)
      (cs : List (Bytes × Entry)),
    PrefilteredDump.convertEach useCaseHack marker path file contents = .ok cs →
    PrefilteredDump.childrenSortedArchive useCaseHack marker contents = true →
    cs.map Prod.fst = contents.map (fun c => archiveName useCaseHack marker c.1)
      ∧ childrenSorted cs = true
  | [], path, file, cs, h, _ => by
    simp only [PrefilteredDump.convertEach, Except.ok.injEq] at h
    rw [← h]
    exact ⟨rfl, rfl⟩
  | (n, pe) :: rest, path, file, cs, h, hs => by
    simp only [PrefilteredDump.convertEach] at h
    split at h
    · simp at h
    · rename_i e he
      split at h
      · simp at h
      · rename_i cs1 hc
        simp only [Except.ok.injEq] at h
        simp only [PrefilteredDump.childrenSortedArchive, Bool.and_eq_true] at hs
        obtain ⟨i1, i2⟩ := convertEach_in_order useCaseHack marker rest path file cs1 hc hs.2
        have i3 := convert_in_order useCaseHack marker pe _ _ e he hs.1
        rw [← h]
        simp only [List.map_cons, i1, childrenSorted, i2, i3, Bool.and_self, archiveName,
          and_self]
end

/-- C22 (scanner output is sorted). For every file tree, with the entries of
each directory in any order, any filter and either case-hack setting: when the
listing with `returnUnhacked` set returns, the child names of every directory of
the entry it hands to the serializer are strictly increasing in byte order, and
without duplicates; and when the constructor of `PrefilteredDump` has returned
and `convert` returns, the same holds of the entry `convert` hands to the
serializer, whose names are the on-disk names without the case-hack suffix. -/
theorem C22_scanner_output_sorted (useCaseHack : Bool) (marker : Bytes)
    (filter : Bytes → Bool) (path : Bytes) (fs : FsNode) :
    (∀ (T : Entry) (mtime : Int),
        list useCaseHack marker filter true path fs = .ok (T, mtime) → T.sorted = true)
      ∧ (∀ (root : PrefilteredDump.Entry) (T : Entry),
        PrefilteredDump.create useCaseHack marker filter path fs = .ok root →
        PrefilteredDump.convert useCaseHack marker path (some fs) root = .ok T →
        T.sorted = true)
      ∧ (∀ (cs : List (Bytes × Entry)), (Entry.directory cs).sorted = true →
          strictlyIncreasing (cs.map Prod.fst) = true ∧ (cs.map Prod.fst).Nodup
            ∧ ∀ c ∈ cs, c.2.sorted = true) := by
  refine ⟨?_, ?_, ?_⟩
  · intro T mtime h
    exact (list_in_order useCaseHack marker filter true fs path T mtime h).1 rfl
  · intro root T hc hv
    unfold PrefilteredDump.create at hc
    split at hc
    · simp at hc
    · rename_i e m he
      simp only [Except.ok.injEq] at hc
      subst hc
      exact convert_in_order useCaseHack marker _ path (some fs) T hv
        ((list_in_order useCaseHack marker filter false fs path e m he).2 rfl)
  · intro cs h
    simp only [Entry.sorted, Bool.and_eq_true] at h
    exact ⟨h.1, pairwise_strLt_nodup ((strictlyIncreasing_iff _).mp h.1),
      (childrenSorted_iff cs).mp h.2⟩

set_option maxRecDepth 100000 in
theorem C22_scanner_output_sorted_witness :
    list true caseHackSuffix defaultPathFilter true (lit "/d") unsortedListing
        = .ok (.directory [(lit "A", .file true 1 (lit "y")), (lit "a", .file false 1 (lit "x")),
            (lit "b", .symlink (lit "t"))], 9)
      ∧ (Entry.directory [(lit "A", .file true 1 (lit "y")), (lit "a", .file false 1 (lit "x")),
            (lit "b", .symlink (lit "t"))]).sorted = true :=
  ⟨by rfl, (C22_scanner_output_sorted true caseHackSuffix defaultPathFilter (lit "/d")
    unsortedListing).1 _ 9 (by rfl)⟩

theorem maxMtimeOf_eq_foldl : ∀ (entries : List (Bytes × FsNode)) (acc : Int),
    maxMtimeOf acc entries = entries.foldl (fun a x => max a x.2.maxMtime) acc
  | [], acc => by simp [maxMtimeOf]
  | (n, node) :: rest, acc => by
    simp only [maxMtimeOf, List.foldl_cons, maxMtimeOf_eq_foldl rest]

theorem maxMtimeOf_ge : ∀ (entries : List (Bytes × FsNode)) (acc : Int),
    acc ≤ maxMtimeOf acc entries
      ∧ (maxMtimeOf acc entries = acc ∨ ∃ x ∈ entries, maxMtimeOf acc entries = x.2.maxMtime)
      ∧ ∀ x ∈ entries, x.2.maxMtime ≤ maxMtimeOf acc entries
  | [], acc => by simp [maxMtimeOf]
  | (n, node) :: rest, acc => by
    obtain ⟨i1, i2, i3⟩ := maxMtimeOf_ge rest (max acc node.maxMtime)
    simp only [maxMtimeOf]
    refine ⟨by omega, ?_, ?_⟩
    · rcases i2 with h | ⟨x, hx, h⟩
      · rcases max_choice acc node.maxMtime with hm | hm
        · exact Or.inl (by rw [h, hm])
        · exact Or.inr ⟨(n, node), List.mem_cons_self _ _, by rw [h, hm]⟩
      · exact Or.inr ⟨x, List.mem_cons_of_mem _ hx, h⟩
    · intro x hx
      rcases List.mem_cons.mp hx with e | hm
      · subst e
        simp only []
        omega
      · exact i3 x hm

mutual
/-- The value `maxMtime` is the greatest `st_mtime` of the subtree. -/
theorem maxMtime_spec : ∀ (fs : FsNode),
    fs.maxMtime ∈ fs.mtimes ∧ ∀ t ∈ fs.mtimes, t ≤ fs.maxMtime
  | .regular _ _ _ => by simp [FsNode.maxMtime, FsNode.mtimes]
  | .symlink _ _ => by simp [FsNode.maxMtime, FsNode.mtimes]
  | .other _ => by simp [FsNode.maxMtime, FsNode.mtimes]
  | .directory st_mtime entries => by
    obtain ⟨i1, i2, i3⟩ := maxMtimeOf_ge entries st_mtime
    have hs := maxMtime_mem_mtimesOf entries
    simp only [FsNode.maxMtime, FsNode.mtimes, List.mem_cons]
    constructor
    · rcases i2 with h | ⟨x, hx, h⟩
      · exact Or.inl h
      · exact Or.inr (by rw [h]; exact (hs x hx).1)
    · intro t ht
      rcases ht with e | hm
      · rw [e]; exact i1
      · obtain ⟨x, hx, hle⟩ := (mtimesOf_le_maxMtime entries t hm)
        exact Int.le_trans hle (i3 x hx)
theorem maxMtime_mem_mtimesOf : ∀ (entries : List (Bytes × FsNode)),
    ∀ x ∈ entries, x.2.maxMtime ∈ mtimesOf entries ∧ True
  | [], x, hx => by simp at hx
  | (n, node) :: rest, x, hx => by
    refine ⟨?_, trivial⟩
    simp only [mtimesOf, List.mem_append]
    rcases List.mem_cons.mp hx with e | hm
    · subst e
      exact Or.inl (maxMtime_spec node).1
    · exact Or.inr (maxMtime_mem_mtimesOf rest x hm).1
theorem mtimesOf_le_maxMtime : ∀ (entries : List (Bytes × FsNode)) (t : Int), t ∈ mtimesOf entries →
    ∃ x ∈ entries, t ≤ x.2.maxMtime
  | [], t, h => by simp [mtimesOf] at h
  | (n, node) :: rest, t, h => by
    simp only [mtimesOf, List.mem_append] at h
    rcases h with h | h
    · exact ⟨(n, node), List.mem_cons_self _ _, (maxMtime_spec node).2 t h⟩
    · obtain ⟨x, hx, hle⟩ := mtimesOf_le_maxMtime rest t h
      exact ⟨x, List.mem_cons_of_mem _ hx, hle⟩
end
/-- When the first loop returns, the map is a rearrangement of what it held and
of the listing, each name under its archive name; with the case hack disabled
this needs the names to be new and distinct. -/
theorem fill_perm {α : Type} (useCaseHack : Bool) (marker path : Bytes) :
    ∀ (items : List (Bytes × α)) (init m : List (Bytes × Bytes × α)),
    fillUnhacked useCaseHack marker path items init = .ok m →
    sortedKeys init →
    (useCaseHack = false → (init.map Prod.fst ++ items.map Prod.fst).Nodup) →
    m.Perm (init ++ items.map (fun x => (archiveName useCaseHack marker x.1, x.1, x.2)))
  | [], init, m, h, _, _ => by
    rw [fillUnhacked_nil] at h
    simp only [Except.ok.injEq] at h
    subst h
    simp
  | (n, p) :: items, init, m, h, hs, hnd => by
    rw [fillUnhacked_cons] at h
    split at h
    · simp at h
    · rename_i hcond
      have hins : (mapEmplace (archiveName useCaseHack marker n) (n, p) init).2 = true := by
        cases hb : (mapEmplace (archiveName useCaseHack marker n) (n, p) init).2 with
        | true => rfl
        | false =>
          exfalso
          cases useCaseHack with
          | true => exact hcond ⟨rfl, hb⟩
          | false =>
            have hmem := (mapEmplace_inserted_iff _ _ init hs).mp hb
            have hnd2 := hnd rfl
            simp only [archiveName, Bool.false_eq_true, ↓reduceIte] at hmem
            rw [List.map_cons, List.nodup_append] at hnd2
            exact hnd2.2.2 hmem (List.mem_cons_self _ _)
      have hperm := mapEmplace_perm _ _ init hins
      have hs1 := mapEmplace_sorted (archiveName useCaseHack marker n) (n, p) init hs
      have hnd1 : useCaseHack = false →
          ((mapEmplace (archiveName useCaseHack marker n) (n, p) init).1.map Prod.fst
            ++ items.map Prod.fst).Nodup := by
        intro hc
        have hnd2 := hnd hc
        have hp2 : ((mapEmplace (archiveName useCaseHack marker n) (n, p) init).1.map Prod.fst
              ++ items.map Prod.fst).Perm
            (init.map Prod.fst ++ ((n, p) :: items).map Prod.fst) := by
          have h1 := (hperm.map Prod.fst).append_right (items.map Prod.fst)
          refine h1.trans ?_
          subst hc
          simp only [List.map_cons, List.cons_append, archiveName, Bool.false_eq_true,
            ↓reduceIte]
          exact List.perm_middle.symm
        exact hp2.nodup_iff.mpr hnd2
      have ih := fill_perm useCaseHack marker path items _ m h hs1 hnd1
      refine ih.trans ?_
      refine (hperm.append_right _).trans ?_
      simp only [List.map_cons, List.cons_append]
      exact List.perm_middle.symm

theorem foldl_congr_mem {α β : Type} (f g : β → α → β) :
    ∀ (l : List α) (b : β), (∀ x ∈ l, ∀ a, f a x = g a x) → l.foldl f b = l.foldl g b
  | [], _, _ => rfl
  | x :: l, b, h => by
    simp only [List.foldl_cons, h x (List.mem_cons_self _ _)]
    exact foldl_congr_mem f g l _ (fun y hy => h y (List.mem_cons_of_mem _ hy))

theorem perm_foldl_mtime {γ : Type} (t : γ → Int) {l1 l2 : List γ} (h : l1.Perm l2) :
    ∀ (b : Int), l1.foldl (fun acc y => if t y > acc then t y else acc) b
      = l2.foldl (fun acc y => if t y > acc then t y else acc) b := by
  induction h with
  | nil => intro b; rfl
  | cons x _ ih =>
    intro b
    simp only [List.foldl_cons]
    exact ih _
  | swap x y l =>
    intro b
    simp only [List.foldl_cons]
    congr 1
    by_cases h1 : t y > b <;> by_cases h2 : t x > b <;> by_cases h3 : t x > t y
      <;> by_cases h4 : t y > t x <;> simp only [h1, h2, h3, h4, ↓reduceIte] <;> omega
  | trans _ _ ih1 ih2 =>
    intro b
    rw [ih1, ih2]

theorem accepted_default {α : Type} (path : Bytes) (m : List (Bytes × Bytes × α)) :
    accepted defaultPathFilter path m = m := by
  simp [accepted, defaultPathFilter]

theorem entriesDistinct_iff : ∀ (entries : List (Bytes × FsNode)),
    entriesDistinct entries = true ↔ ∀ x ∈ entries, x.2.distinctNames = true
  | [] => by simp [entriesDistinct]
  | (n, node) :: rest => by
    simp only [entriesDistinct, Bool.and_eq_true, entriesDistinct_iff rest, List.mem_cons,
      forall_eq_or_imp]

mutual
/-- The `mtime` a complete scan leaves is the greatest `st_mtime` of the
tree. -/
theorem list_mtime (useCaseHack : Bool) (marker : Bytes) (returnUnhacked : Bool) :
    ∀ (fs : FsNode) (path : Bytes) (T : Entry) (mtime : Int),
    list useCaseHack marker defaultPathFilter returnUnhacked path fs = .ok (T, mtime) →
    fs.distinctNames = true → mtime = fs.maxMtime
  | .regular _ _ _, path, T, mtime, h, _ => by
    simp only [list, Except.ok.injEq, Prod.mk.injEq] at h
    rw [← h.2]
    rfl
  | .symlink _ _, path, T, mtime, h, _ => by
    simp only [list, Except.ok.injEq, Prod.mk.injEq] at h
    rw [← h.2]
    rfl
  | .other _, path, T, mtime, h, _ => by
    simp [list] at h
  | .directory st_mtime entries, path, T, mtime, h, hd => by
    simp only [FsNode.distinctNames, Bool.and_eq_true, decide_eq_true_eq] at hd
    obtain ⟨hnd, hde⟩ := hd
    obtain ⟨unhacked, hu, hok, _, hm⟩ := list_directory_ok h
    rw [accepted_default] at hok hm
    have hperm := fill_perm useCaseHack marker path _ [] unhacked hu (by simp [sortedKeys])
      (by
        intro _
        rw [List.map_nil, List.nil_append, listEach_eq_map, List.map_map]
        exact hnd)
    rw [List.nil_append, listEach_eq_map, List.map_map] at hperm
    have hfold := perm_foldl_mtime (fun (y : Bytes × Bytes × Except NarError (Entry × Int)) =>
      listedMtime y.2.2) hperm st_mtime
    rw [hm, hfold, List.foldl_map, FsNode.maxMtime, maxMtimeOf_eq_foldl]
    apply foldl_congr_mem
    intro x hx a
    have hy : (archiveName useCaseHack marker x.1, x.1,
        list useCaseHack marker defaultPathFilter returnUnhacked (path ++ lit "/" ++ x.1) x.2)
        ∈ unhacked := by
      apply hperm.mem_iff.mpr
      rw [List.mem_map]
      exact ⟨x, hx, rfl⟩
    obtain ⟨v, hv⟩ := hok _ hy
    simp only [Function.comp] at hv ⊢
    have hx2 := entries_mtime useCaseHack marker returnUnhacked entries path x hx v.1 v.2 hv hde
    rw [hv]
    simp only [listedMtime, ← hx2]
    rcases le_total a v.2 with hle | hle
    · rw [max_eq_right hle]
      split
      · rfl
      · omega
    · rw [max_eq_left hle]
      split
      · omega
      · rfl
theorem entries_mtime (useCaseHack : Bool) (marker : Bytes) (returnUnhacked : Bool) :
    ∀ (entries : List (Bytes × FsNode)) (path : Bytes),
    ∀ x ∈ entries, ∀ (T : Entry) (mtime : Int),
    list useCaseHack marker defaultPathFilter returnUnhacked (path ++ lit "/" ++ x.1) x.2
      = .ok (T, mtime) →
    entriesDistinct entries = true → mtime = x.2.maxMtime
  | [], _, x, hx, _, _, _, _ => by simp at hx
  | (n, node) :: rest, path, x, hx, T, mtime, h, hd => by
    simp only [entriesDistinct, Bool.and_eq_true] at hd
    rcases List.mem_cons.mp hx with e | hm
    · subst e
      exact list_mtime useCaseHack marker returnUnhacked node _ T mtime h hd.1
    · exact entries_mtime useCaseHack marker returnUnhacked rest path x hm T mtime h hd.2
end
/-- C25 (maximum mtime). For a file tree in which every directory lists each
name once, and under either case-hack setting: when `dumpPathAndGetMtime` has
been drained to the end, `mtime` is the `st_mtime` of a node of the tree, root
included, and no node has a greater one; for a root that is a regular file or
a symlink it is the root's own `st_mtime`. -/
theorem C25_maximum_mtime (useCaseHack : Bool) (marker path : Bytes) (fs : FsNode)
    (bytes : Bytes) (mtime : Int) (hdistinct : fs.distinctNames = true)
    (hdrained : dumpPathAndGetMtime useCaseHack marker path fs = .ok (bytes, mtime)) :
    mtime ∈ fs.mtimes ∧ (∀ t ∈ fs.mtimes, t ≤ mtime)
      ∧ (∀ st_mtime executable contents, fs = .regular st_mtime executable contents →
          mtime = st_mtime)
      ∧ (∀ st_mtime target, fs = .symlink st_mtime target → mtime = st_mtime) := by
  have hm : mtime = fs.maxMtime := by
    unfold dumpPathAndGetMtime at hdrained
    split at hdrained
    · simp at hdrained
    · rename_i i m hl
      simp only [Except.ok.injEq, Prod.mk.injEq] at hdrained
      rw [← hdrained.2]
      exact list_mtime useCaseHack marker true fs path i m hl hdistinct
  have hs := maxMtime_spec fs
  rw [← hm] at hs
  refine ⟨hs.1, hs.2, ?_, ?_⟩
  · intro st_mtime executable contents hfs
    rw [hm, hfs]
    rfl
  · intro st_mtime target hfs
    rw [hm, hfs]
    rfl

set_option maxRecDepth 100000 in
theorem C25_maximum_mtime_witness :
    unsortedListing.distinctNames = true
      ∧ (∃ bytes, dumpPathAndGetMtime true caseHackSuffix (lit "/d") unsortedListing
          = .ok (bytes, 9))
      ∧ (9 : Int) ∈ unsortedListing.mtimes ∧ ∀ t ∈ unsortedListing.mtimes, t ≤ 9 := by
  have hd : unsortedListing.distinctNames = true := by decide
  have hr : dumpPathAndGetMtime true caseHackSuffix (lit "/d") unsortedListing
      = .ok (wireString narVersionMagic1 ++ dump (.directory
          [(lit "A", .file true 1 (lit "y")), (lit "a", .file false 1 (lit "x")),
            (lit "b", .symlink (lit "t"))]), 9) := by rfl
  have h := C25_maximum_mtime true caseHackSuffix (lit "/d") unsortedListing _ 9 hd hr
  exact ⟨hd, ⟨_, hr⟩, h.1, h.2.1⟩

theorem mapEmplace_lt_all {α : Type} (key : Bytes) (value : α) (m : List (Bytes × α))
    (h : ∀ y ∈ m, strLt key y.1 = true) : mapEmplace key value m = ((key, value) :: m, true) := by
  cases m with
  | nil => rfl
  | cons y rest =>
    obtain ⟨k, v⟩ := y
    have hk : strLt key k = true := h (k, v) (List.mem_cons_self _ _)
    simp only [mapEmplace, hk, ↓reduceIte]

/-- Emplacing a key the predicate keeps commutes with restricting a map in key
order to the keys the predicate keeps. -/
theorem mapEmplace_filter {α : Type} (P : Bytes → Bool) (key : Bytes) (value : α)
    (hP : P key = true) : ∀ (m : List (Bytes × α)), sortedKeys m →
    mapEmplace key value (m.filter (fun y => P y.1))
      = ((mapEmplace key value m).1.filter (fun y => P y.1), (mapEmplace key value m).2)
  | [], _ => by simp [mapEmplace, hP]
  | (k, v) :: rest, h => by
    unfold sortedKeys at h
    rw [List.map_cons, List.pairwise_cons] at h
    obtain ⟨h1, h2⟩ := h
    have ih := mapEmplace_filter P key value hP rest h2
    by_cases hlt : strLt key k = true
    · have hres : mapEmplace key value ((k, v) :: rest) = ((key, value) :: (k, v) :: rest, true) := by
        simp only [mapEmplace, hlt, ↓reduceIte]
      rw [hres]
      have hall : ∀ y ∈ ((k, v) :: rest).filter (fun y => P y.1), strLt key y.1 = true := by
        intro y hy
        have hy2 := (List.mem_filter.mp hy).1
        rcases List.mem_cons.mp hy2 with e | hm
        · subst e; exact hlt
        · exact strLt_trans key k y.1 hlt (h1 y.1 (List.mem_map_of_mem Prod.fst hm))
      rw [mapEmplace_lt_all key value _ hall]
      simp only [List.filter_cons, hP, ↓reduceIte]
    · by_cases heq : key = k
      · subst heq
        have hres : mapEmplace key value ((key, v) :: rest) = ((key, v) :: rest, false) := by
          simp only [mapEmplace, hlt, Bool.false_eq_true, ↓reduceIte]
        rw [hres]
        simp only [List.filter_cons, hP, ↓reduceIte, mapEmplace, hlt, Bool.false_eq_true]
      · have hres : mapEmplace key value ((k, v) :: rest)
            = ((k, v) :: (mapEmplace key value rest).1, (mapEmplace key value rest).2) := by
          simp only [mapEmplace, hlt, Bool.false_eq_true, ↓reduceIte, heq]
        rw [hres]
        by_cases hk : P k = true
        · simp only [List.filter_cons, hk, ↓reduceIte, mapEmplace, hlt, Bool.false_eq_true, heq,
            ih]
        · simp only [List.filter_cons, hk, Bool.false_eq_true, ↓reduceIte, ih]

theorem mapEmplace_filter_out {α : Type} (P : Bytes → Bool) (key : Bytes) (value : α)
    (hP : P key = false) : ∀ (m : List (Bytes × α)),
    (mapEmplace key value m).1.filter (fun y => P y.1) = m.filter (fun y => P y.1)
  | [] => by simp [mapEmplace, hP]
  | (k, v) :: rest => by
    have ih := mapEmplace_filter_out P key value hP rest
    unfold mapEmplace
    split
    · simp only [List.filter_cons, hP, Bool.false_eq_true, ↓reduceIte]
    · split
      · rfl
      · simp only [List.filter_cons, ih]

/-- The first loop on the names a predicate on archive names keeps builds the
map restricted to them. -/
theorem fill_filter {α : Type} (useCaseHack : Bool) (marker path : Bytes) (P : Bytes → Bool) :
    ∀ (items : List (Bytes × α)) (init m : List (Bytes × Bytes × α)),
    fillUnhacked useCaseHack marker path items init = .ok m → sortedKeys init →
    fillUnhacked useCaseHack marker path
        (items.filter (fun x => P (archiveName useCaseHack marker x.1)))
        (init.filter (fun y => P y.1))
      = .ok (m.filter (fun y => P y.1))
  | [], init, m, h, _ => by
    rw [fillUnhacked_nil] at h
    simp only [Except.ok.injEq] at h
    subst h
    simp only [List.filter_nil, fillUnhacked_nil]
  | (n, p) :: items, init, m, h, hs => by
    rw [fillUnhacked_cons] at h
    split at h
    · simp at h
    · rename_i hcond
      have hs1 := mapEmplace_sorted (archiveName useCaseHack marker n) (n, p) init hs
      have ih := fill_filter useCaseHack marker path P items _ m h hs1
      by_cases hP : P (archiveName useCaseHack marker n) = true
      · have hf := mapEmplace_filter P (archiveName useCaseHack marker n) (n, p) hP init hs
        simp only [List.filter_cons, hP, ↓reduceIte, fillUnhacked_cons, hf, hcond, ih]
      · have hP2 : P (archiveName useCaseHack marker n) = false := by
          cases hb : P (archiveName useCaseHack marker n)
          · rfl
          · exact absurd hb hP
        have hf := mapEmplace_filter_out P (archiveName useCaseHack marker n) (n, p) hP2 init
        simp only [List.filter_cons, hP2, Bool.false_eq_true, ↓reduceIte]
        rw [← hf]
        exact ih

theorem pruneEntries_eq (useCaseHack : Bool) (marker : Bytes) (filter : Bytes → Bool)
    (path : Bytes) : ∀ (entries : List (Bytes × FsNode)),
    pruneEntries useCaseHack marker filter path entries
      = (entries.filter
          (fun x => filter (path ++ lit "/" ++ archiveName useCaseHack marker x.1))).map
          (fun x => (x.1, x.2.prune useCaseHack marker filter (path ++ lit "/" ++ x.1)))
  | [] => by simp [pruneEntries]
  | (n, node) :: rest => by
    have ih := pruneEntries_eq useCaseHack marker filter path rest
    by_cases hf : filter (path ++ lit "/" ++ archiveName useCaseHack marker n) = true
    · simp only [pruneEntries, hf, ↓reduceIte, List.filter_cons, List.map_cons, ih]
    · simp only [pruneEntries, hf, Bool.false_eq_true, ↓reduceIte, List.filter_cons, ih]

theorem childrenArchived_eq (useCaseHack : Bool) (marker : Bytes) :
    ∀ (cs : List (Bytes × Entry)),
    childrenArchived useCaseHack marker cs
      = cs.map (fun c => (archiveName useCaseHack marker c.1, c.2.archived useCaseHack marker))
  | [] => by simp [childrenArchived]
  | (n, e) :: cs => by
    simp only [childrenArchived, List.map_cons, childrenArchived_eq useCaseHack marker cs]

theorem mapFind_of_mem_nodup {α : Type} : ∀ (m : List (Bytes × α)) (x : Bytes × α),
    (m.map Prod.fst).Nodup → x ∈ m → mapFind x.1 m = some x.2
  | [], x, _, h => by simp at h
  | (k, v) :: rest, x, hnd, h => by
    rw [List.map_cons, List.nodup_cons] at hnd
    rcases List.mem_cons.mp h with e | hm
    · subst e
      simp [mapFind]
    · have hne : ¬ k = x.1 := by
        intro e
        apply hnd.1
        rw [e]
        exact List.mem_map.mpr ⟨x, hm, rfl⟩
      simp only [mapFind, hne, ↓reduceIte]
      exact mapFind_of_mem_nodup rest x hnd.2 hm

/-- The loop of `convert` over children that all convert. -/
theorem convertEach_of (useCaseHack : Bool) (marker path : Bytes) (file : Option FsNode)
    (h : Entry → Entry) : ∀ (cs : List (Bytes × Entry)),
    (∀ c ∈ cs, PrefilteredDump.convert useCaseHack marker (path ++ lit "/" ++ c.1)
        (FsNode.child c.1 file) (PrefilteredDump.fillFrom c.2) = .ok (h c.2)) →
    PrefilteredDump.convertEach useCaseHack marker path file
        (cs.map (fun c => (c.1, PrefilteredDump.fillFrom c.2)))
      = .ok (cs.map (fun c => (archiveName useCaseHack marker c.1, h c.2)))
  | [], _ => by simp [PrefilteredDump.convertEach]
  | (n, e) :: cs, hc => by
    have h1 := hc (n, e) (List.mem_cons_self _ _)
    have ih := convertEach_of useCaseHack marker path file h cs
      (fun c hm => hc c (List.mem_cons_of_mem _ hm))
    simp only [] at h1
    simp only [List.map_cons, PrefilteredDump.convertEach, h1, ih, archiveName]
/-- The map `unhacked` of a directory is the map of its bare listing, each
entry next to its own listing. -/
theorem fill_raw {useCaseHack : Bool} {marker : Bytes} {filter : Bytes → Bool}
    {returnUnhacked : Bool} {path : Bytes} {entries : List (Bytes × FsNode)}
    {unhacked : List (Bytes × Bytes × Except NarError (Entry × Int))}
    (h : fillUnhacked useCaseHack marker path
      (listEach useCaseHack marker filter returnUnhacked path entries) [] = .ok unhacked) :
    ∃ raw, fillUnhacked useCaseHack marker path entries [] = .ok raw
      ∧ unhacked = raw.map (fun y => (y.1, y.2.1,
          list useCaseHack marker filter returnUnhacked (path ++ lit "/" ++ y.2.1) y.2.2)) := by
  have hn := fill_natural
    (fun n node => list useCaseHack marker filter returnUnhacked (path ++ lit "/" ++ n) node)
    useCaseHack marker path entries []
  rw [listEach_eq_map] at h
  simp only [List.map_nil] at hn
  rw [hn] at h
  split at h
  · simp at h
  · rename_i raw hr
    simp only [Except.ok.injEq] at h
    exact ⟨raw, hr, h.symm⟩

theorem fill_of_raw (useCaseHack : Bool) (marker : Bytes) (filter : Bytes → Bool)
    (returnUnhacked : Bool) (path : Bytes) (entries : List (Bytes × FsNode))
    (raw : List (Bytes × Bytes × FsNode))
    (h : fillUnhacked useCaseHack marker path entries [] = .ok raw) :
    fillUnhacked useCaseHack marker path
        (listEach useCaseHack marker filter returnUnhacked path entries) []
      = .ok (raw.map (fun y => (y.1, y.2.1,
          list useCaseHack marker filter returnUnhacked (path ++ lit "/" ++ y.2.1) y.2.2))) := by
  have hn := fill_natural
    (fun n node => list useCaseHack marker filter returnUnhacked (path ++ lit "/" ++ n) node)
    useCaseHack marker path entries []
  rw [listEach_eq_map]
  simp only [List.map_nil] at hn
  rw [hn, h]

/-- The bare map of the pruned listing is the accepted part of the bare map of
the listing, pruned. -/
theorem fill_prune (useCaseHack : Bool) (marker : Bytes) (filter : Bytes → Bool)
    (path : Bytes) (entries : List (Bytes × FsNode)) (raw : List (Bytes × Bytes × FsNode))
    (h : fillUnhacked useCaseHack marker path entries [] = .ok raw) :
    fillUnhacked useCaseHack marker path
        (pruneEntries useCaseHack marker filter path entries) []
      = .ok ((accepted filter path raw).map (fun y => (y.1, y.2.1,
          y.2.2.prune useCaseHack marker filter (path ++ lit "/" ++ y.2.1)))) := by
  have hf := fill_filter useCaseHack marker path (fun k => filter (path ++ lit "/" ++ k))
    entries [] raw h (by simp [sortedKeys])
  have hn := fill_natural
    (fun n (node : FsNode) => node.prune useCaseHack marker filter (path ++ lit "/" ++ n))
    useCaseHack marker path
    (entries.filter (fun x => filter (path ++ lit "/" ++ archiveName useCaseHack marker x.1))) []
  simp only [List.map_nil, List.filter_nil] at hn hf
  rw [pruneEntries_eq, hn, hf]
  rfl

theorem accepted_map {α β : Type} (filter : Bytes → Bool) (path : Bytes)
    (g : Bytes × Bytes × α → β) (m : List (Bytes × Bytes × α)) :
    accepted filter path (m.map (fun y => (y.1, y.2.1, g y)))
      = (accepted filter path m).map (fun y => (y.1, y.2.1, g y)) := by
  induction m with
  | nil => rfl
  | cons y rest ih =>
    unfold accepted at ih ⊢
    by_cases hf : filter (path ++ lit "/" ++ y.1) = true
    · simp only [List.map_cons, List.filter_cons, hf, ↓reduceIte, ih]
    · simp only [List.map_cons, List.filter_cons, hf, Bool.false_eq_true, ↓reduceIte, ih]

/-- A directory is listed when its first loop returns and every accepted entry
is listed. -/
theorem list_directory_of (useCaseHack : Bool) (marker : Bytes) (filter : Bytes → Bool)
    (returnUnhacked : Bool) (path : Bytes) (st_mtime : Int) (entries : List (Bytes × FsNode))
    (unhacked : List (Bytes × Bytes × Except NarError (Entry × Int)))
    (hu : fillUnhacked useCaseHack marker path
      (listEach useCaseHack marker filter returnUnhacked path entries) [] = .ok unhacked)
    (hok : ∀ y ∈ accepted filter path unhacked, ∃ v, y.2.2 = .ok v) :
    list useCaseHack marker filter returnUnhacked path (.directory st_mtime entries)
      = .ok (.directory ((accepted filter path unhacked).map
          (fun y => (if returnUnhacked then y.1 else y.2.1, listedEntry y.2.2))),
        (accepted filter path unhacked).foldl
          (fun acc y => if listedMtime y.2.2 > acc then listedMtime y.2.2 else acc) st_mtime) := by
  rw [list_directory, hu]
  simp only [listChildren_of_ok filter returnUnhacked path unhacked st_mtime hok]
mutual
/-- The filtered scan against the pruned tree: when the listing under the
filter returns an entry, `convert` turns its snapshot into that entry with every
child under its archive name, and the listing of the pruned tree under the
default filter returns the same. -/
theorem list_prune (useCaseHack : Bool) (marker : Bytes) (filter : Bytes → Bool) :
    ∀ (fs : FsNode) (path : Bytes) (T : Entry) (mtime : Int),
    list useCaseHack marker filter false path fs = .ok (T, mtime) →
    fs.distinctNames = true →
    PrefilteredDump.convert useCaseHack marker path (some fs) (PrefilteredDump.fillFrom T)
        = .ok (T.archived useCaseHack marker)
      ∧ ∃ mtime1, list useCaseHack marker defaultPathFilter true path
          (fs.prune useCaseHack marker filter path)
        = .ok (T.archived useCaseHack marker, mtime1)
  | .regular st_mtime executable contents, path, T, mtime, h, _ => by
    simp only [list, Except.ok.injEq, Prod.mk.injEq] at h
    rw [← h.1]
    refine ⟨?_, st_mtime, ?_⟩
    · simp only [PrefilteredDump.fillFrom, PrefilteredDump.convert, dumpContents, le_refl,
        ↓reduceIte, List.take_length, Entry.archived]
    · simp only [FsNode.prune, list, Entry.archived]
  | .symlink st_mtime target, path, T, mtime, h, _ => by
    simp only [list, Except.ok.injEq, Prod.mk.injEq] at h
    rw [← h.1]
    refine ⟨?_, st_mtime, ?_⟩
    · simp only [PrefilteredDump.fillFrom, PrefilteredDump.convert, Entry.archived]
    · simp only [FsNode.prune, list, Entry.archived]
  | .other _, path, T, mtime, h, _ => by
    simp [list] at h
  | .directory st_mtime entries, path, T, mtime, h, hd => by
    simp only [FsNode.distinctNames, Bool.and_eq_true, decide_eq_true_eq] at hd
    obtain ⟨hnd, hde⟩ := hd
    rw [entriesDistinct_iff] at hde
    obtain ⟨unhacked, hu, hok, hT, _⟩ := list_directory_ok h
    obtain ⟨raw, hraw, hun⟩ := fill_raw hu
    obtain ⟨_, hkeys, hfrom⟩ := fill_inv useCaseHack marker path entries [] raw hraw
      (by simp [sortedKeys]) (by simp)
    have hacc : accepted filter path unhacked = (accepted filter path raw).map
        (fun y => (y.1, y.2.1,
          list useCaseHack marker filter false (path ++ lit "/" ++ y.2.1) y.2.2)) := by
      rw [hun]
      exact accepted_map filter path _ raw
    have hsub : ∀ y ∈ accepted filter path raw, y ∈ raw := fun y hy =>
      (List.mem_filter.mp hy).1
    have hmem : ∀ y ∈ accepted filter path raw, (y.2.1, y.2.2) ∈ entries := by
      intro y hy
      rcases hfrom y (hsub y hy) with h0 | ⟨x, hx, e⟩
      · simp at h0
      · rw [e]
        exact hx
    have hchild : ∀ y ∈ accepted filter path raw, ∃ v,
        list useCaseHack marker filter false (path ++ lit "/" ++ y.2.1) y.2.2 = .ok v
          ∧ PrefilteredDump.convert useCaseHack marker (path ++ lit "/" ++ y.2.1) (some y.2.2)
              (PrefilteredDump.fillFrom v.1) = .ok (v.1.archived useCaseHack marker)
          ∧ ∃ mtime1, list useCaseHack marker defaultPathFilter true (path ++ lit "/" ++ y.2.1)
              (y.2.2.prune useCaseHack marker filter (path ++ lit "/" ++ y.2.1))
            = .ok (v.1.archived useCaseHack marker, mtime1) := by
      intro y hy
      have hy2 : (y.1, y.2.1,
          list useCaseHack marker filter false (path ++ lit "/" ++ y.2.1) y.2.2)
          ∈ accepted filter path unhacked := by
        rw [hacc]
        exact List.mem_map.mpr ⟨y, hy, rfl⟩
      obtain ⟨v, hv⟩ := hok _ hy2
      simp only [] at hv
      have ih := entries_prune useCaseHack marker filter entries path (y.2.1, y.2.2)
        (hmem y hy) v.1 v.2 hv (hde _ (hmem y hy))
      exact ⟨v, hv, ih⟩
    have hT2 : T = .directory ((accepted filter path raw).map (fun y => (y.2.1,
        listedEntry (list useCaseHack marker filter false (path ++ lit "/" ++ y.2.1) y.2.2)))) := by
      rw [hT, hacc, List.map_map]
      simp only [Bool.false_eq_true, ↓reduceIte]
      rfl
    subst hT2
    constructor
    · simp only [PrefilteredDump.fillFrom, PrefilteredDump.convert, fillFromEach_eq_map]
      rw [convertEach_of useCaseHack marker path (some (.directory st_mtime entries))
        (fun e => e.archived useCaseHack marker)]
      · simp only [Entry.archived, childrenArchived_eq]
      · intro c hc
        rw [List.mem_map] at hc
        obtain ⟨y, hy, rfl⟩ := hc
        obtain ⟨v, hv, hconv, _⟩ := hchild y hy
        have hfind : FsNode.child y.2.1 (some (.directory st_mtime entries)) = some y.2.2 :=
          mapFind_of_mem_nodup entries (y.2.1, y.2.2) hnd (hmem y hy)
        simp only [hfind, hv, listedEntry]
        exact hconv
    · have hfill := fill_of_raw useCaseHack marker defaultPathFilter true path
        (pruneEntries useCaseHack marker filter path entries) _
        (fill_prune useCaseHack marker filter path entries raw hraw)
      rw [List.map_map] at hfill
      have hl := list_directory_of useCaseHack marker defaultPathFilter true path st_mtime
        (pruneEntries useCaseHack marker filter path entries) _ hfill
        (by
          intro y hy
          rw [accepted_default, List.mem_map] at hy
          obtain ⟨y0, hy0, rfl⟩ := hy
          obtain ⟨v, _, _, m1, hm1⟩ := hchild y0 hy0
          exact ⟨_, hm1⟩)
      rw [FsNode.prune, hl, accepted_default]
      refine ⟨_, congrArg₂ (fun a b => Except.ok (a, b)) ?_ rfl⟩
      simp only [Entry.archived, childrenArchived_eq, List.map_map, ↓reduceIte,
        Entry.directory.injEq]
      apply List.map_congr_left
      intro y hy
      obtain ⟨v, hv, _, m1, hm1⟩ := hchild y hy
      have hk := hkeys y (hsub y hy)
      simp only [Function.comp_apply, hv, hm1, listedEntry, Prod.mk.injEq, and_true]
      exact hk
theorem entries_prune (useCaseHack : Bool) (marker : Bytes) (filter : Bytes → Bool) :
    ∀ (entries : List (Bytes × FsNode)) (path : Bytes),
    ∀ x ∈ entries, ∀ (T : Entry) (mtime : Int),
    list useCaseHack marker filter false (path ++ lit "/" ++ x.1) x.2 = .ok (T, mtime) →
    x.2.distinctNames = true →
    PrefilteredDump.convert useCaseHack marker (path ++ lit "/" ++ x.1) (some x.2)
        (PrefilteredDump.fillFrom T) = .ok (T.archived useCaseHack marker)
      ∧ ∃ mtime1, list useCaseHack marker defaultPathFilter true (path ++ lit "/" ++ x.1)
          (x.2.prune useCaseHack marker filter (path ++ lit "/" ++ x.1))
        = .ok (T.archived useCaseHack marker, mtime1)
  | [], _, x, hx, _, _, _, _ => by simp at hx
  | (n, node) :: rest, path, x, hx, T, mtime, h, hd => by
    rcases List.mem_cons.mp hx with e | hm
    · subst e
      exact list_prune useCaseHack marker filter node _ T mtime h hd
    · exact entries_prune useCaseHack marker filter rest path x hm T mtime h hd
end
theorem filterCalls_of_ok (filter : Bytes → Bool) (path : Bytes) :
    ∀ (m : List (Bytes × Bytes × Except NarError (Entry × Int) × List Bytes)),
    (∀ y ∈ m, filter (path ++ lit "/" ++ y.1) = true → ∃ v, y.2.2.1 = .ok v) →
    listChildren.filterCalls filter path m
      = m.flatMap (fun y => (path ++ lit "/" ++ y.1)
          :: (if filter (path ++ lit "/" ++ y.1) then y.2.2.2 else []))
  | [], _ => rfl
  | (first, second, listed, calls) :: rest, h => by
    have ih := filterCalls_of_ok filter path rest
      (fun y hy => h y (List.mem_cons_of_mem _ hy))
    unfold listChildren.filterCalls
    by_cases hf : filter (path ++ lit "/" ++ first) = true
    · obtain ⟨v, hv⟩ := h _ (List.mem_cons_self _ _) hf
      simp only [] at hv
      subst hv
      simp only [hf, ↓reduceIte, ih, List.flatMap_cons, List.cons_append]
    · simp only [hf, Bool.false_eq_true, ↓reduceIte, ih, List.flatMap_cons, List.cons_append,
        List.nil_append]

theorem listEach_filterCalls_eq_map (useCaseHack : Bool) (marker : Bytes)
    (filter : Bytes → Bool) (returnUnhacked : Bool) (path : Bytes) :
    ∀ (entries : List (Bytes × FsNode)),
    listEach.filterCalls useCaseHack marker filter returnUnhacked path entries
      = entries.map (fun x => (x.1,
          list useCaseHack marker filter returnUnhacked (path ++ lit "/" ++ x.1) x.2,
          list.filterCalls useCaseHack marker filter returnUnhacked (path ++ lit "/" ++ x.1)
            x.2))
  | [] => by simp [listEach.filterCalls]
  | (n, node) :: rest => by
    simp only [listEach.filterCalls, List.map_cons,
      listEach_filterCalls_eq_map useCaseHack marker filter returnUnhacked path rest]

theorem entryQueries_eq (useCaseHack : Bool) (marker : Bytes) (filter : Bytes → Bool)
    (path : Bytes) : ∀ (entries : List (Bytes × FsNode)),
    entryQueries useCaseHack marker filter path entries
      = entries.flatMap (fun x => (path ++ lit "/" ++ archiveName useCaseHack marker x.1)
          :: (if filter (path ++ lit "/" ++ archiveName useCaseHack marker x.1) then
              x.2.queries useCaseHack marker filter (path ++ lit "/" ++ x.1) else []))
  | [] => by simp [entryQueries]
  | (n, node) :: rest => by
    simp only [entryQueries, List.flatMap_cons, entryQueries_eq useCaseHack marker filter path
      rest]

theorem flatMap_map_eq {α β γ : Type} (f : β → List γ) (g : α → β) : ∀ (l : List α),
    (l.map g).flatMap f = l.flatMap (fun a => f (g a))
  | [] => rfl
  | a :: l => by simp only [List.map_cons, List.flatMap_cons, flatMap_map_eq f g l]

mutual
/-- The filter is asked, while a listing that returns is drained, exactly the
questions of the specification, each once. -/
theorem list_calls (useCaseHack : Bool) (marker : Bytes) (filter : Bytes → Bool)
    (returnUnhacked : Bool) : ∀ (fs : FsNode) (path : Bytes) (T : Entry) (mtime : Int),
    list useCaseHack marker filter returnUnhacked path fs = .ok (T, mtime) →
    fs.distinctNames = true →
    (list.filterCalls useCaseHack marker filter returnUnhacked path fs).Perm
      (fs.queries useCaseHack marker filter path)
  | .regular _ _ _, path, T, mtime, _, _ => by
    simp only [list.filterCalls, FsNode.queries]
    exact List.Perm.refl _
  | .symlink _ _, path, T, mtime, _, _ => by
    simp only [list.filterCalls, FsNode.queries]
    exact List.Perm.refl _
  | .other _, path, T, mtime, _, _ => by
    simp only [list.filterCalls, FsNode.queries]
    exact List.Perm.refl _
  | .directory st_mtime entries, path, T, mtime, h, hd => by
    simp only [FsNode.distinctNames, Bool.and_eq_true, decide_eq_true_eq] at hd
    obtain ⟨hnd, hde⟩ := hd
    rw [entriesDistinct_iff] at hde
    obtain ⟨unhacked, hu, hok, _, _⟩ := list_directory_ok h
    obtain ⟨raw, hraw, hun⟩ := fill_raw hu
    obtain ⟨_, hkeys, hfrom⟩ := fill_inv useCaseHack marker path entries [] raw hraw
      (by simp [sortedKeys]) (by simp)
    have hperm := fill_perm useCaseHack marker path entries [] raw hraw (by simp [sortedKeys])
      (fun _ => by simpa using hnd)
    rw [List.nil_append] at hperm
    have hn := fill_natural
      (fun n node => (list useCaseHack marker filter returnUnhacked (path ++ lit "/" ++ n) node,
        list.filterCalls useCaseHack marker filter returnUnhacked (path ++ lit "/" ++ n) node))
      useCaseHack marker path entries []
    simp only [List.map_nil, hraw] at hn
    have hlisted : ∀ y ∈ raw, filter (path ++ lit "/" ++ y.1) = true →
        ∃ v, list useCaseHack marker filter returnUnhacked (path ++ lit "/" ++ y.2.1) y.2.2
          = .ok v := by
      intro y hy hf
      have hy2 : (y.1, y.2.1,
          list useCaseHack marker filter returnUnhacked (path ++ lit "/" ++ y.2.1) y.2.2)
          ∈ accepted filter path unhacked := by
        rw [hun]
        exact List.mem_filter.mpr ⟨List.mem_map.mpr ⟨y, hy, rfl⟩, hf⟩
      exact hok _ hy2
    have hcalls : list.filterCalls useCaseHack marker filter returnUnhacked path
        (.directory st_mtime entries)
        = raw.flatMap (fun y => (path ++ lit "/" ++ y.1)
          :: (if filter (path ++ lit "/" ++ y.1) then
              list.filterCalls useCaseHack marker filter returnUnhacked
                (path ++ lit "/" ++ y.2.1) y.2.2 else [])) := by
      rw [list.filterCalls, listEach_filterCalls_eq_map, hn]
      simp only []
      rw [filterCalls_of_ok, flatMap_map_eq]
      intro y hy hf
      rw [List.mem_map] at hy
      obtain ⟨y0, hy0, rfl⟩ := hy
      exact hlisted y0 hy0 hf
    rw [hcalls, FsNode.queries, entryQueries_eq]
    have hstep : (raw.flatMap (fun y => (path ++ lit "/" ++ y.1)
          :: (if filter (path ++ lit "/" ++ y.1) then
              list.filterCalls useCaseHack marker filter returnUnhacked
                (path ++ lit "/" ++ y.2.1) y.2.2 else []))).Perm
        (raw.flatMap (fun y => (path ++ lit "/" ++ y.1)
          :: (if filter (path ++ lit "/" ++ y.1) then
              y.2.2.queries useCaseHack marker filter (path ++ lit "/" ++ y.2.1) else []))) := by
      apply List.Perm.flatMap_left
      intro y hy
      apply List.Perm.cons
      by_cases hf : filter (path ++ lit "/" ++ y.1) = true
      · simp only [hf, ↓reduceIte]
        obtain ⟨v, hv⟩ := hlisted y hy hf
        have hmem : (y.2.1, y.2.2) ∈ entries := by
          rcases hfrom y hy with h0 | ⟨x, hx, e⟩
          · simp at h0
          · rw [e]
            exact hx
        exact entries_calls useCaseHack marker filter returnUnhacked entries path
          (y.2.1, y.2.2) hmem v.1 v.2 hv (hde _ hmem)
      · simp only [hf, Bool.false_eq_true, ↓reduceIte]
        exact List.Perm.refl _
    refine hstep.trans ?_
    have h2 := List.Perm.flatMap_right (fun (y : Bytes × Bytes × FsNode) =>
        (path ++ lit "/" ++ y.1)
          :: (if filter (path ++ lit "/" ++ y.1) then
              y.2.2.queries useCaseHack marker filter (path ++ lit "/" ++ y.2.1) else [])) hperm
    rw [flatMap_map_eq] at h2
    exact h2
theorem entries_calls (useCaseHack : Bool) (marker : Bytes) (filter : Bytes → Bool)
    (returnUnhacked : Bool) : ∀ (entries : List (Bytes × FsNode)) (path : Bytes),
    ∀ x ∈ entries, ∀ (T : Entry) (mtime : Int),
    list useCaseHack marker filter returnUnhacked (path ++ lit "/" ++ x.1) x.2
      = .ok (T, mtime) →
    x.2.distinctNames = true →
    (list.filterCalls useCaseHack marker filter returnUnhacked (path ++ lit "/" ++ x.1)
        x.2).Perm
      (x.2.queries useCaseHack marker filter (path ++ lit "/" ++ x.1))
  | [], _, x, hx, _, _, _, _ => by simp at hx
  | (n, node) :: rest, path, x, hx, T, mtime, h, hd => by
    rcases List.mem_cons.mp hx with e | hm
    · subst e
      exact list_calls useCaseHack marker filter returnUnhacked node _ T mtime h hd
    · exact entries_calls useCaseHack marker filter returnUnhacked rest path x hm T mtime h hd
end

mutual
/-- Every question is about a path below the root. -/
theorem queries_longer (useCaseHack : Bool) (marker : Bytes) (filter : Bytes → Bool) :
    ∀ (fs : FsNode) (path : Bytes), ∀ q ∈ fs.queries useCaseHack marker filter path,
    path.length < q.length
  | .regular _ _ _, path, q, hq => by simp [FsNode.queries] at hq
  | .symlink _ _, path, q, hq => by simp [FsNode.queries] at hq
  | .other _, path, q, hq => by simp [FsNode.queries] at hq
  | .directory _ entries, path, q, hq => by
    rw [FsNode.queries] at hq
    exact entryQueries_longer useCaseHack marker filter entries path q hq
theorem entryQueries_longer (useCaseHack : Bool) (marker : Bytes) (filter : Bytes → Bool) :
    ∀ (entries : List (Bytes × FsNode)) (path : Bytes),
    ∀ q ∈ entryQueries useCaseHack marker filter path entries, path.length < q.length
  | [], path, q, hq => by simp [entryQueries] at hq
  | (n, node) :: rest, path, q, hq => by
    have hl : (lit "/").length = 1 := by decide
    simp only [entryQueries, List.cons_append, List.mem_cons, List.mem_append] at hq
    rcases hq with e | hq | hq
    · rw [e]
      simp only [List.length_append, hl]
      omega
    · split at hq
      · have := queries_longer useCaseHack marker filter node _ q hq
        simp only [List.length_append, hl] at this
        omega
      · simp at hq
    · exact entryQueries_longer useCaseHack marker filter rest path q hq
end
mutual
/-- With the case hack disabled the listing under the filter returns whenever
the listing of the pruned tree does. -/
theorem prune_list (marker : Bytes) (filter : Bytes → Bool) :
    ∀ (fs : FsNode) (path : Bytes) (T1 : Entry) (mtime1 : Int),
    list false marker defaultPathFilter true path (fs.prune false marker filter path)
      = .ok (T1, mtime1) →
    ∃ v, list false marker filter false path fs = .ok v
  | .regular st_mtime executable contents, path, T1, mtime1, _ => ⟨_, by rw [list]⟩
  | .symlink st_mtime target, path, T1, mtime1, _ => ⟨_, by rw [list]⟩
  | .other _, path, T1, mtime1, h => by
    simp [FsNode.prune, list] at h
  | .directory st_mtime entries, path, T1, mtime1, h => by
    rw [FsNode.prune] at h
    obtain ⟨unhacked1, hu1, hok1, _, _⟩ := list_directory_ok h
    obtain ⟨raw, hraw⟩ := fill_false_ok marker path entries []
    have hfill := fill_of_raw false marker defaultPathFilter true path
      (pruneEntries false marker filter path entries) _
      (fill_prune false marker filter path entries raw hraw)
    rw [hu1] at hfill
    simp only [Except.ok.injEq] at hfill
    rw [accepted_default, hfill, List.map_map] at hok1
    obtain ⟨_, _, hfrom⟩ := fill_inv false marker path entries [] raw hraw
      (by simp [sortedKeys]) (by simp)
    have hl := list_directory_of false marker filter false path st_mtime entries _
      (fill_of_raw false marker filter false path entries raw hraw)
      (by
        intro y hy
        rw [accepted_map, List.mem_map] at hy
        obtain ⟨y0, hy0, rfl⟩ := hy
        obtain ⟨v1, hv1⟩ := hok1 _ (List.mem_map.mpr ⟨y0, hy0, rfl⟩)
        simp only [Function.comp_apply] at hv1
        have hmem : (y0.2.1, y0.2.2) ∈ entries := by
          rcases hfrom y0 (List.mem_filter.mp hy0).1 with h0 | ⟨x, hx, e⟩
          · simp at h0
          · rw [e]
            exact hx
        exact entries_prune_list marker filter entries path (y0.2.1, y0.2.2) hmem v1.1 v1.2 hv1)
    exact ⟨_, hl⟩
theorem entries_prune_list (marker : Bytes) (filter : Bytes → Bool) :
    ∀ (entries : List (Bytes × FsNode)) (path : Bytes),
    ∀ x ∈ entries, ∀ (T1 : Entry) (mtime1 : Int),
    list false marker defaultPathFilter true (path ++ lit "/" ++ x.1)
        (x.2.prune false marker filter (path ++ lit "/" ++ x.1)) = .ok (T1, mtime1) →
    ∃ v, list false marker filter false (path ++ lit "/" ++ x.1) x.2 = .ok v
  | [], _, x, hx, _, _, _ => by simp at hx
  | (n, node) :: rest, path, x, hx, T1, mtime1, h => by
    rcases List.mem_cons.mp hx with e | hm
    · subst e
      exact prune_list marker filter node _ T1 mtime1 h
    · exact entries_prune_list marker filter rest path x hm T1 mtime1 h
end

/-- C24 (filter semantics). For a file tree in which every directory lists each
name once, any filter and either case-hack setting: when the constructor of
`PrefilteredDump` has returned, `dump()` yields bytes, and they are the
serialization (the unfiltered dump) of the tree obtained by deleting every
directory child for which `filter(parent path + "/" + archive name)` is false,
with its subtree; with the case hack disabled the constructor returns whenever
that tree can be serialized. While the constructor runs the filter is asked
exactly one question for each child of the root and of every accepted
directory, none for the root and none below a rejected child; `dump()` has no
filter to ask. -/
theorem C24_filter_semantics (useCaseHack : Bool) (marker : Bytes) (filter : Bytes → Bool)
    (path : Bytes) (fs : FsNode) (hdistinct : fs.distinctNames = true) :
    (∀ root, PrefilteredDump.create useCaseHack marker filter path fs = .ok root →
        (∃ bytes, PrefilteredDump.dump useCaseHack marker path fs root = .ok bytes
          ∧ UnfilteredDump.dump useCaseHack marker path
              (fs.prune useCaseHack marker filter path) = .ok bytes)
        ∧ (list.filterCalls useCaseHack marker filter false path fs).Perm
            (fs.queries useCaseHack marker filter path)
        ∧ path ∉ list.filterCalls useCaseHack marker filter false path fs)
      ∧ (useCaseHack = false → ∀ bytes,
          UnfilteredDump.dump useCaseHack marker path (fs.prune useCaseHack marker filter path)
            = .ok bytes →
          ∃ root, PrefilteredDump.create useCaseHack marker filter path fs = .ok root) := by
  constructor
  · intro root hc
    unfold PrefilteredDump.create at hc
    split at hc
    · simp at hc
    · rename_i T m hl
      simp only [Except.ok.injEq] at hc
      subst hc
      obtain ⟨hconv, m1, hpruned⟩ := list_prune useCaseHack marker filter fs path T m hl hdistinct
      have hperm := list_calls useCaseHack marker filter false fs path T m hl hdistinct
      refine ⟨⟨wireString narVersionMagic1 ++ dump (T.archived useCaseHack marker), ?_, ?_⟩,
        hperm, ?_⟩
      · simp only [PrefilteredDump.dump, hconv]
      · simp only [UnfilteredDump.dump, hpruned]
      · intro hin
        have := queries_longer useCaseHack marker filter fs path path (hperm.mem_iff.mp hin)
        omega
  · intro hch bytes hb
    subst hch
    unfold UnfilteredDump.dump at hb
    split at hb
    · simp at hb
    · rename_i T1 m1 hl
      obtain ⟨v, hv⟩ := prune_list marker filter fs path T1 m1 hl
      exact ⟨PrefilteredDump.fillFrom v.1, by simp only [PrefilteredDump.create, hv]⟩

set_option maxRecDepth 100000 in
theorem C24_filter_semantics_witness :
    filteredListing.distinctNames = true
      ∧ PrefilteredDump.create true caseHackSuffix rejectFoo (lit "/r") filteredListing
        = .ok (.Directory [(lit "b", .Symlink (lit "t")),
            (lit "keep", .Directory [(lit "a~nix~case~hack~1", .File false 1)])])
      ∧ (∃ bytes, PrefilteredDump.dump true caseHackSuffix (lit "/r") filteredListing
            (.Directory [(lit "b", .Symlink (lit "t")),
              (lit "keep", .Directory [(lit "a~nix~case~hack~1", .File false 1)])]) = .ok bytes
          ∧ UnfilteredDump.dump true caseHackSuffix (lit "/r")
              (filteredListing.prune true caseHackSuffix rejectFoo (lit "/r")) = .ok bytes)
      ∧ (list.filterCalls true caseHackSuffix rejectFoo false (lit "/r") filteredListing).Perm
          (filteredListing.queries true caseHackSuffix rejectFoo (lit "/r"))
      ∧ UnfilteredDump.dump false caseHackSuffix (lit "/r")
          (filteredListing.prune false caseHackSuffix rejectFoo (lit "/r"))
        = .ok (wireString narVersionMagic1 ++ dump (.directory [(lit "b", .symlink (lit "t")),
            (lit "keep", .directory
              [(lit "a~nix~case~hack~1", .file false 1 (lit "x"))])]))
      ∧ ∃ root, PrefilteredDump.create false caseHackSuffix rejectFoo (lit "/r") filteredListing
          = .ok root := by
  have hd : filteredListing.distinctNames = true := by decide
  have hp : UnfilteredDump.dump false caseHackSuffix (lit "/r")
      (filteredListing.prune false caseHackSuffix rejectFoo (lit "/r"))
      = .ok (wireString narVersionMagic1 ++ dump (.directory [(lit "b", .symlink (lit "t")),
          (lit "keep", .directory
            [(lit "a~nix~case~hack~1", .file false 1 (lit "x"))])])) := by rfl
  have hc : PrefilteredDump.create true caseHackSuffix rejectFoo (lit "/r") filteredListing
      = .ok (.Directory [(lit "b", .Symlink (lit "t")),
          (lit "keep", .Directory [(lit "a~nix~case~hack~1", .File false 1)])]) := by rfl
  have h := (C24_filter_semantics true caseHackSuffix rejectFoo (lit "/r") filteredListing
    hd).1 _ hc
  exact ⟨hd, hc, h.1, h.2.1, hp, (C24_filter_semantics false caseHackSuffix rejectFoo (lit "/r")
    filteredListing hd).2 rfl _ hp⟩

set_option maxRecDepth 100000 in
/-- C24, the case the claim misses: with the case hack enabled, `foo` and
`foo~nix~case~hack~1` in one directory and a filter that rejects `/r/foo`, the
constructor of `PrefilteredDump` throws the collision error, while the tree
without the rejected entries, an empty directory, is serialized. -/
theorem C24_rejected_collision_counterexample :
    rejectedCollision.distinctNames = true
      ∧ PrefilteredDump.create true caseHackSuffix rejectFoo (lit "/r") rejectedCollision
        = .error (collisionError (lit "/r") (lit "foo~nix~case~hack~1") (lit "foo"))
      ∧ rejectedCollision.prune true caseHackSuffix rejectFoo (lit "/r") = .directory 1 []
      ∧ UnfilteredDump.dump true caseHackSuffix (lit "/r")
          (rejectedCollision.prune true caseHackSuffix rejectFoo (lit "/r"))
        = .ok (wireString narVersionMagic1 ++ dump (.directory [])) :=
  ⟨by decide, by rfl, by rfl, by rfl⟩

/-- C34 (the parser consumes exactly the archive). For every valid tree `T`,
every byte string `X` and either case-hack setting: `nar::parse` drained over a
source holding the archive of `T` followed by `X` yields the same single root
entry and the same events as over the archive alone, and leaves exactly `X`
unread in the source. -/
theorem C34_consumes_exactly (useCaseHack : Bool) (marker : Bytes) (T : Entry) (X : Bytes)
    (hvalid : T.valid marker = true) (hfits : T.fits = true) :
    nar.parse useCaseHack marker (serialize T ++ X)
        = .ok [T.caseHacked useCaseHack marker] X
            ((T.caseHacked useCaseHack marker).events none)
      ∧ nar.parse useCaseHack marker (serialize T)
        = .ok [T.caseHacked useCaseHack marker] []
            ((T.caseHacked useCaseHack marker).events none)
      ∧ T.caseHacked false marker = T := by
  refine ⟨parse_serialize_append useCaseHack marker T X hvalid hfits, ?_, caseHacked_false marker T⟩
  have h := parse_serialize_append useCaseHack marker T [] hvalid hfits
  rw [List.append_nil] at h
  exact h

set_option maxRecDepth 100000 in
theorem C34_consumes_exactly_witness :
    scenarioTree.valid caseHackSuffix = true ∧ scenarioTree.fits = true
      ∧ nar.parse false caseHackSuffix (serialize scenarioTree ++ lit "more")
        = .ok [scenarioTree] (lit "more") (scenarioTree.events none) := by
  have hv : scenarioTree.valid caseHackSuffix = true := by decide
  have hf : scenarioTree.fits = true := by decide
  have h := C34_consumes_exactly false caseHackSuffix scenarioTree (lit "more") hv hf
  rw [h.2.2] at h
  exact ⟨hv, hf, h.1⟩

/-- C39 (serialization is injective). Two valid trees with the same archive are
equal: same variants, flags, sizes, contents, targets, child names and
order. -/
theorem C39_serialization_injective (marker : Bytes) (T1 T2 : Entry)
    (hvalid1 : T1.valid marker = true) (hfits1 : T1.fits = true)
    (hvalid2 : T2.valid marker = true) (hfits2 : T2.fits = true)
    (hsame : serialize T1 = serialize T2) : T1 = T2 := by
  have h1 := parse_serialize marker T1 hvalid1 hfits1
  have h2 := parse_serialize marker T2 hvalid2 hfits2
  rw [hsame, h2] at h1
  simp only [Res.ok.injEq, List.cons.injEq, and_true] at h1
  exact h1.1.symm

theorem C39_serialization_injective_witness :
    scenarioTree.valid caseHackSuffix = true ∧ scenarioTree.fits = true
      ∧ scenarioTree = scenarioTree := by
  have hv : scenarioTree.valid caseHackSuffix = true := by decide
  have hf : scenarioTree.fits = true := by decide
  exact ⟨hv, hf, C39_serialization_injective caseHackSuffix scenarioTree scenarioTree hv hf hv hf
    rfl⟩
theorem wireString_length_mod (s : Bytes) : (wireString s).length % 8 = 0 := by
  rw [wireString_length]
  omega

theorem Token.flatten_nil : Token.flatten [] = [] := rfl

theorem Token.flatten_cons (t : Token) (l : List Token) :
    Token.flatten (t :: l) = t.bytes ++ Token.flatten l := by
  simp [Token.flatten]

theorem Token.flatten_append (a b : List Token) :
    Token.flatten (a ++ b) = Token.flatten a ++ Token.flatten b := by
  simp [Token.flatten]

mutual
/-- The tokens of `dump` make up its bytes. -/
theorem flatten_dump_tokens : ∀ (T : Entry), Token.flatten (dump.tokens T) = dump T
  | .file executable size contents => by
    cases executable <;>
      simp [dump.tokens, dump, Token.flatten, Token.bytes]
  | .symlink target => by
    simp [dump.tokens, dump, Token.flatten, Token.bytes]
  | .directory cs => by
    simp only [dump.tokens, dump, Token.flatten_append, flatten_dumpEntries_tokens cs]
    simp [Token.flatten, Token.bytes]
theorem flatten_dumpEntries_tokens : ∀ (cs : List (Bytes × Entry)),
    Token.flatten (dumpEntries.tokens cs) = dumpEntries cs
  | [] => rfl
  | (n, e) :: cs => by
    simp only [dumpEntries.tokens, dumpEntries, Token.flatten_append, flatten_dump_tokens e,
      flatten_dumpEntries_tokens cs]
    simp [Token.flatten, Token.bytes]
end

theorem alignedFrom_congr : ∀ (l : List Token) (s s1 : Nat), s % 8 = s1 % 8 →
    Token.alignedFrom s l = Token.alignedFrom s1 l
  | [], _, _, _ => rfl
  | t :: l, s, s1, h => by
    simp only [Token.alignedFrom, h]
    rw [alignedFrom_congr l (s + t.bytes.length) (s1 + t.bytes.length) (by omega)]

theorem alignedFrom_append : ∀ (a b : List Token) (s : Nat),
    Token.alignedFrom s (a ++ b)
      = (Token.alignedFrom s a && Token.alignedFrom (s + (Token.flatten a).length) b)
  | [], b, s => by simp [Token.alignedFrom, Token.flatten]
  | t :: a, b, s => by
    show Token.alignedFrom s (t :: (a ++ b)) = _
    simp only [Token.alignedFrom, alignedFrom_append a b, Token.flatten_cons,
      List.length_append, Bool.and_assoc, Nat.add_assoc]

theorem alignedFrom_string (x : Bytes) (l : List Token) (s : Nat) (hs : s % 8 = 0) :
    Token.alignedFrom s (.string x :: l) = Token.alignedFrom s l := by
  have h := wireString_length_mod x
  simp only [Token.alignedFrom, Token.isPadding, Token.bytes, hs, beq_self_eq_true,
    Bool.false_or, Bool.true_and]
  exact alignedFrom_congr l _ _ (by omega)

theorem alignedFrom_integer (n : Nat) (l : List Token) (s : Nat) (hs : s % 8 = 0) :
    Token.alignedFrom s (.integer n :: l) = Token.alignedFrom s l := by
  simp only [Token.alignedFrom, Token.isPadding, Token.bytes, hs, beq_self_eq_true,
    Bool.false_or, Bool.true_and, u64le_length]
  exact alignedFrom_congr l _ _ (by omega)

theorem alignedFrom_contents (data : Bytes) (l : List Token) (s : Nat) (hs : s % 8 = 0) :
    Token.alignedFrom s (.contents data :: .padding data.length :: l)
      = Token.alignedFrom s l := by
  simp only [Token.alignedFrom, Token.isPadding, Token.bytes, hs, beq_self_eq_true,
    Bool.false_or, Bool.true_and, Bool.true_or, padding_length]
  exact alignedFrom_congr l _ _ (by omega)

theorem alignedFrom_iff : ∀ (l : List Token) (s : Nat),
    Token.alignedFrom s l = true
      ↔ ∀ p ∈ Token.starts s l, p.1.isPadding = false → p.2 % 8 = 0
  | [], s => by simp [Token.alignedFrom, Token.starts]
  | t :: l, s => by
    simp only [Token.alignedFrom, Token.starts, Bool.and_eq_true, Bool.or_eq_true, beq_iff_eq,
      List.mem_cons, forall_eq_or_imp, alignedFrom_iff l]
    constructor
    · rintro ⟨h1, h2⟩
      refine ⟨?_, h2⟩
      intro hp
      rcases h1 with h1 | h1
      · rw [h1] at hp
        exact absurd hp (by simp)
      · exact h1
    · rintro ⟨h1, h2⟩
      refine ⟨?_, h2⟩
      cases hp : t.isPadding
      · exact Or.inr (h1 hp)
      · exact Or.inl rfl

mutual
/-- In the archive of a tree whose files have `size` bytes every token but the
padding starts at a multiple of 8, and so does what follows the tree. -/
theorem dump_aligned : ∀ (T : Entry) (s : Nat), T.sized = true → s % 8 = 0 →
    Token.alignedFrom s (dump.tokens T) = true ∧ (dump T).length % 8 = 0
  | .file executable size contents, s, hz, hs => by
    simp only [Entry.sized, beq_iff_eq] at hz
    subst hz
    constructor
    · cases executable <;>
        simp only [dump.tokens, List.cons_append, List.nil_append, ↓reduceIte,
          Bool.false_eq_true, alignedFrom_string _ _ s hs, alignedFrom_integer _ _ s hs,
          alignedFrom_contents _ _ s hs] <;> rfl
    · have h1 := wireString_length_mod (lit "(")
      have h2 := wireString_length_mod (lit "type")
      have h3 := wireString_length_mod (lit "regular")
      have h4 := wireString_length_mod (lit "executable")
      have h5 := wireString_length_mod (lit "")
      have h6 := wireString_length_mod (lit "contents")
      have h7 := wireString_length_mod (lit ")")
      cases executable <;>
        simp only [dump, List.length_append, u64le_length, padding_length, ↓reduceIte,
          Bool.false_eq_true, List.length_nil] <;> omega
  | .symlink target, s, _, hs => by
    constructor
    · simp only [dump.tokens, alignedFrom_string _ _ s hs]
      rfl
    · have h1 := wireString_length_mod (lit "(")
      have h2 := wireString_length_mod (lit "type")
      have h3 := wireString_length_mod (lit "symlink")
      have h4 := wireString_length_mod (lit "target")
      have h5 := wireString_length_mod target
      have h7 := wireString_length_mod (lit ")")
      simp only [dump, List.length_append]
      omega
  | .directory cs, s, hz, hs => by
    simp only [Entry.sized] at hz
    obtain ⟨i1, i2⟩ := dumpEntries_aligned cs s hz hs
    constructor
    · simp only [dump.tokens, List.cons_append, List.nil_append, alignedFrom_string _ _ s hs,
        alignedFrom_append, i1, Bool.true_and]
      rw [alignedFrom_string]
      · rfl
      · rw [flatten_dumpEntries_tokens]
        omega
    · have h1 := wireString_length_mod (lit "(")
      have h2 := wireString_length_mod (lit "type")
      have h3 := wireString_length_mod (lit "directory")
      have h7 := wireString_length_mod (lit ")")
      simp only [dump, List.length_append]
      omega
theorem dumpEntries_aligned : ∀ (cs : List (Bytes × Entry)) (s : Nat),
    childrenSized cs = true → s % 8 = 0 →
    Token.alignedFrom s (dumpEntries.tokens cs) = true ∧ (dumpEntries cs).length % 8 = 0
  | [], s, _, _ => ⟨rfl, rfl⟩
  | (n, e) :: cs, s, hz, hs => by
    simp only [childrenSized, Bool.and_eq_true] at hz
    obtain ⟨i1, i2⟩ := dump_aligned e s hz.1 hs
    obtain ⟨j1, j2⟩ := dumpEntries_aligned cs s hz.2 hs
    constructor
    · simp only [dumpEntries.tokens, List.cons_append, List.nil_append,
        alignedFrom_string _ _ s hs, alignedFrom_append, i1, Bool.true_and]
      have h7 := wireString_length_mod (lit ")")
      have hlen : (s + (Token.flatten (dump.tokens e ++ [Token.string (lit ")")])).length) % 8
          = s % 8 := by
        simp only [Token.flatten_append, flatten_dump_tokens, Token.flatten_cons,
          Token.flatten_nil, Token.bytes, List.length_append, List.length_nil]
        omega
      rw [alignedFrom_congr _ _ s hlen, j1,
        alignedFrom_string _ _ _ (by rw [flatten_dump_tokens]; omega)]
      rfl
    · have h1 := wireString_length_mod (lit "entry")
      have h2 := wireString_length_mod (lit "(")
      have h3 := wireString_length_mod (lit "name")
      have h4 := wireString_length_mod n
      have h5 := wireString_length_mod (lit "node")
      have h7 := wireString_length_mod (lit ")")
      simp only [dumpEntries, List.length_append]
      omega
end

/-- C40 (archives are 8-byte aligned). For every tree in which the contents of
each file have exactly `size` bytes: the length of the archive is a multiple of
8, the archive is the sequence of its tokens, and every token of it (wire
string, integer, file contents; the padding after the contents apart) starts
at an offset that is a multiple of 8. -/
theorem C40_aligned (T : Entry) (hsized : T.sized = true) :
    (serialize T).length % 8 = 0
      ∧ Token.flatten (serialize.tokens T) = serialize T
      ∧ ∀ p ∈ Token.starts 0 (serialize.tokens T), p.1.isPadding = false → p.2 % 8 = 0 := by
  obtain ⟨i1, i2⟩ := dump_aligned T 0 hsized rfl
  have hm := wireString_length_mod narVersionMagic1
  refine ⟨?_, ?_, ?_⟩
  · simp only [serialize, List.length_append]
    omega
  · simp only [serialize.tokens, Token.flatten_cons, flatten_dump_tokens, Token.bytes, serialize]
  · rw [← alignedFrom_iff, serialize.tokens, alignedFrom_string _ _ 0 rfl]
    exact i1

theorem C40_aligned_witness :
    scenarioTree.sized = true ∧ (serialize scenarioTree).length % 8 = 0
      ∧ ∀ p ∈ Token.starts 0 (serialize.tokens scenarioTree),
          p.1.isPadding = false → p.2 % 8 = 0 := by
  have hz : scenarioTree.sized = true := by decide
  have h := C40_aligned scenarioTree hz
  exact ⟨hz, h.1, h.2.2⟩

/-- A recursion bound that was not exhausted may be raised by one without
changing the outcome. -/
theorem parse_fuel_succ (useCaseHack : Bool) (marker : Bytes) : ∀ (fuel : Nat),
    (∀ (name : Option Bytes) (src : Bytes) (out : List Event),
      SyncParser.parse useCaseHack marker fuel name src out ≠ .outOfFuel →
      SyncParser.parse useCaseHack marker (fuel + 1) name src out
        = SyncParser.parse useCaseHack marker fuel name src out)
    ∧ (∀ (names : List (Bytes × Nat)) (prevName src : Bytes) (out : List Event),
      SyncParser.readDir useCaseHack marker fuel names prevName src out ≠ .outOfFuel →
      SyncParser.readDir useCaseHack marker (fuel + 1) names prevName src out
        = SyncParser.readDir useCaseHack marker fuel names prevName src out) := by
  intro fuel
  induction fuel with
  | zero =>
    constructor
    · intro name src out h
      exact absurd (by rw [SyncParser.parse]) h
    · intro names prevName src out h
      exact absurd (by rw [SyncParser.readDir]) h
  | succ fuel ih =>
    obtain ⟨ihp, ihd⟩ := ih
    constructor
    · intro name src out
      rw [SyncParser.parse, SyncParser.parse]
      split
      · intro _; rfl
      · split
        · intro _; rfl
        · split
          · intro _; rfl
          · rename_i t src3 _
            split
            · intro _; rfl
            · split
              · cases hr : SyncParser.readDir useCaseHack marker fuel [] [] src3
                    (out ++ [.directory name]) with
                | outOfFuel =>
                  intro h
                  exact absurd rfl h
                | fail e o =>
                  intro _
                  rw [ihd [] [] src3 _ (by rw [hr]; exact fun h => Res.noConfusion h), hr]
                | ok v src4 o =>
                  intro _
                  rw [ihd [] [] src3 _ (by rw [hr]; exact fun h => Res.noConfusion h), hr]
              · intro _; rfl
    · intro names prevName src out
      rw [SyncParser.readDir, SyncParser.readDir]
      split
      · intro _; rfl
      · intro _; rfl
      · rename_i name yielded names1 src1 _
        cases hr : SyncParser.parse useCaseHack marker fuel (some yielded) src1 out with
        | outOfFuel =>
          intro h
          exact absurd rfl h
        | fail e o =>
          intro _
          rw [ihp (some yielded) src1 out (by rw [hr]; exact fun h => Res.noConfusion h), hr]
        | ok entry src2 o =>
          rw [ihp (some yielded) src1 out (by rw [hr]; exact fun h => Res.noConfusion h), hr]
          simp only []
          split
          · intro _; rfl
          · rename_i src3 _
            cases hr2 : SyncParser.readDir useCaseHack marker fuel names1 name src3 o with
            | outOfFuel =>
              intro h
              exact absurd rfl h
            | fail e o2 =>
              intro _
              rw [ihd names1 name src3 o (by rw [hr2]; exact fun h => Res.noConfusion h), hr2]
            | ok rest src4 o2 =>
              intro _
              rw [ihd names1 name src3 o (by rw [hr2]; exact fun h => Res.noConfusion h), hr2]
theorem parse_fuel_add (useCaseHack : Bool) (marker : Bytes) (fuel : Nat) : ∀ (k : Nat),
    (∀ (name : Option Bytes) (src : Bytes) (out : List Event),
      SyncParser.parse useCaseHack marker fuel name src out ≠ .outOfFuel →
      SyncParser.parse useCaseHack marker (fuel + k) name src out
        = SyncParser.parse useCaseHack marker fuel name src out)
  | 0 => fun _ _ _ _ => rfl
  | k + 1 => by
    intro name src out h
    have ih := parse_fuel_add useCaseHack marker fuel k name src out h
    have hs := (parse_fuel_succ useCaseHack marker (fuel + k)).1 name src out (by rw [ih]; exact h)
    rw [← Nat.add_assoc, hs, ih]

theorem READ_STRING_ext {src s rest : Bytes} (Y : Bytes)
    (h : READ_STRING src = .ok (s, rest)) : READ_STRING (src ++ Y) = .ok (s, rest ++ Y) := by
  rw [READ_STRING_ok h, List.append_assoc]
  exact READ_STRING_wire s (rest ++ Y) (READ_STRING_ok_length h)

theorem EXPECT_ext {raw kind src rest : Bytes} (Y : Bytes)
    (h : EXPECT raw kind src = .ok rest) : EXPECT raw kind (src ++ Y) = .ok (rest ++ Y) := by
  unfold EXPECT at h ⊢
  split at h
  · simp at h
  · rename_i s src1 hs
    rw [READ_STRING_ext Y hs]
    simp only []
    split at h
    · simp at h
    · rename_i hne
      simp only [Except.ok.injEq] at h
      rw [if_neg hne, h]

theorem READ_U64_ext {src rest : Bytes} {n : Nat} (Y : Bytes)
    (h : READ_U64 src = .ok (n, rest)) : READ_U64 (src ++ Y) = .ok (n, rest ++ Y) := by
  obtain ⟨e, l⟩ := READ_U64_ok h
  rw [e, List.append_assoc, READ_U64_u64le, Nat.mod_eq_of_lt l]

theorem READ_PADDING_ext {size : Nat} {src rest : Bytes} (Y : Bytes)
    (h : READ_PADDING size src = .ok rest) : READ_PADDING size (src ++ Y) = .ok (rest ++ Y) := by
  rw [READ_PADDING_ok h, List.append_assoc]
  exact READ_PADDING_padding size (rest ++ Y)

theorem readFileHeader_ext {src rest : Bytes} {executable : Bool} {size : Nat} (Y : Bytes)
    (h : readFileHeader src = .ok ((executable, size), rest)) :
    readFileHeader (src ++ Y) = .ok ((executable, size), rest ++ Y) := by
  obtain ⟨e, l⟩ := readFileHeader_ok h
  have hw := readFileHeader_wire executable size (rest ++ Y)
  rw [Nat.mod_eq_of_lt l] at hw
  rw [e]
  simp only [List.append_assoc]
  exact hw

theorem readEntryHeader_ext {useCaseHack : Bool} {marker : Bytes} {names : List (Bytes × Nat)}
    {prevName src rest : Bytes} {r : Option (Bytes × Bytes × List (Bytes × Nat))} (Y : Bytes)
    (h : readEntryHeader useCaseHack marker names prevName src = .ok (r, rest)) :
    readEntryHeader useCaseHack marker names prevName (src ++ Y) = .ok (r, rest ++ Y) := by
  cases r with
  | none =>
    rw [readEntryHeader_none h, List.append_assoc]
    exact readEntryHeader_close useCaseHack marker names prevName (rest ++ Y)
  | some v =>
    obtain ⟨name, yielded, names1⟩ := v
    obtain ⟨e, hv, hs, ha, hf⟩ := readEntryHeader_some h
    have hw := readEntryHeader_entry useCaseHack marker names prevName name (rest ++ Y)
      (validName_of_invalidFileName hv) (strLe_eq_false hs) hf
    rw [← ha] at hw
    rw [e]
    simp only [List.append_assoc]
    exact hw

theorem readContents_ext (size : Nat) (src : Bytes) (out : List Event) (data rest : Bytes)
    (out1 : List Event) (Y : Bytes) (h : readContents size size src out = .ok data rest out1) :
    readContents size size (src ++ Y) out = .ok data (rest ++ Y) out1 := by
  obtain ⟨e, l⟩ := readContents_ok _ _ _ _ _ _ _ h
  subst l
  have h1 := readContents_data data.length data rest out (Nat.le_refl _)
  rw [← e, h] at h1
  simp only [Res.ok.injEq, true_and] at h1
  rw [e, List.append_assoc, h1]
  exact readContents_data data.length data (rest ++ Y) out (Nat.le_refl _)

/-- When the parser has returned on a source, it returns the same on that
source with more bytes behind it, leaving them unread. -/
theorem parse_ext (useCaseHack : Bool) (marker Y : Bytes) : ∀ (fuel : Nat),
    (∀ (name : Option Bytes) (src : Bytes) (out : List Event) (T : Entry) (rest : Bytes)
        (out1 : List Event),
      SyncParser.parse useCaseHack marker fuel name src out = .ok T rest out1 →
      SyncParser.parse useCaseHack marker fuel name (src ++ Y) out = .ok T (rest ++ Y) out1)
    ∧ (∀ (names : List (Bytes × Nat)) (prevName src : Bytes) (out : List Event)
        (cs : List (Bytes × Entry)) (rest : Bytes) (out1 : List Event),
      SyncParser.readDir useCaseHack marker fuel names prevName src out = .ok cs rest out1 →
      SyncParser.readDir useCaseHack marker fuel names prevName (src ++ Y) out
        = .ok cs (rest ++ Y) out1) := by
  intro fuel
  induction fuel with
  | zero =>
    constructor
    · intro name src out T rest out1 h
      simp [SyncParser.parse] at h
    · intro names prevName src out cs rest out1 h
      simp [SyncParser.readDir] at h
  | succ fuel ih =>
    obtain ⟨ihp, ihd⟩ := ih
    constructor
    · intro name src out T rest out1 h
      rw [SyncParser.parse] at h ⊢
      split at h
      · simp at h
      · rename_i src1 h1
        rw [EXPECT_ext Y h1]
        simp only []
        split at h
        · simp at h
        · rename_i src2 h2
          rw [EXPECT_ext Y h2]
          simp only []
          split at h
          · simp at h
          · rename_i t src3 h3
            rw [READ_STRING_ext Y h3]
            simp only []
            split at h
            · rename_i ht
              rw [if_pos ht]
              split at h
              · simp at h
              · rename_i executable size src4 h4
                rw [readFileHeader_ext Y h4]
                simp only []
                split at h
                · simp at h
                · simp at h
                · rename_i contents src5 o hr
                  rw [readContents_ext _ _ _ _ _ _ Y hr]
                  simp only []
                  split at h
                  · simp at h
                  · rename_i src6 h6
                    rw [READ_PADDING_ext Y h6]
                    simp only []
                    split at h
                    · simp at h
                    · rename_i src7 h7
                      rw [EXPECT_ext Y h7]
                      simp only [Res.ok.injEq] at h ⊢
                      exact ⟨h.1, by rw [h.2.1], h.2.2⟩
            · rename_i ht
              rw [if_neg ht]
              split at h
              · rename_i hd
                rw [if_pos hd]
                split at h
                · simp at h
                · simp at h
                · rename_i contents src4 o hr
                  rw [ihd _ _ _ _ _ _ _ hr]
                  simp only [Res.ok.injEq] at h ⊢
                  exact ⟨h.1, by rw [h.2.1], h.2.2⟩
              · rename_i hd
                rw [if_neg hd]
                split at h
                · rename_i hsl
                  rw [if_pos hsl]
                  split at h
                  · simp at h
                  · rename_i src4 h4
                    rw [EXPECT_ext Y h4]
                    simp only []
                    split at h
                    · simp at h
                    · rename_i target src5 h5
                      rw [READ_STRING_ext Y h5]
                      simp only []
                      split at h
                      · simp at h
                      · rename_i src6 h6
                        rw [EXPECT_ext Y h6]
                        simp only [Res.ok.injEq] at h ⊢
                        exact ⟨h.1, by rw [h.2.1], h.2.2⟩
                · simp at h
    · intro names prevName src out cs rest out1 h
      rw [SyncParser.readDir] at h ⊢
      split at h
      · simp at h
      · rename_i src1 hh
        rw [readEntryHeader_ext Y hh]
        simp only [Res.ok.injEq] at h ⊢
        exact ⟨h.1, by rw [h.2.1], h.2.2⟩
      · rename_i name yielded names1 src1 hh
        rw [readEntryHeader_ext Y hh]
        simp only []
        split at h
        · simp at h
        · simp at h
        · rename_i entry src2 o hr
          rw [ihp _ _ _ _ _ _ hr]
          simp only []
          split at h
          · simp at h
          · rename_i src3 h3
            rw [EXPECT_ext Y h3]
            simp only []
            split at h
            · simp at h
            · simp at h
            · rename_i rest1 src4 o2 hr2
              rw [ihd _ _ _ _ _ _ _ hr2]
              simp only [Res.ok.injEq] at h ⊢
              exact ⟨h.1, by rw [h.2.1], h.2.2⟩
/-- What `nar::parse` has accepted: the magic, then a node the parser returns
on. -/
theorem nar_parse_ok_inv {useCaseHack : Bool} {marker B rest : Bytes} {items : List Entry}
    {out : List Event} (h : nar.parse useCaseHack marker B = .ok items rest out) :
    ∃ src1 entry, B = wireString narVersionMagic1 ++ src1 ∧ items = [entry]
      ∧ SyncParser.parse useCaseHack marker (src1.length + 1) none src1 []
        = .ok entry rest out := by
  have hnil : ([] : Bytes) ≠ narVersionMagic1 := by decide
  cases hr : readString narVersionMagic1.length B with
  | error e =>
    cases e with
    | SerialisationError msg =>
      simp [nar.parse, hr, hnil] at h
    | Error msg => simp [nar.parse, hr] at h
    | EndOfFile => simp [nar.parse, hr] at h
  | ok r =>
    obtain ⟨version, src1⟩ := r
    simp only [nar.parse, hr] at h
    split at h
    · simp at h
    · rename_i hv
      simp only [ne_eq, Decidable.not_not] at hv
      subst hv
      obtain ⟨e1, _, _⟩ := readString_ok hr
      split at h
      · simp at h
      · simp at h
      · rename_i entry src2 o hp
        simp only [Res.ok.injEq] at h
        obtain ⟨h1, h2, h3⟩ := h
        subst h1 h2 h3
        exact ⟨src1, entry, e1, rfl, hp⟩

/-- When `nar::parse` has returned on a source, it returns the same on that
source with more bytes behind it, leaving them unread. -/
theorem nar_parse_ext {useCaseHack : Bool} {marker B rest : Bytes} {items : List Entry}
    {out : List Event} (Y : Bytes)
    (h : nar.parse useCaseHack marker B = .ok items rest out) :
    nar.parse useCaseHack marker (B ++ Y) = .ok items (rest ++ Y) out := by
  obtain ⟨src1, entry, e1, e2, hp⟩ := nar_parse_ok_inv h
  have hne : SyncParser.parse useCaseHack marker (src1.length + 1) none src1 []
      ≠ .outOfFuel := by
    rw [hp]
    exact fun he => Res.noConfusion he
  have hfuel := parse_fuel_add useCaseHack marker (src1.length + 1) Y.length none src1 [] hne
  rw [hp] at hfuel
  have hext := (parse_ext useCaseHack marker Y _).1 _ _ _ _ _ _ hfuel
  have hlen : (src1 ++ Y).length + 1 = src1.length + 1 + Y.length := by
    rw [List.length_append]
    omega
  rw [e1, List.append_assoc, nar_parse_magic, hlen, hext, e2]

/-- C35 (every proper prefix of a valid archive is rejected). For every valid
tree, every proper initial segment of its archive, the empty input included,
and either case-hack setting, `nar::parse` drained over that segment throws: it
does not return. -/
theorem C35_proper_prefix_rejected (useCaseHack : Bool) (marker : Bytes) (T : Entry)
    (P : Bytes) (hvalid : T.valid marker = true) (hfits : T.fits = true)
    (hinitial : P <+: serialize T) (hproper : P ≠ serialize T) :
    ∃ e out, nar.parse useCaseHack marker P = .fail e out := by
  obtain ⟨Y, hY⟩ := hinitial
  have hYne : Y ≠ [] := by
    intro h0
    rw [h0, List.append_nil] at hY
    exact hproper hY
  cases hr : nar.parse useCaseHack marker P with
  | outOfFuel => exact absurd hr (nar_parse_done useCaseHack marker P)
  | fail e out => exact ⟨e, out, rfl⟩
  | ok items rest out =>
    have h1 := nar_parse_ext Y hr
    rw [hY] at h1
    have h2 := parse_serialize_append useCaseHack marker T [] hvalid hfits
    rw [List.append_nil, h1] at h2
    simp only [Res.ok.injEq, List.append_eq_nil] at h2
    exact absurd h2.2.1.2 hYne

set_option maxRecDepth 100000 in
theorem C35_proper_prefix_rejected_witness :
    scenarioTree.valid caseHackSuffix = true ∧ scenarioTree.fits = true
      ∧ (serialize scenarioTree).take 100 <+: serialize scenarioTree
      ∧ (serialize scenarioTree).take 100 ≠ serialize scenarioTree
      ∧ ∃ e out, nar.parse true caseHackSuffix ((serialize scenarioTree).take 100)
          = .fail e out := by
  have hv : scenarioTree.valid caseHackSuffix = true := by decide
  have hf : scenarioTree.fits = true := by decide
  have hp : (serialize scenarioTree).take 100 <+: serialize scenarioTree :=
    List.take_prefix _ _
  have hn : (serialize scenarioTree).take 100 ≠ serialize scenarioTree := by
    intro h
    have hl := congrArg List.length h
    rw [List.length_take] at hl
    have h8 : 100 < (serialize scenarioTree).length := by decide
    omega
  exact ⟨hv, hf, hp, hn, C35_proper_prefix_rejected true caseHackSuffix scenarioTree _ hv hf
    hp hn⟩

/-- The second loop with the archive names against the second loop with the
on-disk names. -/
theorem listChildren_flag (useCaseHack : Bool) (marker : Bytes) (filter : Bytes → Bool)
    (path : Bytes) : ∀ (u : List (Bytes × Bytes × Except NarError (Entry × Int))) (mtime : Int),
    (∀ y ∈ u, y.1 = archiveName useCaseHack marker y.2.1) →
    listChildren filter true path mtime
        (u.map (fun y => (y.1, y.2.1, listedArchived useCaseHack marker y.2.2)))
      = match listChildren filter false path mtime u with
        | .error e => .error e
        | .ok (cs, mtime1) => .ok (childrenArchived useCaseHack marker cs, mtime1)
  | [], mtime, _ => by simp [listChildren, childrenArchived]
  | (first, second, listed) :: rest, mtime, hk => by
    have hfirst : first = archiveName useCaseHack marker second :=
      hk _ (List.mem_cons_self _ _)
    have ih := fun m => listChildren_flag useCaseHack marker filter path rest m
      (fun y hy => hk y (List.mem_cons_of_mem _ hy))
    rw [List.map_cons]
    unfold listChildren
    by_cases hf : filter (path ++ lit "/" ++ first) = true
    · simp only [hf, ↓reduceIte]
      cases listed with
      | error e =>
        have e0 : listedArchived useCaseHack marker (.error e) = .error e := rfl
        simp only [e0]
      | ok v =>
        obtain ⟨entry, tmp⟩ := v
        have e0 : listedArchived useCaseHack marker (.ok (entry, tmp))
            = .ok (entry.archived useCaseHack marker, tmp) := rfl
        simp only [e0, ih]
        cases listChildren filter false path (if tmp > mtime then tmp else mtime) rest with
        | error e => rfl
        | ok w =>
          obtain ⟨cs, m1⟩ := w
          simp only [Bool.false_eq_true, ↓reduceIte, childrenArchived, hfirst]
    · simp only [hf, Bool.false_eq_true, ↓reduceIte]
      exact ih mtime

mutual
/-- The listing with the archive names is the listing with the on-disk names,
every child put under its archive name. -/
theorem list_flag (useCaseHack : Bool) (marker : Bytes) (filter : Bytes → Bool) :
    ∀ (fs : FsNode) (path : Bytes),
    list useCaseHack marker filter true path fs
      = listedArchived useCaseHack marker (list useCaseHack marker filter false path fs)
  | .regular _ _ _, path => by simp only [list, listedArchived, Entry.archived]
  | .symlink _ _, path => by simp only [list, listedArchived, Entry.archived]
  | .other _, path => by simp only [list, listedArchived]
  | .directory st_mtime entries, path => by
    rw [list_directory, list_directory]
    have heach : listEach useCaseHack marker filter true path entries
        = (listEach useCaseHack marker filter false path entries).map
            (fun x => (x.1, listedArchived useCaseHack marker x.2)) := by
      rw [listEach_eq_map, listEach_eq_map, List.map_map]
      apply List.map_congr_left
      intro x hx
      simp only [Function.comp_apply, Prod.mk.injEq, true_and]
      exact entries_flag useCaseHack marker filter entries path x hx
    have hn := fill_natural
      (fun (_ : Bytes) (r : Except NarError (Entry × Int)) => listedArchived useCaseHack marker r)
      useCaseHack marker path (listEach useCaseHack marker filter false path entries) []
    simp only [List.map_nil] at hn
    rw [heach, hn]
    cases hu : fillUnhacked useCaseHack marker path
        (listEach useCaseHack marker filter false path entries) [] with
    | error e => rfl
    | ok u =>
      obtain ⟨_, hkeys, _⟩ := fill_inv useCaseHack marker path _ [] u hu
        (by simp [sortedKeys]) (by simp)
      simp only []
      rw [listChildren_flag useCaseHack marker filter path u st_mtime hkeys]
      cases listChildren filter false path st_mtime u with
      | error e => rfl
      | ok w =>
        obtain ⟨cs, m1⟩ := w
        simp only [listedArchived, Entry.archived]
theorem entries_flag (useCaseHack : Bool) (marker : Bytes) (filter : Bytes → Bool) :
    ∀ (entries : List (Bytes × FsNode)) (path : Bytes), ∀ x ∈ entries,
    list useCaseHack marker filter true (path ++ lit "/" ++ x.1) x.2
      = listedArchived useCaseHack marker
          (list useCaseHack marker filter false (path ++ lit "/" ++ x.1) x.2)
  | [], _, x, hx => by simp at hx
  | (n, node) :: rest, path, x, hx => by
    rcases List.mem_cons.mp hx with e | hm
    · subst e
      exact list_flag useCaseHack marker filter node _
    · exact entries_flag useCaseHack marker filter rest path x hm
end

/-- C38 (filtered and unfiltered dumps agree). For a file tree that is the same
at scan and at dump, every directory of which lists each name once, a filter
that accepts every path and either case-hack setting:
`prepareDump(path, filter)->dump()` and `prepareDump(path)->dump()`, drained,
yield the same bytes, or throw the same exception. -/
theorem C38_dumps_agree (useCaseHack : Bool) (marker : Bytes) (filter : Bytes → Bool)
    (path : Bytes) (fs : FsNode) (hdistinct : fs.distinctNames = true)
    (haccepts : ∀ p, filter p = true) :
    dumpPath.filtered useCaseHack marker filter path fs = dumpPath useCaseHack marker path fs
      ∧ dumpPath.filtered useCaseHack marker filter path fs
        = match PrefilteredDump.create useCaseHack marker filter path fs with
          | .error e => .error e
          | .ok root => PrefilteredDump.dump useCaseHack marker path fs root := by
  refine ⟨?_, rfl⟩
  have hfilter : filter = defaultPathFilter := funext haccepts
  subst hfilter
  have hflag := list_flag useCaseHack marker defaultPathFilter fs path
  unfold dumpPath.filtered dumpPath PrefilteredDump.create UnfilteredDump.dump
  rw [hflag]
  cases hl : list useCaseHack marker defaultPathFilter false path fs with
  | error e => rfl
  | ok v =>
    obtain ⟨T, m⟩ := v
    obtain ⟨hconv, _⟩ := list_prune useCaseHack marker defaultPathFilter fs path T m hl hdistinct
    simp only [listedArchived, PrefilteredDump.dump, hconv]

set_option maxRecDepth 100000 in
theorem C38_dumps_agree_witness :
    unsortedListing.distinctNames = true
      ∧ dumpPath.filtered true caseHackSuffix (fun _ => true) (lit "/d") unsortedListing
        = dumpPath true caseHackSuffix (lit "/d") unsortedListing
      ∧ dumpPath true caseHackSuffix (lit "/d") unsortedListing
        = .ok (serialize (.directory [(lit "A", .file true 1 (lit "y")),
            (lit "a", .file false 1 (lit "x")), (lit "b", .symlink (lit "t"))])) := by
  have hd : unsortedListing.distinctNames = true := by decide
  exact ⟨hd, (C38_dumps_agree true caseHackSuffix (fun _ => true) (lit "/d") unsortedListing hd
    (fun _ => rfl)).1, by rfl⟩

theorem find_of_prefix (needle : Bytes) : ∀ (s : Bytes), needle <+: s → find s needle = some 0
  | [], h => by
    have : needle = [] := List.prefix_nil.mp h
    simp [find, this]
  | c :: s, h => by
    simp only [find, List.isPrefixOf_iff_prefix.mpr h, ↓reduceIte]

/-- An occurrence of the needle bounds the position `find` returns. -/
theorem find_le (needle x : Bytes) (h : needle <+: x) : ∀ (pre : Bytes),
    ∃ q, q ≤ pre.length ∧ find (pre ++ x) needle = some q
  | [] => ⟨0, Nat.le_refl _, find_of_prefix needle x h⟩
  | c :: pre => by
    obtain ⟨q, hq, hf⟩ := find_le needle x h pre
    rw [List.cons_append]
    by_cases hp : needle.isPrefixOf (c :: (pre ++ x)) = true
    · exact ⟨0, Nat.zero_le _, by simp only [find, hp, ↓reduceIte]⟩
    · refine ⟨q + 1, by simp only [List.length_cons]; omega, ?_⟩
      simp only [find, hp, Bool.false_eq_true, ↓reduceIte, hf, Option.map_some']

/-- Where the needle first occurs right after `n`: at the length of `n`. -/
theorem find_after (needle d : Bytes) : ∀ (n : Bytes),
    (∀ t, t ≠ [] → t <:+ n → ¬ needle <+: t ++ needle ++ d) →
    find (n ++ needle ++ d) needle = some n.length
  | [], _ => by
    rw [List.nil_append]
    exact find_of_prefix needle _ (List.prefix_append _ _)
  | c :: s, h => by
    have hp : needle.isPrefixOf (c :: (s ++ needle ++ d)) = false := by
      cases hb : needle.isPrefixOf (c :: (s ++ needle ++ d))
      · rfl
      · exact absurd (List.isPrefixOf_iff_prefix.mp hb)
          (h (c :: s) (List.cons_ne_nil _ _) (List.suffix_refl _))
    have ih := find_after needle d s
      (fun t ht hs => h t ht (hs.trans (List.suffix_cons c s)))
    show find (c :: (s ++ needle ++ d)) needle = _
    simp only [find, hp, Bool.false_eq_true, ↓reduceIte, ih, Option.map_some', List.length_cons]

theorem removeCaseHack_after (marker d n : Bytes)
    (h : ∀ t, t ≠ [] → t <:+ n → ¬ marker <+: t ++ marker ++ d) :
    removeCaseHack marker (n ++ marker ++ d) = n := by
  unfold removeCaseHack
  rw [find_after marker d n h]
  simp only [List.append_assoc, List.take_left']

/-- The marker `~nix~case~hack~` overlaps itself only in its first and last
byte. -/
theorem caseHackSuffix_overlap : ∀ j, j < 15 → 1 ≤ j →
    (caseHackSuffix.drop j).isPrefixOf caseHackSuffix = true → j = 14 := by
  decide

/-- No early occurrence of the marker `~nix~case~hack~` in a hacked name, when
the name holds no marker and does not end with `~nix~case~hack`. -/
theorem caseHackSuffix_after (n d : Bytes) (hno : ¬ caseHackSuffix <:+: n)
    (hend : ¬ lit "~nix~case~hack" <:+ n) :
    ∀ t, t ≠ [] → t <:+ n → ¬ caseHackSuffix <+: t ++ caseHackSuffix ++ d := by
  intro t ht hs hp
  have hlen : caseHackSuffix.length = 15 := by decide
  have htl : 1 ≤ t.length := by
    cases t with
    | nil => exact absurd rfl ht
    | cons c t => simp
  rw [List.append_assoc] at hp
  by_cases hbig : caseHackSuffix.length ≤ t.length
  · have h1 : caseHackSuffix <+: t :=
      List.prefix_of_prefix_length_le hp (List.prefix_append _ _) hbig
    exact hno (h1.isInfix.trans hs.isInfix)
  · have h1 : t <+: caseHackSuffix :=
      List.prefix_of_prefix_length_le (List.prefix_append _ _) hp (by omega)
    obtain ⟨r, hr⟩ := h1
    have hlr : t.length + r.length = 15 := by
      rw [← hlen, ← hr, List.length_append]
    have h2 : r <+: caseHackSuffix ++ d := by
      have hp2 : t ++ r <+: t ++ (caseHackSuffix ++ d) := by
        rw [hr]
        exact hp
      exact (List.prefix_append_right_inj t).mp hp2
    have h3 : r <+: caseHackSuffix :=
      List.prefix_of_prefix_length_le h2 (List.prefix_append _ _) (by omega)
    have hdrop : caseHackSuffix.drop t.length = r := by
      rw [← hr]
      exact List.drop_left' rfl
    have htake : caseHackSuffix.take t.length = t := by
      rw [← hr]
      exact List.take_left' rfl
    have h14 := caseHackSuffix_overlap t.length (by omega) htl
      (by rw [hdrop]; exact List.isPrefixOf_iff_prefix.mpr h3)
    apply hend
    have ht14 : t = lit "~nix~case~hack" := by
      rw [← htake, h14]
      decide
    rw [← ht14]
    exact hs

/-- How far the reversal of the scanner undoes the renaming of the parser. The
reversal, which erases everything from the first occurrence of the marker on,
and which `PrefilteredDump::convert` applies as well, gives back `n` from
`n + marker + digits` whenever no non-empty end of `n` followed by the marker
and the digits starts with the marker. For the marker `~nix~case~hack~` and a
valid name `n`: the reversal of the name `n + marker + decimal(k)` the parser
produces on a collision gives back `n` exactly when `n` does not end with
`~nix~case~hack`. -/
theorem removeCaseHack_round_trip :
    (∀ (marker n d : Bytes),
        (∀ t, t ≠ [] → t <:+ n → ¬ marker <+: t ++ marker ++ d) →
        removeCaseHack marker (n ++ marker ++ d) = n
          ∧ archiveName true marker (n ++ marker ++ d) = n)
      ∧ (∀ (n : Bytes) (k : Nat), validName caseHackSuffix n = true →
        (removeCaseHack caseHackSuffix (n ++ caseHackSuffix ++ to_string k) = n
          ↔ ¬ lit "~nix~case~hack" <:+ n))
      ∧ (∀ (names : List (Bytes × Nat)) (name : Bytes) (i : Bytes × Nat),
        names.find? (fun i => sameKey i.1 name) = some i →
        (applyCaseHack true caseHackSuffix names name).1
          = name ++ caseHackSuffix ++ to_string (i.2 + 1)) := by
  refine ⟨?_, ?_, ?_⟩
  · intro marker n d h
    have hr := removeCaseHack_after marker d n h
    exact ⟨hr, by simp only [archiveName, ↓reduceIte, hr]⟩
  · intro n k hv
    have hno : ¬ caseHackSuffix <:+: n := by
      have := (validName_iff caseHackSuffix n).mp hv
      intro hc
      exact this (Or.inr (Or.inr (Or.inr (Or.inr (Or.inr hc)))))
    constructor
    · intro hr hend
      obtain ⟨p, hp⟩ := hend
      have hocc : caseHackSuffix <+: lit "~nix~case~hack" ++ caseHackSuffix ++ to_string k := by
        rw [List.append_assoc]
        exact ⟨lit "nix~case~hack~" ++ to_string k, by
          rw [← List.append_assoc]
          rfl⟩
      obtain ⟨q, hq, hf⟩ := find_le caseHackSuffix _ hocc p
      have hx : p ++ (lit "~nix~case~hack" ++ caseHackSuffix ++ to_string k)
          = n ++ caseHackSuffix ++ to_string k := by
        rw [← hp]
        simp only [List.append_assoc]
      rw [hx] at hf
      unfold removeCaseHack at hr
      rw [hf] at hr
      have hl := congrArg List.length hr
      rw [List.length_take, ← hp] at hl
      simp only [List.length_append] at hl
      have h14 : (lit "~nix~case~hack").length = 14 := by decide
      omega
    · intro hend
      exact removeCaseHack_after caseHackSuffix _ n (caseHackSuffix_after n _ hno hend)
  · intro names name i hi
    simp only [applyCaseHack, ↓reduceIte, hi]

theorem removeCaseHack_round_trip_foo :
    validName caseHackSuffix (lit "foo") = true
      ∧ ¬ lit "~nix~case~hack" <:+ lit "foo"
      ∧ removeCaseHack caseHackSuffix (lit "foo" ++ caseHackSuffix ++ to_string 1) = lit "foo" := by
  have hv : validName caseHackSuffix (lit "foo") = true := by decide
  have hn : ¬ lit "~nix~case~hack" <:+ lit "foo" := by decide
  exact ⟨hv, hn, ((removeCaseHack_round_trip.2.1 (lit "foo") 1 hv)).mpr hn⟩

theorem removeCaseHack_id (marker n : Bytes) (h : ¬ marker <:+: n) :
    removeCaseHack marker n = n := by
  unfold removeCaseHack
  cases hf : find n marker with
  | none => rfl
  | some pos =>
    have := (isSome_find_iff n marker).mp (by rw [hf]; rfl)
    exact absurd this h

theorem archiveName_valid (useCaseHack : Bool) (marker n : Bytes)
    (h : validName marker n = true) : archiveName useCaseHack marker n = n := by
  have hno : ¬ marker <:+: n := by
    have := (validName_iff marker n).mp h
    intro hc
    exact this (Or.inr (Or.inr (Or.inr (Or.inr (Or.inr hc)))))
  unfold archiveName
  split
  · exact removeCaseHack_id marker n hno
  · rfl

theorem validChildren_iff (marker : Bytes) : ∀ (cs : List (Bytes × Entry)),
    validChildren marker cs = true
      ↔ ∀ c ∈ cs, validName marker c.1 = true ∧ c.2.valid marker = true
  | [] => by simp [validChildren]
  | (n, e) :: cs => by
    simp only [validChildren, Bool.and_eq_true, validChildren_iff marker cs, List.mem_cons,
      forall_eq_or_imp, and_assoc]

theorem entriesNamesValid_iff (marker : Bytes) : ∀ (entries : List (Bytes × FsNode)),
    entriesNamesValid marker entries = true
      ↔ ∀ x ∈ entries, validName marker x.1 = true ∧ x.2.namesValid marker = true
  | [] => by simp [entriesNamesValid]
  | (n, node) :: rest => by
    simp only [entriesNamesValid, Bool.and_eq_true, entriesNamesValid_iff marker rest,
      List.mem_cons, forall_eq_or_imp, and_assoc]

mutual
/-- The tree scanned from on-disk names that are valid entry names is a valid
tree. -/
theorem list_valid (useCaseHack : Bool) (marker : Bytes) (filter : Bytes → Bool) :
    ∀ (fs : FsNode) (path : Bytes) (T : Entry) (mtime : Int),
    list useCaseHack marker filter true path fs = .ok (T, mtime) →
    fs.namesValid marker = true → T.valid marker = true
  | .regular _ _ _, path, T, mtime, h, _ => by
    simp only [list, Except.ok.injEq, Prod.mk.injEq] at h
    rw [← h.1]
    simp [Entry.valid]
  | .symlink _ _, path, T, mtime, h, _ => by
    simp only [list, Except.ok.injEq, Prod.mk.injEq] at h
    rw [← h.1]
    rfl
  | .other _, path, T, mtime, h, _ => by
    simp [list] at h
  | .directory st_mtime entries, path, T, mtime, h, hn => by
    have hsorted := (list_in_order useCaseHack marker filter true _ path T mtime h).1 rfl
    simp only [FsNode.namesValid] at hn
    rw [entriesNamesValid_iff] at hn
    obtain ⟨unhacked, hu, hok, hT, _⟩ := list_directory_ok h
    obtain ⟨_, hfrom⟩ := unhacked_from hu
    subst hT
    simp only [Entry.sorted, Bool.and_eq_true] at hsorted
    simp only [Entry.valid, Bool.and_eq_true]
    refine ⟨hsorted.1, ?_⟩
    rw [validChildren_iff]
    intro c hc
    rw [List.mem_map] at hc
    obtain ⟨y, hy, rfl⟩ := hc
    obtain ⟨hkey, x, hx, hname, hp⟩ := hfrom y (List.mem_filter.mp hy).1
    obtain ⟨v, hv⟩ := hok y hy
    have hxv := hn x hx
    simp only [↓reduceIte]
    constructor
    · rw [hkey, hname, archiveName_valid useCaseHack marker x.1 hxv.1]
      exact hxv.1
    · rw [hv] at hp
      rw [hv]
      exact entries_valid useCaseHack marker filter entries path x hx v.1 v.2 hp.symm hxv.2
theorem entries_valid (useCaseHack : Bool) (marker : Bytes) (filter : Bytes → Bool) :
    ∀ (entries : List (Bytes × FsNode)) (path : Bytes), ∀ x ∈ entries,
    ∀ (T : Entry) (mtime : Int),
    list useCaseHack marker filter true (path ++ lit "/" ++ x.1) x.2 = .ok (T, mtime) →
    x.2.namesValid marker = true → T.valid marker = true
  | [], _, x, hx, _, _, _, _ => by simp at hx
  | (n, node) :: rest, path, x, hx, T, mtime, h, hn => by
    rcases List.mem_cons.mp hx with e | hm
    · subst e
      exact list_valid useCaseHack marker filter node _ T mtime h hn
    · exact entries_valid useCaseHack marker filter rest path x hm T mtime h hn
end

/-- Before the position `find` returns there is no occurrence of the needle. -/
theorem find_first (needle : Bytes) (hne : needle ≠ []) : ∀ (s : Bytes) (pos : Nat),
    find s needle = some pos → ¬ needle <:+: s.take pos
  | [], pos, _ => by
    rw [List.take_nil]
    intro hc
    exact hne (List.infix_nil.mp hc)
  | c :: s, pos, h => by
    simp only [find] at h
    split at h
    · simp only [Option.some.injEq] at h
      rw [← h, List.take_zero]
      intro hc
      exact hne (List.infix_nil.mp hc)
    · rename_i hp
      cases hf : find s needle with
      | none => simp [hf] at h
      | some p =>
        simp only [hf, Option.map_some', Option.some.injEq] at h
        rw [← h, List.take_succ_cons, List.infix_cons_iff]
        rintro (h1 | h1)
        · exact hp (List.isPrefixOf_iff_prefix.mpr (h1.trans
            ((List.prefix_cons_inj c).mpr (List.take_prefix p s))))
        · exact find_first needle hne s p hf h1

theorem removeCaseHack_sub (marker n : Bytes) : ∀ b ∈ removeCaseHack marker n, b ∈ n := by
  intro b hb
  unfold removeCaseHack at hb
  split at hb
  · exact List.mem_of_mem_take hb
  · exact hb

theorem removeCaseHack_no_marker (marker n : Bytes) (hne : marker ≠ []) :
    ¬ marker <:+: removeCaseHack marker n := by
  unfold removeCaseHack
  cases hf : find n marker with
  | none =>
    intro hc
    have := (isSome_find_iff n marker).mpr hc
    rw [hf] at this
    exact absurd this (by simp)
  | some pos => exact find_first marker hne n pos hf
/-- C37 (scanned names are parseable). When every on-disk name of the tree is
a valid entry name (non-empty, not `.` or `..`, without `/`, NUL and the
case-hack marker), then under either case-hack setting and any filter the tree
a scan that returns hands to the serializer is a valid tree, through `list`
with `returnUnhacked` set as well as through `PrefilteredDump::convert`, so
the parser accepts its archive. For an on-disk name that is only known to be
non-empty, not `.` or `..`, and without `/` or NUL: with the case hack
disabled the name is emitted as it is and passes the name check of the parser
exactly when the marker does not occur in it; with the case hack enabled the
emitted name holds no `/`, no NUL and no marker, and passes the check exactly
when it is not empty, `.` or `..`. -/
theorem C37_scanned_names (useCaseHack : Bool) (marker : Bytes) (filter : Bytes → Bool)
    (path : Bytes) (fs : FsNode) :
    (fs.namesValid marker = true → ∀ (T : Entry) (mtime : Int),
        list useCaseHack marker filter true path fs = .ok (T, mtime) →
        T.valid marker = true
          ∧ (T.fits = true → ∀ (parserCaseHack : Bool),
              nar.parse parserCaseHack marker (serialize T)
                = .ok [T.caseHacked parserCaseHack marker] []
                    ((T.caseHacked parserCaseHack marker).events none)))
      ∧ (fs.namesValid marker = true → fs.distinctNames = true →
        ∀ (root : PrefilteredDump.Entry) (T : Entry),
        PrefilteredDump.create useCaseHack marker filter path fs = .ok root →
        PrefilteredDump.convert useCaseHack marker path (some fs) root = .ok T →
        T.valid marker = true)
      ∧ (∀ (n : Bytes), safeName n = true →
          archiveName false marker n = n
            ∧ (invalidFileName marker n = false ↔ ¬ marker <:+: n))
      ∧ (∀ (n : Bytes), safeName n = true → marker ≠ [] →
          chr '/' ∉ archiveName true marker n ∧ (0 : UInt8) ∉ archiveName true marker n
            ∧ ¬ marker <:+: archiveName true marker n
            ∧ (invalidFileName marker (archiveName true marker n) = false
              ↔ archiveName true marker n ≠ [] ∧ archiveName true marker n ≠ lit "."
                ∧ archiveName true marker n ≠ lit "..")) := by
  refine ⟨?_, ?_, ?_, ?_⟩
  · intro hn T mtime h
    have hv := list_valid useCaseHack marker filter fs path T mtime h hn
    refine ⟨hv, ?_⟩
    intro hf parserCaseHack
    have hp := parse_serialize_append parserCaseHack marker T [] hv hf
    rw [List.append_nil] at hp
    exact hp
  · intro hn hd root T hc hconv
    unfold PrefilteredDump.create at hc
    split at hc
    · simp at hc
    · rename_i T0 m hl
      simp only [Except.ok.injEq] at hc
      subst hc
      obtain ⟨h1, _⟩ := list_prune useCaseHack marker filter fs path T0 m hl hd
      rw [h1] at hconv
      simp only [Except.ok.injEq] at hconv
      subst hconv
      have hflag := list_flag useCaseHack marker filter fs path
      rw [hl] at hflag
      exact list_valid useCaseHack marker filter fs path _ m hflag hn
  · intro n hs
    obtain ⟨s1, s2, s3, s4, s5⟩ := (safeName_iff n).mp hs
    refine ⟨by simp [archiveName], ?_⟩
    rw [invalidFileName_eq, Bool.not_eq_false', validName_iff]
    constructor
    · intro h hc
      exact h (Or.inr (Or.inr (Or.inr (Or.inr (Or.inr hc)))))
    · intro h hc
      rcases hc with hc | hc | hc | hc | hc | hc
      · exact s1 hc
      · exact s2 hc
      · exact s3 hc
      · exact s4 hc
      · exact s5 hc
      · exact h hc
  · intro n hs hne
    obtain ⟨s1, s2, s3, s4, s5⟩ := (safeName_iff n).mp hs
    have ha : archiveName true marker n = removeCaseHack marker n := by simp [archiveName]
    rw [ha]
    have h4 : chr '/' ∉ removeCaseHack marker n := fun hc => s4 (removeCaseHack_sub marker n _ hc)
    have h5 : (0 : UInt8) ∉ removeCaseHack marker n :=
      fun hc => s5 (removeCaseHack_sub marker n _ hc)
    have h6 := removeCaseHack_no_marker marker n hne
    refine ⟨h4, h5, h6, ?_⟩
    rw [invalidFileName_eq, Bool.not_eq_false', validName_iff]
    constructor
    · intro h
      exact ⟨fun hc => h (Or.inl hc), fun hc => h (Or.inr (Or.inl hc)),
        fun hc => h (Or.inr (Or.inr (Or.inl hc)))⟩
    · rintro ⟨a1, a2, a3⟩ hc
      rcases hc with hc | hc | hc | hc | hc | hc
      · exact a1 hc
      · exact a2 hc
      · exact a3 hc
      · exact h4 hc
      · exact h5 hc
      · exact h6 hc

set_option maxRecDepth 100000 in
theorem C37_scanned_names_witness :
    (FsNode.directory 1 [(lit "b", .symlink 2 (lit "t")),
        (lit "a", .regular 3 false (lit "x"))]).namesValid caseHackSuffix = true
      ∧ list true caseHackSuffix defaultPathFilter true (lit "/d")
          (.directory 1 [(lit "b", .symlink 2 (lit "t")), (lit "a", .regular 3 false (lit "x"))])
        = .ok (.directory [(lit "a", .file false 1 (lit "x")), (lit "b", .symlink (lit "t"))], 3)
      ∧ (Entry.directory [(lit "a", .file false 1 (lit "x")),
            (lit "b", .symlink (lit "t"))]).valid caseHackSuffix = true := by
  have hn : (FsNode.directory 1 [(lit "b", .symlink 2 (lit "t")),
      (lit "a", .regular 3 false (lit "x"))]).namesValid caseHackSuffix = true := by decide
  have hl : list true caseHackSuffix defaultPathFilter true (lit "/d")
      (.directory 1 [(lit "b", .symlink 2 (lit "t")), (lit "a", .regular 3 false (lit "x"))])
      = .ok (.directory [(lit "a", .file false 1 (lit "x")), (lit "b", .symlink (lit "t"))], 3) := by
    rfl
  exact ⟨hn, hl, ((C37_scanned_names true caseHackSuffix defaultPathFilter (lit "/d")
    _).1 hn _ 3 hl).1⟩
set_option maxRecDepth 100000 in
/-- C37, names the scanner emits and the parser rejects: with the case hack
disabled the on-disk name `a~nix~case~hack~1` goes into the archive as it is,
and with the case hack enabled the on-disk name `~nix~case~hack~1` goes into
the archive as the empty name; both on-disk names are non-empty, not `.` or
`..`, and without `/` or NUL, and the parser rejects both archives for the
name. -/
theorem C37_emitted_name_counterexample :
    safeName (lit "a~nix~case~hack~1") = true
      ∧ dumpPath false caseHackSuffix (lit "/d") hackedOnDisk
        = .ok (serialize (.directory [(lit "a~nix~case~hack~1", .file false 1 (lit "x"))]))
      ∧ nar.parse false caseHackSuffix
          (serialize (.directory [(lit "a~nix~case~hack~1", .file false 1 (lit "x"))]))
        = .fail (.Error (lit "NAR contains invalid file name 'a~nix~case~hack~1'"))
            [.directory none]
      ∧ safeName (lit "~nix~case~hack~1") = true
      ∧ dumpPath true caseHackSuffix (lit "/d") suffixOnly
        = .ok (serialize (.directory [(lit "", .symlink (lit "t"))]))
      ∧ nar.parse true caseHackSuffix (serialize (.directory [(lit "", .symlink (lit "t"))]))
        = .fail (.Error (lit "NAR contains invalid file name ''")) [.directory none] := by
  refine ⟨by decide, by rfl, by rfl, by decide, by rfl, by rfl⟩

/-! ### What the parser accepts does not depend on the case-hack setting -/

theorem readEntryHeader_setting {useCaseHack : Bool} {marker : Bytes}
    {names : List (Bytes × Nat)} {prevName src rest : Bytes}
    {r : Option (Bytes × Bytes × List (Bytes × Nat))}
    (h : readEntryHeader useCaseHack marker names prevName src = .ok (r, rest))
    (useCaseHack2 : Bool) (names2 : List (Bytes × Nat)) :
    (r = none ∧ readEntryHeader useCaseHack2 marker names2 prevName src = .ok (none, rest))
      ∨ ∃ name yielded names1, r = some (name, yielded, names1)
        ∧ readEntryHeader useCaseHack2 marker names2 prevName src
          = .ok (some (name, (applyCaseHack useCaseHack2 marker names2 name).1,
              (applyCaseHack useCaseHack2 marker names2 name).2), rest) := by
  cases r with
  | none =>
    left
    refine ⟨rfl, ?_⟩
    rw [readEntryHeader_none h]
    exact readEntryHeader_close useCaseHack2 marker names2 prevName rest
  | some v =>
    right
    obtain ⟨name, yielded, names1⟩ := v
    obtain ⟨e, hv, hs, _, hf⟩ := readEntryHeader_some h
    refine ⟨name, yielded, names1, rfl, ?_⟩
    rw [e]
    exact readEntryHeader_entry useCaseHack2 marker names2 prevName name rest
      (validName_of_invalidFileName hv) (strLe_eq_false hs) hf

/-- What the parser returns on under one case-hack setting it returns on under
the other, leaving the same bytes unread. -/
theorem parse_setting (useCaseHack useCaseHack2 : Bool) (marker : Bytes) : ∀ (fuel : Nat),
    (∀ (name : Option Bytes) (src : Bytes) (out : List Event) (T : Entry) (rest : Bytes)
        (out1 : List Event) (name2 : Option Bytes) (out2 : List Event),
      SyncParser.parse useCaseHack marker fuel name src out = .ok T rest out1 →
      ∃ T2 o2, SyncParser.parse useCaseHack2 marker fuel name2 src out2 = .ok T2 rest o2)
    ∧ (∀ (names : List (Bytes × Nat)) (prevName src : Bytes) (out : List Event)
        (cs : List (Bytes × Entry)) (rest : Bytes) (out1 : List Event)
        (names2 : List (Bytes × Nat)) (out2 : List Event),
      SyncParser.readDir useCaseHack marker fuel names prevName src out = .ok cs rest out1 →
      ∃ cs2 o2, SyncParser.readDir useCaseHack2 marker fuel names2 prevName src out2
        = .ok cs2 rest o2) := by
  intro fuel
  induction fuel with
  | zero =>
    constructor
    · intro name src out T rest out1 name2 out2 h
      simp [SyncParser.parse] at h
    · intro names prevName src out cs rest out1 names2 out2 h
      simp [SyncParser.readDir] at h
  | succ fuel ih =>
    obtain ⟨ihp, ihd⟩ := ih
    constructor
    · intro name src out T rest out1 name2 out2 h
      rw [SyncParser.parse] at h ⊢
      split at h
      · simp at h
      · rename_i src1 h1
        try rw [h1]
        try simp only []
        split at h
        · simp at h
        · rename_i src2 h2
          try rw [h2]
          try simp only []
          split at h
          · simp at h
          · rename_i t src3 h3
            try rw [h3]
            try simp only []
            split at h
            · rename_i ht
              rw [if_pos ht]
              split at h
              · simp at h
              · rename_i executable size src4 h4
                try rw [h4]
                try simp only []
                split at h
                · simp at h
                · simp at h
                · rename_i contents src5 o hr
                  obtain ⟨e5, l5⟩ := readContents_ok _ _ _ _ _ _ _ hr
                  have hr2 := readContents_data size contents src5
                    (out2 ++ [.file name2 executable size]) (by omega)
                  rw [l5, ← e5] at hr2
                  rw [hr2]
                  simp only []
                  split at h
                  · simp at h
                  · rename_i src6 h6
                    try rw [h6]
                    try simp only []
                    split at h
                    · simp at h
                    · rename_i src7 h7
                      try rw [h7]
                      simp only [Res.ok.injEq] at h ⊢
                      exact ⟨_, _, rfl, h.2.1, rfl⟩
            · rename_i ht
              rw [if_neg ht]
              split at h
              · rename_i hd
                rw [if_pos hd]
                split at h
                · simp at h
                · simp at h
                · rename_i contents src4 o hr
                  obtain ⟨cs2, o2, hr2⟩ := ihd _ _ _ _ _ _ _ [] (out2 ++ [.directory name2]) hr
                  rw [hr2]
                  simp only [Res.ok.injEq] at h ⊢
                  exact ⟨_, _, rfl, h.2.1, rfl⟩
              · rename_i hd
                rw [if_neg hd]
                split at h
                · rename_i hsl
                  rw [if_pos hsl]
                  split at h
                  · simp at h
                  · rename_i src4 h4
                    try rw [h4]
                    try simp only []
                    split at h
                    · simp at h
                    · rename_i target src5 h5
                      try rw [h5]
                      try simp only []
                      split at h
                      · simp at h
                      · rename_i src6 h6
                        try rw [h6]
                        simp only [Res.ok.injEq] at h ⊢
                        exact ⟨_, _, rfl, h.2.1, rfl⟩
                · simp at h
    · intro names prevName src out cs rest out1 names2 out2 h
      rw [SyncParser.readDir] at h ⊢
      split at h
      · simp at h
      · rename_i src1 hh
        rcases readEntryHeader_setting hh useCaseHack2 names2 with ⟨_, h2⟩ | ⟨_, _, _, hc, _⟩
        · rw [h2]
          simp only [Res.ok.injEq] at h ⊢
          exact ⟨_, _, rfl, h.2.1, rfl⟩
        · simp at hc
      · rename_i name yielded names1 src1 hh
        rcases readEntryHeader_setting hh useCaseHack2 names2 with ⟨hc, _⟩ | ⟨n, y, n1, hc, h2⟩
        · simp at hc
        · simp only [Option.some.injEq, Prod.mk.injEq] at hc
          obtain ⟨hn, _, _⟩ := hc
          subst hn
          try rw [h2]
          try simp only []
          split at h
          · simp at h
          · simp at h
          · rename_i entry src2 o hr
            obtain ⟨T2, o2, hr2⟩ := ihp _ _ _ _ _ _
              (some (applyCaseHack useCaseHack2 marker names2 name).1) out2 hr
            rw [hr2]
            simp only []
            split at h
            · simp at h
            · rename_i src3 h3
              try rw [h3]
              try simp only []
              split at h
              · simp at h
              · simp at h
              · rename_i rest1 src4 o3 hr3
                obtain ⟨cs2, o4, hr4⟩ := ihd _ _ _ _ _ _ _
                  (applyCaseHack useCaseHack2 marker names2 name).2 o2 hr3
                rw [hr4]
                simp only [Res.ok.injEq] at h ⊢
                exact ⟨_, _, rfl, h.2.1, rfl⟩

/-- An archive `nar::parse` accepts under either case-hack setting is the
archive of a valid tree, followed by the bytes left unread. -/
theorem nar_parse_accepts {useCaseHack : Bool} {marker B rest : Bytes} {items : List Entry}
    {out : List Event} (h : nar.parse useCaseHack marker B = .ok items rest out) :
    ∃ T, B = serialize T ++ rest ∧ T.valid marker = true ∧ T.fits = true
      ∧ items = [T.caseHacked useCaseHack marker] := by
  obtain ⟨src1, entry, e1, e2, hp⟩ := nar_parse_ok_inv h
  obtain ⟨T, o2, hp2⟩ := (parse_setting useCaseHack false marker _).1 _ _ _ _ _ _ none [] hp
  have hfalse : nar.parse false marker B = .ok [T] rest o2 := by
    rw [e1, nar_parse_magic, hp2]
  obtain ⟨T1, ht, hB, hv, hf⟩ := nar_parse_ok hfalse
  simp only [List.cons.injEq, and_true] at ht
  subst ht
  refine ⟨T, hB, hv, hf, ?_⟩
  have h3 := parse_serialize_append useCaseHack marker T rest hv hf
  rw [← hB, h] at h3
  simp only [Res.ok.injEq] at h3
  exact h3.1
theorem digitChar_toNat (k : Nat) (h : k < 10) : (chr (Nat.digitChar k)).toNat = 48 + k := by
  interval_cases k <;> rfl

/-- The decimal digits of a number: they stand for the number. -/
theorem toDigitsCore_value : ∀ (fuel n : Nat) (acc : List Char), n < fuel →
    ∃ ds, Nat.toDigitsCore 10 fuel n acc = ds ++ acc
      ∧ decimalValue (ds.map chr) = n ∧ ∀ c ∈ ds, isDigit (chr c) = true
  | 0, n, acc, h => by omega
  | fuel + 1, n, acc, h => by
    have hd := digitChar_toNat (n % 10) (Nat.mod_lt _ (by decide))
    have hdig : isDigit (chr (Nat.digitChar (n % 10))) = true := by
      have := Nat.mod_lt n (show 0 < 10 by decide)
      simp only [isDigit, hd, decide_eq_true_eq]
      omega
    unfold Nat.toDigitsCore
    by_cases h0 : n / 10 = 0
    · simp only [h0, ↓reduceIte]
      refine ⟨[Nat.digitChar (n % 10)], rfl, ?_, ?_⟩
      · simp only [decimalValue, List.map_cons, List.map_nil, List.foldl_cons, List.foldl_nil, hd]
        omega
      · intro c hc
        rw [List.mem_singleton] at hc
        rw [hc]
        exact hdig
    · simp only [h0, ↓reduceIte]
      obtain ⟨ds, e1, e2, e3⟩ := toDigitsCore_value fuel (n / 10) (Nat.digitChar (n % 10) :: acc)
        (by omega)
      refine ⟨ds ++ [Nat.digitChar (n % 10)], by rw [e1]; simp, ?_, ?_⟩
      · unfold decimalValue at e2 ⊢
        rw [List.map_append, List.foldl_append, e2]
        simp only [List.map_cons, List.map_nil, List.foldl_cons, List.foldl_nil, hd]
        omega
      · intro c hc
        rcases List.mem_append.mp hc with hm | hm
        · exact e3 c hm
        · rw [List.mem_singleton] at hm
          rw [hm]
          exact hdig

theorem to_string_value (n : Nat) :
    decimalValue (to_string n) = n ∧ ∀ b ∈ to_string n, isDigit b = true := by
  obtain ⟨ds, e1, e2, e3⟩ := toDigitsCore_value (n + 1) n [] (Nat.lt_succ_self _)
  rw [List.append_nil] at e1
  unfold to_string Nat.toDigits
  rw [e1]
  refine ⟨e2, ?_⟩
  intro b hb
  rw [List.mem_map] at hb
  obtain ⟨c, hc, rfl⟩ := hb
  exact e3 c hc

theorem to_string_inj {a b : Nat} (h : to_string a = to_string b) : a = b := by
  rw [← (to_string_value a).1, ← (to_string_value b).1, h]

theorem tolower_digit (b : UInt8) : isDigit (tolower b) = isDigit b := by
  unfold tolower
  split
  · rename_i hr
    have := toNat_lt b
    simp only [isDigit, toNat_ofNat]
    have h1 : ¬ (48 ≤ (b.toNat + 32) % 256 ∧ (b.toNat + 32) % 256 ≤ 57) := by omega
    have h2 : ¬ (48 ≤ b.toNat ∧ b.toNat ≤ 57) := by omega
    simp only [h1, h2]
  · rfl

theorem tolower_of_digit (b : UInt8) (h : isDigit b = true) : tolower b = b := by
  simp only [isDigit, decide_eq_true_eq] at h
  unfold tolower
  rw [if_neg (by omega)]

theorem foldCase_digits : ∀ (d : Bytes), (∀ b ∈ d, isDigit b = true) → foldCase d = d
  | [], _ => rfl
  | b :: d, h => by
    have ih := foldCase_digits d (fun x hx => h x (List.mem_cons_of_mem _ hx))
    unfold foldCase at ih ⊢
    rw [List.map_cons, ih, tolower_of_digit b (h b (List.mem_cons_self _ _))]

theorem foldCase_append (a b : Bytes) : foldCase (a ++ b) = foldCase a ++ foldCase b := by
  simp [foldCase]

theorem foldCase_length (a : Bytes) : (foldCase a).length = a.length := by
  simp [foldCase]

/-- A marker that does not end in a digit, followed by digits, ends where the
digits begin. -/
theorem marker_sep_aux (M c d1 d2 : Bytes) (hne : M ≠ [])
    (hlast : ∀ x, M.getLast? = some x → isDigit x = false)
    (h1 : ∀ x ∈ d1, isDigit x = true) (h : M ++ d1 = c ++ (M ++ d2)) : c = [] := by
  have hr := congrArg List.reverse h
  simp only [List.reverse_append] at hr
  rw [List.append_assoc] at hr
  rcases List.append_eq_append_iff.mp hr with ⟨e, he1, he2⟩ | ⟨e, he1, he2⟩
  · have hl := congrArg List.length he2
    simp only [List.length_append, List.length_reverse] at hl
    have : c.length = 0 := by omega
    exact List.length_eq_zero.mp this
  · cases e with
    | nil =>
      rw [List.nil_append] at he2
      have : c.reverse = [] := by
        have := List.append_cancel_left (he2.trans (List.append_nil _).symm)
        exact this
      simpa using this
    | cons x e =>
      exfalso
      cases hM : M.reverse with
      | nil =>
        apply hne
        simpa using hM
      | cons y t =>
        rw [hM] at he2
        simp only [List.cons_append, List.cons.injEq] at he2
        have hx : x ∈ d1 := by
          have : x ∈ d1.reverse := by
            rw [he1]
            exact List.mem_append_right _ (List.mem_cons_self _ _)
          simpa using this
        have hy : M.getLast? = some y := by
          rw [List.getLast?_eq_head?_reverse, hM]
          rfl
        have := hlast y hy
        rw [he2.1, h1 x hx] at this
        exact Bool.noConfusion this

theorem marker_sep (a b M d1 d2 : Bytes) (hne : M ≠ [])
    (hlast : ∀ x, M.getLast? = some x → isDigit x = false)
    (h1 : ∀ x ∈ d1, isDigit x = true) (h2 : ∀ x ∈ d2, isDigit x = true)
    (h : a ++ (M ++ d1) = b ++ (M ++ d2)) : a = b := by
  rcases List.append_eq_append_iff.mp h with ⟨c, hc1, hc2⟩ | ⟨c, hc1, hc2⟩
  · have := marker_sep_aux M c d1 d2 hne hlast h1 hc2
    rw [hc1, this, List.append_nil]
  · have := marker_sep_aux M c d2 d1 hne hlast h2 hc2
    rw [hc1, this, List.append_nil]
theorem plainMarker_iff (marker : Bytes) : plainMarker marker = true →
    marker ≠ [] ∧ (0 : UInt8) ∉ marker ∧ ∀ x, marker.getLast? = some x → isDigit x = false := by
  intro h
  simp only [plainMarker, Bool.and_eq_true, bne_iff_ne, ne_eq, Bool.not_eq_true',
    List.contains_eq_any_beq, List.any_eq_false, beq_iff_eq] at h
  obtain ⟨⟨h1, h2⟩, h3⟩ := h
  refine ⟨h1, fun hm => h2 _ hm rfl, ?_⟩
  intro x hx
  rw [hx] at h3
  simpa using h3

theorem sameKey_nul_free (a b : Bytes) (ha : (0 : UInt8) ∉ a) (hb : (0 : UInt8) ∉ b) :
    sameKey a b = true ↔ foldCase a = foldCase b := by
  rw [sameKey_fold, c_str_of_no_nul a ha, c_str_of_no_nul b hb]
  rfl

theorem sameKey_eq_beq (a b : Bytes) : (strcasecmp a b == 0) = sameKey a b := by
  cases h : sameKey a b
  · have : ¬ strcasecmp a b = 0 := fun e => by
      have := (sameKey_iff a b).mpr e
      rw [h] at this
      exact Bool.noConfusion this
    simpa using this
  · simpa using (sameKey_iff a b).mp h

theorem collisions_split (E P : List Bytes) (n q : Bytes) :
    collisions (E ++ n :: P) q
      = collisions E q + (if sameKey n q = true then 1 else 0) + collisions P q := by
  simp only [collisions, List.countP_append, List.countP_cons, sameKey_eq_beq]
  omega

theorem collisions_congr (E : List Bytes) {n q : Bytes} (h : sameKey n q = true) :
    collisions E q = collisions E n := by
  unfold collisions
  apply List.countP_congr
  intro x _
  rw [sameKey_eq_beq, sameKey_eq_beq, sameKey_congr h x]

theorem hackedName_nul_free (marker : Bytes) (E : List Bytes) (n : Bytes)
    (hm : (0 : UInt8) ∉ marker) (hn : (0 : UInt8) ∉ n) :
    (0 : UInt8) ∉ hackedName marker E n := by
  unfold hackedName
  split
  · exact hn
  · intro hc
    rcases List.mem_append.mp hc with h1 | h1
    · rcases List.mem_append.mp h1 with h2 | h2
      · exact hn h2
      · exact hm h2
    · exact (to_string_safe _ _ h1).2 rfl

/-- A name as yielded and the name a later sibling is yielded under are not
equal ignoring case, when neither name as read holds the marker in whatever
letter case. -/
theorem hacked_not_sameKey (marker : Bytes) (hm : plainMarker marker = true)
    (E P : List Bytes) (n q : Bytes) (hn0 : (0 : UInt8) ∉ n) (hq0 : (0 : UInt8) ∉ q)
    (hnm : ¬ foldCase marker <:+: foldCase n) (hqm : ¬ foldCase marker <:+: foldCase q) :
    sameKey (hackedName marker E n) (hackedName marker (E ++ n :: P) q) = false := by
  obtain ⟨m1, m2, m3⟩ := plainMarker_iff marker hm
  have hfne : foldCase marker ≠ [] := by
    intro h
    apply m1
    have := congrArg List.length h
    rw [foldCase_length] at this
    exact List.length_eq_zero.mp this
  have hml : 1 ≤ marker.length := by
    cases marker with
    | nil => exact absurd rfl m1
    | cons c t => simp
  have hfl : ∀ x, (foldCase marker).getLast? = some x → isDigit x = false := by
    intro x hx
    unfold foldCase at hx
    rw [List.getLast?_map] at hx
    cases hl : marker.getLast? with
    | none => simp [hl] at hx
    | some y =>
      simp only [hl, Option.map_some', Option.some.injEq] at hx
      rw [← hx, tolower_digit]
      exact m3 y hl
  have hsplit := collisions_split E P n q
  cases hb : sameKey (hackedName marker E n) (hackedName marker (E ++ n :: P) q) with
  | false => rfl
  | true =>
    exfalso
    have hfold := (sameKey_nul_free _ _ (hackedName_nul_free marker E n m2 hn0)
      (hackedName_nul_free marker (E ++ n :: P) q m2 hq0)).mp hb
    have hd1 := foldCase_digits _ (to_string_value (collisions E n)).2
    have hd2 := foldCase_digits _ (to_string_value (collisions (E ++ n :: P) q)).2
    by_cases hs : foldCase n = foldCase q
    · have hsk : sameKey n q = true := (sameKey_nul_free n q hn0 hq0).mpr hs
      have hce := collisions_congr E hsk
      rw [if_pos hsk] at hsplit
      have hpos : collisions (E ++ n :: P) q ≠ 0 := by omega
      have hlen := congrArg List.length hs
      rw [foldCase_length, foldCase_length] at hlen
      unfold hackedName at hfold
      rw [if_neg hpos] at hfold
      by_cases h0 : collisions E n = 0
      · rw [if_pos h0] at hfold
        have hl := congrArg List.length hfold
        simp only [foldCase_length, List.length_append] at hl
        omega
      · rw [if_neg h0] at hfold
        simp only [foldCase_append, hs, List.append_assoc, hd1, hd2] at hfold
        have h3 := to_string_inj (List.append_cancel_left (List.append_cancel_left hfold))
        omega
    · unfold hackedName at hfold
      by_cases h0 : collisions E n = 0
      · rw [if_pos h0] at hfold
        by_cases h1 : collisions (E ++ n :: P) q = 0
        · rw [if_pos h1] at hfold
          exact hs hfold
        · rw [if_neg h1] at hfold
          apply hnm
          rw [hfold, foldCase_append, foldCase_append]
          exact ⟨foldCase q, foldCase (to_string (collisions (E ++ n :: P) q)), rfl⟩
      · rw [if_neg h0] at hfold
        by_cases h1 : collisions (E ++ n :: P) q = 0
        · rw [if_pos h1] at hfold
          apply hqm
          rw [← hfold, foldCase_append, foldCase_append]
          exact ⟨foldCase n, foldCase (to_string (collisions E n)), rfl⟩
        · rw [if_neg h1] at hfold
          simp only [foldCase_append, List.append_assoc, hd1, hd2] at hfold
          exact hs (marker_sep _ _ _ _ _ hfne hfl (to_string_value _).2 (to_string_value _).2
            hfold)

theorem mem_childrenHackedSpec (marker : Bytes) : ∀ (cs : List (Bytes × Entry))
    (E : List Bytes) (c : Bytes × Entry), c ∈ childrenHackedSpec marker E cs →
    ∃ P x, x ∈ cs ∧ c.1 = hackedName marker (E ++ P) x.1 ∧ c.2 = x.2.hackedSpec marker
  | [], _, c, h => by simp [childrenHackedSpec] at h
  | (n, e) :: rest, E, c, h => by
    simp only [childrenHackedSpec, List.mem_cons] at h
    rcases h with h | h
    · exact ⟨[], (n, e), List.mem_cons_self _ _, by rw [h, List.append_nil], by rw [h]⟩
    · obtain ⟨P, x, hx, h1, h2⟩ := mem_childrenHackedSpec marker rest (E ++ [n]) c h
      exact ⟨n :: P, x, List.mem_cons_of_mem _ hx,
        by rw [h1, List.append_assoc, List.singleton_append], h2⟩

theorem childrenHackedSpec_pairwise (marker : Bytes) (hm : plainMarker marker = true) :
    ∀ (cs : List (Bytes × Entry)) (E : List Bytes),
    (∀ c ∈ cs, (0 : UInt8) ∉ c.1 ∧ ¬ foldCase marker <:+: foldCase c.1) →
    ((childrenHackedSpec marker E cs).map Prod.fst).Pairwise (fun a b => sameKey a b = false)
  | [], _, _ => by simp [childrenHackedSpec]
  | (n, e) :: rest, E, h => by
    simp only [childrenHackedSpec, List.map_cons, List.pairwise_cons]
    obtain ⟨hn0, hnm⟩ := h (n, e) (List.mem_cons_self _ _)
    refine ⟨?_, childrenHackedSpec_pairwise marker hm rest (E ++ [n])
      (fun c hc => h c (List.mem_cons_of_mem _ hc))⟩
    intro a ha
    rw [List.mem_map] at ha
    obtain ⟨c, hc, rfl⟩ := ha
    obtain ⟨P, x, hx, h1, _⟩ := mem_childrenHackedSpec marker rest (E ++ [n]) c hc
    obtain ⟨hx0, hxm⟩ := h x (List.mem_cons_of_mem _ hx)
    rw [h1, List.append_assoc, List.singleton_append]
    exact hacked_not_sameKey marker hm E P n x.1 hn0 hx0 hnm hxm

mutual
/-- The tree the parser yields for a valid tree without the marker in whatever
letter case has, in every directory, names that are distinct ignoring case. -/
theorem hackedSpec_distinct (marker : Bytes) (hm : plainMarker marker = true) :
    ∀ (T : Entry), T.valid marker = true → T.markerFree marker = true →
    (T.hackedSpec marker).distinctIgnoringCase = true
  | .file _ _ _, _, _ => rfl
  | .symlink _, _, _ => rfl
  | .directory cs, hv, hf => by
    simp only [Entry.valid, Bool.and_eq_true] at hv
    simp only [Entry.markerFree] at hf
    simp only [Entry.hackedSpec, Entry.distinctIgnoringCase, Bool.and_eq_true,
      decide_eq_true_eq]
    refine ⟨childrenHackedSpec_pairwise marker hm cs [] ?_,
      children_distinct marker hm cs [] hv.2 hf⟩
    intro c hc
    have hvc := ((validChildren_iff marker cs).mp hv.2 c hc).1
    have h0 := (safeName_iff c.1).mp (safeName_of_validName hvc)
    refine ⟨h0.2.2.2.2, ?_⟩
    exact children_markerFree_mem marker cs hf c hc
theorem children_distinct (marker : Bytes) (hm : plainMarker marker = true) :
    ∀ (cs : List (Bytes × Entry)) (E : List Bytes), validChildren marker cs = true →
    childrenMarkerFree marker cs = true →
    childrenDistinctIgnoringCase (childrenHackedSpec marker E cs) = true
  | [], _, _, _ => rfl
  | (n, e) :: rest, E, hv, hf => by
    simp only [validChildren, Bool.and_eq_true] at hv
    simp only [childrenMarkerFree, Bool.and_eq_true] at hf
    simp only [childrenHackedSpec, childrenDistinctIgnoringCase, Bool.and_eq_true]
    exact ⟨hackedSpec_distinct marker hm e hv.1.2 hf.1.2,
      children_distinct marker hm rest (E ++ [n]) hv.2 hf.2⟩
theorem children_markerFree_mem (marker : Bytes) : ∀ (cs : List (Bytes × Entry)),
    childrenMarkerFree marker cs = true → ∀ c ∈ cs, ¬ foldCase marker <:+: foldCase c.1
  | [], _, c, hc => by simp at hc
  | (n, e) :: rest, hf, c, hc => by
    simp only [childrenMarkerFree, Bool.and_eq_true, Bool.not_eq_true', decide_eq_false_iff_not]
      at hf
    rcases List.mem_cons.mp hc with h | h
    · rw [h]
      exact hf.1.1
    · exact children_markerFree_mem marker rest hf.2 c h
end
/-- C36 (case-hacked names are unique ignoring case). With the case hack
enabled and a marker that is not empty, holds no NUL and does not end in a
digit: every archive the parser accepts is the archive of a valid tree `T`,
what the parser yields is `T` with the names of the case hack, and when no
child name of `T` holds the marker in whatever letter case, in every directory
the names the parser yields are pairwise distinct under ASCII
case-insensitive comparison. -/
theorem C36_unique_ignoring_case (marker B rest : Bytes) (items : List Entry)
    (out : List Event) (hmarker : plainMarker marker = true)
    (haccepted : nar.parse true marker B = .ok items rest out) :
    ∃ T, B = serialize T ++ rest ∧ T.valid marker = true
      ∧ items = [T.hackedSpec marker]
      ∧ (T.markerFree marker = true → (T.hackedSpec marker).distinctIgnoringCase = true) := by
  obtain ⟨T, hB, hv, _, hi⟩ := nar_parse_accepts haccepted
  rw [caseHacked_eq_spec] at hi
  exact ⟨T, hB, hv, hi, hackedSpec_distinct marker hmarker T hv⟩

set_option maxRecDepth 100000 in
theorem C36_unique_ignoring_case_witness :
    plainMarker caseHackSuffix = true
      ∧ nar.parse true caseHackSuffix (serialize caseCollidingTree)
        = .ok [caseCollidingTree.hackedSpec caseHackSuffix] []
            ((caseCollidingTree.hackedSpec caseHackSuffix).events none)
      ∧ ∃ T, serialize caseCollidingTree = serialize T ++ [] ∧ T.valid caseHackSuffix = true
        ∧ [caseCollidingTree.hackedSpec caseHackSuffix] = [T.hackedSpec caseHackSuffix]
        ∧ (T.markerFree caseHackSuffix = true →
          (T.hackedSpec caseHackSuffix).distinctIgnoringCase = true) := by
  have hm : plainMarker caseHackSuffix = true := by decide
  have hv : caseCollidingTree.valid caseHackSuffix = true := by decide
  have hf : caseCollidingTree.fits = true := by decide
  have hp := parse_serialize_append true caseHackSuffix caseCollidingTree [] hv hf
  rw [List.append_nil, caseHacked_eq_spec] at hp
  exact ⟨hm, hp, C36_unique_ignoring_case caseHackSuffix _ _ _ _ hm hp⟩

set_option maxRecDepth 100000 in
/-- C36, names that are equal ignoring case: for the valid directory with the
names `A`, `a` and `a~NIX~CASE~HACK~1` the parser yields `A`,
`a~nix~case~hack~1` and `a~NIX~CASE~HACK~1`, and `CaseInsensitiveCompare` puts
neither of the last two before the other. -/
theorem C36_case_variant_counterexample :
    caseVariantTree.valid caseHackSuffix = true
      ∧ nar.parse true caseHackSuffix (serialize caseVariantTree)
        = .ok [.directory [(lit "A", .symlink (lit "x")),
            (lit "a~nix~case~hack~1", .symlink (lit "y")),
            (lit "a~NIX~CASE~HACK~1", .symlink (lit "z"))]] []
            [.directory none, .symlink (some (lit "A")) (lit "x"),
              .symlink (some (lit "a~nix~case~hack~1")) (lit "y"),
              .symlink (some (lit "a~NIX~CASE~HACK~1")) (lit "z"), .leave]
      ∧ CaseInsensitiveCompare (lit "a~nix~case~hack~1") (lit "a~NIX~CASE~HACK~1") = false
      ∧ CaseInsensitiveCompare (lit "a~NIX~CASE~HACK~1") (lit "a~nix~case~hack~1") = false
      ∧ sameKey (lit "a~nix~case~hack~1") (lit "a~NIX~CASE~HACK~1") = true := by
  refine ⟨by decide, ?_, by decide, by decide, by decide⟩
  have hp := parse_serialize_append true caseHackSuffix caseVariantTree [] (by decide)
    (by decide)
  rw [List.append_nil] at hp
  rw [hp]
  rfl

theorem continues_refl (log : List Feed) : Feed.continues log log :=
  ⟨[], by simp, by simp⟩

theorem continues_trans {a b c : List Feed} (h1 : Feed.continues a b)
    (h2 : Feed.continues b c) : Feed.continues a c := by
  obtain ⟨f1, e1, p1⟩ := h1
  obtain ⟨f2, e2, p2⟩ := h2
  refine ⟨f1 ++ f2, by rw [e2, e1, List.append_assoc], ?_⟩
  intro f hf
  rcases List.mem_append.mp hf with h | h
  · exact p1 f h
  · exact p2 f h

theorem continues_one (log : List Feed) (f : Feed) (hf : f.wellFormed) :
    Feed.continues log (log ++ [f]) :=
  ⟨[f], rfl, by
    intro g hg
    rw [List.mem_singleton] at hg
    rw [hg]
    exact hf⟩

theorem readNum_eight (b : Bytes) (h : b.length = 8) :
    readNum b = .ok (readLittleEndian b, []) := by
  have h1 : Source.read 8 b = .ok (b, []) := by
    have := Source.read_append b []
    rw [List.append_nil, h] at this
    exact this
  simp only [readNum, h1]

theorem feed_cases (mem : Allocator) (log : List Feed) (buffer : Bytes) (n : Nat) (src : Bytes)
    (hb : buffer.length < 2 ^ 64) :
    (∃ bytes rest, SyncParser.feed mem log buffer n src = .ok (buffer ++ bytes, rest)
        ∧ Source.read n src = .ok (bytes, rest))
      ∨ (∃ e, SyncParser.feed mem log buffer n src = .error (.thrown e)
        ∧ Source.read n src = .error e)
      ∨ (∃ h, SyncParser.feed mem log buffer n src = .error h ∧ h.ofStorage = true) := by
  unfold SyncParser.feed
  split_ifs with h1 h2 h3 h4
  · exact Or.inr (Or.inr ⟨_, rfl, rfl⟩)
  · exact Or.inr (Or.inr ⟨_, rfl, rfl⟩)
  · refine Or.inr (Or.inl ⟨_, rfl, ?_⟩)
    subst h4
    have hlt : (buffer.length + n) % 2 ^ 64 ≤ buffer.length + n := Nat.mod_le _ _
    have hge : 2 ^ 64 ≤ buffer.length + n := by
      by_contra hc
      rw [Nat.mod_eq_of_lt (by omega)] at h3
      omega
    have hn : ¬ n ≤ ([] : Bytes).length := by
      simp only [List.length_nil]
      omega
    simp only [Source.read, hn, ↓reduceIte]
  · exact Or.inr (Or.inr ⟨_, rfl, rfl⟩)
  · cases hr : Source.read n src with
    | error e => exact Or.inr (Or.inl ⟨e, rfl, rfl⟩)
    | ok r =>
      obtain ⟨bytes, rest⟩ := r
      exact Or.inl ⟨bytes, rest, rfl, rfl⟩

theorem FETCH_U64_cases (mem : Allocator) (log : List Feed) (src : Bytes) :
    (∃ buffer src1, buffered.FETCH_U64 mem log [] src
          = .ok (readLittleEndian buffer, buffer) src1 (log ++ [⟨[], 8⟩])
        ∧ Source.read 8 src = .ok (buffer, src1))
      ∨ (∃ e, buffered.FETCH_U64 mem log [] src = .halt (.thrown e) (log ++ [⟨[], 8⟩])
        ∧ Source.read 8 src = .error e)
      ∨ (∃ h, buffered.FETCH_U64 mem log [] src = .halt h (log ++ [⟨[], 8⟩])
        ∧ h.ofStorage = true) := by
  rcases feed_cases mem log [] 8 src (by simp) with ⟨bytes, rest, hf, hs⟩ | ⟨e, hf, hs⟩
    | ⟨h, hf, hm⟩
  · refine Or.inl ⟨bytes, rest, ?_, hs⟩
    have hl := (Source.read_ok hs).2
    simp only [buffered.FETCH_U64, hf, List.nil_append, readNum_eight bytes hl]
  · exact Or.inr (Or.inl ⟨e, by simp only [buffered.FETCH_U64, hf], hs⟩)
  · exact Or.inr (Or.inr ⟨h, by simp only [buffered.FETCH_U64, hf], hm⟩)

theorem wellFormed_eight : (⟨[], 8⟩ : Feed).wellFormed := Or.inl ⟨rfl, by decide, by decide⟩

theorem buffered_READ_U64_cases (mem : Allocator) (log : List Feed) (src : Bytes) :
    (∃ u src1 log1, buffered.READ_U64 mem log src = .ok u src1 log1
        ∧ READ_U64 src = .ok (u, src1) ∧ Feed.continues log log1)
      ∨ (∃ e log1, buffered.READ_U64 mem log src = .halt (.thrown e) log1
        ∧ READ_U64 src = .error e ∧ Feed.continues log log1)
      ∨ (∃ h log1, buffered.READ_U64 mem log src = .halt h log1
        ∧ h.ofStorage = true ∧ Feed.continues log log1) := by
  have hc := continues_one log _ wellFormed_eight
  rcases FETCH_U64_cases mem log src with ⟨buffer, src1, hf, hs⟩ | ⟨e, hf, hs⟩ | ⟨h, hf, hm⟩
  · refine Or.inl ⟨readLittleEndian buffer, src1, _,
      by simp only [buffered.READ_U64, hf], ?_, hc⟩
    have hl := (Source.read_ok hs).2
    simp only [READ_U64, hs, readNum_eight buffer hl]
  · exact Or.inr (Or.inl ⟨e, _, by simp only [buffered.READ_U64, hf],
      by simp only [READ_U64, hs], hc⟩)
  · exact Or.inr (Or.inr ⟨h, _, by simp only [buffered.READ_U64, hf], hm, hc⟩)

theorem buffered_READ_STRING_cases (mem : Allocator) (log : List Feed) (src : Bytes) :
    (∃ s src1 log1, buffered.READ_STRING mem log src = .ok s src1 log1
        ∧ READ_STRING src = .ok (s, src1) ∧ Feed.continues log log1)
      ∨ (∃ e log1, buffered.READ_STRING mem log src = .halt (.thrown e) log1
        ∧ READ_STRING src = .error e ∧ Feed.continues log log1)
      ∨ (∃ h log1, buffered.READ_STRING mem log src = .halt h log1
        ∧ h.ofStorage = true ∧ Feed.continues log log1) := by
  have hc := continues_one log _ wellFormed_eight
  rcases FETCH_U64_cases mem log src with ⟨buffer, src1, hf, hs⟩ | ⟨e, hf, hs⟩ | ⟨h, hf, hm⟩
  · have hl := (Source.read_ok hs).2
    have hc2 : Feed.continues log
        (log ++ [⟨[], 8⟩] ++ [⟨buffer, wantString (readLittleEndian buffer)⟩]) :=
      continues_trans hc (continues_one _ _ (Or.inr ⟨hl, rfl⟩))
    rcases feed_cases mem (log ++ [⟨[], 8⟩]) buffer (wantString (readLittleEndian buffer)) src1
        (by rw [hl]; norm_num) with ⟨more, src2, hf2, hs2⟩ | ⟨e, hf2, hs2⟩ | ⟨h, hf2, hm⟩
    · by_cases hmax : mem.string_max_size < readLittleEndian buffer
      · exact Or.inr (Or.inr ⟨.length_error, _,
          by simp only [buffered.READ_STRING, hf, hf2, hmax, ↓reduceIte], rfl, hc2⟩)
      · by_cases hav : mem.available
            (log ++ [⟨[], 8⟩] ++ [⟨buffer, wantString (readLittleEndian buffer)⟩])
            (readLittleEndian buffer) = false
        · exact Or.inr (Or.inr ⟨.bad_alloc, _,
            by simp only [buffered.READ_STRING, hf, hf2, hmax, hav, ↓reduceIte], rfl, hc2⟩)
        · cases hr : readString (2 ^ 64 - 1) (buffer ++ more) with
          | error e =>
            refine Or.inr (Or.inl ⟨e, _, ?_, ?_, hc2⟩)
            · simp only [buffered.READ_STRING, hf, hf2, hmax, hav, ↓reduceIte, hr]
              rfl
            · simp only [READ_STRING, hs, readNum_eight buffer hl, hs2, hr]
          | ok r =>
            obtain ⟨str, rest⟩ := r
            refine Or.inl ⟨str, src2, _, ?_, ?_, hc2⟩
            · simp only [buffered.READ_STRING, hf, hf2, hmax, hav, ↓reduceIte, hr]
              rfl
            · simp only [READ_STRING, hs, readNum_eight buffer hl, hs2, hr]
    · exact Or.inr (Or.inl ⟨e, _, by simp only [buffered.READ_STRING, hf, hf2],
        by simp only [READ_STRING, hs, readNum_eight buffer hl, hs2], hc2⟩)
    · exact Or.inr (Or.inr ⟨h, _, by simp only [buffered.READ_STRING, hf, hf2], hm, hc2⟩)
  · exact Or.inr (Or.inl ⟨e, _, by simp only [buffered.READ_STRING, hf],
      by simp only [READ_STRING, hs], hc⟩)
  · exact Or.inr (Or.inr ⟨h, _, by simp only [buffered.READ_STRING, hf], hm, hc⟩)

theorem buffered_READ_PADDING_cases (mem : Allocator) (log : List Feed) (size : Nat)
    (src : Bytes) :
    (∃ src1 log1, buffered.READ_PADDING mem log size src = .ok () src1 log1
        ∧ READ_PADDING size src = .ok src1 ∧ Feed.continues log log1)
      ∨ (∃ e log1, buffered.READ_PADDING mem log size src = .halt (.thrown e) log1
        ∧ READ_PADDING size src = .error e ∧ Feed.continues log log1)
      ∨ (∃ h log1, buffered.READ_PADDING mem log size src = .halt h log1
        ∧ h.ofStorage = true ∧ Feed.continues log log1) := by
  unfold buffered.READ_PADDING READ_PADDING
  by_cases h8 : size % 8 ≠ 0
  · rw [if_pos h8, if_pos h8]
    have hc : Feed.continues log (log ++ [⟨[], 8 - size % 8⟩]) :=
      continues_one _ _ (Or.inl ⟨rfl, by show 1 ≤ 8 - size % 8; omega,
        by show 8 - size % 8 ≤ 8; omega⟩)
    rcases feed_cases mem log [] (8 - size % 8) src (by simp) with
      ⟨bytes, rest, hf, hs⟩ | ⟨e, hf, hs⟩ | ⟨h, hf, hm⟩
    · rw [List.nil_append] at hf
      cases hr : readPadding size bytes with
      | error e =>
        exact Or.inr (Or.inl ⟨e, _, by simp only [hf, hr], by simp only [hs, hr], hc⟩)
      | ok r =>
        exact Or.inl ⟨rest, _, by simp only [hf, hr], by simp only [hs, hr], hc⟩
    · exact Or.inr (Or.inl ⟨e, _, by simp only [hf], by simp only [hs], hc⟩)
    · exact Or.inr (Or.inr ⟨h, _, by simp only [hf], hm, hc⟩)
  · rw [if_neg h8, if_neg h8]
    exact Or.inl ⟨src, log, rfl, rfl, continues_refl log⟩

theorem buffered_EXPECT_cases (mem : Allocator) (log : List Feed) (raw kind src : Bytes) :
    (∃ src1 log1, buffered.EXPECT mem log raw kind src = .ok () src1 log1
        ∧ EXPECT raw kind src = .ok src1 ∧ Feed.continues log log1)
      ∨ (∃ e log1, buffered.EXPECT mem log raw kind src = .halt (.thrown e) log1
        ∧ EXPECT raw kind src = .error e ∧ Feed.continues log log1)
      ∨ (∃ h log1, buffered.EXPECT mem log raw kind src = .halt h log1
        ∧ h.ofStorage = true ∧ Feed.continues log log1) := by
  unfold buffered.EXPECT EXPECT
  rcases buffered_READ_STRING_cases mem log src with
    ⟨s, src1, log1, hb, ho, hc⟩ | ⟨e, log1, hb, ho, hc⟩ | ⟨h, log1, hb, hm, hc⟩
  · rw [hb, ho]
    by_cases hs : s ≠ raw
    · exact Or.inr (Or.inl ⟨_, log1, if_pos hs, if_pos hs, hc⟩)
    · exact Or.inl ⟨src1, log1, if_neg hs, if_neg hs, hc⟩
  · rw [hb, ho]
    exact Or.inr (Or.inl ⟨e, log1, rfl, rfl, hc⟩)
  · rw [hb]
    exact Or.inr (Or.inr ⟨h, log1, rfl, hm, hc⟩)
theorem buffered_readFileHeader_cases (mem : Allocator) (log : List Feed) (src : Bytes) :
    (∃ v src1 log1, buffered.readFileHeader mem log src = .ok v src1 log1
        ∧ readFileHeader src = .ok (v, src1) ∧ Feed.continues log log1)
      ∨ (∃ e log1, buffered.readFileHeader mem log src = .halt (.thrown e) log1
        ∧ readFileHeader src = .error e ∧ Feed.continues log log1)
      ∨ (∃ h log1, buffered.readFileHeader mem log src = .halt h log1
        ∧ h.ofStorage = true ∧ Feed.continues log log1) := by
  unfold buffered.readFileHeader readFileHeader
  rcases buffered_READ_STRING_cases mem log src with
    ⟨s, src1, log1, hb, ho, hc⟩ | ⟨e, log1, hb, ho, hc⟩ | ⟨h, log1, hb, hm, hc⟩
  · rw [hb, ho]
    simp only []
    by_cases hx : (s == lit "executable") = true
    · simp only [hx, ↓reduceIte]
      rcases buffered_READ_STRING_cases mem log1 src1 with
        ⟨s2, src2, log2, hb2, ho2, hc2⟩ | ⟨e, log2, hb2, ho2, hc2⟩ | ⟨h, log2, hb2, hm, hc2⟩
      · have hc := continues_trans hc hc2
        rw [hb2, ho2]
        simp only []
        by_cases hs2 : s2 ≠ lit ""
        · rw [if_pos hs2, if_pos hs2]
          exact Or.inr (Or.inl ⟨_, _, rfl, rfl, hc⟩)
        · rw [if_neg hs2, if_neg hs2]
          rcases buffered_READ_STRING_cases mem log2 src2 with
            ⟨s3, src3, log3, hb3, ho3, hc3⟩ | ⟨e, log3, hb3, ho3, hc3⟩
              | ⟨h, log3, hb3, hm, hc3⟩
          · have hc := continues_trans hc hc3
            rw [hb3, ho3]
            simp only []
            by_cases h3 : s3 = lit "contents"
            · rw [if_pos h3, if_pos h3]
              rcases buffered_READ_U64_cases mem log3 src3 with
                ⟨u, src4, log4, hb4, ho4, hc4⟩ | ⟨e, log4, hb4, ho4, hc4⟩
                  | ⟨h, log4, hb4, hm, hc4⟩
              · rw [hb4, ho4]
                exact Or.inl ⟨_, _, _, rfl, rfl, continues_trans hc hc4⟩
              · rw [hb4, ho4]
                exact Or.inr (Or.inl ⟨_, _, rfl, rfl, continues_trans hc hc4⟩)
              · rw [hb4]
                exact Or.inr (Or.inr ⟨_, _, rfl, hm, continues_trans hc hc4⟩)
            · rw [if_neg h3, if_neg h3]
              exact Or.inr (Or.inl ⟨_, _, rfl, rfl, hc⟩)
          · rw [hb3, ho3]
            exact Or.inr (Or.inl ⟨_, _, rfl, rfl, continues_trans hc hc3⟩)
          · rw [hb3]
            exact Or.inr (Or.inr ⟨_, _, rfl, hm, continues_trans hc hc3⟩)
      · rw [hb2, ho2]
        exact Or.inr (Or.inl ⟨_, _, rfl, rfl, continues_trans hc hc2⟩)
      · rw [hb2]
        exact Or.inr (Or.inr ⟨_, _, rfl, hm, continues_trans hc hc2⟩)
    · simp only [hx, Bool.false_eq_true, ↓reduceIte]
      by_cases h3 : s = lit "contents"
      · rw [if_pos h3, if_pos h3]
        rcases buffered_READ_U64_cases mem log1 src1 with
          ⟨u, src4, log4, hb4, ho4, hc4⟩ | ⟨e, log4, hb4, ho4, hc4⟩
            | ⟨h, log4, hb4, hm, hc4⟩
        · rw [hb4, ho4]
          exact Or.inl ⟨_, _, _, rfl, rfl, continues_trans hc hc4⟩
        · rw [hb4, ho4]
          exact Or.inr (Or.inl ⟨_, _, rfl, rfl, continues_trans hc hc4⟩)
        · rw [hb4]
          exact Or.inr (Or.inr ⟨_, _, rfl, hm, continues_trans hc hc4⟩)
      · rw [if_neg h3, if_neg h3]
        exact Or.inr (Or.inl ⟨_, _, rfl, rfl, hc⟩)
  · rw [hb, ho]
    exact Or.inr (Or.inl ⟨_, _, rfl, rfl, hc⟩)
  · rw [hb]
    exact Or.inr (Or.inr ⟨_, _, rfl, hm, hc⟩)
theorem buffered_readEntryHeader_cases (mem : Allocator) (log : List Feed) (useCaseHack : Bool)
    (marker : Bytes) (names : List (Bytes × Nat)) (prevName src : Bytes) :
    (∃ v src1 log1,
        buffered.readEntryHeader mem log useCaseHack marker names prevName src = .ok v src1 log1
        ∧ readEntryHeader useCaseHack marker names prevName src = .ok (v, src1)
        ∧ Feed.continues log log1)
      ∨ (∃ e log1,
        buffered.readEntryHeader mem log useCaseHack marker names prevName src
          = .halt (.thrown e) log1
        ∧ readEntryHeader useCaseHack marker names prevName src = .error e
        ∧ Feed.continues log log1)
      ∨ (∃ h log1,
        buffered.readEntryHeader mem log useCaseHack marker names prevName src = .halt h log1
        ∧ h.ofStorage = true ∧ Feed.continues log log1) := by
  unfold buffered.readEntryHeader readEntryHeader
  rcases buffered_READ_STRING_cases mem log src with
    ⟨s, src1, log1, hb, ho, hc⟩ | ⟨e, log1, hb, ho, hc⟩ | ⟨h, log1, hb, hm, hc⟩
  · rw [hb, ho]
    simp only []
    by_cases h1 : s = lit ")"
    · rw [if_pos h1, if_pos h1]
      exact Or.inl ⟨_, _, _, rfl, rfl, hc⟩
    · rw [if_neg h1, if_neg h1]
      by_cases h2 : s ≠ lit "entry"
      · rw [if_pos h2, if_pos h2]
        exact Or.inr (Or.inl ⟨_, _, rfl, rfl, hc⟩)
      · rw [if_neg h2, if_neg h2]
        rcases buffered_EXPECT_cases mem log1 (lit "(") (lit "open") src1 with
          ⟨src2, log2, hb2, ho2, hc2⟩ | ⟨e, log2, hb2, ho2, hc2⟩ | ⟨h, log2, hb2, hm, hc2⟩
        · have hc := continues_trans hc hc2
          rw [hb2, ho2]
          simp only []
          rcases buffered_EXPECT_cases mem log2 (lit "name") (lit "name") src2 with
            ⟨src3, log3, hb3, ho3, hc3⟩ | ⟨e, log3, hb3, ho3, hc3⟩ | ⟨h, log3, hb3, hm, hc3⟩
          · have hc := continues_trans hc hc3
            rw [hb3, ho3]
            simp only []
            rcases buffered_READ_STRING_cases mem log3 src3 with
              ⟨name, src4, log4, hb4, ho4, hc4⟩ | ⟨e, log4, hb4, ho4, hc4⟩
                | ⟨h, log4, hb4, hm, hc4⟩
            · have hc := continues_trans hc hc4
              rw [hb4, ho4]
              simp only []
              by_cases hi : invalidFileName marker name = true
              · rw [if_pos hi, if_pos hi]
                exact Or.inr (Or.inl ⟨_, _, rfl, rfl, hc⟩)
              · rw [if_neg hi, if_neg hi]
                by_cases hl : strLe name prevName = true
                · rw [if_pos hl, if_pos hl]
                  exact Or.inr (Or.inl ⟨_, _, rfl, rfl, hc⟩)
                · rw [if_neg hl, if_neg hl]
                  rcases buffered_EXPECT_cases mem log4 (lit "node") (lit "node") src4 with
                    ⟨src5, log5, hb5, ho5, hc5⟩ | ⟨e, log5, hb5, ho5, hc5⟩
                      | ⟨h, log5, hb5, hm, hc5⟩
                  · rw [hb5, ho5]
                    exact Or.inl ⟨_, _, _, rfl, rfl, continues_trans hc hc5⟩
                  · rw [hb5, ho5]
                    exact Or.inr (Or.inl ⟨_, _, rfl, rfl, continues_trans hc hc5⟩)
                  · rw [hb5]
                    exact Or.inr (Or.inr ⟨_, _, rfl, hm, continues_trans hc hc5⟩)
            · rw [hb4, ho4]
              exact Or.inr (Or.inl ⟨_, _, rfl, rfl, continues_trans hc hc4⟩)
            · rw [hb4]
              exact Or.inr (Or.inr ⟨_, _, rfl, hm, continues_trans hc hc4⟩)
          · rw [hb3, ho3]
            exact Or.inr (Or.inl ⟨_, _, rfl, rfl, continues_trans hc hc3⟩)
          · rw [hb3]
            exact Or.inr (Or.inr ⟨_, _, rfl, hm, continues_trans hc hc3⟩)
        · rw [hb2, ho2]
          exact Or.inr (Or.inl ⟨_, _, rfl, rfl, continues_trans hc hc2⟩)
        · rw [hb2]
          exact Or.inr (Or.inr ⟨_, _, rfl, hm, continues_trans hc hc2⟩)
  · rw [hb, ho]
    exact Or.inr (Or.inl ⟨_, _, rfl, rfl, hc⟩)
  · rw [hb]
    exact Or.inr (Or.inr ⟨_, _, rfl, hm, hc⟩)
theorem sim_storage {α : Type} {log0 l : List Feed} {h : Halt} {out : List Event} {o : Res α}
    (hm : h.ofStorage = true) (hc : Feed.continues log0 l) :
    Run.sim log0 (.halt h out l) o := by
  cases h with
  | thrown e => simp [Halt.ofStorage] at hm
  | length_error => exact hc
  | bad_alloc => exact hc
  | overrun => exact hc

theorem sim_halt {α : Type} {log0 l : List Feed} {h : Halt} {out : List Event} {o : Res α}
    (hs : Run.sim log0 (.halt h out l) o) : Feed.continues log0 l := by
  cases h with
  | thrown e => exact hs.2
  | length_error => exact hs
  | bad_alloc => exact hs
  | overrun => exact hs

theorem buffered_parse_sim (mem : Allocator) (useCaseHack : Bool) (marker : Bytes) :
    ∀ (fuel : Nat),
    (∀ (name : Option Bytes) (src : Bytes) (out : List Event) (log log0 : List Feed),
      Feed.continues log0 log →
      Run.sim log0 (buffered.SyncParser.parse mem useCaseHack marker fuel name src out log)
        (SyncParser.parse useCaseHack marker fuel name src out))
    ∧ (∀ (names : List (Bytes × Nat)) (prevName src : Bytes) (out : List Event)
        (log log0 : List Feed),
      Feed.continues log0 log →
      Run.sim log0
        (buffered.SyncParser.readDir mem useCaseHack marker fuel names prevName src out log)
        (SyncParser.readDir useCaseHack marker fuel names prevName src out)) := by
  intro fuel
  induction fuel with
  | zero =>
    constructor
    · intro name src out log log0 hc
      rw [buffered.SyncParser.parse, SyncParser.parse]
      rfl
    · intro names prevName src out log log0 hc
      rw [buffered.SyncParser.readDir, SyncParser.readDir]
      rfl
  | succ fuel ih =>
    obtain ⟨ihp, ihd⟩ := ih
    constructor
    · intro name src out log log0 hc
      rw [buffered.SyncParser.parse, SyncParser.parse]
      rcases buffered_EXPECT_cases mem log (lit "(") (lit "open") src with
        ⟨src1, log1, hb, ho, hc1⟩ | ⟨e, log1, hb, ho, hc1⟩ | ⟨h, log1, hb, hm, hc1⟩
      · have hc := continues_trans hc hc1
        rw [hb, ho]
        simp only []
        rcases buffered_EXPECT_cases mem log1 (lit "type") (lit "type") src1 with
          ⟨src2, log2, hb2, ho2, hc2⟩ | ⟨e, log2, hb2, ho2, hc2⟩ | ⟨h, log2, hb2, hm, hc2⟩
        · have hc := continues_trans hc hc2
          rw [hb2, ho2]
          simp only []
          rcases buffered_READ_STRING_cases mem log2 src2 with
            ⟨t, src3, log3, hb3, ho3, hc3⟩ | ⟨e, log3, hb3, ho3, hc3⟩ | ⟨h, log3, hb3, hm, hc3⟩
          · have hc := continues_trans hc hc3
            rw [hb3, ho3]
            simp only []
            by_cases ht : t = lit "regular"
            · rw [if_pos ht, if_pos ht]
              rcases buffered_readFileHeader_cases mem log3 src3 with
                ⟨v, src4, log4, hb4, ho4, hc4⟩ | ⟨e, log4, hb4, ho4, hc4⟩
                  | ⟨h, log4, hb4, hm, hc4⟩
              · have hc := continues_trans hc hc4
                obtain ⟨executable, size⟩ := v
                rw [hb4, ho4]
                simp only []
                cases hr : readContents size size src4 (out ++ [.file name executable size]) with
                | outOfFuel => rfl
                | fail e out1 => exact ⟨rfl, hc⟩
                | ok contents src5 out1 =>
                  simp only []
                  rcases buffered_READ_PADDING_cases mem log4 size src5 with
                    ⟨src6, log6, hb6, ho6, hc6⟩ | ⟨e, log6, hb6, ho6, hc6⟩
                      | ⟨h, log6, hb6, hm, hc6⟩
                  · have hc := continues_trans hc hc6
                    rw [hb6, ho6]
                    simp only []
                    rcases buffered_EXPECT_cases mem log6 (lit ")") (lit "close") src6 with
                      ⟨src7, log7, hb7, ho7, hc7⟩ | ⟨e, log7, hb7, ho7, hc7⟩
                        | ⟨h, log7, hb7, hm, hc7⟩
                    · rw [hb7, ho7]
                      exact ⟨rfl, continues_trans hc hc7⟩
                    · rw [hb7, ho7]
                      exact ⟨rfl, continues_trans hc hc7⟩
                    · rw [hb7]
                      exact sim_storage hm (continues_trans hc hc7)
                  · rw [hb6, ho6]
                    exact ⟨rfl, continues_trans hc hc6⟩
                  · rw [hb6]
                    exact sim_storage hm (continues_trans hc hc6)
              · rw [hb4, ho4]
                exact ⟨rfl, continues_trans hc hc4⟩
              · rw [hb4]
                exact sim_storage hm (continues_trans hc hc4)
            · rw [if_neg ht, if_neg ht]
              by_cases htd : t = lit "directory"
              · rw [if_pos htd, if_pos htd]
                have hd := ihd [] [] src3 (out ++ [.directory name]) log3 log0 hc
                cases hr : buffered.SyncParser.readDir mem useCaseHack marker fuel [] [] src3
                    (out ++ [.directory name]) log3 with
                | outOfFuel =>
                  rw [hr] at hd
                  have hd2 : SyncParser.readDir useCaseHack marker fuel [] [] src3
                      (out ++ [.directory name]) = .outOfFuel := hd
                  rw [hd2]
                  rfl
                | halt h out1 log4 =>
                  rw [hr] at hd
                  cases h with
                  | thrown e =>
                    obtain ⟨hx1, hx2⟩ := hd
                    rw [hx1]
                    exact ⟨rfl, hx2⟩
                  | length_error => exact hd
                  | bad_alloc => exact hd
                  | overrun => exact hd
                | ok contents src4 out1 log4 =>
                  rw [hr] at hd
                  obtain ⟨hd1, hd2⟩ := hd
                  rw [hd1]
                  exact ⟨rfl, hd2⟩
              · rw [if_neg htd, if_neg htd]
                by_cases hts : t = lit "symlink"
                · rw [if_pos hts, if_pos hts]
                  rcases buffered_EXPECT_cases mem log3 (lit "target") (lit "target") src3 with
                    ⟨src4, log4, hb4, ho4, hc4⟩ | ⟨e, log4, hb4, ho4, hc4⟩
                      | ⟨h, log4, hb4, hm, hc4⟩
                  · have hc := continues_trans hc hc4
                    rw [hb4, ho4]
                    simp only []
                    rcases buffered_READ_STRING_cases mem log4 src4 with
                      ⟨target, src5, log5, hb5, ho5, hc5⟩ | ⟨e, log5, hb5, ho5, hc5⟩
                        | ⟨h, log5, hb5, hm, hc5⟩
                    · have hc := continues_trans hc hc5
                      rw [hb5, ho5]
                      simp only []
                      rcases buffered_EXPECT_cases mem log5 (lit ")") (lit "close") src5 with
                        ⟨src6, log6, hb6, ho6, hc6⟩ | ⟨e, log6, hb6, ho6, hc6⟩
                          | ⟨h, log6, hb6, hm, hc6⟩
                      · rw [hb6, ho6]
                        exact ⟨rfl, continues_trans hc hc6⟩
                      · rw [hb6, ho6]
                        exact ⟨rfl, continues_trans hc hc6⟩
                      · rw [hb6]
                        exact sim_storage hm (continues_trans hc hc6)
                    · rw [hb5, ho5]
                      exact ⟨rfl, continues_trans hc hc5⟩
                    · rw [hb5]
                      exact sim_storage hm (continues_trans hc hc5)
                  · rw [hb4, ho4]
                    exact ⟨rfl, continues_trans hc hc4⟩
                  · rw [hb4]
                    exact sim_storage hm (continues_trans hc hc4)
                · rw [if_neg hts, if_neg hts]
                  exact ⟨rfl, hc⟩
          · rw [hb3, ho3]
            exact ⟨rfl, continues_trans hc hc3⟩
          · rw [hb3]
            exact sim_storage hm (continues_trans hc hc3)
        · rw [hb2, ho2]
          exact ⟨rfl, continues_trans hc hc2⟩
        · rw [hb2]
          exact sim_storage hm (continues_trans hc hc2)
      · rw [hb, ho]
        exact ⟨rfl, continues_trans hc hc1⟩
      · rw [hb]
        exact sim_storage hm (continues_trans hc hc1)
    · intro names prevName src out log log0 hc
      rw [buffered.SyncParser.readDir, SyncParser.readDir]
      rcases buffered_readEntryHeader_cases mem log useCaseHack marker names prevName src with
        ⟨v, src1, log1, hb, ho, hc1⟩ | ⟨e, log1, hb, ho, hc1⟩ | ⟨h, log1, hb, hm, hc1⟩
      · have hc := continues_trans hc hc1
        rw [hb, ho]
        cases v with
        | none => exact ⟨rfl, hc⟩
        | some x =>
          obtain ⟨name, yielded, names1⟩ := x
          simp only []
          have hp := ihp (some yielded) src1 out log1 log0 hc
          cases hr : buffered.SyncParser.parse mem useCaseHack marker fuel (some yielded) src1
              out log1 with
          | outOfFuel =>
            rw [hr] at hp
            have hp2 : SyncParser.parse useCaseHack marker fuel (some yielded) src1 out
                = .outOfFuel := hp
            rw [hp2]
            rfl
          | halt h out1 log2 =>
            rw [hr] at hp
            cases h with
            | thrown e =>
              obtain ⟨hx1, hx2⟩ := hp
              rw [hx1]
              exact ⟨rfl, hx2⟩
            | length_error => exact hp
            | bad_alloc => exact hp
            | overrun => exact hp
          | ok entry src2 out1 log2 =>
            rw [hr] at hp
            obtain ⟨hp1, hc⟩ := hp
            rw [hp1]
            simp only []
            rcases buffered_EXPECT_cases mem log2 (lit ")") (lit "close") src2 with
              ⟨src3, log3, hb3, ho3, hc3⟩ | ⟨e, log3, hb3, ho3, hc3⟩ | ⟨h, log3, hb3, hm, hc3⟩
            · have hc := continues_trans hc hc3
              rw [hb3, ho3]
              simp only []
              have hd := ihd names1 name src3 out1 log3 log0 hc
              cases hr2 : buffered.SyncParser.readDir mem useCaseHack marker fuel names1 name
                  src3 out1 log3 with
              | outOfFuel =>
                rw [hr2] at hd
                have hd2 : SyncParser.readDir useCaseHack marker fuel names1 name src3 out1
                    = .outOfFuel := hd
                rw [hd2]
                rfl
              | halt h out2 log4 =>
                rw [hr2] at hd
                cases h with
                | thrown e =>
                  obtain ⟨hx1, hx2⟩ := hd
                  rw [hx1]
                  exact ⟨rfl, hx2⟩
                | length_error => exact hd
                | bad_alloc => exact hd
                | overrun => exact hd
              | ok rest src4 out2 log4 =>
                rw [hr2] at hd
                obtain ⟨hd1, hd2⟩ := hd
                rw [hd1]
                exact ⟨rfl, hd2⟩
            · rw [hb3, ho3]
              exact ⟨rfl, continues_trans hc hc3⟩
            · rw [hb3]
              exact sim_storage hm (continues_trans hc hc3)
      · rw [hb, ho]
        exact ⟨rfl, continues_trans hc hc1⟩
      · rw [hb]
        exact sim_storage hm (continues_trans hc hc1)
theorem buffered_nar_version_sim (mem : Allocator) (useCaseHack : Bool) (marker : Bytes)
    (version src1 : Bytes) :
    Run.sim []
      (if version ≠ narVersionMagic1 then
        .halt (.thrown (badArchive (lit "input doesn't look like a Nix archive"))) [] []
      else
        match buffered.SyncParser.parse mem useCaseHack marker (src1.length + 1) none src1
            [] [] with
        | .outOfFuel => .outOfFuel
        | .halt h out log => .halt h out log
        | .ok entry src2 out log => .ok [entry] src2 out log)
      (if version ≠ narVersionMagic1 then
        .fail (badArchive (lit "input doesn't look like a Nix archive")) []
      else
        match SyncParser.parse useCaseHack marker (src1.length + 1) none src1 [] with
        | .outOfFuel => .outOfFuel
        | .fail e out => .fail e out
        | .ok entry src2 out => .ok [entry] src2 out) := by
  by_cases hv : version ≠ narVersionMagic1
  · rw [if_pos hv, if_pos hv]
    exact ⟨rfl, continues_refl []⟩
  · rw [if_neg hv, if_neg hv]
    have hp := (buffered_parse_sim mem useCaseHack marker (src1.length + 1)).1 none src1 [] []
      [] (continues_refl [])
    cases hr : buffered.SyncParser.parse mem useCaseHack marker (src1.length + 1) none src1
        [] [] with
    | outOfFuel =>
      rw [hr] at hp
      have hp2 : SyncParser.parse useCaseHack marker (src1.length + 1) none src1 []
          = .outOfFuel := hp
      rw [hp2]
      rfl
    | halt h out1 log2 =>
      rw [hr] at hp
      cases h with
      | thrown e =>
        obtain ⟨hx1, hx2⟩ := hp
        rw [hx1]
        exact ⟨rfl, hx2⟩
      | length_error => exact hp
      | bad_alloc => exact hp
      | overrun => exact hp
    | ok entry src2 out1 log2 =>
      rw [hr] at hp
      obtain ⟨hp1, hc⟩ := hp
      rw [hp1]
      exact ⟨rfl, hc⟩

/-- The parser with its buffer against the parser: `nar::parse` ends alike in
both, with the same entries, unread source, events and exception, unless the
run with the buffer ends on a request for storage. -/
theorem buffered_nar_parse_sim (mem : Allocator) (useCaseHack : Bool) (marker source : Bytes) :
    Run.sim [] (buffered.nar.parse mem useCaseHack marker source)
      (nar.parse useCaseHack marker source) := by
  cases hv : readString narVersionMagic1.length source with
  | error e =>
    cases e with
    | SerialisationError msg =>
      simp only [buffered.nar.parse, nar.parse, hv]
      exact buffered_nar_version_sim mem useCaseHack marker [] source
    | Error msg =>
      simp only [buffered.nar.parse, nar.parse, hv]
      exact ⟨rfl, continues_refl []⟩
    | EndOfFile =>
      simp only [buffered.nar.parse, nar.parse, hv]
      exact ⟨rfl, continues_refl []⟩
  | ok r =>
    obtain ⟨version, src1⟩ := r
    simp only [buffered.nar.parse, nar.parse, hv]
    exact buffered_nar_version_sim mem useCaseHack marker version src1

/-- The generator `nar::parse` with its buffer returns, throws or overruns the
buffer on every input: the recursion bound of the model is never exhausted. -/
theorem buffered_nar_parse_done (mem : Allocator) (useCaseHack : Bool)
    (marker source : Bytes) :
    buffered.nar.parse mem useCaseHack marker source ≠ .outOfFuel := by
  intro h
  have hs := buffered_nar_parse_sim mem useCaseHack marker source
  rw [h] at hs
  exact nar_parse_done useCaseHack marker source hs

/-- The calls of `feed` of a run of `nar::parse` are calls the macros make. -/
theorem buffered_nar_parse_log (mem : Allocator) (useCaseHack : Bool)
    (marker source : Bytes) :
    ∀ f ∈ (buffered.nar.parse mem useCaseHack marker source).log, f.wellFormed := by
  have hs := buffered_nar_parse_sim mem useCaseHack marker source
  have key : ∀ l, Feed.continues [] l → ∀ f ∈ l, f.wellFormed := by
    intro l hl f hf
    obtain ⟨fs, h1, h2⟩ := hl
    rw [h1, List.nil_append] at hf
    exact h2 f hf
  cases hr : buffered.nar.parse mem useCaseHack marker source with
  | outOfFuel =>
    intro f hf
    simp [Run.log] at hf
  | halt h out l =>
    rw [hr] at hs
    exact key l (sim_halt hs)
  | ok v src out l =>
    rw [hr] at hs
    exact key l hs.2
theorem wantString_mod (len : Nat) : wantString len % 8 = 0 := by
  unfold wantString
  have h8 : (len + (8 - len % 8) % 8) % 8 = 0 := by omega
  rw [Nat.mod_mod_of_dvd _ (by norm_num : 8 ∣ 2 ^ 64)]
  exact h8

/-- On the magic followed by a length field alone, the parser asks for the
length the field declares, and the run ends there. -/
theorem nar_parse_declaring (mem : Allocator) (useCaseHack : Bool) (marker : Bytes) (len : Nat)
    (hlen : len < 2 ^ 64) (hmax : 8 ≤ mem.max_size) (hav : mem.available [] 8 = true) :
    ∃ h, buffered.nar.parse mem useCaseHack marker (declaring len)
      = .halt h [] [⟨[], 8⟩, ⟨u64le len, wantString len⟩] := by
  have hm : readString narVersionMagic1.length (declaring len)
      = .ok (narVersionMagic1, u64le len) := readString_magic (u64le len)
  have hf1 : SyncParser.feed mem [] [] 8 (u64le len) = .ok (u64le len, []) := by
    have h1 : ¬ mem.max_size < 8 := by omega
    have hr : Source.read 8 (u64le len) = .ok (u64le len, []) := by
      have := Source.read_append (u64le len) []
      rw [List.append_nil, u64le_length] at this
      exact this
    have h8 : 8 % 2 ^ 64 = 8 := by norm_num
    simp only [SyncParser.feed, List.length_nil, Nat.zero_add, h8, h1, ↓reduceIte,
      hav, Bool.true_eq_false, and_false, Nat.lt_irrefl, hr, List.nil_append]
  have hn : readNum (u64le len) = .ok (len, []) := by
    have := readNum_u64le len []
    rw [List.append_nil, Nat.mod_eq_of_lt hlen] at this
    exact this
  have hfetch : buffered.FETCH_U64 mem [] [] (u64le len)
      = .ok (len, u64le len) [] [⟨[], 8⟩] := by
    simp only [buffered.FETCH_U64, hf1, hn, List.nil_append]
  have hexp : ∃ h, buffered.EXPECT mem [] (lit "(") (lit "open") (u64le len)
      = .halt h [⟨[], 8⟩, ⟨u64le len, wantString len⟩] := by
    unfold buffered.EXPECT buffered.READ_STRING
    rw [hfetch]
    simp only [List.singleton_append]
    cases hf2 : SyncParser.feed mem [⟨[], 8⟩] (u64le len) (wantString len) [] with
    | error h => exact ⟨h, rfl⟩
    | ok r =>
      obtain ⟨buffer2, src2⟩ := r
      simp only []
      split_ifs with h1 h2
      · exact ⟨_, rfl⟩
      · exact ⟨_, rfl⟩
      · cases hrs : readString (2 ^ 64 - 1) buffer2 with
        | error e => exact ⟨_, rfl⟩
        | ok r2 =>
          obtain ⟨str, rest⟩ := r2
          simp only []
          have hb2 : buffer2 = u64le len := by
            rcases feed_cases mem [⟨[], 8⟩] (u64le len) (wantString len) []
                (by rw [u64le_length]; norm_num) with ⟨bytes, rest2, hx, hs⟩ | ⟨e, hx, hs⟩
              | ⟨h, hx, hs⟩
            · rw [hf2] at hx
              simp only [Except.ok.injEq, Prod.mk.injEq] at hx
              have hb := (Source.read_ok hs).1
              have hnil : bytes = [] := by
                have := congrArg List.length hb
                simp only [List.length_nil, List.length_append] at this
                exact List.length_eq_zero.mp (by omega)
              rw [hx.1, hnil, List.append_nil]
            · rw [hf2] at hx
              exact absurd hx (by simp)
            · rw [hf2] at hx
              exact absurd hx (by simp)
          rw [hb2] at hrs
          have hw := (readString_ok hrs).1
          have hl := congrArg List.length hw
          simp only [List.length_append, wireString_length, u64le_length] at hl
          have hstr : str = [] := List.length_eq_zero.mp (by omega)
          have hne : str ≠ lit "(" := by
            rw [hstr]
            decide
          rw [if_pos hne]
          exact ⟨_, rfl⟩
  obtain ⟨h, hexp⟩ := hexp
  refine ⟨h, ?_⟩
  have hv : ¬ narVersionMagic1 ≠ narVersionMagic1 := fun hc => hc rfl
  simp only [buffered.nar.parse, hm, hv, ↓reduceIte, u64le_length, Nat.reduceAdd,
    buffered.SyncParser.parse, hexp]

/-- C20 (input demand, amended). On every input and with any storage, the run
of `nar::parse` ends, and every call `feed(n)` it makes on a `WantBytes{n}` of
the Parser finds at most 8 bytes in the buffer: either the buffer is empty and
`n` is at most 8 (8 for a length or an integer field, 1 to 7 for the padding
of a file), or the buffer holds the 8 bytes of a length field and `n` is the
length they declare rounded up to a multiple of 8 as a `size_t`, at most
`2 ^ 64 - 8`; so the buffer never holds more than `8 + n` bytes and the parser
asks for one field at a time. What it asks for is what the input declares:
for every length below `2 ^ 64`, the magic followed by a length field that
declares it makes the parser ask for that length rounded up, given storage
for the 8 bytes of the field. -/
theorem C20_demand_follows_input (mem : Allocator) (useCaseHack : Bool)
    (marker source : Bytes) :
    buffered.nar.parse mem useCaseHack marker source ≠ .outOfFuel
      ∧ (∀ f ∈ (buffered.nar.parse mem useCaseHack marker source).log,
          (f.buffer = [] ∧ 1 ≤ f.n ∧ f.n ≤ 8)
            ∨ (f.buffer.length = 8 ∧ f.n = wantString (readLittleEndian f.buffer)
              ∧ f.n % 8 = 0 ∧ f.n ≤ 2 ^ 64 - 8))
      ∧ (∀ len, len < 2 ^ 64 → 8 ≤ mem.max_size → mem.available [] 8 = true →
          (buffered.nar.parse mem useCaseHack marker (declaring len)).log
            = [⟨[], 8⟩, ⟨u64le len, wantString len⟩]) := by
  refine ⟨buffered_nar_parse_done mem useCaseHack marker source, ?_, ?_⟩
  · intro f hf
    rcases buffered_nar_parse_log mem useCaseHack marker source f hf with h | ⟨h1, h2⟩
    · exact Or.inl h
    · refine Or.inr ⟨h1, h2, ?_, ?_⟩
      · rw [h2]
        exact wantString_mod _
      · rw [h2]
        exact wantString_le _
  · intro len hlen hmax hav
    obtain ⟨h, hh⟩ := nar_parse_declaring mem useCaseHack marker len hlen hmax hav
    rw [hh]
    rfl

set_option maxRecDepth 100000 in
theorem C20_demand_follows_input_witness :
    (buffered.nar.parse Allocator.usual true caseHackSuffix
        (serialize (.symlink (lit "0123456789")))).log
        = [⟨[], 8⟩, ⟨u64le 1, 8⟩, ⟨[], 8⟩, ⟨u64le 4, 8⟩, ⟨[], 8⟩, ⟨u64le 7, 8⟩,
            ⟨[], 8⟩, ⟨u64le 6, 8⟩, ⟨[], 8⟩, ⟨u64le 10, 16⟩, ⟨[], 8⟩, ⟨u64le 1, 8⟩]
      ∧ (buffered.nar.parse Allocator.usual true caseHackSuffix (declaring (2 ^ 40 + 1))).log
        = [⟨[], 8⟩, ⟨u64le (2 ^ 40 + 1), 2 ^ 40 + 8⟩] := by
  have h := C20_demand_follows_input Allocator.usual true caseHackSuffix
    (serialize (.symlink (lit "0123456789")))
  exact ⟨by rfl, h.2.2 (2 ^ 40 + 1) (by norm_num) (by decide) (by rfl)⟩

set_option maxRecDepth 100000 in
/-- C20, as stated, fails: no bound below the range of `size_t` holds of the
requests. The magic followed by a length field of `2 ^ 40`, an input of 32
bytes, makes the parser ask for `2 ^ 40` bytes and resize its buffer to
`2 ^ 40 + 8` bytes before the source reports its end; with `2 ^ 63` in the
field the parser asks for `2 ^ 63` bytes and the resize throws
`std::length_error`; and with `2 ^ 64 - 8` it asks for `2 ^ 64 - 8` bytes,
more than any `K` below `2 ^ 64 - 8`. -/
theorem C20_unbounded_counterexample :
    (declaring (2 ^ 40)).length = 32
      ∧ buffered.nar.parse Allocator.usual false caseHackSuffix (declaring (2 ^ 40))
        = .halt (.thrown .EndOfFile) [] [⟨[], 8⟩, ⟨u64le (2 ^ 40), 2 ^ 40⟩]
      ∧ SyncParser.feed Allocator.usual [⟨[], 8⟩] (u64le (2 ^ 40)) (2 ^ 40)
          (List.replicate 3 0) = .error (.thrown .EndOfFile)
      ∧ buffered.nar.parse Allocator.usual false caseHackSuffix (declaring (2 ^ 63))
        = .halt .length_error [] [⟨[], 8⟩, ⟨u64le (2 ^ 63), 2 ^ 63⟩]
      ∧ (∀ K, K < 2 ^ 64 - 8 →
          ∃ f ∈ (buffered.nar.parse Allocator.usual false caseHackSuffix
              (declaring (2 ^ 64 - 8))).log, K < f.n) := by
  refine ⟨by rfl, by rfl, by rfl, by rfl, ?_⟩
  intro K hK
  have hl : (buffered.nar.parse Allocator.usual false caseHackSuffix
      (declaring (2 ^ 64 - 8))).log = [⟨[], 8⟩, ⟨u64le (2 ^ 64 - 8), 2 ^ 64 - 8⟩] := by rfl
  rw [hl]
  exact ⟨⟨u64le (2 ^ 64 - 8), 2 ^ 64 - 8⟩, by simp, hK⟩

set_option maxRecDepth 100000 in
/-- C32 (case-hack suffix round trip) fails on the code. `x~nix~case~hack` is a
valid entry name. With the case hack enabled the parser yields the second child
of the valid tree `overlapTree` under the name
`x~nix~case~hack~nix~case~hack~1`, the name it builds on the collision with
`X~nix~case~hack`. The reversal of the scanner (`find`, then `erase`), and that
of `PrefilteredDump::convert` (`find`, then `substr`), cut this name at the
first occurrence of the marker, which starts at position 1, and give `x`: the
directory as restored is dumped as an archive that holds the child `x`, not the
archive that was restored. -/
theorem C32_reversal_overlap :
    validName caseHackSuffix (lit "x~nix~case~hack") = true
      ∧ overlapTree.valid caseHackSuffix = true
      ∧ nar.parse true caseHackSuffix (serialize overlapTree)
        = .ok [.directory [(lit "X~nix~case~hack", .symlink (lit "t")),
            (lit "x~nix~case~hack~nix~case~hack~1", .symlink (lit "u"))]] []
          [.directory none, .symlink (some (lit "X~nix~case~hack")) (lit "t"),
            .symlink (some (lit "x~nix~case~hack~nix~case~hack~1")) (lit "u"), .leave]
      ∧ (applyCaseHack true caseHackSuffix [(lit "X~nix~case~hack", 0)]
          (lit "x~nix~case~hack")).1
        = lit "x~nix~case~hack" ++ caseHackSuffix ++ to_string 1
      ∧ removeCaseHack caseHackSuffix (lit "x~nix~case~hack" ++ caseHackSuffix ++ to_string 1)
        = lit "x"
      ∧ archiveName true caseHackSuffix (lit "x~nix~case~hack" ++ caseHackSuffix ++ to_string 1)
        = lit "x"
      ∧ dumpPath true caseHackSuffix (lit "/d") overlapOnDisk
        = .ok (serialize (.directory [(lit "X~nix~case~hack", .symlink (lit "t")),
            (lit "x", .symlink (lit "u"))]))
      ∧ serialize (.directory [(lit "X~nix~case~hack", .symlink (lit "t")),
            (lit "x", .symlink (lit "u"))]) ≠ serialize overlapTree
      ∧ lit "x" ≠ lit "x~nix~case~hack" := by
  have hp : nar.parse true caseHackSuffix (serialize overlapTree)
      = .ok [.directory [(lit "X~nix~case~hack", .symlink (lit "t")),
          (lit "x~nix~case~hack~nix~case~hack~1", .symlink (lit "u"))]] []
        [.directory none, .symlink (some (lit "X~nix~case~hack")) (lit "t"),
          .symlink (some (lit "x~nix~case~hack~nix~case~hack~1")) (lit "u"), .leave] := by
    have h := parse_serialize_append true caseHackSuffix overlapTree [] (by decide) (by decide)
    rw [List.append_nil] at h
    rw [h]
    rfl
  have h3 : (applyCaseHack true caseHackSuffix [(lit "X~nix~case~hack", 0)]
      (lit "x~nix~case~hack")).1 = lit "x~nix~case~hack" ++ caseHackSuffix ++ to_string 1 := by
    rfl
  have h4 : removeCaseHack caseHackSuffix
      (lit "x~nix~case~hack" ++ caseHackSuffix ++ to_string 1) = lit "x" := by rfl
  have h5 : archiveName true caseHackSuffix
      (lit "x~nix~case~hack" ++ caseHackSuffix ++ to_string 1) = lit "x" := by rfl
  have h6 : dumpPath true caseHackSuffix (lit "/d") overlapOnDisk
      = .ok (serialize (.directory [(lit "X~nix~case~hack", .symlink (lit "t")),
          (lit "x", .symlink (lit "u"))])) := by rfl
  exact ⟨by decide, by decide, hp, h3, h4, h5, h6, by decide, by decide⟩

end nix
